import Mathlib

/-!
Verification development for bcpy

Shallow embedding of the mirroring engine of `bcpy` (`util.cpp`, `filetree.cpp`,
`bcpy.cpp`) and theorems about it.

Conventions of the embedding.

* A C string is a `List Char`; the terminating NUL is implicit, so reading at or
  past the end of the list gives the NUL character.
* A file on disk is the list of its bytes (`List Nat`).
* `double` accumulators that only ever hold byte counts are natural numbers; `int`
  counters are natural numbers (they only count entries).
* `while`/`for` loops are recursive functions; a pointer into a string is the
  suffix of the string that starts there.
* Console and log output (`statmsg`, `errmsg`, `_tprintf`) is left out; every other
  call into the operating system is kept, either modelled on file contents
  (the copy engine) or as a call of an abstract operating system whose answers
  are arbitrary (the planner).
-/

namespace Bcpy

/-! ## Definitions -/

/-! ### Copy engine (`util.cpp`) -/

/-- Size in bytes of the static transfer buffers `pBuffer`, `pBuffer1`, `pBuffer2`. -/
def chunkSize : Nat := 65536

/-- An open file handle: the bytes of the file, the current file pointer, and for
every byte offset whether a `ReadFile` issued at that offset succeeds. -/
structure FileHandle where
  data : List Nat
  pos : Nat
  readOk : Nat → Bool

/-- A file as `CreateFile(..., GENERIC_READ, ..., OPEN_EXISTING, ...)` finds it. -/
structure DiskFile where
  data : List Nat
  readOk : Nat → Bool

/-- A file whose reads all succeed. -/
def DiskFile.ofData (data : List Nat) : DiskFile := ⟨data, fun _ => true⟩

/-- Handle returned by a successful `CreateFile` for reading. -/
def DiskFile.openRead (f : DiskFile) : FileHandle := ⟨f.data, 0, f.readOk⟩

/-- Bytes between the file pointer and the end of the file. -/
def FileHandle.remaining (h : FileHandle) : Nat := h.data.length - h.pos

/-- Model of `ReadFile(h, buf, n, &dwBytes, NULL)`: the success flag, the bytes
delivered (at most `n`, fewer only at end of file) and the handle afterwards. -/
def ReadFile (h : FileHandle) (n : Nat) : Bool × List Nat × FileHandle :=
  if h.readOk h.pos then
    let buf := (h.data.drop h.pos).take n
    (true, buf, ⟨h.data, h.pos + buf.length, h.readOk⟩)
  else
    (false, [], h)

/-- Model of `GetFileSize(h, &dwHigh)`: the low and the high 32 bits of the size. -/
def GetFileSize (h : FileHandle) : Nat × Nat :=
  (h.data.length % 2 ^ 32, (h.data.length / 2 ^ 32) % 2 ^ 32)

/-- The progress callback `pFunc(pContext, pszSrc, pszDest, dBytesCopied, dFileSize)`,
with the context passed as state; `none` is the `NULL` function pointer. -/
abbrev ProgressFn (σ : Type) := Option (σ → Nat → Nat → Bool × σ)

/-- One guarded call `if (pFunc != NULL) if (!pFunc(...))`: the flag says whether to go on. -/
def callProgress {σ : Type} (pFunc : ProgressFn σ) (ctx : σ) (dTotalBytes dFileLength : Nat) :
    Bool × σ :=
  match pFunc with
  | none => (true, ctx)
  | some f => f ctx dTotalBytes dFileLength

/-- The chunk loop of `CompareFileWin32` (util.cpp 773-815) followed by the code after it
(817-839): `dFileLength` is the size of the first file, `pf1`, `pf2` the two handles. -/
def CompareFileWin32.loop {σ : Type} (pFunc : ProgressFn σ) (dFileLength : Nat)
    (pf1 pf2 : FileHandle) (dTotalBytes : Nat) (ctx : σ) : Bool × σ :=
  let r1 := ReadFile pf1 chunkSize
  if hrd : r1.1 = true ∧ 0 < r1.2.1.length then
    -- Read same chunk from 2nd file.
    let r2 := ReadFile pf2 chunkSize
    if r2.1 = false ∨ r2.2.1.length ≠ r1.2.1.length then
      (false, ctx)            -- Files differ in size or read error!
    else if r1.2.1 ≠ r2.2.1 then
      (false, ctx)            -- Contents of files differ!
    else
      let dTotalBytes1 := dTotalBytes + r1.2.1.length
      match callProgress pFunc ctx dTotalBytes1 dFileLength with
      | (false, ctx1) => (false, ctx1)   -- Progress function wants to abort.
      | (true, ctx1) => CompareFileWin32.loop pFunc dFileLength r1.2.2 r2.2.2 dTotalBytes1 ctx1
  else
    -- Finish status display, if status function given.
    match callProgress pFunc ctx dTotalBytes dFileLength with
    | (false, ctx1) => (false, ctx1)
    | (true, ctx1) =>
      -- Make sure the whole file was read.
      if dTotalBytes ≠ dFileLength then (false, ctx1) else (true, ctx1)
termination_by pf1.remaining
decreasing_by
  have hpos := hrd.2
  simp only [r1] at hpos ⊢
  unfold ReadFile at hpos ⊢
  by_cases hok : pf1.readOk pf1.pos = true
  · simp only [hok, if_true] at hpos ⊢
    simp only [FileHandle.remaining]
    have h1 : ((pf1.data.drop pf1.pos).take chunkSize).length ≤ pf1.data.length - pf1.pos := by
      simp [List.length_take]
    omega
  · simp [hok] at hpos

/-- Embedding of `CompareFileWin32` (util.cpp 706-840). A file that cannot be opened is
`none`. `bLowPriority` only inserts `Sleep(0)` between chunks. -/
def CompareFileWin32 {σ : Type} (pszSrc pszDest : Option DiskFile) (bLowPriority : Bool)
    (pFunc : ProgressFn σ) (ctx : σ) : Bool × σ :=
  match pszSrc with
  | none => (false, ctx)                 -- Failed opening file for reading.
  | some f1 =>
    let pf1 := f1.openRead
    let sz := GetFileSize pf1
    if sz.1 = 0xFFFFFFFF then (false, ctx)   -- Failed getting file size!
    else
      let dFileLength := sz.1 + sz.2 * 65536 * 65536
      match pszDest with
      | none => (false, ctx)             -- Failed opening the second file.
      | some f2 =>
        let pf2 := f2.openRead
        match callProgress pFunc ctx 0 dFileLength with
        | (false, ctx1) => (false, ctx1)
        | (true, ctx1) => CompareFileWin32.loop pFunc dFileLength pf1 pf2 0 ctx1

/-- The destination path of a copy: the file found there before the call (if any),
whether `CreateFile(..., GENERIC_WRITE, ..., CREATE_ALWAYS, ...)` succeeds, and for every
byte offset whether a `WriteFile` issued at that offset writes its whole chunk. -/
structure DestSlot where
  existing : Option (List Nat)
  canCreate : Bool
  writeOk : Nat → Bool

/-- What a call of `RawCopyFileWin32` leaves behind: the returned status, the file at
the destination path afterwards (`none`: no file), the value stored through `pdCopied`
(`none`: nothing stored) and the callback context. -/
structure CopyOutcome (σ : Type) where
  status : Int
  dest : Option (List Nat)
  pdCopied : Option Nat
  ctx : σ

/-- The chunk loop of `RawCopyFileWin32` (util.cpp 481-516) followed by the code after it
(518-547). `out` is what has been written to the destination so far. `_tunlink(pszDest)`
on the closed destination file removes it. -/
def RawCopyFileWin32.loop {σ : Type} (pFunc : ProgressFn σ) (dFileLength : Nat)
    (writeOk : Nat → Bool) (pIn : FileHandle) (out : List Nat) (dTotalBytes : Nat) (ctx : σ) :
    CopyOutcome σ :=
  let r := ReadFile pIn chunkSize
  if hrd : r.1 = true ∧ 0 < r.2.1.length then
    -- Write the chunk we just read out to the output file.
    if writeOk out.length = false then
      ⟨-3, none, none, ctx⟩          -- Failed writing to output file! (unlinked)
    else
      let dTotalBytes1 := dTotalBytes + r.2.1.length
      match callProgress pFunc ctx dTotalBytes1 dFileLength with
      | (false, ctx1) => ⟨-5, none, none, ctx1⟩    -- abort (unlinked)
      | (true, ctx1) =>
        RawCopyFileWin32.loop pFunc dFileLength writeOk r.2.2 (out ++ r.2.1) dTotalBytes1 ctx1
  else
    -- Finish status display, if status function given.
    match callProgress pFunc ctx dTotalBytes dFileLength with
    | (false, ctx1) => ⟨-5, none, none, ctx1⟩      -- abort (unlinked)
    | (true, ctx1) =>
      -- Make sure the whole file was read.
      if dTotalBytes ≠ dFileLength then ⟨-4, none, none, ctx1⟩   -- Read error! (unlinked)
      else ⟨0, some out, some dTotalBytes, ctx1⟩
termination_by pIn.remaining
decreasing_by
  have hpos := hrd.2
  simp only [r] at hpos ⊢
  unfold ReadFile at hpos ⊢
  by_cases hok : pIn.readOk pIn.pos = true
  · simp only [hok, if_true] at hpos ⊢
    simp only [FileHandle.remaining]
    have h1 : ((pIn.data.drop pIn.pos).take chunkSize).length ≤ pIn.data.length - pIn.pos := by
      simp [List.length_take]
    omega
  · simp [hok] at hpos

/-- Embedding of `RawCopyFileWin32` (util.cpp 411-548). A source that cannot be opened
is `none`. `bLowPriority` only inserts `Sleep(0)` between chunks. -/
def RawCopyFileWin32 {σ : Type} (pszSrc : Option DiskFile) (pszDest : DestSlot)
    (bLowPriority : Bool) (pFunc : ProgressFn σ) (ctx : σ) : CopyOutcome σ :=
  match pszSrc with
  | none => ⟨-1, pszDest.existing, none, ctx⟩       -- Failed opening file for reading.
  | some f =>
    let pIn := f.openRead
    let sz := GetFileSize pIn
    if sz.1 = 0xFFFFFFFF then ⟨-1, pszDest.existing, none, ctx⟩   -- Failed getting file size!
    else
      let dFileLength := sz.1 + sz.2 * 65536 * 65536
      if pszDest.canCreate = false then
        ⟨-2, pszDest.existing, none, ctx⟩           -- Failed opening file for write.
      else
        -- CREATE_ALWAYS: from here on an empty file stands at the destination path.
        match callProgress pFunc ctx 0 dFileLength with
        | (false, ctx1) => ⟨-5, some [], none, ctx1⟩   -- abort: handles closed, no unlink
        | (true, ctx1) =>
          RawCopyFileWin32.loop pFunc dFileLength pszDest.writeOk pIn [] 0 ctx1

/-! ### Path matcher (`util.cpp`) -/

/-- The NUL character that ends a C string. -/
def NUL : Char := Char.ofNat 0

/-- The character `p[0]` a pointer `p` into a string points at; NUL at the end. -/
def cur (p : List Char) : Char := p.headD NUL

/-- The C library `tolower` in the "C" locale. -/
def tolower (c : Char) : Char := c.toLower

/-- The bracket loop of `check_rexp` (util.cpp 152-173): `ch` is `str[s]`, the list is the
pattern from `rexp[r]` on, the flag is `tmp`. Returns `tmp` and the pattern from the
character on which the loop stopped. The list holds what lies in memory from `rexp[r]` up
to a terminating NUL, and a NUL inside the list is read as the code reads it. The
embedding is the loop of the code as long as `r += 3` stays inside the list, which it
does unless the list ends in `x-`: there the code steps over the terminating NUL and
reads the memory behind it (see `check_rexp.groupStep`), of which the list says
nothing. For a pattern that ends in `x-` inside an open bracket the list to take is
therefore the pattern, its NUL and the memory behind it, up to a NUL that no `-`
precedes. -/
def check_rexp.group (ch : Char) (rexp : List Char) (tmp : Bool) : Bool × List Char :=
  if hc : cur rexp ≠ ']' ∧ cur rexp ≠ NUL then
    if cur rexp.tail = '-' then
      check_rexp.group ch (rexp.drop 3)
        (if tolower ch ≥ tolower (cur rexp) ∧ tolower ch ≤ tolower (cur (rexp.drop 2))
         then true else tmp)
    else if tolower (cur rexp) = tolower ch then
      check_rexp.group ch rexp.tail true
    else
      check_rexp.group ch rexp.tail tmp
  else
    (tmp, rexp)
termination_by rexp.length
decreasing_by
  all_goals
    cases rexp with
    | nil => simp [cur] at hc
    | cons c rest => simp only [List.length_drop, List.length_cons, List.length_tail]; omega

/-- The scan of `check_rexp` for the last match of the character following the star
(util.cpp 258-265): `c` is `rexp[r]`, the list is the text from `str[tmp]` on, `tmp2`
is the best position found so far (`none` is -1). -/
def check_rexp.lastMatch (c : Char) : List Char → Option (List Char) → Option (List Char)
  | [], tmp2 => tmp2
  | d :: rest, tmp2 =>
    if d = NUL then tmp2
    else if tolower d = tolower c then check_rexp.lastMatch c rest (some (d :: rest))
    else check_rexp.lastMatch c rest tmp2

/-- The guarded step `if (p[0]) p++`. -/
def stepIf (p : List Char) : List Char := if cur p ≠ NUL then p.tail else p

/-- The skip after a star (util.cpp 237-245): `c` is `rexp[r]`, the character that
follows the star; the result is the text from the new `str[s]` on. -/
def check_rexp.starSkip (str : List Char) (c : Char) : List Char :=
  if cur str ≠ NUL ∧ tolower (cur str) ≠ tolower c then str.tail else str

/-- The jump after a star (util.cpp 258-270): `s = tmp2` when a last match of `c` was
found from `str[s]` on, `s` unchanged otherwise. -/
def check_rexp.starJump (c : Char) (str : List Char) : List Char :=
  match check_rexp.lastMatch c str none with
  | some p => p
  | none => str

/-- What one pass through the body of the main loop of `check_rexp` does: it executes
a `return`, or it falls through to the loop test with new positions `s` and `r`. -/
inductive LoopStep where
  | ret (v : Int)
  | next (str rexp : List Char)

/-- The body of the main loop of `check_rexp` (util.cpp 145-305), one pass: `str` is the
text from `str[s]` on and `rexp` the pattern from `rexp[r]` on. -/
def check_rexp.body (str rexp : List Char) : LoopStep :=
  if cur rexp = '[' then
    -- Skip the bracket, then scan the group.
    let g := check_rexp.group (cur str) rexp.tail false
    if cur g.2 ≠ ']' then .ret (-1)         -- No closing bracket at end of expression.
    else if g.1 = false then .ret 0         -- String char did not match group.
    else .next (stepIf str) g.2.tail
  else if cur rexp = '?' then
    .next (stepIf str) rexp.tail
  else if cur rexp = '*' then
    let rexp1 := rexp.tail
    if cur rexp1 = '*' ∨ cur rexp1 = '?' then .ret (-1)   -- multiple wildcards in a row
    else if cur rexp1 = NUL then .ret 1                    -- Force match
    else
      -- The star must skip at least one character.
      let str1 := check_rexp.starSkip str (cur rexp1)
      -- Search for last match of character following the star.
      let str2 := check_rexp.starJump (cur rexp1) str1
      if tolower (cur str2) ≠ tolower (cur rexp1) then .ret 0
      else .next (stepIf str2) (stepIf rexp1)
  else if cur rexp = '/' ∨ cur rexp = '\\' then
    -- Slash and backslash are interchangeable.
    if cur str ≠ '/' ∧ cur str ≠ '\\' then .ret 0
    else .next (stepIf str) (stepIf rexp)
  else
    -- Regular character.
    if tolower (cur str) ≠ tolower (cur rexp) then .ret 0
    else .next (stepIf str) (stepIf rexp)

/-- Embedding of `check_rexp` (util.cpp 135-309), entered with `str` the text from
`str[s]` on and `rexp` the pattern from `rexp[r]` on: the loop
`while (str[s] || rexp[r])` around `check_rexp.body`, then `return 1`. The result is
1 (match), 0 (no match) or -1 (error in expression). -/
def check_rexp (str rexp : List Char) : Int :=
  if cur str ≠ NUL ∨ cur rexp ≠ NUL then
    match hbody : check_rexp.body str rexp with
    | .ret v => v
    | .next str1 rexp1 => check_rexp str1 rexp1
  else 1
termination_by rexp.length + str.length
decreasing_by
  rename_i hloop
  simp_wf
  have hstep : ∀ l : List Char, (stepIf l).length ≤ l.length := by
    intro l
    unfold stepIf
    split <;> simp
  have hstep1 : ∀ l : List Char, cur l ≠ NUL → (stepIf l).length < l.length := by
    intro l hl
    unfold stepIf
    cases l with
    | nil => simp [cur] at hl
    | cons c rest => simp [hl]
  have hcur : ∀ (l : List Char) (c : Char), c ≠ NUL → cur l = c → 0 < l.length := by
    intro l c hc hl
    cases l with
    | nil => exact absurd hl.symm hc
    | cons d rest => simp
  have hs := hstep str
  unfold check_rexp.body at hbody
  split at hbody
  · -- bracket
    rename_i hb
    have hpos := hcur rexp _ (by decide) hb
    have key : ∀ (n : Nat) (l : List Char) (t : Bool), l.length ≤ n →
        (check_rexp.group (cur str) l t).2.length ≤ l.length := by
      intro n
      induction n with
      | zero =>
        intro l t hl
        have hl0 : l = [] := List.length_eq_zero.mp (Nat.le_zero.mp hl)
        subst hl0
        rw [check_rexp.group]
        simp [cur]
      | succ n ih =>
        intro l t hl
        rw [check_rexp.group]
        split
        · rename_i hc
          have hpos : 0 < l.length := hcur l _ hc.2 rfl
          split
          · refine le_trans (ih _ _ ?_) ?_ <;> simp only [List.length_drop] <;> omega
          · split
            · refine le_trans (ih _ _ ?_) ?_ <;> simp only [List.length_tail] <;> omega
            · refine le_trans (ih _ _ ?_) ?_ <;> simp only [List.length_tail] <;> omega
        · exact le_refl _
    have hg := key _ rexp.tail false (le_refl _)
    simp only at hbody
    split at hbody
    · cases hbody
    · split at hbody
      · cases hbody
      · cases hbody
        simp only [List.length_tail] at hg ⊢
        omega
  · split at hbody
    · -- question mark
      rename_i hq
      have hpos := hcur rexp _ (by decide) hq
      cases hbody
      simp only [List.length_tail]
      omega
    · split at hbody
      · -- star
        rename_i hst
        have hpos := hcur rexp _ (by decide) hst
        have hlm : ∀ (l : List Char) (o : Option (List Char)),
            (∀ p, o = some p → p.length ≤ str.length) → l.length ≤ str.length →
            ∀ p, check_rexp.lastMatch (cur rexp.tail) l o = some p →
              p.length ≤ str.length := by
          intro l
          induction l with
          | nil =>
            intro o ho _ p hp
            exact ho p hp
          | cons d rest ih =>
            intro o ho hl p hp
            simp only [check_rexp.lastMatch] at hp
            have hl1 : rest.length ≤ str.length := by
              simp only [List.length_cons] at hl
              omega
            split at hp
            · exact ho p hp
            · split at hp
              · refine ih _ ?_ hl1 p hp
                intro q hq
                cases hq
                exact hl
              · exact ih _ ho hl1 p hp
        have hstr1 : (check_rexp.starSkip str (cur rexp.tail)).length ≤ str.length := by
          unfold check_rexp.starSkip
          split <;> simp
        have hstr2 : (check_rexp.starJump (cur rexp.tail)
            (check_rexp.starSkip str (cur rexp.tail))).length ≤ str.length := by
          unfold check_rexp.starJump
          split
          · rename_i p hp
            exact hlm _ none (by intro q hq; cases hq) hstr1 p hp
          · exact hstr1
        have h1 := hstep rexp.tail
        have h2 := hstep (check_rexp.starJump (cur rexp.tail)
            (check_rexp.starSkip str (cur rexp.tail)))
        simp only at hbody
        by_cases c1 : cur rexp.tail = '*' ∨ cur rexp.tail = '?'
        · rw [if_pos c1] at hbody
          cases hbody
        · rw [if_neg c1] at hbody
          by_cases c2 : cur rexp.tail = NUL
          · rw [if_pos c2] at hbody
            cases hbody
          · rw [if_neg c2] at hbody
            by_cases c3 : tolower (cur (check_rexp.starJump (cur rexp.tail)
                (check_rexp.starSkip str (cur rexp.tail)))) ≠ tolower (cur rexp.tail)
            · rw [if_pos c3] at hbody
              cases hbody
            · rw [if_neg c3] at hbody
              cases hbody
              simp only [List.length_tail] at h1
              omega
      · split at hbody
        · -- slash
          rename_i hsl
          have hr : cur rexp ≠ NUL := by
            rcases hsl with h | h <;> rw [h] <;> decide
          have h1 := hstep1 rexp hr
          split at hbody
          · cases hbody
          · cases hbody
            omega
        · -- regular character
          have h1 := hstep rexp
          split at hbody
          · cases hbody
          · cases hbody
            rcases hloop with h | h
            · have h3 := hstep1 str h
              omega
            · have h3 := hstep1 rexp h
              omega

/-- Embedding of `WildcardMatch` (util.cpp 321-327). -/
def WildcardMatch (pszSub pszText : List Char) : Bool :=
  if check_rexp pszText pszSub ≠ 1 then false else true

/-- Embedding of `SubstringMatch` (util.cpp 87-111): `_tcsnicmp(pszSub, pszText, n) == 0`
compares the first `n` characters without regard to case. -/
def SubstringMatch (pszSub : List Char) : List Char → Bool
  | [] => false
  | c :: rest =>
    -- Check if not enough characters left to make a match.
    if (c :: rest).length < pszSub.length then false
    -- If first character matches, is this a match?
    else if tolower c = tolower (cur pszSub) ∧
        (pszSub.take pszSub.length).map tolower = ((c :: rest).take pszSub.length).map tolower
    then true
    -- Try the next character.
    else SubstringMatch pszSub rest

/-! ### Number formatting (`util.cpp`) -/

/-- The C library `_tcsrchr(s, c)` for a character `c` other than NUL: the index of the
last occurrence of `c` in `s`, `none` for `NULL`. -/
def tcsrchr : List Char → Char → Option Nat
  | [], _ => none
  | d :: rest, c =>
    match tcsrchr rest c with
    | some i => some (i + 1)
    | none => if d = c then some 0 else none

/-- The loop of `FormatThousands` (util.cpp 1331-1343): the first argument is the index
the pointer `p` stands at (`p > pszNumber` is `0 < index`), then `iSkip` and the string.
`memmove(p + 1, p, ...)` followed by `*p = ','` puts a comma in front of the character at
`p`. -/
def FormatThousands.loop : Nat → Nat → List Char → List Char
  | 0, _, s => s
  | p + 1, iSkip, s =>
    if iSkip + 1 = 3 then
      FormatThousands.loop p 0 (s.take (p + 1) ++ ',' :: s.drop (p + 1))
    else
      FormatThousands.loop p (iSkip + 1) s

/-- Embedding of `FormatThousands` (util.cpp 1314-1344); the string after the call. The
pointer `p` starts on the last character before the last `.`, or on the last character of
the string; a start one before the string (empty string, `.` in front) ends the loop at
once, like a start on the first character. The room the caller must leave for the commas
is not modelled. -/
def FormatThousands (pszNumber : List Char) : List Char :=
  match tcsrchr pszNumber '.' with
  | none => FormatThousands.loop (pszNumber.length - 1) 0 pszNumber
  | some i => FormatThousands.loop (i - 1) 0 pszNumber

/-! ### Directory tree (`filetree.h`, `filetree.cpp`) -/

/-- `class CDirEntry` (filetree.h 86-99). `DWORD` fields are natural numbers, a
`FILETIME` is its 64-bit count of 100 ns intervals. -/
structure CDirEntry where
  sName : List Char
  dwUser : Nat
  dwAttrib : Nat
  dBytes : Nat
  ftCreation : Nat
  ftLastAccess : Nat
  ftLastWrite : Nat
deriving DecidableEq, Repr, Inhabited

/-- `class CDir` (filetree.h 102-119): `cThis`, `cFiles`, `cDirs`, `sError`. -/
inductive CDir where
  | mk (cThis : CDirEntry) (cFiles : List CDirEntry) (cDirs : List CDir)
      (sError : List Char) : CDir

/-- Field `cThis`. -/
def CDir.cThis : CDir → CDirEntry
  | .mk t _ _ _ => t

/-- Field `cFiles`. -/
def CDir.cFiles : CDir → List CDirEntry
  | .mk _ fs _ _ => fs

/-- Field `cDirs`. -/
def CDir.cDirs : CDir → List CDir
  | .mk _ _ ds _ => ds

/-- Field `sError`. -/
def CDir.sError : CDir → List Char
  | .mk _ _ _ e => e

/-- The path built in `szSubPath` (filetree.cpp 208-212 and its copies): the directory
path, a backslash unless the path ends with one, then the name. The `MAXPATH` limit of
the buffer is not modelled. -/
def subPath (pszDirPath sName : List Char) : List Char :=
  (if pszDirPath.getLast? ≠ some '\\' then pszDirPath ++ ['\\'] else pszDirPath) ++ sName

/-- An enumeration callback `pEnum(pContext, pszPath, pEntry, bIsDir)`; what the
callback reaches through `pContext` and the globals is the state `σ`. -/
abbrev EnumFn (σ : Type) := σ → List Char → CDirEntry → Bool → Bool × σ

/-- The loop over `cFiles` of `CDir::EnumFiles` (filetree.cpp 201-216). -/
def EnumFiles.files {σ : Type} (pEnum : EnumFn σ) (pszDirPath : List Char) :
    List CDirEntry → σ → Bool × σ
  | [], ctx => (true, ctx)
  | f :: rest, ctx =>
    if f.sName.length < 1 then
      EnumFiles.files pEnum pszDirPath rest ctx    -- Filename is zero length, so skip it.
    else
      match pEnum ctx (subPath pszDirPath f.sName) f false with
      | (false, ctx1) => (false, ctx1)
      | (true, ctx1) => EnumFiles.files pEnum pszDirPath rest ctx1

mutual
/-- Embedding of `CDir::EnumFiles` (filetree.cpp 182-237). The returned flag is the
result, the state is what the callbacks left. The assignment of "Bad Parameter" to
`sError` is the only write to the tree and is not represented. -/
def CDir.EnumFiles {σ : Type} (pEnum : EnumFn σ) : CDir → List Char → σ → Bool × σ
  | .mk _ cFiles cDirs _, pszDirPath, ctx =>
    if pszDirPath = [] then (false, ctx)         -- Bad Parameter
    else
      match EnumFiles.files pEnum pszDirPath cFiles ctx with
      | (false, ctx1) => (false, ctx1)
      | (true, ctx1) => EnumFiles.dirs pEnum pszDirPath cDirs ctx1
/-- The loop over `cDirs` of `CDir::EnumFiles` (filetree.cpp 218-234). -/
def EnumFiles.dirs {σ : Type} (pEnum : EnumFn σ) (pszDirPath : List Char) :
    List CDir → σ → Bool × σ
  | [], ctx => (true, ctx)
  | d :: rest, ctx =>
    match pEnum ctx (subPath pszDirPath d.cThis.sName) d.cThis true with
    | (false, ctx1) => (false, ctx1)
    | (true, ctx1) =>
      -- Enumerate children of this dir.
      match CDir.EnumFiles pEnum d (subPath pszDirPath d.cThis.sName) ctx1 with
      | (false, ctx2) => (false, ctx2)
      | (true, ctx2) => EnumFiles.dirs pEnum pszDirPath rest ctx2
end

/-- The loop over `cFiles` of `CDir::EnumFilesReverse` (filetree.cpp 269-281). -/
def EnumFilesReverse.files {σ : Type} (pEnum : EnumFn σ) (pszDirPath : List Char) :
    List CDirEntry → σ → Bool × σ
  | [], ctx => (true, ctx)
  | f :: rest, ctx =>
    match pEnum ctx (subPath pszDirPath f.sName) f false with
    | (false, ctx1) => (false, ctx1)
    | (true, ctx1) => EnumFilesReverse.files pEnum pszDirPath rest ctx1

mutual
/-- Embedding of `CDir::EnumFilesReverse` (filetree.cpp 250-303); see `CDir.EnumFiles`. -/
def CDir.EnumFilesReverse {σ : Type} (pEnum : EnumFn σ) : CDir → List Char → σ → Bool × σ
  | .mk _ cFiles cDirs _, pszDirPath, ctx =>
    if pszDirPath = [] then (false, ctx)         -- Bad Parameter
    else
      match EnumFilesReverse.files pEnum pszDirPath cFiles ctx with
      | (false, ctx1) => (false, ctx1)
      | (true, ctx1) => EnumFilesReverse.dirs pEnum pszDirPath cDirs ctx1
/-- The loop over `cDirs` of `CDir::EnumFilesReverse` (filetree.cpp 283-300). -/
def EnumFilesReverse.dirs {σ : Type} (pEnum : EnumFn σ) (pszDirPath : List Char) :
    List CDir → σ → Bool × σ
  | [], ctx => (true, ctx)
  | d :: rest, ctx =>
    -- Enumerate children of this subdir.
    match CDir.EnumFilesReverse pEnum d (subPath pszDirPath d.cThis.sName) ctx with
    | (false, ctx1) => (false, ctx1)
    | (true, ctx1) =>
      -- Enumerate this subdir.
      match pEnum ctx1 (subPath pszDirPath d.cThis.sName) d.cThis true with
      | (false, ctx2) => (false, ctx2)
      | (true, ctx2) => EnumFilesReverse.dirs pEnum pszDirPath rest ctx2
end

/-- `_tcsicmp(a, b) == 0`: equal without regard to case. -/
def tcsicmpEq (a b : List Char) : Bool := a.map tolower = b.map tolower

/-- The pointer `CDir::FileExists` returns, as the place it points to: `&cFiles[i]`,
`&cDirs[i].cThis`, or a place inside `cDirs[i]`. -/
inductive EntryRef where
  | file (i : Nat)
  | dir (i : Nat)
  | sub (i : Nat) (r : EntryRef)
deriving DecidableEq, Repr

/-- The search of `cFiles` for a name (filetree.cpp 437-442): index of the first match,
counted from `i`. -/
def FileExists.findFile (pszPath : List Char) : List CDirEntry → Nat → Option Nat
  | [], _ => none
  | f :: rest, i =>
    if tcsicmpEq pszPath f.sName then some i else FileExists.findFile pszPath rest (i + 1)

/-- The search of `cDirs` for a name (filetree.cpp 443-448). -/
def FileExists.findDir (pszPath : List Char) : List CDir → Nat → Option Nat
  | [], _ => none
  | d :: rest, i =>
    if tcsicmpEq pszPath d.cThis.sName then some i else FileExists.findDir pszPath rest (i + 1)

mutual
/-- Embedding of `CDir::FileExists` (filetree.cpp 426-475). `szNextBase` is the path up
to its first backslash and `p + 1` the path after it. -/
def CDir.FileExists : CDir → List Char → Option EntryRef
  | .mk _ cFiles cDirs _, pszPath =>
    if ¬ ('\\' ∈ pszPath) then
      -- No prepended directory on the specified pathname.
      match FileExists.findFile pszPath cFiles 0 with
      | some i => some (.file i)
      | none =>
        match FileExists.findDir pszPath cDirs 0 with
        | some i => some (.dir i)
        | none => none
    else
      -- Remove one level of prepended directory path and pass it on.
      FileExists.sub (pszPath.takeWhile (fun c => c ≠ '\\'))
        ((pszPath.dropWhile (fun c => c ≠ '\\')).tail) cDirs 0
/-- The search of `cDirs` for the next subdirectory (filetree.cpp 461-470). -/
def FileExists.sub (szNextBase rest : List Char) : List CDir → Nat → Option EntryRef
  | [], _ => none
  | d :: ds, i =>
    if tcsicmpEq d.cThis.sName szNextBase then
      -- Scan this subdir for the specified file.
      match CDir.FileExists d rest with
      | some r => some (.sub i r)
      | none => none
    else FileExists.sub szNextBase rest ds (i + 1)
end

/-- Apply `f` to the element of index `i`, if there is one. -/
def updateAt {α : Type} (f : α → α) : List α → Nat → List α
  | [], _ => []
  | a :: l, 0 => f a :: l
  | a :: l, i + 1 => a :: updateAt f l i

/-- The entry an `EntryRef` points to. -/
def CDir.entryAt : CDir → EntryRef → Option CDirEntry
  | .mk _ cFiles _ _, .file i => cFiles[i]?
  | .mk _ _ cDirs _, .dir i => cDirs[i]?.map CDir.cThis
  | .mk _ _ cDirs _, .sub i r =>
    match cDirs[i]? with
    | some d => d.entryAt r
    | none => none

/-- A write `f` through the pointer an `EntryRef` stands for. -/
def CDir.modifyAt (f : CDirEntry → CDirEntry) : EntryRef → CDir → CDir
  | .file i, .mk t fs ds e => .mk t (updateAt f fs i) ds e
  | .dir i, .mk t fs ds e =>
    .mk t fs (updateAt (fun d => .mk (f d.cThis) d.cFiles d.cDirs d.sError) ds i) e
  | .sub i r, .mk t fs ds e => .mk t fs (updateAt (CDir.modifyAt f r) ds i) e

/-- The keep/erase loop over `cFiles` of `CDir::PruneFiles` (filetree.cpp 116-132). -/
def PruneFiles.files {σ : Type} (pQuery : EnumFn σ) (pszDirPath : List Char) :
    List CDirEntry → σ → List CDirEntry × σ
  | [], ctx => ([], ctx)
  | f :: rest, ctx =>
    match pQuery ctx (subPath pszDirPath f.sName) f false with
    | (true, ctx1) =>
      let r := PruneFiles.files pQuery pszDirPath rest ctx1
      (f :: r.1, r.2)
    | (false, ctx1) => PruneFiles.files pQuery pszDirPath rest ctx1

/-- The keep/erase loop over `cDirs` of `CDir::PruneFiles` (filetree.cpp 134-150), as
the list of its decisions: `true` for a subdirectory that stays, `false` for an erased one. -/
def PruneFiles.flags {σ : Type} (pQuery : EnumFn σ) (pszDirPath : List Char) :
    List CDir → σ → List Bool × σ
  | [], ctx => ([], ctx)
  | d :: rest, ctx =>
    match pQuery ctx (subPath pszDirPath d.cThis.sName) d.cThis true with
    | (b, ctx1) =>
      let r := PruneFiles.flags pQuery pszDirPath rest ctx1
      (b :: r.1, r.2)

mutual
/-- Embedding of `CDir::PruneFiles` (filetree.cpp 97-172): the result, the state the
query function left, and the node afterwards. -/
def CDir.PruneFiles {σ : Type} (pQuery : EnumFn σ) : CDir → List Char → σ → Bool × σ × CDir
  | .mk t cFiles cDirs e, pszDirPath, ctx =>
    if pszDirPath = [] then (false, ctx, .mk t cFiles cDirs "Bad Parameter".toList)
    else
      let r1 := PruneFiles.files pQuery pszDirPath cFiles ctx
      let r2 := PruneFiles.flags pQuery pszDirPath cDirs r1.2
      match PruneFiles.subdirs pQuery pszDirPath cDirs r2.1 r2.2 with
      | (none, ctx3, ds) => (true, ctx3, .mk t r1.1 ds e)
      | (some err, ctx3, ds) => (false, ctx3, .mk t r1.1 ds err)   -- Pruning of subdir failed!
/-- The third loop of `CDir::PruneFiles` (filetree.cpp 152-169) over the subdirectories
that stayed: those of the list whose flag is `true`. Returns the `sError` of the
subdirectory that failed, if one did, the state, and the list afterwards. -/
def PruneFiles.subdirs {σ : Type} (pQuery : EnumFn σ) (pszDirPath : List Char) :
    List CDir → List Bool → σ → Option (List Char) × σ × List CDir
  | [], _, ctx => (none, ctx, [])
  | _ :: rest, [], ctx => PruneFiles.subdirs pQuery pszDirPath rest [] ctx
  | _ :: rest, false :: flags, ctx => PruneFiles.subdirs pQuery pszDirPath rest flags ctx
  | d :: rest, true :: flags, ctx =>
    match CDir.PruneFiles pQuery d (subPath pszDirPath d.cThis.sName) ctx with
    | (false, ctx1, d1) =>
      (some d1.sError, ctx1, d1 :: (rest.zip flags).filterMap
        (fun x => if x.2 then some x.1 else none))
    | (true, ctx1, d1) =>
      let r := PruneFiles.subdirs pQuery pszDirPath rest flags ctx1
      (r.1, r.2.1, d1 :: r.2.2)
end

/-- `SYSTEMTIME` (the fields the program reads). -/
structure SYSTEMTIME where
  wYear : Nat
  wMonth : Nat
  wDay : Nat
  wHour : Nat
  wMinute : Nat
  wSecond : Nat
  wMilliseconds : Nat
deriving DecidableEq, Repr

/-- Embedding of `FileTimeCompare` (filetree.cpp 510-557). The Win32 conversion
`FileTimeToSystemTime` is a parameter. -/
def FileTimeCompare (FileTimeToSystemTime : Nat → SYSTEMTIME) (t1 t2 : Nat) (bExact : Bool) :
    Int :=
  let s1 := FileTimeToSystemTime t1
  let s2 := FileTimeToSystemTime t2
  if s1.wYear > s2.wYear then 1
  else if s1.wYear < s2.wYear then -1
  else if s1.wMonth > s2.wMonth then 1
  else if s1.wMonth < s2.wMonth then -1
  else if s1.wDay > s2.wDay then 1
  else if s1.wDay < s2.wDay then -1
  else if s1.wHour > s2.wHour then 1
  else if s1.wHour < s2.wHour then -1
  else if bExact then
    if s1.wMinute > s2.wMinute then 1
    else if s1.wMinute < s2.wMinute then -1
    else if s1.wSecond > s2.wSecond then 1
    else if s1.wSecond < s2.wSecond then -1
    else if s1.wMilliseconds > s2.wMilliseconds then 1
    else if s1.wMilliseconds < s2.wMilliseconds then -1
    else 0
  else
    -- Check +/- 3 seconds.
    let secs1 : Int := s1.wMinute * 60 + s1.wSecond
    let secs2 : Int := s2.wMinute * 60 + s2.wSecond
    if secs1 > secs2 + 3 then 1
    else if secs1 < secs2 - 3 then -1
    else 0

/-! ### Planner (`bcpy.cpp`) -/

/-- Bit flag for the `dwUser` field of directory entries (bcpy.cpp 71). -/
def USERFLAG_EXISTSINSOURCE : Nat := 0x0001

/-- Win32 attribute bit `FILE_ATTRIBUTE_READONLY`. -/
def FILE_ATTRIBUTE_READONLY : Nat := 0x1

/-- Win32 attribute bit `FILE_ATTRIBUTE_HIDDEN`. -/
def FILE_ATTRIBUTE_HIDDEN : Nat := 0x2

/-- Win32 attribute bit `FILE_ATTRIBUTE_SYSTEM`. -/
def FILE_ATTRIBUTE_SYSTEM : Nat := 0x4

/-- Win32 attribute bit `FILE_ATTRIBUTE_DIRECTORY`. -/
def FILE_ATTRIBUTE_DIRECTORY : Nat := 0x10

/-- Win32 value `INVALID_FILE_ATTRIBUTES`. -/
def INVALID_FILE_ATTRIBUTES : Nat := 0xFFFFFFFF

/-- The 32-bit mask `~(FILE_ATTRIBUTE_READONLY | FILE_ATTRIBUTE_HIDDEN | FILE_ATTRIBUTE_SYSTEM)`. -/
def protectionMaskOff : Nat := 0xFFFFFFFF - 7

/-- `class CTotals` (bcpy.cpp 85-118). -/
structure CTotals where
  dBytesCopied : Nat := 0
  dBytesAlreadyExist : Nat := 0
  iFilesCopied : Nat := 0
  iFilesAlreadyExist : Nat := 0
  iDirsCopied : Nat := 0
  iDirsCreated : Nat := 0
  iDirsAlreadyExist : Nat := 0
  iSourceFilesDeleted : Nat := 0
  iSourceDirsDeleted : Nat := 0
  dSourceBytesDeleted : Nat := 0
  iDestFilesDeleted : Nat := 0
  iDestDirsDeleted : Nat := 0
  dDestBytesDeleted : Nat := 0
  iNumErrors : Nat := 0
  iNumWarnings : Nat := 0
deriving DecidableEq, Repr

/-- `class CSettings` (bcpy.cpp 121-260); the defaults are those of `Defaults()`. -/
structure CSettings where
  szSource : List Char := []
  szDest : List Char := []
  szLogFile : List Char := []
  cWilds : List (List Char) := []
  iNewerYear : Int := -1
  iNewerMonth : Int := -1
  iNewerDay : Int := -1
  iOlderYear : Int := -1
  iOlderMonth : Int := -1
  iOlderDay : Int := -1
  cIncludes : List (List Char) := []
  cExcludes : List (List Char) := []
  bDebug : Bool := false
  bVerbose : Bool := false
  bUpdate : Bool := false
  bVerify : Bool := false
  bContinueAfterError : Bool := false
  bQuiet : Bool := false
  bNoCopy : Bool := false
  bShowPath : Bool := false
  bList : Bool := false
  bHidden : Bool := false
  bOverwrite : Bool := false
  bMove : Bool := false
  bClean : Bool := false
  bWait : Bool := false
  bRoot : Bool := false
  bPriorityLow : Bool := false
deriving DecidableEq, Repr

/-- A call the planner makes into the operating system or into the file-level helpers of
`util.cpp`, with the paths it passes. -/
inductive OsCall where
  | MakeDir (pszPath : List Char)
  | DirExists (pszPath : List Char)
  | GetFileAttributes (pszPath : List Char)
  | SetFileAttributes (pszPath : List Char) (dwAttrib : Nat)
  | RawCopyFileWin32 (pszSrc pszDest : List Char)
  | CompareFileWin32 (pszSrc pszDest : List Char)
  | CreateFile (pszPath : List Char)
  | GetFileTime (pszPath : List Char)
  | SetFileTime (pszPath : List Char)
  | tunlink (pszPath : List Char)
  | trmdir (pszPath : List Char)
  | gettch
deriving DecidableEq, Repr

/-- The operating system as the planner sees it: a state `ω` and, for every call, the
value returned and the state afterwards. Nothing is assumed about the answers. -/
structure Win32 (ω : Type) where
  /-- `MakeDir` of util.cpp: true if the directory was created or exists. -/
  MakeDir : List Char → ω → Bool × ω
  /-- `DirExists` of util.cpp. -/
  DirExists : List Char → ω → Bool × ω
  /-- The attribute word, or `INVALID_FILE_ATTRIBUTES`. -/
  GetFileAttributes : List Char → ω → Nat × ω
  /-- The value `SetFileAttributes` returns. -/
  SetFileAttributes : List Char → Nat → ω → Nat × ω
  /-- `RawCopyFileWin32` of util.cpp on two paths: the status and what it stored
  through `pdCopied` (`none`: nothing stored). -/
  RawCopyFileWin32 : List Char → List Char → Bool → ω → (Int × Option Nat) × ω
  /-- `CompareFileWin32` of util.cpp on two paths. -/
  CompareFileWin32 : List Char → List Char → Bool → ω → Bool × ω
  /-- The handle `CreateFile` returns; 0 is `NULL`. -/
  CreateFile : List Char → ω → Nat × ω
  /-- The value `GetFileTime` returns; 0 is failure. -/
  GetFileTime : List Char → ω → Nat × ω
  /-- The value `SetFileTime` returns; 0 is failure. -/
  SetFileTime : List Char → ω → Nat × ω
  /-- The value `_tunlink` returns; 0 is success. -/
  tunlink : List Char → ω → Int × ω
  /-- The value `_trmdir` returns; 0 is success. -/
  trmdir : List Char → ω → Int × ω
  /-- The key `_gettch` reads. -/
  gettch : ω → Char × ω
  /-- The pure conversion `FileTimeToSystemTime`. -/
  FileTimeToSystemTime : Nat → SYSTEMTIME

/-- The `Globals` of bcpy.cpp (270-279) together with the operating system: settings,
totals, both trees, the state of the operating system, and the calls made so far
(oldest first). The two clock fields are left out. -/
structure Globals (ω : Type) where
  cSettings : CSettings
  cTotals : CTotals
  cSrcTree : CDir
  cDestTree : CDir
  os : ω
  calls : List OsCall

/-- Make a call: record it, take the answer, move the operating system on. -/
def Globals.call {ω α : Type} (g : Globals ω) (c : OsCall) (op : ω → α × ω) : α × Globals ω :=
  ((op g.os).1, { g with os := (op g.os).2, calls := g.calls ++ [c] })

/-- `Globals.cTotals.iNumErrors++` -/
def Globals.addError {ω : Type} (g : Globals ω) : Globals ω :=
  { g with cTotals := { g.cTotals with iNumErrors := g.cTotals.iNumErrors + 1 } }

/-- `Globals.cTotals.iNumWarnings++` -/
def Globals.addWarning {ω : Type} (g : Globals ω) : Globals ω :=
  { g with cTotals := { g.cTotals with iNumWarnings := g.cTotals.iNumWarnings + 1 } }

/-- The pointer `pszRelPath` of `EnumCheckDest` and `EnumCopy` (bcpy.cpp 735, 854):
`pszPath` advanced by the length of `szSource`, and by one more unless `szSource` ends
with a backslash. -/
def relPath (szSource pszPath : List Char) : List Char :=
  pszPath.drop (szSource.length + (if szSource.getLast? = some '\\' then 0 else 1))

/-- Embedding of `EnumCheckDest` (bcpy.cpp 728-741). -/
def EnumCheckDest {ω : Type} (g : Globals ω) (pszPath : List Char) (_pEntry : CDirEntry)
    (_bIsDir : Bool) : Bool × Globals ω :=
  match g.cDestTree.FileExists (relPath g.cSettings.szSource pszPath) with
  | some pDestEntry =>
    let tagged := g.cDestTree.modifyAt
      (fun e => { e with dwUser := e.dwUser ||| USERFLAG_EXISTSINSOURCE }) pDestEntry
    (true, { g with cDestTree := tagged })
  | none => (true, g)

/-- Embedding of `EnumDelDir` (bcpy.cpp 750-771). -/
def EnumDelDir {ω : Type} (sys : Win32 ω) (g : Globals ω) (pszPath : List Char)
    (_pEntry : CDirEntry) (bIsDir : Bool) : Bool × Globals ω :=
  if bIsDir = false then (true, g)      -- Not a directory, so just continue.
  else
    let r := g.call (.trmdir pszPath) (sys.trmdir pszPath)
    let g1 := if r.1 ≠ 0 then r.2.addWarning else r.2
    (true, { g1 with cTotals :=
      { g1.cTotals with iSourceDirsDeleted := g1.cTotals.iSourceDirsDeleted + 1 } })

/-- Embedding of `EnumDelTagged` (bcpy.cpp 779-831). -/
def EnumDelTagged {ω : Type} (sys : Win32 ω) (g : Globals ω) (pszPath : List Char)
    (pEntry : CDirEntry) (bIsDir : Bool) : Bool × Globals ω :=
  -- Don't delete the destination root.
  if tcsicmpEq pszPath g.cSettings.szDest then (true, g)
  else if pEntry.dwUser &&& USERFLAG_EXISTSINSOURCE = 0 then
    if bIsDir then
      let r := g.call (.trmdir pszPath) (sys.trmdir pszPath)
      let g1 := if r.1 ≠ 0 then r.2.addWarning else r.2
      (true, { g1 with cTotals :=
        { g1.cTotals with iDestDirsDeleted := g1.cTotals.iDestDirsDeleted + 1 } })
    else
      -- Try to delete the file.
      let r := g.call (.tunlink pszPath) (sys.tunlink pszPath)
      let g1 :=
        if r.1 ≠ 0 then
          -- Couldn't delete the file, so try to turn off readonly, system, and hidden flags.
          let dwTmp := pEntry.dwAttrib &&& protectionMaskOff
          let a := r.2.call (.SetFileAttributes pszPath dwTmp) (sys.SetFileAttributes pszPath dwTmp)
          let g2 := if a.1 = INVALID_FILE_ATTRIBUTES then a.2.addWarning else a.2
          -- Try to delete it again.
          let r2 := g2.call (.tunlink pszPath) (sys.tunlink pszPath)
          if r2.1 ≠ 0 then r2.2.addWarning else r2.2
        else r.2
      (true, { g1 with cTotals :=
        { g1.cTotals with
          iDestFilesDeleted := g1.cTotals.iDestFilesDeleted + 1
          dDestBytesDeleted := g1.cTotals.dDestBytesDeleted + pEntry.dBytes } })
  else (true, g)

/-- `_tcsnicmp(a, b, n) != 0`: the first `n` characters differ, case ignored. -/
def tcsnicmpNe (a b : List Char) (n : Nat) : Bool :=
  (a.take n).map tolower ≠ (b.take n).map tolower

/-- `EnumCopy`, directory branch (bcpy.cpp 878-936): `pExists` tells whether the name was
found in the destination tree. -/
def EnumCopy.dir {ω : Type} (sys : Win32 ω) (g : Globals ω) (pszPath szNewPath : List Char)
    (pExists : Option CDirEntry) : Bool × Globals ω :=
  let countCopied := fun (h : Globals ω) =>
    if h.cSettings.bNoCopy = false then
      { h with cTotals := { h.cTotals with iDirsCopied := h.cTotals.iDirsCopied + 1 } }
    else h
  match pExists with
  | none =>
    -- This directory in the destination doesn't exist yet.
    if g.cSettings.bNoCopy = false then
      let m := g.call (.MakeDir szNewPath) (sys.MakeDir szNewPath)
      if m.1 = false then
        -- Failed creating it.
        let g1 := m.2.addError
        let d := g1.call (.DirExists szNewPath) (sys.DirExists szNewPath)
        if g.cSettings.bContinueAfterError = false then (false, d.2)
        else (true, countCopied d.2)
      else
        -- Copy the source dir's attributes to the destination dir.
        let a := m.2.call (.GetFileAttributes pszPath) (sys.GetFileAttributes pszPath)
        let b := a.2.call (.SetFileAttributes szNewPath a.1) (sys.SetFileAttributes szNewPath a.1)
        let g2 := if b.1 = INVALID_FILE_ATTRIBUTES then b.2.addWarning else b.2
        (true, countCopied { g2 with cTotals :=
          { g2.cTotals with iDirsCreated := g2.cTotals.iDirsCreated + 1 } })
    else
      (true, countCopied g)
  | some _ =>
    -- The destination directory already exists.
    (true, countCopied { g with cTotals :=
      { g.cTotals with iDirsAlreadyExist := g.cTotals.iDirsAlreadyExist + 1 } })

/-- `EnumCopy`, what follows a copy that succeeded (bcpy.cpp 1059-1128): timestamps,
attributes, counters and the verify step. The flag is `false` when the block executes
`return false`, `true` when control reaches the end of the block. -/
def EnumCopy.copied {ω : Type} (sys : Win32 ω) (g : Globals ω) (pszPath szNewPath : List Char)
    (dBytesCopied : Nat) : Bool × Globals ω :=
  let cont := g.cSettings.bContinueAfterError
  -- Retrieve the timestamps from the source file.
  let h1 := g.call (.CreateFile pszPath) (sys.CreateFile pszPath)
  let g1 := if h1.1 = 0 then h1.2.addError else h1.2
  if h1.1 = 0 ∧ cont = false then (false, g1)
  else
    let t1 := g1.call (.GetFileTime pszPath) (sys.GetFileTime pszPath)
    let g2 := if t1.1 = 0 then t1.2.addError else t1.2
    if t1.1 = 0 ∧ cont = false then (false, g2)
    else
      -- Copy the source file's timestamps to the destination file.
      let h2 := g2.call (.CreateFile szNewPath) (sys.CreateFile szNewPath)
      let g3 := if h2.1 = 0 then h2.2.addError else h2.2
      if h2.1 = 0 ∧ cont = false then (false, g3)
      else
        let t2 := g3.call (.SetFileTime szNewPath) (sys.SetFileTime szNewPath)
        let g4 := if t2.1 = 0 then t2.2.addError else t2.2
        if t2.1 = 0 ∧ cont = false then (false, g4)
        else
          -- Copy the source file's attributes to the destination file.
          let a := g4.call (.GetFileAttributes pszPath) (sys.GetFileAttributes pszPath)
          let b := a.2.call (.SetFileAttributes szNewPath a.1)
            (sys.SetFileAttributes szNewPath a.1)
          let g5 := if b.1 = INVALID_FILE_ATTRIBUTES then b.2.addWarning else b.2
          let g6 := { g5 with cTotals :=
            { g5.cTotals with
              iFilesCopied := g5.cTotals.iFilesCopied + 1
              dBytesCopied := g5.cTotals.dBytesCopied + dBytesCopied } }
          -- If verify option is enabled, compare the source file with the destination file.
          if g.cSettings.bVerify then
            let v := g6.call (.CompareFileWin32 pszPath szNewPath)
              (sys.CompareFileWin32 pszPath szNewPath g.cSettings.bPriorityLow)
            if v.1 = false then
              if cont = false then (false, v.2.addError) else (true, v.2.addError)
            else (true, v.2)
          else (true, g6)

/-- `EnumCopy`, the move step (bcpy.cpp 1130-1142). -/
def EnumCopy.move {ω : Type} (sys : Win32 ω) (g : Globals ω) (pszPath : List Char)
    (pEntry : CDirEntry) : Globals ω :=
  if g.cSettings.bMove then
    -- Delete the original file.
    let u := g.call (.tunlink pszPath) (sys.tunlink pszPath)
    let g1 := if u.1 ≠ 0 then u.2.addWarning else u.2
    { g1 with cTotals :=
      { g1.cTotals with
        iSourceFilesDeleted := g1.cTotals.iSourceFilesDeleted + 1
        dSourceBytesDeleted := g1.cTotals.dSourceBytesDeleted + pEntry.dBytes } }
  else g

/-- `EnumCopy`, the block for a destination file that is read-only, hidden or system
(bcpy.cpp 968-1000): cleared when overwriting is enabled, a warning otherwise. -/
def EnumCopy.unprotect {ω : Type} (sys : Win32 ω) (g : Globals ω) (szNewPath : List Char)
    (pEntry : CDirEntry) (pExists : Option CDirEntry) : Globals ω :=
  let protectedDest : Bool :=
    match pExists with
    | some e => decide (e.dwAttrib &&& (FILE_ATTRIBUTE_READONLY ||| FILE_ATTRIBUTE_HIDDEN |||
        FILE_ATTRIBUTE_SYSTEM) ≠ 0)
    | none => false
  if protectedDest then
    if g.cSettings.bOverwrite then
      -- Change file mode to make it writable.
      let dwTmp := pEntry.dwAttrib &&& protectionMaskOff
      let a := g.call (.SetFileAttributes szNewPath dwTmp)
        (sys.SetFileAttributes szNewPath dwTmp)
      if a.1 = INVALID_FILE_ATTRIBUTES then a.2.addWarning else a.2
    else g.addWarning       -- Already exists and is read-only, hidden, or system
  else g

/-- `EnumCopy`, the update test (bcpy.cpp 943-966): the destination entry when update
mode is on and it has the same size and, by `FileTimeCompare`, the same time. -/
def EnumCopy.sameFile {ω : Type} (sys : Win32 ω) (g : Globals ω) (pEntry : CDirEntry)
    (pExists : Option CDirEntry) : Option CDirEntry :=
  match pExists with
  | some e =>
    if g.cSettings.bUpdate = true ∧ pEntry.dBytes = e.dBytes ∧
        FileTimeCompare sys.FileTimeToSystemTime pEntry.ftLastWrite e.ftLastWrite false = 0
    then some e else none
  | none => none

/-- `EnumCopy`, file branch (bcpy.cpp 938-1146). -/
def EnumCopy.file {ω : Type} (sys : Win32 ω) (g : Globals ω) (pszPath szNewPath : List Char)
    (pEntry : CDirEntry) (pExists : Option CDirEntry) : Bool × Globals ω :=
  let S := g.cSettings
  -- If update option is enabled, and the file exists in the destination with the same
  -- timestamp and size, skip copying it.
  match EnumCopy.sameFile sys g pEntry pExists with
  | some e =>
    (true, { g with cTotals :=
      { g.cTotals with
        iFilesAlreadyExist := g.cTotals.iFilesAlreadyExist + 1
        dBytesAlreadyExist := g.cTotals.dBytesAlreadyExist + e.dBytes } })
  | none =>
    -- If file already exists in destination, check if it's read-only (hidden, system).
    let g1 := EnumCopy.unprotect sys g szNewPath pEntry pExists
    -- Copy the file (unless copying is disabled).
    if S.bNoCopy = false then
      let c := g1.call (.RawCopyFileWin32 pszPath szNewPath)
        (sys.RawCopyFileWin32 pszPath szNewPath S.bPriorityLow)
      let status := c.1.1
      let dBytesCopied := c.1.2.getD 0
      if status = -1 ∨ status = -2 ∨ status = -3 ∨ status = -4 then
        if S.bContinueAfterError = false then (false, c.2.addError)
        else
          -- break: bCopiedOk stays false
          (true, EnumCopy.move sys c.2.addError pszPath pEntry)
      else if status = -5 then (false, c.2.addError)     -- Aborted by user
      else
        -- default: bCopiedOk = true
        let r := EnumCopy.copied sys c.2 pszPath szNewPath dBytesCopied
        if r.1 = false then (false, r.2)
        else (true, EnumCopy.move sys r.2 pszPath pEntry)
    else (true, g1)

/-- Embedding of `EnumCopy` (bcpy.cpp 838-1150). -/
def EnumCopy {ω : Type} (sys : Win32 ω) (g : Globals ω) (pszPath : List Char)
    (pEntry : CDirEntry) (bIsDir : Bool) : Bool × Globals ω :=
  let S := g.cSettings
  -- Build pathname of destination file or directory.
  if tcsnicmpNe S.szSource pszPath S.szSource.length then
    (false, g.addError)       -- Internal error; bad prefix on source path
  else
    let pszRelPath := relPath S.szSource pszPath
    let szNewPath :=
      (if S.szDest.getLast? ≠ some '\\' then S.szDest ++ ['\\'] else S.szDest) ++ pszRelPath
    -- See if this file exists in the destination already.
    let pExists : Option CDirEntry :=
      match g.cDestTree.FileExists pszRelPath with
      | some r => g.cDestTree.entryAt r
      | none => none
    let conflict : Bool :=
      match pExists with
      | some e =>
        (bIsDir && decide (e.dwAttrib &&& FILE_ATTRIBUTE_DIRECTORY = 0)) ||
        (!bIsDir && decide (e.dwAttrib &&& FILE_ATTRIBUTE_DIRECTORY ≠ 0))
      | none => false
    if conflict then (false, g.addError)
    -- What we do next depends on if this is a directory or a file.
    else if bIsDir then EnumCopy.dir sys g pszPath szNewPath pExists
    else EnumCopy.file sys g pszPath szNewPath pEntry pExists

/-- Embedding of `QuerySource` (bcpy.cpp 554-679). -/
def QuerySource {ω : Type} (sys : Win32 ω) (g : Globals ω) (pszPath : List Char)
    (pEntry : CDirEntry) (_bIsDir : Bool) : Bool × Globals ω :=
  let S := g.cSettings
  -- If includes list is non-empty, then the file must match something in it.
  if S.cIncludes.length > 0 ∧ (S.cIncludes.any (fun inc => SubstringMatch inc pszPath)) = false
  then (false, g)
  -- If the file matches one of the excludes, it is removed.
  else if S.cExcludes.length > 0 ∧ S.cExcludes.any (fun exc => SubstringMatch exc pszPath) = true
  then (false, g)
  -- If wildcards were given, the file must match one of them.
  else if S.cWilds.length > 0 ∧ (S.cWilds.any (fun w => WildcardMatch w pszPath)) = false
  then (false, g)
  else
    let stTime := sys.FileTimeToSystemTime pEntry.ftLastWrite
    let tooNew : Bool :=
      decide (S.iOlderYear ≠ -1 ∧
        ((stTime.wYear : Int) > S.iOlderYear ∨
          ((stTime.wYear : Int) = S.iOlderYear ∧
            ((stTime.wMonth : Int) > S.iOlderMonth ∨
              ((stTime.wMonth : Int) = S.iOlderMonth ∧ (stTime.wDay : Int) > S.iOlderDay)))))
    let tooOld : Bool :=
      decide (S.iNewerYear ≠ -1 ∧
        ((stTime.wYear : Int) < S.iNewerYear ∨
          ((stTime.wYear : Int) = S.iNewerYear ∧
            ((stTime.wMonth : Int) < S.iNewerMonth ∨
              ((stTime.wMonth : Int) = S.iNewerMonth ∧ (stTime.wDay : Int) < S.iNewerDay)))))
    if (S.iOlderYear ≠ -1 ∨ S.iNewerYear ≠ -1) ∧ (tooNew = true ∨ tooOld = true) then (false, g)
    -- If the bHidden option isn't enabled, remove hidden and system files.
    else if S.bHidden = false ∧
        (pEntry.dwAttrib &&& FILE_ATTRIBUTE_HIDDEN ≠ 0 ∨ pEntry.dwAttrib &&& FILE_ATTRIBUTE_SYSTEM ≠ 0)
    then (false, g)
    else (true, g)     -- Keep this file.

/-- Embedding of `EnumDisplay` and `EnumDebugShowNodeInfo` (bcpy.cpp 686-721), which only
print. -/
def EnumDisplay {σ : Type} (ctx : σ) (_pszPath : List Char) (_pEntry : CDirEntry)
    (_bIsDir : Bool) : Bool × σ :=
  (true, ctx)

/-- `ENUM_COUNT_STRUCT` (filetree.h 74-79). -/
structure ENUM_COUNT_STRUCT where
  iNumFiles : Nat := 0
  iNumDirs : Nat := 0
  dTotalBytes : Nat := 0
deriving DecidableEq, Repr

/-- Embedding of `EnumCallbackCountFiles` (filetree.cpp 486-503). -/
def EnumCallbackCountFiles (pInfo : ENUM_COUNT_STRUCT) (_pszFullPath : List Char)
    (pEntry : CDirEntry) (bIsDir : Bool) : Bool × ENUM_COUNT_STRUCT :=
  let c := if bIsDir then { pInfo with iNumDirs := pInfo.iNumDirs + 1 }
           else { pInfo with iNumFiles := pInfo.iNumFiles + 1 }
  (true, { c with dTotalBytes := c.dTotalBytes + pEntry.dBytes })

/-- `EXIT_SUCCESS` -/
def EXIT_SUCCESS : Int := 0

/-- `EXIT_FAILURE` -/
def EXIT_FAILURE : Int := 1

/-- `main`, the tagging pass (bcpy.cpp 1637-1642): mark files in the destination tree that
also exist in the source tree. -/
def main.tag {ω : Type} (g : Globals ω) : Bool × Globals ω :=
  g.cSrcTree.EnumFiles EnumCheckDest g.cSettings.szSource g

/-- `main`, the filter (bcpy.cpp 1644-1654): remove from the source tree what does not
match the program options. -/
def main.prune {ω : Type} (sys : Win32 ω) (g : Globals ω) : Bool × Globals ω :=
  match g.cSrcTree.PruneFiles (QuerySource sys) g.cSettings.szSource g with
  | (b, g1, t) => (b, { g1 with cSrcTree := t })

/-- `main`, the summary, the prompt and the listings (bcpy.cpp 1656-1760): the flag is
`false` when `main` returns `EXIT_FAILURE` there. -/
def main.report {ω : Type} (sys : Win32 ω) (g : Globals ω) : Bool × Globals ω :=
  -- Count source files, then destination files (the latter with the source path).
  if (g.cSrcTree.EnumFiles EnumCallbackCountFiles g.cSettings.szSource {}).1 = false then
    (false, g)
  else if (g.cDestTree.EnumFiles EnumCallbackCountFiles g.cSettings.szSource {}).1 = false then
    (false, g)
  else
    -- Wait for user, if enabled.
    let w := if g.cSettings.bWait then g.call .gettch sys.gettch else ('y', g)
    if w.1 ≠ 'y' ∧ w.1 ≠ 'Y' then (false, w.2)       -- Operation aborted by user
    else
      -- Display list of what we would copy, if list option is enabled.
      let l := if g.cSettings.bList
        then w.2.cSrcTree.EnumFiles EnumDisplay g.cSettings.szSource w.2 else (true, w.2)
      if l.1 = false then l
      else if g.cSettings.bDebug then
        let s := l.2.cSrcTree.EnumFiles EnumDisplay g.cSettings.szSource l.2
        if s.1 = false then (false, s.2)
        else s.2.cDestTree.EnumFiles EnumDisplay g.cSettings.szDest s.2
      else l

/-- `main`, the copy (bcpy.cpp 1765-1817): the destination root, the enumeration with
`EnumCopy`, and in move mode the removal of the source directories. The flag is `false`
when `main` returns `EXIT_FAILURE` there. -/
def main.copy {ω : Type} (sys : Win32 ω) (g : Globals ω) : Bool × Globals ω :=
  let S := g.cSettings
  -- Make sure the destination directory exists.
  let d := g.call (.DirExists S.szDest) (sys.DirExists S.szDest)
  let m := if d.1 = false then d.2.call (.MakeDir S.szDest) (sys.MakeDir S.szDest)
           else (true, d.2)
  if m.1 = false then (false, m.2)       -- Failed creating it.
  else
    let g1 := if d.1 = false
      then { m.2 with cTotals := { m.2.cTotals with iDirsCreated := m.2.cTotals.iDirsCreated + 1 } }
      else { m.2 with cTotals :=
        { m.2.cTotals with iDirsAlreadyExist := m.2.cTotals.iDirsAlreadyExist + 1 } }
    let g2 := { g1 with cTotals := { g1.cTotals with iDirsCopied := g1.cTotals.iDirsCopied + 1 } }
    let c := g2.cSrcTree.EnumFiles (EnumCopy sys) S.szSource g2
    if c.1 = false then (false, c.2)     -- Failed copying files
    else if S.bMove then
      -- Delete the empty source subdirectories.
      let dd := c.2.cSrcTree.EnumFiles (EnumDelDir sys) S.szSource c.2
      if dd.1 = false then (false, dd.2)
      else
        -- Delete the top source directory.
        let r : Int × Globals ω := dd.2.call (.trmdir S.szSource) (sys.trmdir S.szSource)
        (true, if r.1 ≠ 0 then r.2.addWarning else r.2)
    else (true, c.2)

/-- `main`, the clean pass (bcpy.cpp 1823): delete what is not tagged in the destination. -/
def main.clean {ω : Type} (sys : Win32 ω) (g : Globals ω) : Bool × Globals ω :=
  g.cDestTree.EnumFilesReverse (EnumDelTagged sys) g.cSettings.szDest g

/-- Embedding of `main` from the tagging pass on (bcpy.cpp 1637-1924), entered with both
trees scanned: the exit code and the final state. -/
def mainRun {ω : Type} (sys : Win32 ω) (g : Globals ω) : Int × Globals ω :=
  match main.tag g with
  | (false, g1) => (EXIT_FAILURE, g1)
  | (true, g1) =>
    match main.prune sys g1 with
    | (false, g2) => (EXIT_FAILURE, g2)
    | (true, g2) =>
      match main.report sys g2 with
      | (false, g3) => (EXIT_FAILURE, g3)
      | (true, g3) =>
        let finish := fun (h : Globals ω) =>
          (if h.cTotals.iNumErrors > 0 then EXIT_FAILURE else EXIT_SUCCESS, h)
        -- Copy files from source to destination.
        if g3.cSettings.bList = false then
          match main.copy sys g3 with
          | (false, g4) => (EXIT_FAILURE, g4)
          | (true, g4) =>
            -- Delete extra files in destination, if bClean option enabled.
            if g4.cSettings.bClean then
              match main.clean sys g4 with
              | (false, g5) => (EXIT_FAILURE, g5)
              | (true, g5) => finish g5
            else finish g4
        else finish g3

/-! ### Command line (`bcpy.cpp`, `util.cpp`) -/

/-- The loop and the checks behind it of `OptionNameIs` (util.cpp 1241-1260): the argument
from behind the switch character on, against the name. -/
def OptionNameIs.cmp : List Char → List Char → Bool
  -- Name used up: if the next character of the argument string is alphanumeric, then bail.
  | a, [] => !(decide ((cur a).isAlpha = true ∨ (cur a).isDigit = true ∨ cur a = '_'))
  -- If the argument string ended before the name string, then bail.
  | [], _ :: _ => false
  | c :: a, n :: szName => if tolower n ≠ tolower c then false else OptionNameIs.cmp a szName

/-- Embedding of `OptionNameIs` (util.cpp 1212-1263). -/
def OptionNameIs (szArg szName : List Char) : Bool :=
  -- Check for bogus arguments.
  if szArg = [] ∨ szName = [] then false
  else
    OptionNameIs.cmp (if cur szArg = '-' ∨ cur szArg = '/' then szArg.tail else szArg) szName

/-- The loop of `OptionValue` that removes trailing blanks (util.cpp 1297-1298), on the
content of the buffer read from its end: with an empty buffer the loop test
`_tcslen(p) > 0 && p[...] == ' ' || p[_tcslen(p) - 1] == '\t'` reads `p[-1]`, outside the
array (`none`). -/
def OptionValue.trimEnd : List Char → Option (List Char)
  | [] => none
  | c :: r => if c = ' ' ∨ c = '\t' then OptionValue.trimEnd r else some (c :: r)

/-- Embedding of `OptionValue` (util.cpp 1265-1312): the string the returned pointer
points to, `none` when the function reads outside its buffer. The limit of 1024
characters of the buffer is not modelled. -/
def OptionValue (szArg : List Char) : Option (List Char) :=
  match szArg.dropWhile (fun c => decide (c ≠ '=' ∧ c ≠ ':')) with
  | [] => some []                      -- no '=' or ':': pointer to the empty string
  | _ :: v =>                          -- Skip '=' or ':'
    -- Remove leading quote (if any).
    let v1 := if cur v = '"' ∧ cur v.tail ≠ NUL then v.tail else v
    -- Remove trailing spaces (if any).
    match OptionValue.trimEnd v1.reverse with
    | none => none
    | some r =>
      let p := r.reverse
      -- Remove trailing quote (if any).
      some (if p.length > 1 ∧ p.getLast? = some '"' then p.dropLast else p)

/-- The C library `_ttoi`: blanks, an optional sign, then digits up to the first other
character. Values outside the range of `int` are not modelled. -/
def ttoi (s : List Char) : Int :=
  let s1 := s.dropWhile (fun c => c = ' ' ∨ ('\t' ≤ c ∧ c ≤ '\r'))
  let digits (d : List Char) : Int :=
    ((d.takeWhile Char.isDigit).foldl (fun a c => a * 10 + (c.toNat - 48)) 0 : Nat)
  match s1 with
  | '-' :: r => - digits r
  | '+' :: r => digits r
  | _ => digits s1

/-- Embedding of `Trim` (bcpy.cpp 285-305): the string `s` after the call. The function
builds the trimmed text in a local `s2` and leaves `s` as it was. -/
def Trim (s : List Char) : List Char := s

/-- One pass through the body of the loop `while (*p != '\0')` that reads the include or
exclude strings (bcpy.cpp 1383-1400, 1409-1426): `p` and the list before, `p` and the list
after. -/
def ParseArgument.addString (p : List Char) (c : List (List Char)) :
    List Char × List (List Char) :=
  let isSep : Char → Bool := fun ch => ch = ' ' ∨ ch = '\t' ∨ ch = ','
  let p1 := p.dropWhile isSep
  let s := if cur p1 = '"' then p1.takeWhile (fun ch => decide (ch ≠ '"'))
    else p1.takeWhile (fun ch => decide (ch ≠ ','))
  let p2 := if cur p1 = '"' then p1.dropWhile (fun ch => decide (ch ≠ '"'))
    else p1.dropWhile (fun ch => decide (ch ≠ ','))
  (p2.dropWhile isSep, c ++ [Trim s])

/-- The loop `while (*p != '\0')` that reads the include or exclude strings, for at most
`fuel` passes: the list when the loop has ended, `none` when it has not ended by then. -/
def ParseArgument.strings : Nat → List Char → List (List Char) → Option (List (List Char))
  | 0, _, _ => none
  | fuel + 1, p, c =>
    if cur p = NUL then some c
    else ParseArgument.strings fuel (ParseArgument.addString p c).1
      (ParseArgument.addString p c).2

/-- What a call of `ParseArgument` comes to: it returns `v` with the settings `S`, or it
reads outside an array, or it is still in a loop when the fuel is used up. -/
inductive ParseOutcome where
  | ret (v : Int) (S : CSettings)
  | undefined
  | running
deriving DecidableEq, Repr

/-- Embedding of `ParseArgument` (bcpy.cpp 1260-1484) on the settings in `Globals`;
messages printed by `Usage` and `errmsg` are left out, `fuel` bounds the passes of the
include and exclude loops. In `&OptionValue(szArg)[3]` an index behind the end of the
value is read as the end of the string. -/
def ParseArgument (fuel : Nat) (szArg : List Char) (S : CSettings) : ParseOutcome :=
  if tcsicmpEq szArg "?".toList ∨ tcsicmpEq szArg "-?".toList ∨ tcsicmpEq szArg "/?".toList ∨
      tcsicmpEq szArg "help".toList then
    .ret 0 S                -- User wants command line help.
  else if cur szArg = '/' ∨ cur szArg = '-' then
    -- This command line argument is an option switch.
    if OptionNameIs szArg "VERBOSE".toList ∨ OptionNameIs szArg "V".toList then
      .ret 1 { S with bVerbose := true }
    else if OptionNameIs szArg "VERIFY".toList then .ret 1 { S with bVerify := true }
    else if OptionNameIs szArg "DEBUG".toList then
      .ret 1 { S with bDebug := true, bVerbose := true }
    else if OptionNameIs szArg "NOCOPY".toList then .ret 1 { S with bNoCopy := true }
    else if OptionNameIs szArg "UPDATE".toList ∨ OptionNameIs szArg "U".toList then
      .ret 1 { S with bUpdate := true }
    else if OptionNameIs szArg "CONTINUE".toList ∨ OptionNameIs szArg "C".toList then
      .ret 1 { S with bContinueAfterError := true }
    else if OptionNameIs szArg "QUIET".toList ∨ OptionNameIs szArg "Q".toList then
      .ret 1 { S with bQuiet := true }
    else if OptionNameIs szArg "SHOWPATH".toList ∨ OptionNameIs szArg "S".toList then
      .ret 1 { S with bShowPath := true }
    else if OptionNameIs szArg "LIST".toList ∨ OptionNameIs szArg "L".toList then
      .ret 1 { S with bList := true }
    else if OptionNameIs szArg "HIDDEN".toList ∨ OptionNameIs szArg "H".toList then
      .ret 1 { S with bHidden := true }
    else if OptionNameIs szArg "OVERWRITE".toList ∨ OptionNameIs szArg "O".toList then
      .ret 1 { S with bOverwrite := true }
    else if OptionNameIs szArg "MOVE".toList ∨ OptionNameIs szArg "M".toList then
      .ret 1 { S with bMove := true }
    else if OptionNameIs szArg "CLEAN".toList then .ret 1 { S with bClean := true }
    else if OptionNameIs szArg "WAIT".toList then .ret 1 { S with bWait := true }
    else if OptionNameIs szArg "LOG".toList then
      match OptionValue szArg with
      | none => .undefined
      | some v => .ret 1 { S with szLogFile := v }
    else if OptionNameIs szArg "ROOT".toList ∨ OptionNameIs szArg "R".toList then
      .ret 1 { S with bRoot := true }
    else if OptionNameIs szArg "PRIORITYLOW".toList ∨ OptionNameIs szArg "P".toList then
      .ret 1 { S with bPriorityLow := true }
    else if OptionNameIs szArg "INCLUDE".toList then
      -- Add include strings.
      match OptionValue szArg with
      | none => .undefined
      | some p =>
        match ParseArgument.strings fuel p S.cIncludes with
        | none => .running
        | some c => .ret 1 { S with cIncludes := c }
    else if OptionNameIs szArg "EXCLUDE".toList then
      -- Add exclude strings.
      match OptionValue szArg with
      | none => .undefined
      | some p =>
        match ParseArgument.strings fuel p S.cExcludes with
        | none => .running
        | some c => .ret 1 { S with cExcludes := c }
    else if OptionNameIs szArg "NEW".toList then
      -- Get newer-than date setting.
      match OptionValue szArg with
      | none => .undefined
      | some v =>
        if v.length ≥ 11 ∨ szArg.getD 2 NUL ≠ '/' ∨ szArg.getD 5 NUL ≠ '/' then
          .ret 0 S          -- Invalid date format
        else
          .ret 1 { S with iNewerMonth := ttoi v, iNewerDay := ttoi (v.drop 3),
                          iNewerYear := ttoi (v.drop 6) }
    else if OptionNameIs szArg "OLD".toList then
      -- Get older-than date setting.
      match OptionValue szArg with
      | none => .undefined
      | some v =>
        if v.length ≥ 11 ∨ szArg.getD 2 NUL ≠ '/' ∨ szArg.getD 5 NUL ≠ '/' then
          .ret 0 S          -- Invalid date format
        else
          .ret 1 { S with iOlderMonth := ttoi v, iOlderDay := ttoi (v.drop 3),
                          iOlderYear := ttoi (v.drop 6) }
    else .ret 0 S           -- Unrecognized argument!
  else
    -- Command line argument is not an option switch.
    if S.szSource = [] then .ret 1 { S with szSource := szArg }
    else if S.szDest = [] then .ret 1 { S with szDest := szArg }
    else .ret 1 { S with cWilds := S.cWilds ++ [szArg] }

/-! ### Directory tree: the scan and the node an enumeration leaves -/

/-- `WIN32_FIND_DATA` (the fields `ScanFiles` reads); a `FILETIME` is its 64-bit count. -/
structure WIN32_FIND_DATA where
  cFileName : List Char
  dwFileAttributes : Nat
  nFileSizeHigh : Nat
  nFileSizeLow : Nat
  ftCreationTime : Nat
  ftLastAccessTime : Nat
  ftLastWriteTime : Nat
deriving DecidableEq, Repr

/-- A directory on disk as `FindFirstFile` and `FindNextFile` deliver it for `path\*.*`:
the matches in order, each with the directory found under its own path (read only for a
match that is scanned as a subdirectory). A search that finds nothing, or fails, is the
empty list. -/
inductive FindDir where
  | mk (found : List (WIN32_FIND_DATA × FindDir)) : FindDir

/-- The object `cFile` that `ScanFiles` builds for a match (filetree.cpp 362-369). The
size, a `double` in the source, is the exact number. -/
def ScanFiles.cFile (stFind : WIN32_FIND_DATA) : CDirEntry :=
  { sName := stFind.cFileName, dwUser := 0, dwAttrib := stFind.dwFileAttributes,
    dBytes := stFind.nFileSizeHigh * 65536 * 65536 + stFind.nFileSizeLow,
    ftCreation := stFind.ftCreationTime, ftLastAccess := stFind.ftLastAccessTime,
    ftLastWrite := stFind.ftLastWriteTime }

/-- The scan callback `pFunc(pContext, pszDirPath)`, with the context passed as state;
`none` is the `NULL` function pointer. -/
abbrev ScanFn (σ : Type) := Option (σ → List Char → Bool × σ)

/-- The guarded call `if (pFunc != NULL) if (!pFunc(...))`: the flag says whether to go
on. -/
def callScan {σ : Type} (pFunc : ScanFn σ) (ctx : σ) (pszDirPath : List Char) : Bool × σ :=
  match pFunc with
  | none => (true, ctx)
  | some f => f ctx pszDirPath

mutual
/-- Embedding of `CDir::ScanFiles` (filetree.cpp 310-414) on the node with the fields
`cThis`, `cFiles`, `cDirs`, `sError`: the result, the state the callback left, and the
node afterwards. The `MAXPATH` limit of the path buffers is not modelled. -/
def ScanFiles.node {σ : Type} (pFunc : ScanFn σ) (cThis : CDirEntry)
    (cFiles : List CDirEntry) (cDirs : List CDir) (sError : List Char)
    (pszDirPath : List Char) : FindDir → σ → Bool × σ × CDir
  | .mk found, ctx =>
    -- Check for bogus parameters.
    if pszDirPath = [] then (false, ctx, .mk cThis cFiles cDirs "Bad Parameter".toList)
    else
      -- If callback function given, pass directory name to it.
      match callScan pFunc ctx pszDirPath with
      | (false, ctx1) => (false, ctx1, .mk cThis cFiles cDirs sError)   -- abort
      | (true, ctx1) => ScanFiles.found pFunc cThis cFiles cDirs sError pszDirPath found ctx1
/-- The loop `do ... while (FindNextFile(...))` of `CDir::ScanFiles` (filetree.cpp 356-410)
over the matches still to come. -/
def ScanFiles.found {σ : Type} (pFunc : ScanFn σ) (cThis : CDirEntry)
    (cFiles : List CDirEntry) (cDirs : List CDir) (sError : List Char)
    (pszDirPath : List Char) : List (WIN32_FIND_DATA × FindDir) → σ → Bool × σ × CDir
  | [], ctx => (true, ctx, .mk cThis cFiles cDirs sError)
  | (stFind, sub) :: rest, ctx =>
    -- the filename must be non-empty to make sure this match actually exists
    if stFind.cFileName.length > 0 then
      -- Is this match a directory or file?
      if stFind.dwFileAttributes &&& FILE_ATTRIBUTE_DIRECTORY ≠ 0 then
        -- If it's not the current directory or parent directory...
        if tcsicmpEq stFind.cFileName ".".toList = false ∧
            tcsicmpEq stFind.cFileName "..".toList = false then
          match ScanFiles.node pFunc (ScanFiles.cFile stFind) [] [] []
              (subPath pszDirPath stFind.cFileName) sub ctx with
          | (false, ctx1, d1) =>
            -- Failed scanning files in subdirectory.
            (false, ctx1, .mk cThis cFiles (cDirs ++ [d1]) d1.sError)
          | (true, ctx1, d1) =>
            ScanFiles.found pFunc cThis cFiles (cDirs ++ [d1]) sError pszDirPath rest ctx1
        else ScanFiles.found pFunc cThis cFiles cDirs sError pszDirPath rest ctx
      else
        -- This match is a file, so add it to the list of files.
        ScanFiles.found pFunc cThis (cFiles ++ [ScanFiles.cFile stFind]) cDirs sError
          pszDirPath rest ctx
    else ScanFiles.found pFunc cThis cFiles cDirs sError pszDirPath rest ctx
end

/-- `CDir::ScanFiles` called on a node. -/
def CDir.ScanFiles {σ : Type} (pFunc : ScanFn σ) (d : CDir) (pszDirPath : List Char)
    (disk : FindDir) (ctx : σ) : Bool × σ × CDir :=
  ScanFiles.node pFunc d.cThis d.cFiles d.cDirs d.sError pszDirPath disk ctx

mutual
/-- `CDir::EnumFiles` (filetree.cpp 182-237) with the node it leaves: the result, the
state, and the node afterwards. The assignment of "Bad Parameter" is the only write. -/
def EnumFiles.node {σ : Type} (pEnum : EnumFn σ) : CDir → List Char → σ → Bool × σ × CDir
  | .mk t cFiles cDirs e, pszDirPath, ctx =>
    if pszDirPath = [] then (false, ctx, .mk t cFiles cDirs "Bad Parameter".toList)
    else
      match EnumFiles.files pEnum pszDirPath cFiles ctx with
      | (false, ctx1) => (false, ctx1, .mk t cFiles cDirs e)
      | (true, ctx1) =>
        match EnumFiles.nodeDirs pEnum pszDirPath cDirs ctx1 with
        | (b, ctx2, ds) => (b, ctx2, .mk t cFiles ds e)
/-- The loop over `cDirs` of `CDir::EnumFiles` with the list it leaves. -/
def EnumFiles.nodeDirs {σ : Type} (pEnum : EnumFn σ) (pszDirPath : List Char) :
    List CDir → σ → Bool × σ × List CDir
  | [], ctx => (true, ctx, [])
  | d :: rest, ctx =>
    match pEnum ctx (subPath pszDirPath d.cThis.sName) d.cThis true with
    | (false, ctx1) => (false, ctx1, d :: rest)
    | (true, ctx1) =>
      -- Enumerate children of this dir.
      match EnumFiles.node pEnum d (subPath pszDirPath d.cThis.sName) ctx1 with
      | (false, ctx2, d1) => (false, ctx2, d1 :: rest)
      | (true, ctx2, d1) =>
        match EnumFiles.nodeDirs pEnum pszDirPath rest ctx2 with
        | (b, ctx3, ds) => (b, ctx3, d1 :: ds)
end

mutual
/-- `CDir::EnumFilesReverse` (filetree.cpp 239-303) with the node it leaves. -/
def EnumFilesReverse.node {σ : Type} (pEnum : EnumFn σ) :
    CDir → List Char → σ → Bool × σ × CDir
  | .mk t cFiles cDirs e, pszDirPath, ctx =>
    if pszDirPath = [] then (false, ctx, .mk t cFiles cDirs "Bad Parameter".toList)
    else
      match EnumFilesReverse.files pEnum pszDirPath cFiles ctx with
      | (false, ctx1) => (false, ctx1, .mk t cFiles cDirs e)
      | (true, ctx1) =>
        match EnumFilesReverse.nodeDirs pEnum pszDirPath cDirs ctx1 with
        | (b, ctx2, ds) => (b, ctx2, .mk t cFiles ds e)
/-- The loop over `cDirs` of `CDir::EnumFilesReverse` with the list it leaves. -/
def EnumFilesReverse.nodeDirs {σ : Type} (pEnum : EnumFn σ) (pszDirPath : List Char) :
    List CDir → σ → Bool × σ × List CDir
  | [], ctx => (true, ctx, [])
  | d :: rest, ctx =>
    -- Enumerate children of this subdir.
    match EnumFilesReverse.node pEnum d (subPath pszDirPath d.cThis.sName) ctx with
    | (false, ctx1, d1) => (false, ctx1, d1 :: rest)
    | (true, ctx1, d1) =>
      -- Enumerate this subdir.
      match pEnum ctx1 (subPath pszDirPath d.cThis.sName) d1.cThis true with
      | (false, ctx2) => (false, ctx2, d1 :: rest)
      | (true, ctx2) =>
        match EnumFilesReverse.nodeDirs pEnum pszDirPath rest ctx2 with
        | (b, ctx3, ds) => (b, ctx3, d1 :: ds)
end

/-! ### Reference definitions used in the statements -/

/-- One call of an enumeration callback: the path, the entry and `bIsDir`. -/
abbrev Visit := List Char × CDirEntry × Bool

mutual
/-- The pre-order sequence of a tree under a path: the file entries of the node in list
order, then for each child directory in list order the entry of the child followed by the
sequence of the child. -/
def CDir.preorder : CDir → List Char → List Visit
  | .mk _ cFiles cDirs _, pszDirPath =>
    cFiles.map (fun f => (subPath pszDirPath f.sName, f, false)) ++
      CDir.preorderDirs cDirs pszDirPath
/-- The part of `CDir.preorder` that comes from the child directories. -/
def CDir.preorderDirs : List CDir → List Char → List Visit
  | [], _ => []
  | d :: rest, pszDirPath =>
    (subPath pszDirPath d.cThis.sName, d.cThis, true) ::
      (CDir.preorder d (subPath pszDirPath d.cThis.sName) ++ CDir.preorderDirs rest pszDirPath)
end

mutual
/-- The bottom-up sequence of a tree under a path: the file entries of the node in list
order, then for each child directory in list order the sequence of the child followed by
the entry of the child. -/
def CDir.postorder : CDir → List Char → List Visit
  | .mk _ cFiles cDirs _, pszDirPath =>
    cFiles.map (fun f => (subPath pszDirPath f.sName, f, false)) ++
      CDir.postorderDirs cDirs pszDirPath
/-- The part of `CDir.postorder` that comes from the child directories. -/
def CDir.postorderDirs : List CDir → List Char → List Visit
  | [], _ => []
  | d :: rest, pszDirPath =>
    CDir.postorder d (subPath pszDirPath d.cThis.sName) ++
      (subPath pszDirPath d.cThis.sName, d.cThis, true) :: CDir.postorderDirs rest pszDirPath
end

/-- Run a callback over a sequence of visits, keeping the state; the returned flags
are ignored. -/
def runVisits {σ : Type} (pEnum : EnumFn σ) (ctx : σ) (vs : List Visit) : σ :=
  vs.foldl (fun c v => (pEnum c v.1 v.2.1 v.2.2).2) ctx

mutual
/-- Every file name in the tree is non-empty. -/
def CDir.fileNamesNonEmpty : CDir → Bool
  | .mk _ cFiles cDirs _ =>
    cFiles.all (fun f => decide (f.sName ≠ [])) && CDir.fileNamesNonEmptyList cDirs
/-- The same for a list of trees. -/
def CDir.fileNamesNonEmptyList : List CDir → Bool
  | [] => true
  | d :: rest => CDir.fileNamesNonEmpty d && CDir.fileNamesNonEmptyList rest
end

/-- One member of a bracket group: a single character or a range `a-b`. -/
inductive GroupItem where
  | one (c : Char)
  | range (lo hi : Char)
deriving DecidableEq, Repr

/-- A token of the pattern grammar: a literal character, `?`, `*`, a slash or backslash,
or a bracket group. -/
inductive Tok where
  | lit (c : Char)
  | any
  | star
  | slash
  | group (items : List GroupItem)
deriving DecidableEq, Repr

mutual
/-- The tokens of a pattern; `none` when a bracket is not closed. Inside a bracket a
character followed by `-` starts a range that takes the next character as its upper end,
whatever that character is. -/
def tokenize : List Char → Option (List Tok)
  | [] => some []
  | c :: r =>
    if c = '[' then tokenizeGroup r []
    else if c = '?' then (tokenize r).map (fun ts => Tok.any :: ts)
    else if c = '*' then (tokenize r).map (fun ts => Tok.star :: ts)
    else if c = '/' ∨ c = '\\' then (tokenize r).map (fun ts => Tok.slash :: ts)
    else (tokenize r).map (fun ts => Tok.lit c :: ts)
/-- The tokens of a pattern from inside a bracket on; `acc` holds the members read so
far, last first. -/
def tokenizeGroup : List Char → List GroupItem → Option (List Tok)
  | [], _ => none
  | [c], acc =>
    if c = ']' then (tokenize []).map (fun ts => Tok.group acc.reverse :: ts) else none
  | [c, d], acc =>
    if c = ']' then (tokenize [d]).map (fun ts => Tok.group acc.reverse :: ts)
    else if d = '-' then none
    else tokenizeGroup [d] (GroupItem.one c :: acc)
  | c :: d :: hi :: r2, acc =>
    if c = ']' then (tokenize (d :: hi :: r2)).map (fun ts => Tok.group acc.reverse :: ts)
    else if d = '-' then tokenizeGroup r2 (GroupItem.range c hi :: acc)
    else tokenizeGroup (d :: hi :: r2) (GroupItem.one c :: acc)
end

/-- Whether a group member admits a character, case ignored. -/
def GroupItem.admits (d : Char) : GroupItem → Bool
  | .one c => tolower c = tolower d
  | .range lo hi => tolower lo ≤ tolower d ∧ tolower d ≤ tolower hi

/-- Whether a token other than `*` matches one character: a literal matches it up to
case, `?` matches any character, a slash matches slash and backslash, a group matches
what one of its members admits. -/
def Tok.matches1 (d : Char) : Tok → Bool
  | .lit c => tolower c = tolower d
  | .any => true
  | .star => false
  | .slash => d = '/' ∨ d = '\\'
  | .group items => items.any (GroupItem.admits d)

/-- The classical backtracking matcher on tokens: `*` takes any run of zero or more
characters (every split of the text is tried), every other token takes exactly one
character that it matches, and the pattern must use up the text. -/
def globToks : List Tok → List Char → Bool
  | [], t => t.isEmpty
  | .star :: ps, t => t.tails.any (fun u => globToks ps u)
  | _ :: _, [] => false
  | p :: ps, d :: t => p.matches1 d && globToks ps t

/-- The classical glob matcher on a pattern and a text; a pattern with an unclosed
bracket matches nothing. -/
def globMatch (pattern text : List Char) : Bool :=
  match tokenize pattern with
  | some ts => globToks ts text
  | none => false

/-- Whether a token is one of the wildcard tokens `*` and `?`. -/
def Tok.isWild : Tok → Bool
  | .any => true
  | .star => true
  | _ => false

/-- No two wildcard tokens stand next to each other. -/
def noAdjacentWild : List Tok → Bool
  | a :: b :: ts => !(a.isWild && b.isWild) && noAdjacentWild (b :: ts)
  | _ => true

/-- A pattern that is valid in the restricted grammar: every bracket is closed, there is
at most one `*`, and no two wildcard tokens are adjacent. -/
def validPattern (pattern : List Char) : Bool :=
  match tokenize pattern with
  | some ts => decide (ts.count Tok.star ≤ 1) && noAdjacentWild ts
  | none => false

/-- The callback that only records its calls, in order. -/
def recordVisit : EnumFn (List Visit) := fun log p e b => (true, log ++ [(p, e, b)])

mutual
/-- Every name in the tree, of files and of subdirectories, is non-empty. -/
def CDir.namesNonEmpty : CDir → Bool
  | .mk _ cFiles cDirs _ =>
    cFiles.all (fun f => decide (f.sName ≠ [])) && CDir.namesNonEmptyList cDirs
/-- The same for a list of subdirectories, their own names included. -/
def CDir.namesNonEmptyList : List CDir → Bool
  | [] => true
  | d :: rest =>
    decide (d.cThis.sName ≠ []) && CDir.namesNonEmpty d && CDir.namesNonEmptyList rest
end

/-- Whether the entry lacks the exists-in-source tag: `!(dwUser & USERFLAG_EXISTSINSOURCE)`. -/
def CDirEntry.untagged (e : CDirEntry) : Bool :=
  decide (e.dwUser &&& USERFLAG_EXISTSINSOURCE = 0)

/-- The entry with `dwUser` cleared: every field except the tag word. -/
def CDirEntry.eraseUser (e : CDirEntry) : CDirEntry :=
  { e with dwUser := 0 }

mutual
/-- The tree with the `dwUser` word of every entry cleared: names, lists and all other
fields stay. -/
def CDir.eraseUser : CDir → CDir
  | .mk t cFiles cDirs e =>
    .mk t.eraseUser (cFiles.map CDirEntry.eraseUser) (CDir.eraseUserList cDirs) e
/-- The same for a list of subdirectories. -/
def CDir.eraseUserList : List CDir → List CDir
  | [] => []
  | d :: rest => CDir.eraseUser d :: CDir.eraseUserList rest
end

/-- The entry with the exists-in-source tag set. -/
def CDirEntry.tag (e : CDirEntry) : CDirEntry :=
  { e with dwUser := e.dwUser ||| USERFLAG_EXISTSINSOURCE }

/-- One step of the tagging pass on the destination tree: the effect of `EnumCheckDest`
called on a source path. -/
def tagStep (szSource : List Char) (D : CDir) (v : Visit) : CDir :=
  match D.FileExists (relPath szSource v.1) with
  | some r => D.modifyAt CDirEntry.tag r
  | none => D

mutual
/-- Every entry of the tree (every file entry and the entry of every subdirectory, at
every level) satisfies `P`. -/
def CDir.allEntries (P : CDirEntry → Bool) : CDir → Bool
  | .mk _ cFiles cDirs _ => cFiles.all P && CDir.allEntriesList P cDirs
/-- The same for a list of subdirectories, their own entries included. -/
def CDir.allEntriesList (P : CDirEntry → Bool) : List CDir → Bool
  | [] => true
  | d :: rest => P d.cThis && CDir.allEntries P d && CDir.allEntriesList P rest
end

/-- The names in one directory: of its files, then of its subdirectories. -/
def nodeNames (cFiles : List CDirEntry) (cDirs : List CDir) : List (List Char) :=
  cFiles.map (fun f => f.sName) ++ cDirs.map (fun d => d.cThis.sName)

mutual
/-- A tree as the scan of a file system gives it: in every directory each name is
non-empty and holds no backslash, and no two names, of files or of subdirectories, are
equal up to case. -/
def CDir.wellFormed : CDir → Bool
  | .mk _ cFiles cDirs _ =>
    (nodeNames cFiles cDirs).all (fun n => decide (n ≠ []) && decide (¬ '\\' ∈ n)) &&
      decide ((nodeNames cFiles cDirs).map (fun n => n.map tolower)).Nodup &&
      CDir.wellFormedList cDirs
/-- The same for a list of subdirectories. -/
def CDir.wellFormedList : List CDir → Bool
  | [] => true
  | d :: rest => CDir.wellFormed d && CDir.wellFormedList rest
end

/-- A directory path made ready for a name: with a backslash added unless it ends with
one (the first half of `subPath`). -/
def slashed (pszDirPath : List Char) : List Char :=
  if pszDirPath.getLast? ≠ some '\\' then pszDirPath ++ ['\\'] else pszDirPath

/-- The relative paths of the entries of a tree scanned from `root`, as `EnumCheckDest`
and `EnumCopy` compute them from the enumerated paths. -/
def CDir.relPaths (D : CDir) (root : List Char) : List (List Char) :=
  (D.preorder root).map (fun v => relPath root v.1)

/-- What the stages after the tagging pass must leave alone: the destination tree and the
settings. -/
def Globals.frame {ω : Type} (g : Globals ω) : CDir × CSettings :=
  (g.cDestTree, g.cSettings)

/-- The state in which `main` reaches the clean step, when no stage before it fails:
after the tagging pass, the filter, the report and the copy. -/
def main.beforeClean {ω : Type} (sys : Win32 ω) (g : Globals ω) : Globals ω :=
  (main.copy sys (main.report sys (main.prune sys (main.tag g).2).2).2).2

/-- Token lists on which the matcher of the code can be compared with the classical one:
a `?` is followed by a token that is not a wildcard (so the last token is not `?`), and a
`*` is the last token or is followed by a literal character `c` (not a slash, not a
bracket group) after which no token is a wildcard and no token matches `c`. -/
def simpleToks : List Tok → Bool
  | [] => true
  | [.any] => false
  | .any :: b :: ts => !b.isWild && simpleToks (b :: ts)
  | [.star] => true
  | .star :: .lit c :: rest => rest.all (fun t => !t.isWild && !t.matches1 c)
  | .star :: _ => false
  | _ :: ts => simpleToks ts

/-- Patterns whose brackets are closed and whose tokens satisfy `simpleToks`. -/
def simplePattern (pattern : List Char) : Bool :=
  match tokenize pattern with
  | some ts => simpleToks ts
  | none => false

/-- A calendar date (year, month, day) in the lexicographic order: years first, then
months, then days. -/
def calendarDate (y m d : Int) : Lex (Int × Lex (Int × Int)) := toLex (y, toLex (m, d))

/-- The last-write date of an entry, from the conversion of its `ftLastWrite`. -/
def lastWriteDate {ω : Type} (sys : Win32 ω) (pEntry : CDirEntry) :
    Lex (Int × Lex (Int × Int)) :=
  calendarDate (sys.FileTimeToSystemTime pEntry.ftLastWrite).wYear
    (sys.FileTimeToSystemTime pEntry.ftLastWrite).wMonth
    (sys.FileTimeToSystemTime pEntry.ftLastWrite).wDay

/-- Condition (1) of the filter as the code tests it: the include list is empty or
`SubstringMatch` finds one of the include substrings in the path. -/
def includeOk (S : CSettings) (pszPath : List Char) : Prop :=
  S.cIncludes = [] ∨ ∃ inc ∈ S.cIncludes, SubstringMatch inc pszPath = true

/-- Condition (2) of the filter as the code tests it: `SubstringMatch` finds no exclude
substring in the path. -/
def excludeOk (S : CSettings) (pszPath : List Char) : Prop :=
  ∀ exc ∈ S.cExcludes, SubstringMatch exc pszPath = false

/-- Condition (3) of the filter: the wildcard list is empty or the path matches one of
the wildcards. -/
def wildOk (S : CSettings) (pszPath : List Char) : Prop :=
  S.cWilds = [] ∨ ∃ w ∈ S.cWilds, WildcardMatch w pszPath = true

/-- The older-than bound: none configured (the year is -1), or the date is not after it. -/
def olderOk (S : CSettings) (date : Lex (Int × Lex (Int × Int))) : Prop :=
  S.iOlderYear ≠ -1 → date ≤ calendarDate S.iOlderYear S.iOlderMonth S.iOlderDay

/-- The newer-than bound: none configured (the year is -1), or the date is not before it. -/
def newerOk (S : CSettings) (date : Lex (Int × Lex (Int × Int))) : Prop :=
  S.iNewerYear ≠ -1 → calendarDate S.iNewerYear S.iNewerMonth S.iNewerDay ≤ date

/-- Condition (5) of the filter: hidden and system entries are copied, or the entry has
neither attribute. -/
def hiddenOk (S : CSettings) (pEntry : CDirEntry) : Prop :=
  S.bHidden = true ∨
    (pEntry.dwAttrib &&& FILE_ATTRIBUTE_HIDDEN = 0 ∧ pEntry.dwAttrib &&& FILE_ATTRIBUTE_SYSTEM = 0)

/-- The lengths of the twelve months of a year. -/
def monthLengths (leap : Bool) : List Nat :=
  [31, if leap then 29 else 28, 31, 30, 31, 30, 31, 31, 30, 31, 30, 31]

/-- Month and day of the month (both counted from 1) for a day of the year counted from
0: walk the months, `m` being the number of the month reached. -/
def monthAndDay : List Nat → Nat → Nat → Nat × Nat
  | [], d, m => (m, d + 1)
  | len :: rest, d, m => if d < len then (m, d + 1) else monthAndDay rest (d - len) (m + 1)

/-- The Win32 conversion `FileTimeToSystemTime`, which is not code of this repository,
written out from its documentation: a `FILETIME` counts the 100 ns intervals since
1601-01-01 00:00 and the `SYSTEMTIME` is that instant in the Gregorian calendar (cycles
of 400, 100, 4 and 1 years of 146097, 36524, 1461 and 365 days). It serves as the
conversion wherever a statement speaks of timestamps a number of seconds apart. -/
def fileTimeToSystemTime (ft : Nat) : SYSTEMTIME :=
  let secs := ft / 10000000
  let days := secs / 86400
  let d1 := days % 146097
  let n100 := min (d1 / 36524) 3
  let d2 := d1 - n100 * 36524
  let d3 := d2 % 1461
  let n1 := min (d3 / 365) 3
  let leap : Bool := decide (n1 = 3 ∧ (d2 / 1461 ≠ 24 ∨ n100 = 3))
  let md := monthAndDay (monthLengths leap) (d3 - n1 * 365) 1
  { wYear := 1601 + 400 * (days / 146097) + 100 * n100 + 4 * (d2 / 1461) + n1
    wMonth := md.1
    wDay := md.2
    wHour := secs / 3600 % 24
    wMinute := secs / 60 % 60
    wSecond := secs % 60
    wMilliseconds := ft / 10000 % 1000 }

/-- The number of 100 ns intervals in a second. -/
def ticksPerSecond : Nat := 10000000

/-- Call a visitor on a sequence of visits, in order, up to and including the first on
which it returns false: the flag says whether every call returned true. -/
def visitUntil {σ : Type} (pEnum : EnumFn σ) : List Visit → σ → Bool × σ
  | [], ctx => (true, ctx)
  | v :: vs, ctx =>
    match pEnum ctx v.1 v.2.1 v.2.2 with
    | (false, ctx1) => (false, ctx1)
    | (true, ctx1) => visitUntil pEnum vs ctx1

/-- The calls `visitUntil` makes, each with the flag the visitor returned. -/
def visitTrace {σ : Type} (pEnum : EnumFn σ) : List Visit → σ → List (Visit × Bool)
  | [], _ => []
  | v :: vs, ctx =>
    match pEnum ctx v.1 v.2.1 v.2.2 with
    | (false, _) => [(v, false)]
    | (true, ctx1) => (v, true) :: visitTrace pEnum vs ctx1

/-- A visitor together with a record of its calls: it answers as `pEnum` does and appends
every call, with the flag returned, to the record. -/
def traced {σ : Type} (pEnum : EnumFn σ) : EnumFn (σ × List (Visit × Bool)) :=
  fun s pszPath pEntry bIsDir =>
    ((pEnum s.1 pszPath pEntry bIsDir).1,
      ((pEnum s.1 pszPath pEntry bIsDir).2,
        s.2 ++ [((pszPath, pEntry, bIsDir), (pEnum s.1 pszPath pEntry bIsDir).1)]))

/-- An enumeration that stops at the first false: `calls` are the calls made with the
flags returned, `full` is the full enumeration sequence and `result` the value returned.
The entries called are a prefix of the full sequence; a call that returned false is the
last call; the result is false exactly when some call returned false; and when the result
is true every entry of the full sequence was called. -/
def StopsAtFirstFalse (full : List Visit) (result : Bool) (calls : List (Visit × Bool)) :
    Prop :=
  calls.map Prod.fst <+: full ∧
  (∀ A x B, calls = A ++ x :: B → x.2 = false → B = []) ∧
  (result = false ↔ ∃ x ∈ calls, x.2 = false) ∧
  (result = true → calls.map Prod.fst = full)

mutual
/-- The sequence `EnumFiles` goes through: the pre-order sequence without the files whose
name is empty, which `EnumFiles` skips. -/
def CDir.forwardSeq : CDir → List Char → List Visit
  | .mk _ cFiles cDirs _, pszDirPath =>
    (cFiles.filter (fun f => decide (¬ f.sName.length < 1))).map
        (fun f => (subPath pszDirPath f.sName, f, false)) ++
      CDir.forwardSeqDirs cDirs pszDirPath
/-- The part of `CDir.forwardSeq` that comes from the child directories. -/
def CDir.forwardSeqDirs : List CDir → List Char → List Visit
  | [], _ => []
  | d :: rest, pszDirPath =>
    (subPath pszDirPath d.cThis.sName, d.cThis, true) ::
      (CDir.forwardSeq d (subPath pszDirPath d.cThis.sName) ++
        CDir.forwardSeqDirs rest pszDirPath)
end

mutual
/-- The directory nodes of a tree below its root, each with its path. -/
def CDir.dirNodes : CDir → List Char → List (List Char × CDir)
  | .mk _ _ cDirs _, pszDirPath => CDir.dirNodesList cDirs pszDirPath
/-- The same for a list of child directories, these included. -/
def CDir.dirNodesList : List CDir → List Char → List (List Char × CDir)
  | [], _ => []
  | d :: rest, pszDirPath =>
    (subPath pszDirPath d.cThis.sName, d) ::
      (CDir.dirNodes d (subPath pszDirPath d.cThis.sName) ++
        CDir.dirNodesList rest pszDirPath)
end

mutual
/-- `after.prunedFrom before`: the node `after` is the node `before` with entries taken
out and nothing else changed. Its own entry is the same, its file list is a sublist of
the file list before (same entries, same order), and its child directories are, in order,
child directories of before, each of them pruned in the same sense. -/
def CDir.prunedFrom : CDir → CDir → Bool
  | .mk t1 fs1 ds1 _, .mk t fs ds _ =>
    decide (t1 = t) && decide (fs1.Sublist fs) && CDir.prunedFromList ds1 ds
/-- The same for lists of child directories: the first list matches, in order, a sublist
of the second. -/
def CDir.prunedFromList : List CDir → List CDir → Bool
  | [], _ => true
  | _ :: _, [] => false
  | d1 :: l1, d :: l =>
    (CDir.prunedFrom d1 d && CDir.prunedFromList l1 l) || CDir.prunedFromList (d1 :: l1) l
end

mutual
/-- In every directory of the tree no two names, of files or of subdirectories, are equal
up to case. -/
def CDir.namesUnique : CDir → Bool
  | .mk _ cFiles cDirs _ =>
    decide ((nodeNames cFiles cDirs).map (fun n => n.map tolower)).Nodup &&
      CDir.namesUniqueList cDirs
/-- The same for a list of subdirectories. -/
def CDir.namesUniqueList : List CDir → Bool
  | [] => true
  | d :: rest => CDir.namesUnique d && CDir.namesUniqueList rest
end

/-- A predicate that is a pure function of path, entry and `bIsDir`, as a query function
whose state is the record of its calls, in order. -/
def pureQuery (q : List Char → CDirEntry → Bool → Bool) : EnumFn (List Visit) :=
  fun log pszPath pEntry bIsDir => (q pszPath pEntry bIsDir, log ++ [(pszPath, pEntry, bIsDir)])

/-- Whether the predicate accepts a visit. -/
def accepts (q : List Char → CDirEntry → Bool → Bool) (v : Visit) : Bool :=
  q v.1 v.2.1 v.2.2

mutual
/-- The entries of a tree below its root, in pre-order, each with its ancestors: the
directories strictly below the root that contain it, outermost first. -/
def CDir.entriesWithAncestors : CDir → List Char → List (Visit × List Visit)
  | .mk _ cFiles cDirs _, pszDirPath =>
    cFiles.map (fun f => ((subPath pszDirPath f.sName, f, false), [])) ++
      CDir.entriesWithAncestorsList cDirs pszDirPath
/-- The same for a list of child directories, these included. -/
def CDir.entriesWithAncestorsList : List CDir → List Char → List (Visit × List Visit)
  | [], _ => []
  | d :: rest, pszDirPath =>
    ((subPath pszDirPath d.cThis.sName, d.cThis, true), []) ::
      ((CDir.entriesWithAncestors d (subPath pszDirPath d.cThis.sName)).map
          (fun x => (x.1, (subPath pszDirPath d.cThis.sName, d.cThis, true) :: x.2)) ++
        CDir.entriesWithAncestorsList rest pszDirPath)
end

mutual
/-- The order of the three passes of a pruning: the files of the node, then its child
directories, then, for each child directory the predicate accepted, the same inside it. -/
def CDir.queryOrder (q : List Char → CDirEntry → Bool → Bool) : CDir → List Char → List Visit
  | .mk _ cFiles cDirs _, pszDirPath =>
    cFiles.map (fun f => (subPath pszDirPath f.sName, f, false)) ++
      (cDirs.map (fun d => (subPath pszDirPath d.cThis.sName, d.cThis, true)) ++
        CDir.queryOrderList q cDirs pszDirPath)
/-- The third pass over a list of child directories. -/
def CDir.queryOrderList (q : List Char → CDirEntry → Bool → Bool) :
    List CDir → List Char → List Visit
  | [], _ => []
  | d :: rest, pszDirPath =>
    (if q (subPath pszDirPath d.cThis.sName) d.cThis true
      then CDir.queryOrder q d (subPath pszDirPath d.cThis.sName) else []) ++
      CDir.queryOrderList q rest pszDirPath
end

mutual
/-- The tree a pure predicate leaves: at every node the files it accepts and the child
directories it accepts, each of these filtered in the same way. -/
def CDir.keep (q : List Char → CDirEntry → Bool → Bool) : CDir → List Char → CDir
  | .mk t cFiles cDirs e, pszDirPath =>
    .mk t (cFiles.filter (fun f => q (subPath pszDirPath f.sName) f false))
      (CDir.keepList q cDirs pszDirPath) e
/-- The same for a list of child directories. -/
def CDir.keepList (q : List Char → CDirEntry → Bool → Bool) : List CDir → List Char → List CDir
  | [], _ => []
  | d :: rest, pszDirPath =>
    if q (subPath pszDirPath d.cThis.sName) d.cThis true
    then CDir.keep q d (subPath pszDirPath d.cThis.sName) :: CDir.keepList q rest pszDirPath
    else CDir.keepList q rest pszDirPath
end

/-- The relative path `s1\s2\...\sn` of the segments `s1` and `s2, ..., sn`. -/
def joinPath : List Char → List (List Char) → List Char
  | s, [] => s
  | s, s2 :: rest => s ++ '\\' :: joinPath s2 rest

/-- Whether a reference points to the entry of a directory (`&cDirs[i].cThis`) rather
than to a file entry (`&cFiles[i]`). -/
def EntryRef.isDir : EntryRef → Bool
  | .file _ => false
  | .dir _ => true
  | .sub _ r => r.isDir

/-- `T.resolves s1 [s2, ..., sn] (e, isDir)`: there are child directories matching
`s1, ..., s(n-1)` up to case, level by level, and the last of them (the node itself for
`n = 1`) has the file `e` (`isDir = false`) or the child directory with entry `e`
(`isDir = true`) whose name equals `sn` up to case. -/
def CDir.resolves : CDir → List Char → List (List Char) → CDirEntry × Bool → Prop
  | T, s, [], x =>
    (∃ f ∈ T.cFiles, tcsicmpEq s f.sName = true ∧ x = (f, false)) ∨
    (∃ d ∈ T.cDirs, tcsicmpEq s d.cThis.sName = true ∧ x = (d.cThis, true))
  | T, s, s2 :: rest, x =>
    ∃ d ∈ T.cDirs, tcsicmpEq d.cThis.sName s = true ∧ CDir.resolves d s2 rest x

mutual
/-- No directory of the tree has two child directories whose names are equal up to case. -/
def CDir.dirNamesUnique : CDir → Bool
  | .mk _ _ cDirs _ =>
    decide (cDirs.map (fun d => d.cThis.sName.map tolower)).Nodup &&
      CDir.dirNamesUniqueList cDirs
/-- The same for a list of subdirectories. -/
def CDir.dirNamesUniqueList : List CDir → Bool
  | [] => true
  | d :: rest => CDir.dirNamesUnique d && CDir.dirNamesUniqueList rest
end

/-- No `*` token is directly followed by a bracket group. -/
def noStarGroup : List Tok → Bool
  | .star :: .group _ :: _ => false
  | _ :: ts => noStarGroup ts
  | [] => true

/-- The names on the way from the root to an entry: those of its ancestors, outermost
first, then its own. -/
def relSegments (x : Visit × List Visit) : List (List Char) :=
  x.2.map (fun a => a.2.1.sName) ++ [x.1.2.1.sName]

/-- A C string in memory, read through a pointer to its first character: the characters,
the terminating NUL, and behind it whatever the memory holds (`beyond`). -/
def cString (s : List Char) (beyond : Nat → Char) : Nat → Char :=
  fun i => if h : i < s.length then s.get ⟨i, h⟩
    else if i = s.length then NUL else beyond (i - s.length - 1)

/-- One pass of the bracket loop of `check_rexp` (util.cpp 153-173) on indices: `rexp` is
the memory behind the pattern pointer, `ch` is `str[s]`, `r` the index and `tmp` the
flag. `none` when the loop test `rexp[r] != ']' && rexp[r]` fails, otherwise the index
and the flag after the pass. -/
def check_rexp.groupStep (rexp : Nat → Char) (ch : Char) (r : Nat) (tmp : Bool) :
    Option (Nat × Bool) :=
  if rexp r ≠ ']' ∧ rexp r ≠ NUL then
    if rexp (r + 1) = '-' then
      some (r + 3,
        if tolower ch ≥ tolower (rexp r) ∧ tolower ch ≤ tolower (rexp (r + 2)) then true
        else tmp)
    else if tolower (rexp r) = tolower ch then some (r + 1, true)
    else some (r + 1, tmp)
  else none

/-- The bracket loop of `check_rexp` on indices, for at most `fuel` passes: the index and
the flag with which the loop ends, `none` when it has not ended by then. -/
def check_rexp.groupRun (rexp : Nat → Char) (ch : Char) : Nat → Nat → Bool → Option (Nat × Bool)
  | 0, _, _ => none
  | fuel + 1, r, tmp =>
    match check_rexp.groupStep rexp ch r tmp with
    | none => some (r, tmp)
    | some (r1, tmp1) => check_rexp.groupRun rexp ch fuel r1 tmp1

/-- A match that `ScanFiles` takes for a file of the directory: it has a name (a match
without a name stands for nothing on disk) and is not a directory. -/
def ScanFiles.isFile (stFind : WIN32_FIND_DATA) : Bool :=
  decide (stFind.cFileName.length > 0) &&
    decide (stFind.dwFileAttributes &&& FILE_ATTRIBUTE_DIRECTORY = 0)

/-- A match that `ScanFiles` takes for a subdirectory: it has a name, is a directory, and
is neither `.` nor `..`. -/
def ScanFiles.isSubdir (stFind : WIN32_FIND_DATA) : Bool :=
  decide (stFind.cFileName.length > 0) &&
    decide (stFind.dwFileAttributes &&& FILE_ATTRIBUTE_DIRECTORY ≠ 0) &&
    (!tcsicmpEq stFind.cFileName ".".toList && !tcsicmpEq stFind.cFileName "..".toList)

/-- The file entries of a directory on disk: its matches that are files, in the order of
the listing. -/
def FindDir.fileEntries : FindDir → List CDirEntry
  | .mk found => (found.filter (fun m => ScanFiles.isFile m.1)).map (fun m => ScanFiles.cFile m.1)

mutual
/-- The tree of a directory on disk under the entry `cThis`: the files of the listing in
order, and for each subdirectory of the listing, in order, the tree of that subdirectory
under the entry of its match. -/
def FindDir.tree (cThis : CDirEntry) (sError : List Char) : FindDir → CDir
  | .mk found =>
    .mk cThis ((found.filter (fun m => ScanFiles.isFile m.1)).map (fun m => ScanFiles.cFile m.1))
      (FindDir.subtrees found) sError
/-- The trees of the subdirectories among the matches. -/
def FindDir.subtrees : List (WIN32_FIND_DATA × FindDir) → List CDir
  | [] => []
  | (stFind, sub) :: rest =>
    if ScanFiles.isSubdir stFind then
      FindDir.tree (ScanFiles.cFile stFind) [] sub :: FindDir.subtrees rest
    else FindDir.subtrees rest
end

mutual
/-- The directories below a directory on disk, each as a visit (path, entry of the match,
true), in the order of the scan: a subdirectory, then what lies below it, then the next
subdirectory of the listing. -/
def FindDir.scanSeq : List Char → FindDir → List Visit
  | pszDirPath, .mk found => FindDir.scanSeqFound pszDirPath found
/-- The same for the matches of a listing. -/
def FindDir.scanSeqFound : List Char → List (WIN32_FIND_DATA × FindDir) → List Visit
  | _, [] => []
  | pszDirPath, (stFind, sub) :: rest =>
    if ScanFiles.isSubdir stFind then
      (subPath pszDirPath stFind.cFileName, ScanFiles.cFile stFind, true) ::
        (FindDir.scanSeq (subPath pszDirPath stFind.cFileName) sub ++
          FindDir.scanSeqFound pszDirPath rest)
    else FindDir.scanSeqFound pszDirPath rest
end

/-- The scan callback as a visitor of directory visits: it is passed the path only. -/
def scanVisitor {σ : Type} (pFunc : ScanFn σ) : EnumFn σ :=
  fun ctx pszPath _ _ => callScan pFunc ctx pszPath

/-- The scan callback that only records the paths it is called with, in order. -/
def recordScan : ScanFn (List (List Char)) := some (fun log p => (true, log ++ [p]))

/-- The directories a reference passes through, outermost first: for a place inside
`cDirs[i]` the entry of `cDirs[i]` itself, then the directories passed inside it. A
place in the node itself (`&cFiles[i]`, `&cDirs[i].cThis`) passes through none. -/
def EntryRef.ancestors : EntryRef → List EntryRef
  | .file _ => []
  | .dir _ => []
  | .sub i r => .dir i :: r.ancestors.map (EntryRef.sub i)

/-- The name of the entry is non-empty and holds no backslash, as the name of every
entry a scan adds. -/
def CDirEntry.plainName (e : CDirEntry) : Bool :=
  decide (e.sName ≠ []) && decide (¬ '\\' ∈ e.sName)

/-- The containment test of the filter as it is specified: `needle` occurs somewhere in
`text`, letter case ignored. -/
def containsIgnoringCase (needle text : List Char) : Prop :=
  needle.map tolower <:+: text.map tolower

/-! ### Inputs used in the examples -/

/-- An operating system without state in which every call succeeds, except that
`RawCopyFileWin32` answers with the given status and stores nothing. -/
def stubSys (copyStatus : Int) : Win32 Unit where
  MakeDir := fun _ u => (true, u)
  DirExists := fun _ u => (true, u)
  GetFileAttributes := fun _ u => (0x20, u)
  SetFileAttributes := fun _ _ u => (1, u)
  RawCopyFileWin32 := fun _ _ _ u => ((copyStatus, none), u)
  CompareFileWin32 := fun _ _ _ u => (true, u)
  CreateFile := fun _ u => (1, u)
  GetFileTime := fun _ u => (1, u)
  SetFileTime := fun _ u => (1, u)
  tunlink := fun _ u => (0, u)
  trmdir := fun _ u => (0, u)
  gettch := fun u => ('y', u)
  FileTimeToSystemTime := fun _ => ⟨1601, 1, 1, 0, 0, 0, 0⟩

/-- A file entry with a name and a size, all other fields as after a scan of a plain
file (`FILE_ATTRIBUTE_ARCHIVE`). -/
def fileEntry (name : String) (size : Nat) : CDirEntry :=
  ⟨name.toList, 0, 0x20, size, 0, 0, 0⟩

/-- A directory entry with a name. -/
def dirEntry (name : String) : CDirEntry :=
  ⟨name.toList, 0, FILE_ATTRIBUTE_DIRECTORY, 0, 0, 0, 0⟩

/-- The root node of a tree: `cThis` of the root is never filled in by a scan. -/
def rootDir (cFiles : List CDirEntry) (cDirs : List CDir) : CDir :=
  .mk ⟨[], 0, 0, 0, 0, 0, 0⟩ cFiles cDirs []

/-- The tree with files `a.txt`, `b.log` and a subdirectory `sub` holding `c.txt`. -/
def sampleTree : CDir :=
  rootDir [fileEntry "a.txt" 10, fileEntry "b.log" 20]
    [.mk (dirEntry "sub") [fileEntry "c.txt" 30] [] []]

/-- A run in move mode that continues after errors: source `C:\src` with the single
file `a.txt` of 100 bytes, empty destination `D:\dst`. -/
def moveGlobals : Globals Unit where
  cSettings :=
    { szSource := "C:\\src".toList, szDest := "D:\\dst".toList, bMove := true,
      bContinueAfterError := true }
  cTotals := {}
  cSrcTree := rootDir [fileEntry "a.txt" 100] []
  cDestTree := rootDir [] []
  os := ()
  calls := []

/-- A run in clean mode: source `C:\src` is the sample tree; the destination `D:\dst` holds
a tagged `a.txt`, an untagged `old.bak` and a tagged `sub` with a tagged `c.txt`. -/
def cleanGlobals : Globals Unit where
  cSettings := { szSource := "C:\\src".toList, szDest := "D:\\dst".toList, bClean := true }
  cTotals := {}
  cSrcTree := sampleTree
  cDestTree := rootDir [(fileEntry "a.txt" 10).tag, fileEntry "old.bak" 5]
    [.mk (dirEntry "sub").tag [(fileEntry "c.txt" 30).tag] [] []]
  os := ()
  calls := []

/-- A run of the tagging pass: source `C:\` (a root path that ends with a backslash) is
the sample tree; the destination `D:\dst` holds `A.TXT`, `old.bak` and `sub` with `c.txt`,
no entry tagged. -/
def tagGlobals : Globals Unit where
  cSettings := { szSource := "C:\\".toList, szDest := "D:\\dst".toList, bClean := true }
  cTotals := {}
  cSrcTree := sampleTree
  cDestTree := rootDir [fileEntry "A.TXT" 10, fileEntry "old.bak" 5]
    [.mk (dirEntry "sub") [fileEntry "c.txt" 30] [] []]
  os := ()
  calls := []

/-- A run in clean mode in which the destination mirrors the source: the sample tree
under the source root `C:\` and under the destination root `D:\dst`, nothing tagged yet. -/
def mirrorGlobals : Globals Unit where
  cSettings := { szSource := "C:\\".toList, szDest := "D:\\dst".toList, bClean := true }
  cTotals := {}
  cSrcTree := sampleTree
  cDestTree := sampleTree
  os := ()
  calls := []

/-- A run in clean mode with a filter: the source `C:\src` is the sample tree, the filter
excludes every path that contains `.log`, and the destination `D:\dst` holds `b.log` and
a stray `old.bak`. -/
def filterGlobals : Globals Unit where
  cSettings :=
    { szSource := "C:\\src".toList, szDest := "D:\\dst".toList, bClean := true,
      cExcludes := [".log".toList] }
  cTotals := {}
  cSrcTree := sampleTree
  cDestTree := rootDir [fileEntry "b.log" 20, fileEntry "old.bak" 5] []
  os := ()
  calls := []

/-- An operating system like `stubSys 0` whose time conversion is `fileTimeToSystemTime`. -/
def clockSys : Win32 Unit :=
  { stubSys 0 with FileTimeToSystemTime := fileTimeToSystemTime }

/-- A file entry with a name, a size and a last-write time. -/
def datedEntry (name : String) (size ftLastWrite : Nat) : CDirEntry :=
  ⟨name.toList, 0, 0x20, size, 0, 0, ftLastWrite⟩

/-- A run in update mode: the source `C:\src` holds `a.txt` of 100 bytes written at
2000-01-01 00:00:01, the destination `D:\dst` holds `A.TXT` of 100 bytes written two
seconds later. -/
def updateGlobals : Globals Unit where
  cSettings := { szSource := "C:\\src".toList, szDest := "D:\\dst".toList, bUpdate := true }
  cTotals := {}
  cSrcTree := rootDir [datedEntry "a.txt" 100 125911584010000000] []
  cDestTree := rootDir [datedEntry "A.TXT" 100 125911584030000000] []
  os := ()
  calls := []

/-- A run with an older-than date of 1601-01-01 and a newer-than date of 1600-12-31. -/
def dateGlobals : Globals Unit where
  cSettings :=
    { szSource := "C:\\src".toList, szDest := "D:\\dst".toList,
      iOlderYear := 1601, iOlderMonth := 1, iOlderDay := 1,
      iNewerYear := 1600, iNewerMonth := 12, iNewerDay := 31 }
  cTotals := {}
  cSrcTree := rootDir [fileEntry "a.txt" 100] []
  cDestTree := rootDir [] []
  os := ()
  calls := []

/-- A run in move mode: the source `C:\src` holds the directory `a`, which holds the
directory `b`; no files; empty destination `D:\dst`. -/
def nestedMoveGlobals : Globals Unit where
  cSettings := { szSource := "C:\\src".toList, szDest := "D:\\dst".toList, bMove := true }
  cTotals := {}
  cSrcTree := rootDir [] [.mk (dirEntry "a") [] [.mk (dirEntry "b") [] [] []] []]
  cDestTree := rootDir [] []
  os := ()
  calls := []

/-- Whether a call is a `_trmdir`. -/
def OsCall.isTrmdir : OsCall → Bool
  | .trmdir _ => true
  | _ => false

/-- A visitor with a counter as its state that returns true on its first `n` calls and
false from then on. -/
def stopAfter (n : Nat) : EnumFn Nat := fun k _ _ _ => (decide (k < n), k + 1)

/-- The pure predicate that accepts files and rejects directories. -/
def filesOnly : List Char → CDirEntry → Bool → Bool := fun _ _ bIsDir => !bIsDir

/-- A match for a file with a name and a size. -/
def foundFile (name : String) (size : Nat) : WIN32_FIND_DATA × FindDir :=
  (⟨name.toList, 0x20, 0, size, 0, 0, 0⟩, .mk [])

/-- A match for a directory with a name and what lies in it. -/
def foundDir (name : String) (found : List (WIN32_FIND_DATA × FindDir)) :
    WIN32_FIND_DATA × FindDir :=
  (⟨name.toList, FILE_ATTRIBUTE_DIRECTORY, 0, 0, 0, 0, 0⟩, .mk found)

/-- A directory on disk that lists `.`, `..`, `a.txt`, the directory `sub` (with `.`,
`..` and `c.txt`) and `b.log`. -/
def sampleDisk : FindDir :=
  .mk [foundDir "." [], foundDir ".." [], foundFile "a.txt" 10,
    foundDir "sub" [foundDir "." [], foundDir ".." [], foundFile "c.txt" 30],
    foundFile "b.log" 20]

/-- A scan callback with a counter that continues on its first `n` calls only. -/
def scanStopAfter (n : Nat) : ScanFn Nat := some (fun k _ => (decide (k < n), k + 1))

/-- A visitor that stops the enumeration at once. -/
def stopAtOnce : EnumFn Unit := fun u _ _ _ => (false, u)

/-- A run of the copy step from a source root that ends with a backslash: the source `C:\`
is the sample tree, the destination `D:\dst` is empty. -/
def copyGlobals : Globals Unit where
  cSettings := { szSource := "C:\\".toList, szDest := "D:\\dst".toList }
  cTotals := {}
  cSrcTree := sampleTree
  cDestTree := rootDir [] []
  os := ()
  calls := []

/-- A run with the include list that `/INCLUDE=,` leaves: one include string, which is
empty. Source `C:\src` is the sample tree, the destination `D:\dst` is empty. -/
def emptyIncludeGlobals : Globals Unit where
  cSettings := { szSource := "C:\\src".toList, szDest := "D:\\dst".toList, cIncludes := [[]] }
  cTotals := {}
  cSrcTree := sampleTree
  cDestTree := rootDir [] []
  os := ()
  calls := []

/-- A run with the exclude list that `/EXCLUDE=,` leaves: one exclude string, which is
empty. Source `C:\src` is the sample tree, the destination `D:\dst` is empty. -/
def emptyExcludeGlobals : Globals Unit where
  cSettings := { szSource := "C:\\src".toList, szDest := "D:\\dst".toList, cExcludes := [[]] }
  cTotals := {}
  cSrcTree := sampleTree
  cDestTree := rootDir [] []
  os := ()
  calls := []

/-! ## Theorems -/

/-! ### Copy engine -/

/-- C1, the code at the failing input: the first file is empty, the second holds one
byte, both open and the progress callback always continues; `CompareFileWin32` reports
the two files as equal although their lengths differ. -/
theorem CompareFileWin32_equal_on_longer_second_file :
    ([] : List Nat).length ≠ [120].length ∧
    (CompareFileWin32 (some (DiskFile.ofData [])) (some (DiskFile.ofData [120])) false
      (some (fun (c : Unit) _ _ => (true, c))) ()).1 = true := by
  refine ⟨by decide, ?_⟩
  simp [CompareFileWin32, CompareFileWin32.loop, callProgress, ReadFile, GetFileSize,
    DiskFile.openRead, DiskFile.ofData, chunkSize]

/-- C3, the code at the failing input: a three-byte source, a destination path that
holds no file and can be created, and a progress callback that returns false at its
first invocation; `RawCopyFileWin32` returns -5 and an empty file is left at the
destination path. -/
theorem RawCopyFileWin32_abort_at_first_call_leaves_file :
    (RawCopyFileWin32 (some (DiskFile.ofData [1, 2, 3])) ⟨none, true, fun _ => true⟩ false
      (some (fun (c : Unit) _ _ => (false, c))) ()).status = -5 ∧
    (RawCopyFileWin32 (some (DiskFile.ofData [1, 2, 3])) ⟨none, true, fun _ => true⟩ false
      (some (fun (c : Unit) _ _ => (false, c))) ()).dest = some [] := by
  constructor <;> rfl

/-! ### Planner: one entry -/

/-- C2, the code at the failing input: move mode with continue-after-error, the copy of
`C:\src\a.txt` returns -1 (open for read failed); `EnumCopy` counts the error, goes on,
requests the deletion of the source file and adds it to the source-deleted totals. -/
theorem EnumCopy_move_deletes_after_failed_copy :
    (EnumCopy (stubSys (-1)) moveGlobals "C:\\src\\a.txt".toList (fileEntry "a.txt" 100)
      false).1 = true ∧
    (EnumCopy (stubSys (-1)) moveGlobals "C:\\src\\a.txt".toList (fileEntry "a.txt" 100)
      false).2.calls =
      [.RawCopyFileWin32 "C:\\src\\a.txt".toList "D:\\dst\\a.txt".toList,
        .tunlink "C:\\src\\a.txt".toList] ∧
    (EnumCopy (stubSys (-1)) moveGlobals "C:\\src\\a.txt".toList (fileEntry "a.txt" 100)
      false).2.cTotals.iNumErrors = 1 ∧
    (EnumCopy (stubSys (-1)) moveGlobals "C:\\src\\a.txt".toList (fileEntry "a.txt" 100)
      false).2.cTotals.iSourceFilesDeleted = 1 ∧
    (EnumCopy (stubSys (-1)) moveGlobals "C:\\src\\a.txt".toList (fileEntry "a.txt" 100)
      false).2.cTotals.dSourceBytesDeleted = 100 := by
  decide

/-! ### Path matcher -/

theorem cur_nil : cur [] = NUL := rfl

theorem cur_cons (c : Char) (r : List Char) : cur (c :: r) = c := rfl

theorem group_nil (ch : Char) (tmp : Bool) : check_rexp.group ch [] tmp = (tmp, []) := by
  rw [check_rexp.group]
  simp [cur]

theorem group_cons (ch c : Char) (rest : List Char) (tmp : Bool) :
    check_rexp.group ch (c :: rest) tmp =
      if c ≠ ']' ∧ c ≠ NUL then
        if cur rest = '-' then
          check_rexp.group ch (rest.drop 2)
            (if tolower ch ≥ tolower c ∧ tolower ch ≤ tolower (cur (rest.drop 1))
             then true else tmp)
        else if tolower c = tolower ch then check_rexp.group ch rest true
        else check_rexp.group ch rest tmp
      else (tmp, c :: rest) := by
  rw [check_rexp.group]
  simp only [cur_cons, List.tail_cons, List.drop_succ_cons, dite_eq_ite]

/-- One turn of the loop `while (str[s] || rexp[r])` of `check_rexp`. -/
theorem check_rexp_unfold (str rexp : List Char) :
    check_rexp str rexp =
      if cur str ≠ NUL ∨ cur rexp ≠ NUL then
        match check_rexp.body str rexp with
        | .ret v => v
        | .next str1 rexp1 => check_rexp str1 rexp1
      else 1 := by
  rw [check_rexp]
  split
  · split <;> simp_all
  · rfl

/-- C4, counterexample: the pattern `*aa` is valid in the restricted grammar and the
classical matcher accepts the text `aa`, but `WildcardMatch` rejects it, because after
the `*` the matcher jumps to the last `a` of the text. -/
theorem WildcardMatch_differs_from_glob :
    validPattern "*aa".toList = true ∧
    globMatch "*aa".toList "aa".toList = true ∧
    WildcardMatch "*aa".toList "aa".toList = false := by
  refine ⟨by decide, by decide, ?_⟩
  simp [WildcardMatch, check_rexp_unfold, check_rexp.body, check_rexp.starSkip,
    check_rexp.starJump, check_rexp.lastMatch, cur, stepIf, tolower, NUL]

/-- C5, counterexample: the pattern `*a*` holds two `*` tokens, yet `check_rexp` returns
1 (matched) on the text `a`, so `WildcardMatch` is true. -/
theorem check_rexp_accepts_two_stars :
    "*a*".toList.count '*' = 2 ∧
    check_rexp "a".toList "*a*".toList = 1 ∧
    WildcardMatch "*a*".toList "a".toList = true := by
  refine ⟨by decide, ?_, ?_⟩ <;>
  simp [WildcardMatch, check_rexp_unfold, check_rexp.body, check_rexp.starSkip,
    check_rexp.starJump, check_rexp.lastMatch, cur, stepIf, tolower, NUL]

theorem stepIf_cons (c : Char) (r : List Char) (hc : c ≠ NUL) : stepIf (c :: r) = r := by
  simp [stepIf, cur, hc]

theorem check_rexp_adjacent_aux (post : List Char) (w : Char) (hw : w = '*' ∨ w = '?') :
    ∀ (n : Nat) (pre : List Char), pre.length ≤ n → NUL ∉ pre → '[' ∉ pre →
      ∀ str : List Char, check_rexp str (pre ++ '*' :: w :: post) ≠ 1 := by
  intro n
  induction n with
  | zero =>
    intro pre hlen _ _ str
    have hpre : pre = [] := List.length_eq_zero.mp (Nat.le_zero.mp hlen)
    subst hpre
    rw [check_rexp_unfold]
    simp only [List.nil_append, check_rexp.body, cur_cons, List.tail_cons]
    rw [if_pos (Or.inr (by decide))]
    rw [if_neg (by decide), if_neg (by decide), if_pos trivial, if_pos hw]
    decide
  | succ n ih =>
    intro pre hlen hnul hbr str
    cases pre with
    | nil => exact ih [] (Nat.zero_le _) hnul hbr str
    | cons c r =>
      have hc0 : c ≠ NUL := fun h => hnul (h ▸ List.mem_cons_self _ _)
      have hcb : c ≠ '[' := fun h => hbr (h ▸ List.mem_cons_self _ _)
      have hnul1 : NUL ∉ r := fun h => hnul (List.mem_cons_of_mem _ h)
      have hbr1 : '[' ∉ r := fun h => hbr (List.mem_cons_of_mem _ h)
      have hlen1 : r.length ≤ n := by
        simp only [List.length_cons] at hlen
        omega
      rw [check_rexp_unfold]
      simp only [List.cons_append, check_rexp.body, cur_cons, List.tail_cons]
      rw [if_pos (Or.inr hc0), if_neg hcb]
      by_cases hq : c = '?'
      · rw [if_pos hq]
        exact ih r hlen1 hnul1 hbr1 _
      · rw [if_neg hq]
        by_cases hs : c = '*'
        · rw [if_pos hs]
          cases r with
          | nil =>
            simp only [List.nil_append, cur_cons]
            rw [if_pos (Or.inl trivial)]
            decide
          | cons d r2 =>
            have hd0 : d ≠ NUL := fun h => hnul1 (h ▸ List.mem_cons_self _ _)
            have hnul2 : NUL ∉ r2 := fun h => hnul1 (List.mem_cons_of_mem _ h)
            have hbr2 : '[' ∉ r2 := fun h => hbr1 (List.mem_cons_of_mem _ h)
            have hlen2 : r2.length ≤ n := by
              simp only [List.length_cons] at hlen1
              omega
            simp only [List.cons_append, cur_cons]
            by_cases hd : d = '*' ∨ d = '?'
            · rw [if_pos hd]
              decide
            · rw [if_neg hd, if_neg hd0]
              split_ifs
              · decide
              · rw [stepIf_cons _ _ hd0]
                exact ih r2 hlen2 hnul2 hbr2 _
        · rw [if_neg hs]
          split_ifs
          · decide
          · rw [stepIf_cons _ _ hc0]
            exact ih r hlen1 hnul1 hbr1 _
          · decide
          · rw [stepIf_cons _ _ hc0]
            exact ih r hlen1 hnul1 hbr1 _

/-- C5, amended: when a `*` of the pattern is immediately followed by `*` or by `?`, and
the part of the pattern before that `*` holds no `[` (and no NUL), `check_rexp` does not
return 1 (matched) on any text, so `WildcardMatch` is false. -/
theorem check_rexp_rejects_adjacent_wildcards (pre post : List Char) (w : Char)
    (str : List Char) (hnul : NUL ∉ pre) (hbr : '[' ∉ pre) (hw : w = '*' ∨ w = '?') :
    check_rexp str (pre ++ '*' :: w :: post) ≠ 1 ∧
    WildcardMatch (pre ++ '*' :: w :: post) str = false := by
  have h := check_rexp_adjacent_aux post w hw pre.length pre (le_refl _) hnul hbr str
  exact ⟨h, by simp [WildcardMatch, h]⟩

/-- C5, witness: the amended statement at the pattern `a**b` and the text `axb`. -/
theorem check_rexp_rejects_adjacent_wildcards_witness :
    NUL ∉ "a".toList ∧ '[' ∉ "a".toList ∧ ('*' = '*' ∨ '*' = '?') ∧
    check_rexp "axb".toList ("a".toList ++ '*' :: '*' :: "b".toList) ≠ 1 ∧
    WildcardMatch ("a".toList ++ '*' :: '*' :: "b".toList) "axb".toList = false :=
  ⟨by decide, by decide, by decide,
    check_rexp_rejects_adjacent_wildcards "a".toList "b".toList '*' "axb".toList
      (by decide) (by decide) (by decide)⟩

/-! ### Path matcher: agreement with the classical matcher -/


theorem tolower_NUL : tolower NUL = NUL := by decide

theorem tolower_eq_NUL (c : Char) (h : tolower c = NUL) : c = NUL := by
  unfold tolower Char.toLower at h
  simp only at h
  split at h
  · rename_i hu
    exfalso
    have h1 := hu.1
    have h2 := hu.2
    generalize c.toNat = n at h h1 h2
    interval_cases n <;> revert h <;> decide
  · exact h

theorem tolower_eq_slash (c d : Char) (hd : d = '/' ∨ d = '\\')
    (h : tolower d = tolower c) : c = '/' ∨ c = '\\' := by
  have hd1 : tolower d = d := by
    rcases hd with rfl | rfl <;> decide
  rw [hd1] at h
  unfold tolower Char.toLower at h
  simp only at h
  split at h
  · rename_i hu
    exfalso
    have h1 := hu.1
    have h2 := hu.2
    generalize c.toNat = n at h h1 h2
    rcases hd with rfl | rfl <;> interval_cases n <;> revert h <;> decide
  · rw [← h]
    exact hd

theorem tolower_ne_of_NUL (c : Char) (hc : c ≠ NUL) : tolower NUL ≠ tolower c := by
  intro h
  rw [tolower_NUL] at h
  exact hc (tolower_eq_NUL c h.symm)


/-- What the scan for the last match computes on a NUL-free text: the text from the last
character equal to `c` up to case, or the start value when there is none. -/
theorem lastMatch_spec (c : Char) : ∀ (l : List Char) (o : Option (List Char)), NUL ∉ l →
    ((∀ e ∈ l, tolower e ≠ tolower c) ∧ check_rexp.lastMatch c l o = o) ∨
    (∃ u d v, l = u ++ d :: v ∧ tolower d = tolower c ∧ (∀ e ∈ v, tolower e ≠ tolower c) ∧
      check_rexp.lastMatch c l o = some (d :: v)) := by
  intro l
  induction l with
  | nil =>
    intro o _
    exact Or.inl ⟨by simp, rfl⟩
  | cons e l ih =>
    intro o hnul
    have he : e ≠ NUL := fun h => hnul (h ▸ List.mem_cons_self _ _)
    have hl : NUL ∉ l := fun h => hnul (List.mem_cons_of_mem _ h)
    simp only [check_rexp.lastMatch, if_neg he]
    by_cases hm : tolower e = tolower c
    · rw [if_pos hm]
      rcases ih (some (e :: l)) hl with ⟨hfree, hres⟩ | ⟨u, d, v, hl1, hd, hv, hres⟩
      · exact Or.inr ⟨[], e, l, rfl, hm, hfree, hres⟩
      · exact Or.inr ⟨e :: u, d, v, by rw [hl1]; rfl, hd, hv, hres⟩
    · rw [if_neg hm]
      rcases ih o hl with ⟨hfree, hres⟩ | ⟨u, d, v, hl1, hd, hv, hres⟩
      · refine Or.inl ⟨?_, hres⟩
        intro x hx
        rcases List.mem_cons.mp hx with rfl | hx
        · exact hm
        · exact hfree x hx
      · exact Or.inr ⟨e :: u, d, v, by rw [hl1]; rfl, hd, hv, hres⟩

/-- The position the code reaches after a star followed by `c`, on a NUL-free text: the
last character equal to `c` up to case when there is one; otherwise the character there
differs from `c`. -/
theorem starJump_spec (c : Char) (hc : c ≠ NUL) (t : List Char) (ht : NUL ∉ t) :
    ((∀ e ∈ t, tolower e ≠ tolower c) ∧
      tolower (cur (check_rexp.starJump c (check_rexp.starSkip t c))) ≠ tolower c) ∨
    (∃ u d v, t = u ++ d :: v ∧ tolower d = tolower c ∧ (∀ e ∈ v, tolower e ≠ tolower c) ∧
      check_rexp.starJump c (check_rexp.starSkip t c) = d :: v) := by
  have key : ∀ s : List Char, NUL ∉ s →
      ((∀ e ∈ s, tolower e ≠ tolower c) ∧
        tolower (cur (check_rexp.starJump c s)) ≠ tolower c) ∨
      (∃ u d v, s = u ++ d :: v ∧ tolower d = tolower c ∧
        (∀ e ∈ v, tolower e ≠ tolower c) ∧ check_rexp.starJump c s = d :: v) := by
    intro s hs
    unfold check_rexp.starJump
    rcases lastMatch_spec c s none hs with ⟨hfree, hres⟩ | ⟨u, d, v, hl1, hd, hv, hres⟩
    · rw [hres]
      refine Or.inl ⟨hfree, ?_⟩
      cases s with
      | nil => exact tolower_ne_of_NUL c hc
      | cons x s1 => exact hfree x (List.mem_cons_self _ _)
    · rw [hres]
      exact Or.inr ⟨u, d, v, hl1, hd, hv, rfl⟩
  cases t with
  | nil =>
    have h0 : check_rexp.starSkip [] c = [] := by simp [check_rexp.starSkip, cur]
    rw [h0]
    exact key [] ht
  | cons x t1 =>
    have hx : x ≠ NUL := fun h => ht (h ▸ List.mem_cons_self _ _)
    have ht1 : NUL ∉ t1 := fun h => ht (List.mem_cons_of_mem _ h)
    by_cases hm : tolower x = tolower c
    · have h0 : check_rexp.starSkip (x :: t1) c = x :: t1 := by
        simp [check_rexp.starSkip, cur, hm]
      rw [h0]
      exact key _ ht
    · have h0 : check_rexp.starSkip (x :: t1) c = t1 := by
        simp [check_rexp.starSkip, cur, hm, hx]
      rw [h0]
      rcases key t1 ht1 with ⟨hfree, hres⟩ | ⟨u, d, v, hl1, hd, hv, hres⟩
      · refine Or.inl ⟨?_, hres⟩
        intro e he
        rcases List.mem_cons.mp he with rfl | he
        · exact hm
        · exact hfree e he
      · exact Or.inr ⟨x :: u, d, v, by rw [hl1]; rfl, hd, hv, hres⟩

/-- The last occurrence is unique: two splits of a text at a character equal to `c` up to
case, each with a `c`-free remainder, have the same remainder. -/
theorem last_split_unique (c : Char) : ∀ (u u1 : List Char) (d d1 : Char) (v v1 : List Char),
    u ++ d :: v = u1 ++ d1 :: v1 → tolower d = tolower c → tolower d1 = tolower c →
    (∀ e ∈ v, tolower e ≠ tolower c) → (∀ e ∈ v1, tolower e ≠ tolower c) → v = v1 := by
  intro u
  induction u with
  | nil =>
    intro u1 d d1 v v1 h hd hd1 hv hv1
    cases u1 with
    | nil =>
      simp only [List.nil_append, List.cons.injEq] at h
      exact h.2
    | cons y u2 =>
      simp only [List.nil_append, List.cons_append, List.cons.injEq] at h
      exact absurd hd1 (hv d1 (by rw [h.2]; simp))
  | cons x u ih =>
    intro u1 d d1 v v1 h hd hd1 hv hv1
    cases u1 with
    | nil =>
      simp only [List.nil_append, List.cons_append, List.cons.injEq] at h
      exact absurd hd (hv1 d (by rw [← h.2]; simp))
    | cons y u2 =>
      simp only [List.cons_append, List.cons.injEq] at h
      exact ih u2 d d1 v v1 h.2 hd hd1 hv hv1


theorem admits_one_NUL (c : Char) (hc : c ≠ NUL) : GroupItem.admits NUL (.one c) = false := by
  simp only [GroupItem.admits, decide_eq_false_iff_not]
  intro h
  exact tolower_ne_of_NUL c hc h.symm

theorem admits_range_NUL (lo hi : Char) (hlo : lo ≠ NUL) :
    GroupItem.admits NUL (.range lo hi) = false := by
  simp only [GroupItem.admits, decide_eq_false_iff_not, tolower_NUL]
  intro h
  have h1 : tolower lo = NUL := le_antisymm h.1 (by
    show (0 : Nat) ≤ (tolower lo).toNat
    exact Nat.zero_le _)
  exact hlo (tolower_eq_NUL lo h1)

/-- The bracket loop of the code and the bracket part of the tokenizer read the same
group: on a NUL-free pattern that tokenizes from inside a bracket, the loop stops on the
closing bracket with the flag raised exactly when a member admits the character. -/
theorem group_tokenize (ch : Char) : ∀ (n : Nat) (rexp : List Char) (acc : List GroupItem)
    (tmp : Bool) (ts : List Tok), rexp.length ≤ n → NUL ∉ rexp →
    tokenizeGroup rexp acc = some ts →
    ∃ items rest ts1,
      check_rexp.group ch rexp tmp = (tmp || items.any (GroupItem.admits ch), ']' :: rest) ∧
      tokenize rest = some ts1 ∧ ts = Tok.group (acc.reverse ++ items) :: ts1 ∧
      rest.length < rexp.length ∧ NUL ∉ rest ∧
      (ch = NUL → items.any (GroupItem.admits ch) = false) := by
  intro n
  induction n with
  | zero =>
    intro rexp acc tmp ts hlen _ htok
    have h0 : rexp = [] := List.length_eq_zero.mp (Nat.le_zero.mp hlen)
    subst h0
    simp [tokenizeGroup] at htok
  | succ n ih =>
    intro rexp acc tmp ts hlen hnul htok
    match rexp, hlen, hnul, htok with
    | [], _, _, htok => simp [tokenizeGroup] at htok
    | [c], _, hnul, htok =>
      simp only [tokenizeGroup, tokenize, Option.map_some'] at htok
      split at htok
      · rename_i hc
        subst hc
        refine ⟨[], [], [], ?_, rfl, ?_, by simp, by simp, by simp⟩
        · rw [group_cons]
          simp
        · simpa using htok.symm
      · cases htok
    | [c, d], hlen, hnul, htok =>
      simp only [tokenizeGroup] at htok
      have hc0 : c ≠ NUL := fun h => hnul (h ▸ List.mem_cons_self _ _)
      have hnul1 : NUL ∉ [d] := fun h => hnul (List.mem_cons_of_mem _ h)
      split at htok
      · rename_i hc
        subst hc
        rcases Option.map_eq_some'.mp htok with ⟨ts1, h1, h2⟩
        refine ⟨[], [d], ts1, ?_, h1, ?_, by simp, hnul1, by simp⟩
        · rw [group_cons]
          simp
        · simpa using h2.symm
      · rename_i hc
        split at htok
        · cases htok
        · rename_i hd
          obtain ⟨items, rest, ts1, hg, h1, h2, h3, h4, h5⟩ :=
            ih [d] (GroupItem.one c :: acc) (tmp || GroupItem.admits ch (.one c)) ts
              (by simp only [List.length_cons] at hlen ⊢; omega) hnul1 htok
          refine ⟨GroupItem.one c :: items, rest, ts1, ?_, h1, ?_, ?_, h4, ?_⟩
          · rw [group_cons, if_pos ⟨hc, hc0⟩, cur_cons, if_neg hd]
            by_cases hm : tolower c = tolower ch
            · rw [if_pos hm]
              have hg1 := hg
              simp only [GroupItem.admits, hm, decide_True, Bool.or_true] at hg1
              rw [hg1]
              simp [GroupItem.admits, hm]
            · rw [if_neg hm]
              have hg1 := hg
              simp only [GroupItem.admits, hm, decide_False, Bool.or_false] at hg1
              rw [hg1]
              simp [GroupItem.admits, hm]
          · rw [h2]
            simp
          · simp only [List.length_cons] at h3 ⊢
            omega
          · intro hch
            subst hch
            simp only [List.any_cons, admits_one_NUL c hc0, Bool.false_or]
            exact h5 rfl
    | c :: d :: hi :: r2, hlen, hnul, htok =>
      simp only [tokenizeGroup] at htok
      have hc0 : c ≠ NUL := fun h => hnul (h ▸ List.mem_cons_self _ _)
      have hnul1 : NUL ∉ d :: hi :: r2 := fun h => hnul (List.mem_cons_of_mem _ h)
      have hnul2 : NUL ∉ r2 := fun h =>
        hnul1 (List.mem_cons_of_mem _ (List.mem_cons_of_mem _ h))
      split at htok
      · rename_i hc
        subst hc
        rcases Option.map_eq_some'.mp htok with ⟨ts1, h1, h2⟩
        refine ⟨[], d :: hi :: r2, ts1, ?_, h1, ?_, by simp, hnul1, by simp⟩
        · rw [group_cons]
          simp
        · simpa using h2.symm
      · rename_i hc
        split at htok
        · rename_i hd
          obtain ⟨items, rest, ts1, hg, h1, h2, h3, h4, h5⟩ :=
            ih r2 (GroupItem.range c hi :: acc) (tmp || GroupItem.admits ch (.range c hi)) ts
              (by simp only [List.length_cons] at hlen ⊢; omega) hnul2 htok
          refine ⟨GroupItem.range c hi :: items, rest, ts1, ?_, h1, ?_, ?_, h4, ?_⟩
          · rw [group_cons, if_pos ⟨hc, hc0⟩, cur_cons, if_pos hd]
            simp only [List.drop_succ_cons, List.drop_zero, cur_cons]
            by_cases hm : tolower ch ≥ tolower c ∧ tolower ch ≤ tolower hi
            · rw [if_pos hm]
              have hm1 : tolower c ≤ tolower ch ∧ tolower ch ≤ tolower hi := hm
              have hg1 := hg
              simp only [GroupItem.admits, hm1, and_self, decide_True, Bool.or_true] at hg1
              rw [hg1]
              simp [GroupItem.admits, hm1]
            · rw [if_neg hm]
              have hm1 : ¬ (tolower c ≤ tolower ch ∧ tolower ch ≤ tolower hi) := hm
              have hg1 := hg
              simp only [GroupItem.admits, hm1, decide_False, Bool.or_false] at hg1
              rw [hg1]
              simp [GroupItem.admits, hm1]
          · rw [h2]
            simp
          · simp only [List.length_cons] at h3 ⊢
            omega
          · intro hch
            subst hch
            simp only [List.any_cons, admits_range_NUL c hi hc0, Bool.false_or]
            exact h5 rfl
        · rename_i hd
          obtain ⟨items, rest, ts1, hg, h1, h2, h3, h4, h5⟩ :=
            ih (d :: hi :: r2) (GroupItem.one c :: acc) (tmp || GroupItem.admits ch (.one c)) ts
              (by simp only [List.length_cons] at hlen ⊢; omega) hnul1 htok
          refine ⟨GroupItem.one c :: items, rest, ts1, ?_, h1, ?_, ?_, h4, ?_⟩
          · rw [group_cons, if_pos ⟨hc, hc0⟩, cur_cons, if_neg hd]
            by_cases hm : tolower c = tolower ch
            · rw [if_pos hm]
              have hg1 := hg
              simp only [GroupItem.admits, hm, decide_True, Bool.or_true] at hg1
              rw [hg1]
              simp [GroupItem.admits, hm]
            · rw [if_neg hm]
              have hg1 := hg
              simp only [GroupItem.admits, hm, decide_False, Bool.or_false] at hg1
              rw [hg1]
              simp [GroupItem.admits, hm]
          · rw [h2]
            simp
          · simp only [List.length_cons] at h3 ⊢
            omega
          · intro hch
            subst hch
            simp only [List.any_cons, admits_one_NUL c hc0, Bool.false_or]
            exact h5 rfl


theorem tokenize_cons (c : Char) (r : List Char) :
    tokenize (c :: r) =
      if c = '[' then tokenizeGroup r []
      else if c = '?' then (tokenize r).map (fun ts => Tok.any :: ts)
      else if c = '*' then (tokenize r).map (fun ts => Tok.star :: ts)
      else if c = '/' ∨ c = '\\' then (tokenize r).map (fun ts => Tok.slash :: ts)
      else (tokenize r).map (fun ts => Tok.lit c :: ts) := by
  rw [tokenize]

theorem check_rexp_cons (t : List Char) (c : Char) (r : List Char) (hc : c ≠ NUL) :
    check_rexp t (c :: r) =
      match check_rexp.body t (c :: r) with
      | .ret v => v
      | .next s q => check_rexp s q := by
  rw [check_rexp_unfold]
  refine (if_pos (show cur t ≠ NUL ∨ cur (c :: r) ≠ NUL from Or.inr hc)).trans ?_
  cases check_rexp.body t (c :: r) <;> rfl

theorem check_rexp_nil (t : List Char) (ht : NUL ∉ t) :
    check_rexp t [] = 1 ↔ t = [] := by
  cases t with
  | nil =>
    rw [check_rexp_unfold]
    simp [cur]
  | cons d t1 =>
    have hd : d ≠ NUL := fun h => ht (h ▸ List.mem_cons_self _ _)
    have hd1 : tolower d ≠ tolower NUL := fun h => tolower_ne_of_NUL d hd h.symm
    rw [check_rexp_unfold, if_pos (show cur (d :: t1) ≠ NUL ∨ cur [] ≠ NUL from Or.inl hd)]
    simp only [check_rexp.body, cur_nil, cur_cons]
    rw [if_neg (by decide), if_neg (by decide), if_neg (by decide), if_neg (by decide),
      if_pos hd1]
    simp

theorem matches1_congr (tk : Tok) (c d : Char) (h : tolower d = tolower c)
    (hm : tk.matches1 d = true) : tk.matches1 c = true := by
  cases tk with
  | lit x => simpa [Tok.matches1, h] using hm
  | any => rfl
  | star => simp [Tok.matches1] at hm
  | slash =>
    simp only [Tok.matches1, decide_eq_true_eq] at hm ⊢
    exact tolower_eq_slash c d hm h
  | group items =>
    simp only [Tok.matches1, List.any_eq_true] at hm ⊢
    obtain ⟨i, hi, ha⟩ := hm
    refine ⟨i, hi, ?_⟩
    cases i with
    | one x => simpa [GroupItem.admits, h] using ha
    | range lo hi => simpa [GroupItem.admits, h] using ha

theorem simpleToks_of_plain : ∀ (rest : List Tok) (c : Char),
    rest.all (fun t => !t.isWild && !t.matches1 c) = true → simpleToks rest = true := by
  intro rest
  induction rest with
  | nil => intro _ _; rfl
  | cons tk ts ih =>
    intro c h
    simp only [List.all_cons, Bool.and_eq_true] at h
    cases tk with
    | any => simp [Tok.isWild] at h
    | star => simp [Tok.isWild] at h
    | lit x => simpa [simpleToks] using ih c h.2
    | slash => simpa [simpleToks] using ih c h.2
    | group items => simpa [simpleToks] using ih c h.2

theorem globToks_plain_free : ∀ (rest : List Tok) (c : Char) (v : List Char),
    rest.all (fun t => !t.isWild && !t.matches1 c) = true → globToks rest v = true →
    ∀ e ∈ v, tolower e ≠ tolower c := by
  intro rest
  induction rest with
  | nil =>
    intro c v _ hg
    cases v with
    | nil => simp
    | cons e v1 => simp [globToks] at hg
  | cons tk ts ih =>
    intro c v h hg
    simp only [List.all_cons, Bool.and_eq_true, Bool.not_eq_true', Bool.not_eq_eq_eq_not,
      Bool.not_true] at h
    cases v with
    | nil => simp
    | cons e v1 =>
      have hg1 : tk.matches1 e = true ∧ globToks ts v1 = true := by
        cases tk with
        | star => simp [Tok.isWild] at h
        | any => simp [Tok.isWild] at h
        | lit x => simpa [globToks] using hg
        | slash => simpa [globToks] using hg
        | group items => simpa [globToks] using hg
      intro x hx
      rcases List.mem_cons.mp hx with rfl | hx
      · intro hxc
        have := matches1_congr tk c x hxc hg1.1
        rw [h.1.2] at this
        cases this
      · exact ih c v1 (by simpa using h.2) hg1.2 x hx

theorem tokenizeGroup_ne_nil (r : List Char) (hr : NUL ∉ r) (ts : List Tok)
    (h : tokenizeGroup r [] = some ts) : ∃ items ts1, ts = Tok.group items :: ts1 := by
  obtain ⟨items, rest, ts1, -, -, h2, -⟩ := group_tokenize NUL r.length r [] false ts
    (le_refl _) hr h
  exact ⟨_, _, h2⟩


theorem globToks_star (ps : List Tok) (t : List Char) :
    globToks (Tok.star :: ps) t = true ↔ ∃ u w, t = u ++ w ∧ globToks ps w = true := by
  simp only [globToks, List.any_eq_true, List.mem_tails]
  constructor
  · rintro ⟨w, ⟨u, hu⟩, hw⟩
    exact ⟨u, w, hu.symm, hw⟩
  · rintro ⟨u, w, hu, hw⟩
    exact ⟨w, ⟨u, hu.symm⟩, hw⟩

theorem globToks_cons_nil (tk : Tok) (ps : List Tok) (h : tk ≠ Tok.star) :
    globToks (tk :: ps) [] = false := by
  cases tk with
  | star => exact absurd rfl h
  | lit x => simp [globToks]
  | any => simp [globToks]
  | slash => simp [globToks]
  | group items => simp [globToks]

theorem globToks_cons_cons (tk : Tok) (ps : List Tok) (d : Char) (t : List Char)
    (h : tk ≠ Tok.star) :
    globToks (tk :: ps) (d :: t) = (tk.matches1 d && globToks ps t) := by
  cases tk with
  | star => exact absurd rfl h
  | lit x => simp [globToks]
  | any => simp [globToks]
  | slash => simp [globToks]
  | group items => simp [globToks]

theorem tokenize_eq_nil (p : List Char) (hp : NUL ∉ p) (h : tokenize p = some []) :
    p = [] := by
  cases p with
  | nil => rfl
  | cons c r =>
    exfalso
    have hr : NUL ∉ r := fun h => hp (List.mem_cons_of_mem _ h)
    rw [tokenize_cons] at h
    split_ifs at h
    · obtain ⟨items, ts1, h2⟩ := tokenizeGroup_ne_nil r hr [] h
      cases h2
    all_goals
      rcases Option.map_eq_some'.mp h with ⟨ts1, -, h2⟩
      cases h2

theorem tokenize_lit_inv (p : List Char) (hp : NUL ∉ p) (x : Char) (rest : List Tok)
    (h : tokenize p = some (Tok.lit x :: rest)) :
    ∃ r, p = x :: r ∧ tokenize r = some rest ∧ x ≠ '[' ∧ x ≠ '?' ∧ x ≠ '*' ∧
      ¬ (x = '/' ∨ x = '\\') := by
  cases p with
  | nil => simp [tokenize] at h
  | cons c r =>
    have hr : NUL ∉ r := fun h => hp (List.mem_cons_of_mem _ h)
    rw [tokenize_cons] at h
    split_ifs at h with h1 h2 h3 h4
    · obtain ⟨items, ts1, h2⟩ := tokenizeGroup_ne_nil r hr _ h
      cases h2
    · rcases Option.map_eq_some'.mp h with ⟨ts1, -, h2⟩
      cases h2
    · rcases Option.map_eq_some'.mp h with ⟨ts1, -, h2⟩
      cases h2
    · rcases Option.map_eq_some'.mp h with ⟨ts1, -, h2⟩
      cases h2
    · rcases Option.map_eq_some'.mp h with ⟨ts1, h5, h6⟩
      cases h6
      exact ⟨r, rfl, h5, h1, h2, h3, h4⟩

theorem body_question (t r : List Char) :
    check_rexp.body t ('?' :: r) = .next (stepIf t) r := by
  simp only [check_rexp.body, cur_cons, List.tail_cons]
  rw [if_neg (by decide), if_pos trivial]

theorem body_slash (t : List Char) (c : Char) (r : List Char) (hc : c = '/' ∨ c = '\\') :
    check_rexp.body t (c :: r) =
      if cur t ≠ '/' ∧ cur t ≠ '\\' then .ret 0 else .next (stepIf t) r := by
  have hc0 : c ≠ NUL := by rcases hc with rfl | rfl <;> decide
  have h1 : c ≠ '[' := by rcases hc with rfl | rfl <;> decide
  have h2 : c ≠ '?' := by rcases hc with rfl | rfl <;> decide
  have h3 : c ≠ '*' := by rcases hc with rfl | rfl <;> decide
  simp only [check_rexp.body, cur_cons]
  rw [if_neg h1, if_neg h2, if_neg h3, if_pos hc, stepIf_cons c r hc0]

theorem body_lit (t : List Char) (c : Char) (r : List Char) (hc0 : c ≠ NUL) (h1 : c ≠ '[')
    (h2 : c ≠ '?') (h3 : c ≠ '*') (h4 : ¬ (c = '/' ∨ c = '\\')) :
    check_rexp.body t (c :: r) =
      if tolower (cur t) ≠ tolower c then .ret 0 else .next (stepIf t) r := by
  simp only [check_rexp.body, cur_cons]
  rw [if_neg h1, if_neg h2, if_neg h3, if_neg h4, stepIf_cons c r hc0]

theorem body_star_end (t : List Char) : check_rexp.body t ['*'] = .ret 1 := by
  simp only [check_rexp.body, cur_cons, List.tail_cons, cur_nil]
  rw [if_neg (by decide), if_neg (by decide), if_pos trivial, if_neg (by decide),
    if_pos trivial]

theorem body_star_lit (t : List Char) (c : Char) (r : List Char) (hc0 : c ≠ NUL)
    (h2 : c ≠ '?') (h3 : c ≠ '*') :
    check_rexp.body t ('*' :: c :: r) =
      if tolower (cur (check_rexp.starJump c (check_rexp.starSkip t c))) ≠ tolower c
      then .ret 0
      else .next (stepIf (check_rexp.starJump c (check_rexp.starSkip t c))) r := by
  simp only [check_rexp.body, cur_cons, List.tail_cons]
  rw [if_neg (by decide), if_neg (by decide), if_pos trivial,
    if_neg (by rintro (h | h); exact h3 h; exact h2 h), if_neg hc0, stepIf_cons c r hc0]

theorem body_group (t r : List Char) :
    check_rexp.body t ('[' :: r) =
      if cur (check_rexp.group (cur t) r false).2 ≠ ']' then .ret (-1)
      else if (check_rexp.group (cur t) r false).1 = false then .ret 0
      else .next (stepIf t) (check_rexp.group (cur t) r false).2.tail := by
  simp only [check_rexp.body, cur_cons, List.tail_cons]
  rw [if_pos trivial]


/-- The code and the classical matcher agree on the tokens of a simple pattern. -/
theorem check_rexp_iff_globToks : ∀ (n : Nat) (p : List Char) (ts : List Tok) (t : List Char),
    p.length ≤ n → NUL ∉ p → NUL ∉ t → tokenize p = some ts → simpleToks ts = true →
    (check_rexp t p = 1 ↔ globToks ts t = true) := by
  intro n
  induction n with
  | zero =>
    intro p ts t hlen _ ht htok _
    have h0 : p = [] := List.length_eq_zero.mp (Nat.le_zero.mp hlen)
    subst h0
    simp only [tokenize, Option.some.injEq] at htok
    subst htok
    rw [check_rexp_nil t ht]
    cases t <;> simp [globToks]
  | succ n ih =>
    intro p ts t hlen hp ht htok hs
    cases p with
    | nil =>
      simp only [tokenize, Option.some.injEq] at htok
      subst htok
      rw [check_rexp_nil t ht]
      cases t <;> simp [globToks]
    | cons c r =>
      have hc0 : c ≠ NUL := fun h => hp (h ▸ List.mem_cons_self _ _)
      have hr : NUL ∉ r := fun h => hp (List.mem_cons_of_mem _ h)
      have hlen1 : r.length ≤ n := by
        simp only [List.length_cons] at hlen
        omega
      have hstep : ∀ (d : Char) (t1 : List Char), NUL ∉ d :: t1 → stepIf (d :: t1) = t1 ∧
          NUL ∉ t1 := by
        intro d t1 h
        exact ⟨stepIf_cons d t1 (fun e => h (e ▸ List.mem_cons_self _ _)),
          fun e => h (List.mem_cons_of_mem _ e)⟩
      rw [tokenize_cons] at htok
      rw [check_rexp_cons t c r hc0]
      by_cases hb : c = '['
      · -- bracket group
        subst hb
        rw [if_pos rfl] at htok
        obtain ⟨items, rest, ts1, hg, h1, h2, h3, h4, h5⟩ :=
          group_tokenize (cur t) r.length r [] false ts (le_refl _) hr htok
        simp only [List.reverse_nil, List.nil_append] at h2
        subst h2
        have hs1 : simpleToks ts1 = true := by simpa [simpleToks] using hs
        rw [body_group, hg]
        simp only [cur_cons, ne_eq, not_true_eq_false, if_false, Bool.false_or,
          List.tail_cons]
        cases t with
        | nil =>
          rw [h5 rfl]
          simp [globToks]
        | cons d t1 =>
          obtain ⟨hst, ht1⟩ := hstep d t1 ht
          rw [globToks_cons_cons _ _ _ _ (by simp), hst, cur_cons]
          by_cases hm : items.any (GroupItem.admits d) = true
          · rw [if_neg (by simp [hm])]
            simp only [Tok.matches1, hm, Bool.true_and]
            exact ih rest ts1 t1 (by omega) h4 ht1 h1 hs1
          · rw [if_pos (by simpa using hm)]
            simp [Tok.matches1, hm]
      · rw [if_neg hb] at htok
        by_cases hq : c = '?'
        · -- question mark
          subst hq
          rw [if_pos rfl] at htok
          rcases Option.map_eq_some'.mp htok with ⟨ts1, h1, h2⟩
          subst h2
          rw [body_question]
          cases ts1 with
          | nil => simp [simpleToks] at hs
          | cons b ts2 =>
            simp only [simpleToks, Bool.and_eq_true, Bool.not_eq_true'] at hs
            have hbs : b ≠ Tok.star := by
              intro e
              rw [e] at hs
              simp [Tok.isWild] at hs
            cases t with
            | nil =>
              have h0 : stepIf ([] : List Char) = [] := by simp [stepIf, cur]
              rw [h0]
              have := ih r (b :: ts2) [] hlen1 hr ht h1 hs.2
              rw [globToks_cons_nil b ts2 hbs] at this
              simp only [this]
              simp [globToks]
            | cons d t1 =>
              obtain ⟨hst, ht1⟩ := hstep d t1 ht
              rw [hst, globToks_cons_cons _ _ _ _ (by simp)]
              simp only [Tok.matches1, Bool.true_and]
              exact ih r (b :: ts2) t1 hlen1 hr ht1 h1 hs.2
        · rw [if_neg hq] at htok
          by_cases hst : c = '*'
          · -- star
            subst hst
            rw [if_pos rfl] at htok
            rcases Option.map_eq_some'.mp htok with ⟨ts1, h1, h2⟩
            subst h2
            cases ts1 with
            | nil =>
              have hr0 := tokenize_eq_nil r hr h1
              subst hr0
              rw [body_star_end, globToks_star]
              simp only [true_iff]
              exact ⟨t, [], by simp, by simp [globToks]⟩
            | cons tk rest =>
              cases tk with
              | any => simp [simpleToks] at hs
              | star => simp [simpleToks] at hs
              | slash => simp [simpleToks] at hs
              | group items => simp [simpleToks] at hs
              | lit x =>
                simp only [simpleToks] at hs
                obtain ⟨r1, hr1, htok1, hx1, hx2, hx3, hx4⟩ :=
                  tokenize_lit_inv r hr x rest h1
                subst hr1
                have hx0 : x ≠ NUL := fun h => hr (h ▸ List.mem_cons_self _ _)
                have hr1 : NUL ∉ r1 := fun h => hr (List.mem_cons_of_mem _ h)
                have hlen2 : r1.length ≤ n := by
                  simp only [List.length_cons] at hlen1
                  omega
                rw [body_star_lit t x r1 hx0 hx2 hx3, globToks_star]
                rcases starJump_spec x hx0 t ht with ⟨hfree, hne⟩ | ⟨u, d, v, htuv, hd, hv, hj⟩
                · rw [if_pos hne]
                  constructor
                  · intro h
                    cases h
                  · rintro ⟨u, w, hw, hgl⟩
                    exfalso
                    cases w with
                    | nil => simp [globToks] at hgl
                    | cons e w1 =>
                      rw [globToks_cons_cons _ _ _ _ (by simp)] at hgl
                      simp only [Tok.matches1, Bool.and_eq_true, decide_eq_true_eq] at hgl
                      exact hfree e (by rw [hw]; simp) hgl.1.symm
                · have hdv : NUL ∉ d :: v := by
                    intro h
                    apply ht
                    rw [htuv]
                    exact List.mem_append_right _ h
                  obtain ⟨hsv, hv0⟩ := hstep d v hdv
                  rw [hj, cur_cons, if_neg (by simp [hd]), hsv]
                  have hih := ih r1 rest v hlen2 hr1 hv0 htok1 (simpleToks_of_plain rest x hs)
                  simp only [hih]
                  constructor
                  · intro hgl
                    refine ⟨u, d :: v, htuv, ?_⟩
                    rw [globToks_cons_cons _ _ _ _ (by simp)]
                    simp [Tok.matches1, hd, hgl]
                  · rintro ⟨u1, w, hw, hgl⟩
                    cases w with
                    | nil => simp [globToks] at hgl
                    | cons e w1 =>
                      rw [globToks_cons_cons _ _ _ _ (by simp)] at hgl
                      simp only [Tok.matches1, Bool.and_eq_true, decide_eq_true_eq] at hgl
                      have hfree1 := globToks_plain_free rest x w1 hs hgl.2
                      have hvw : v = w1 :=
                        last_split_unique x u u1 d e v w1 (htuv.symm.trans hw) hd hgl.1.symm
                          hv hfree1
                      rw [hvw]
                      exact hgl.2
          · rw [if_neg hst] at htok
            by_cases hsl : c = '/' ∨ c = '\\'
            · -- slash
              rw [if_pos hsl] at htok
              rcases Option.map_eq_some'.mp htok with ⟨ts1, h1, h2⟩
              subst h2
              have hs1 : simpleToks ts1 = true := by simpa [simpleToks] using hs
              rw [body_slash t c r hsl]
              cases t with
              | nil =>
                rw [cur_nil, if_pos (by decide)]
                simp [globToks]
              | cons d t1 =>
                obtain ⟨hst1, ht1⟩ := hstep d t1 ht
                rw [hst1, cur_cons, globToks_cons_cons _ _ _ _ (by simp)]
                by_cases hm : d = '/' ∨ d = '\\'
                · rw [if_neg (by
                    intro h
                    rcases hm with e | e
                    · exact h.1 e
                    · exact h.2 e)]
                  simp only [Tok.matches1, hm, decide_True, Bool.true_and]
                  exact ih r ts1 t1 hlen1 hr ht1 h1 hs1
                · rw [if_pos (by
                    constructor
                    · exact fun e => hm (Or.inl e)
                    · exact fun e => hm (Or.inr e))]
                  simp [Tok.matches1, hm]
            · -- literal
              rw [if_neg hsl] at htok
              rcases Option.map_eq_some'.mp htok with ⟨ts1, h1, h2⟩
              subst h2
              have hs1 : simpleToks ts1 = true := by simpa [simpleToks] using hs
              rw [body_lit t c r hc0 hb hq hst hsl]
              cases t with
              | nil =>
                rw [cur_nil, if_pos (tolower_ne_of_NUL c hc0)]
                simp [globToks]
              | cons d t1 =>
                obtain ⟨hst1, ht1⟩ := hstep d t1 ht
                rw [hst1, cur_cons, globToks_cons_cons _ _ _ _ (by simp)]
                by_cases hm : tolower d = tolower c
                · rw [if_neg (by simp [hm])]
                  simp only [Tok.matches1, hm, decide_True, Bool.true_and]
                  exact ih r ts1 t1 hlen1 hr ht1 h1 hs1
                · rw [if_pos hm]
                  have hm1 : ¬ tolower c = tolower d := fun e => hm e.symm
                  simp [Tok.matches1, hm1]


theorem plain_valid : ∀ (rest : List Tok) (c : Char),
    rest.all (fun t => !t.isWild && !t.matches1 c) = true →
    rest.count Tok.star = 0 ∧ noAdjacentWild rest = true ∧
      ∀ tk : Tok, tk.isWild = false → noAdjacentWild (tk :: rest) = true := by
  intro rest
  induction rest with
  | nil =>
    intro c _
    exact ⟨rfl, rfl, fun _ _ => rfl⟩
  | cons tk ts ih =>
    intro c h
    simp only [List.all_cons, Bool.and_eq_true, Bool.not_eq_true'] at h
    obtain ⟨h0, h1, h2⟩ := ih c (by simpa using h.2)
    have hne : tk ≠ Tok.star := by
      intro e
      rw [e] at h
      simp [Tok.isWild] at h
    refine ⟨?_, h2 tk h.1.1, ?_⟩
    · rw [List.count_cons_of_ne hne.symm]
      exact h0
    · intro tk1 htk1
      simp only [noAdjacentWild, htk1, Bool.false_and, Bool.not_false, Bool.true_and]
      exact h2 tk h.1.1

/-- A simple token list is valid in the restricted grammar: it holds at most one `*` and
no two adjacent wildcards. -/
theorem simpleToks_valid : ∀ ts : List Tok, simpleToks ts = true →
    ts.count Tok.star ≤ 1 ∧ noAdjacentWild ts = true := by
  intro ts
  induction ts with
  | nil => intro _; exact ⟨Nat.zero_le _, rfl⟩
  | cons tk ts ih =>
    intro hs
    have hplain : ∀ tk1 : Tok, tk1.isWild = false → simpleToks ts = true →
        noAdjacentWild (tk1 :: ts) = true := by
      intro tk1 h1 h2
      cases ts with
      | nil => rfl
      | cons b ts2 =>
        simp only [noAdjacentWild, h1, Bool.false_and, Bool.not_false, Bool.true_and]
        exact (ih h2).2
    cases tk with
    | lit x =>
      have hs1 : simpleToks ts = true := by simpa [simpleToks] using hs
      exact ⟨by rw [List.count_cons_of_ne (by simp)]; exact (ih hs1).1, hplain _ rfl hs1⟩
    | slash =>
      have hs1 : simpleToks ts = true := by simpa [simpleToks] using hs
      exact ⟨by rw [List.count_cons_of_ne (by simp)]; exact (ih hs1).1, hplain _ rfl hs1⟩
    | group items =>
      have hs1 : simpleToks ts = true := by simpa [simpleToks] using hs
      exact ⟨by rw [List.count_cons_of_ne (by simp)]; exact (ih hs1).1, hplain _ rfl hs1⟩
    | any =>
      cases ts with
      | nil => simp [simpleToks] at hs
      | cons b ts2 =>
        simp only [simpleToks, Bool.and_eq_true, Bool.not_eq_true'] at hs
        refine ⟨by rw [List.count_cons_of_ne (by simp)]; exact (ih hs.2).1, ?_⟩
        simp only [noAdjacentWild, hs.1, Bool.and_false, Bool.not_false, Bool.true_and]
        exact (ih hs.2).2
    | star =>
      cases ts with
      | nil => exact ⟨by simp, rfl⟩
      | cons b rest =>
        cases b with
        | any => simp [simpleToks] at hs
        | star => simp [simpleToks] at hs
        | slash => simp [simpleToks] at hs
        | group items => simp [simpleToks] at hs
        | lit x =>
          simp only [simpleToks] at hs
          obtain ⟨h0, -, h2⟩ := plain_valid rest x hs
          refine ⟨?_, ?_⟩
          · rw [List.count_cons_self, List.count_cons_of_ne (by simp), h0]
          · simp only [noAdjacentWild, Tok.isWild, Bool.and_false, Bool.not_false,
              Bool.true_and]
            exact h2 (Tok.lit x) rfl

/-- C4, amended: on every NUL-free pattern that is simple (brackets closed; every `?`
followed by a token that is not a wildcard, so the last token is not `?`; the `*`, if any,
either last or followed by a literal character that is no slash and no bracket, with no
wildcard after it and no later token matching that character) and every NUL-free text,
`WildcardMatch` returns what the classical backtracking matcher returns; such a pattern
is valid in the restricted grammar. -/
theorem WildcardMatch_eq_glob_on_simple (pattern text : List Char) (hp : NUL ∉ pattern)
    (ht : NUL ∉ text) (hs : simplePattern pattern = true) :
    validPattern pattern = true ∧ WildcardMatch pattern text = globMatch pattern text := by
  unfold simplePattern at hs
  unfold validPattern globMatch WildcardMatch
  cases htok : tokenize pattern with
  | none =>
    rw [htok] at hs
    cases hs
  | some ts =>
    rw [htok] at hs
    simp only at hs ⊢
    have hv := simpleToks_valid ts hs
    have hm := check_rexp_iff_globToks pattern.length pattern ts text (le_refl _) hp ht htok hs
    refine ⟨by simp [hv.1, hv.2], ?_⟩
    by_cases h1 : check_rexp text pattern = 1
    · rw [if_neg (by simp [h1]), hm.mp h1]
    · rw [if_pos h1]
      cases hg : globToks ts text with
      | false => rfl
      | true => exact absurd (hm.mpr hg) h1

/-- C4, witness: the amended statement at the pattern `a?[b-d]*.Txt` and the text
`aXcfoo.bar.TXT`, which both matchers accept. -/
theorem WildcardMatch_eq_glob_on_simple_witness :
    NUL ∉ "a?[b-d]*.Txt".toList ∧ NUL ∉ "aXcfoo.bar.TXT".toList ∧
    simplePattern "a?[b-d]*.Txt".toList = true ∧
    (validPattern "a?[b-d]*.Txt".toList = true ∧
      WildcardMatch "a?[b-d]*.Txt".toList "aXcfoo.bar.TXT".toList =
        globMatch "a?[b-d]*.Txt".toList "aXcfoo.bar.TXT".toList) ∧
    globMatch "a?[b-d]*.Txt".toList "aXcfoo.bar.TXT".toList = true :=
  ⟨by decide, by decide, by decide,
    WildcardMatch_eq_glob_on_simple "a?[b-d]*.Txt".toList "aXcfoo.bar.TXT".toList
      (by decide) (by decide) (by decide),
    by decide⟩

/-! ### Directory tree: enumeration -/

theorem subPath_ne_nil (p n : List Char) (hp : p ≠ []) : subPath p n ≠ [] := by
  unfold subPath
  split <;> simp [hp]

theorem runVisits_append {σ : Type} (pEnum : EnumFn σ) (ctx : σ) (a b : List Visit) :
    runVisits pEnum ctx (a ++ b) = runVisits pEnum (runVisits pEnum ctx a) b := by
  simp [runVisits, List.foldl_append]

theorem runVisits_cons {σ : Type} (pEnum : EnumFn σ) (ctx : σ) (v : Visit) (vs : List Visit) :
    runVisits pEnum ctx (v :: vs) = runVisits pEnum (pEnum ctx v.1 v.2.1 v.2.2).2 vs := rfl

theorem runVisits_nil {σ : Type} (pEnum : EnumFn σ) (ctx : σ) :
    runVisits pEnum ctx [] = ctx := rfl

theorem EnumFiles_files_eq {σ : Type} (pEnum : EnumFn σ)
    (hcont : ∀ c p e b, (pEnum c p e b).1 = true) (path : List Char) :
    ∀ (fs : List CDirEntry) (ctx : σ), (fs.all (fun f => decide (f.sName ≠ []))) = true →
      EnumFiles.files pEnum path fs ctx =
        (true, runVisits pEnum ctx (fs.map (fun f => (subPath path f.sName, f, false)))) := by
  intro fs
  induction fs with
  | nil => intro ctx _; rfl
  | cons f rest ih =>
    intro ctx hne
    simp only [List.all_cons, Bool.and_eq_true, decide_eq_true_eq] at hne
    have hlen : ¬ f.sName.length < 1 := by
      have := List.length_pos.mpr hne.1
      omega
    simp only [EnumFiles.files, hlen, if_false, List.map_cons, runVisits_cons]
    have h1 := hcont ctx (subPath path f.sName) f false
    rcases hres : pEnum ctx (subPath path f.sName) f false with ⟨b, c1⟩
    rw [hres] at h1
    simp only at h1
    subst h1
    simp only
    exact ih c1 hne.2

mutual
theorem EnumFiles_eq_runVisits {σ : Type} (pEnum : EnumFn σ)
    (hcont : ∀ c p e b, (pEnum c p e b).1 = true) (d : CDir) (path : List Char) (ctx : σ)
    (hne : d.fileNamesNonEmpty = true) (hp : path ≠ []) :
    d.EnumFiles pEnum path ctx = (true, runVisits pEnum ctx (d.preorder path)) := by
  cases d with
  | mk t fs ds e =>
    simp only [CDir.fileNamesNonEmpty, Bool.and_eq_true] at hne
    simp only [CDir.EnumFiles, hp, if_false, CDir.preorder, runVisits_append]
    rw [EnumFiles_files_eq pEnum hcont path fs ctx hne.1]
    simp only
    exact EnumFiles_dirs_eq_runVisits pEnum hcont ds path _ hne.2 hp
theorem EnumFiles_dirs_eq_runVisits {σ : Type} (pEnum : EnumFn σ)
    (hcont : ∀ c p e b, (pEnum c p e b).1 = true) (ds : List CDir) (path : List Char) (ctx : σ)
    (hne : CDir.fileNamesNonEmptyList ds = true) (hp : path ≠ []) :
    EnumFiles.dirs pEnum path ds ctx = (true, runVisits pEnum ctx (CDir.preorderDirs ds path)) := by
  cases ds with
  | nil => rfl
  | cons d rest =>
    simp only [CDir.fileNamesNonEmptyList, Bool.and_eq_true] at hne
    simp only [EnumFiles.dirs, CDir.preorderDirs, runVisits_cons, runVisits_append]
    have h1 := hcont ctx (subPath path d.cThis.sName) d.cThis true
    rcases hres : pEnum ctx (subPath path d.cThis.sName) d.cThis true with ⟨b, c1⟩
    rw [hres] at h1
    simp only at h1
    subst h1
    simp only
    rw [EnumFiles_eq_runVisits pEnum hcont d _ c1 hne.1 (subPath_ne_nil _ _ hp)]
    simp only
    exact EnumFiles_dirs_eq_runVisits pEnum hcont rest path _ hne.2 hp
end

theorem EnumFilesReverse_files_eq {σ : Type} (pEnum : EnumFn σ)
    (hcont : ∀ c p e b, (pEnum c p e b).1 = true) (path : List Char) :
    ∀ (fs : List CDirEntry) (ctx : σ),
      EnumFilesReverse.files pEnum path fs ctx =
        (true, runVisits pEnum ctx (fs.map (fun f => (subPath path f.sName, f, false)))) := by
  intro fs
  induction fs with
  | nil => intro ctx; rfl
  | cons f rest ih =>
    intro ctx
    simp only [EnumFilesReverse.files, List.map_cons, runVisits_cons]
    have h1 := hcont ctx (subPath path f.sName) f false
    rcases hres : pEnum ctx (subPath path f.sName) f false with ⟨b, c1⟩
    rw [hres] at h1
    simp only at h1
    subst h1
    simp only
    exact ih c1

mutual
theorem EnumFilesReverse_eq_runVisits {σ : Type} (pEnum : EnumFn σ)
    (hcont : ∀ c p e b, (pEnum c p e b).1 = true) (d : CDir) (path : List Char) (ctx : σ)
    (hp : path ≠ []) :
    d.EnumFilesReverse pEnum path ctx = (true, runVisits pEnum ctx (d.postorder path)) := by
  cases d with
  | mk t fs ds e =>
    simp only [CDir.EnumFilesReverse, hp, if_false, CDir.postorder, runVisits_append]
    rw [EnumFilesReverse_files_eq pEnum hcont path fs ctx]
    simp only
    exact EnumFilesReverse_dirs_eq_runVisits pEnum hcont ds path _ hp
theorem EnumFilesReverse_dirs_eq_runVisits {σ : Type} (pEnum : EnumFn σ)
    (hcont : ∀ c p e b, (pEnum c p e b).1 = true) (ds : List CDir) (path : List Char) (ctx : σ)
    (hp : path ≠ []) :
    EnumFilesReverse.dirs pEnum path ds ctx =
      (true, runVisits pEnum ctx (CDir.postorderDirs ds path)) := by
  cases ds with
  | nil => rfl
  | cons d rest =>
    simp only [EnumFilesReverse.dirs, CDir.postorderDirs, runVisits_cons, runVisits_append]
    rw [EnumFilesReverse_eq_runVisits pEnum hcont d _ ctx (subPath_ne_nil _ _ hp)]
    simp only
    have h1 := hcont (runVisits pEnum ctx (d.postorder (subPath path d.cThis.sName)))
      (subPath path d.cThis.sName) d.cThis true
    rcases hres : pEnum (runVisits pEnum ctx (d.postorder (subPath path d.cThis.sName)))
      (subPath path d.cThis.sName) d.cThis true with ⟨b, c1⟩
    rw [hres] at h1
    simp only at h1
    subst h1
    simp only
    exact EnumFilesReverse_dirs_eq_runVisits pEnum hcont rest path _ hp
end

theorem runVisits_recordVisit (vs : List Visit) :
    ∀ log : List Visit, runVisits recordVisit log vs = log ++ vs := by
  induction vs with
  | nil => intro log; simp [runVisits_nil]
  | cons v rest ih =>
    intro log
    rw [runVisits_cons, ih]
    simp [recordVisit]

/-- C10: for a tree whose file names are non-empty, a non-empty root path and a callback
that always continues, `EnumFiles` returns true and leaves the state that results from
calling the callback on the pre-order sequence, in order; with the recording callback
the recorded calls are the pre-order sequence itself; every path in the sequence is the
parent path, a backslash unless the parent path ends with one, and the name (by
`CDir.preorder`); for the tree with `a.txt`, `b.log` and `sub` holding `c.txt` under
`C:\src` the calls are `a.txt`, `b.log`, `sub` (directory), `sub\c.txt`. -/
theorem EnumFiles_visits_in_preorder {σ : Type} (pEnum : EnumFn σ)
    (hcont : ∀ c p e b, (pEnum c p e b).1 = true) (d : CDir) (pszDirPath : List Char)
    (ctx : σ) (hnames : d.fileNamesNonEmpty = true) (hpath : pszDirPath ≠ []) :
    d.EnumFiles pEnum pszDirPath ctx = (true, runVisits pEnum ctx (d.preorder pszDirPath)) ∧
    d.EnumFiles recordVisit pszDirPath [] = (true, d.preorder pszDirPath) ∧
    (sampleTree.EnumFiles recordVisit "C:\\src".toList []).2.map (fun v => (v.1, v.2.2)) =
      [("C:\\src\\a.txt".toList, false), ("C:\\src\\b.log".toList, false),
       ("C:\\src\\sub".toList, true), ("C:\\src\\sub\\c.txt".toList, false)] := by
  refine ⟨EnumFiles_eq_runVisits pEnum hcont d pszDirPath ctx hnames hpath, ?_, by decide⟩
  rw [EnumFiles_eq_runVisits recordVisit (fun _ _ _ _ => rfl) d pszDirPath [] hnames hpath,
    runVisits_recordVisit]
  rfl

/-- C10, witness: the theorem at the recording callback, the sample tree and `C:\src`. -/
theorem EnumFiles_visits_in_preorder_witness :
    (∀ c p e b, (recordVisit c p e b).1 = true) ∧
    sampleTree.fileNamesNonEmpty = true ∧ "C:\\src".toList ≠ [] ∧
    sampleTree.EnumFiles recordVisit "C:\\src".toList [] =
      (true, runVisits recordVisit [] (sampleTree.preorder "C:\\src".toList)) :=
  ⟨fun _ _ _ _ => rfl, by decide, by decide,
    (EnumFiles_visits_in_preorder recordVisit (fun _ _ _ _ => rfl) sampleTree
      "C:\\src".toList [] (by decide) (by decide)).1⟩

@[simp] theorem Globals.call_calls {ω α : Type} (g : Globals ω) (c : OsCall) (op : ω → α × ω) :
    (g.call c op).2.calls = g.calls ++ [c] := rfl

@[simp] theorem Globals.call_cSettings {ω α : Type} (g : Globals ω) (c : OsCall)
    (op : ω → α × ω) : (g.call c op).2.cSettings = g.cSettings := rfl

@[simp] theorem Globals.call_cDestTree {ω α : Type} (g : Globals ω) (c : OsCall)
    (op : ω → α × ω) : (g.call c op).2.cDestTree = g.cDestTree := rfl

@[simp] theorem Globals.call_cSrcTree {ω α : Type} (g : Globals ω) (c : OsCall)
    (op : ω → α × ω) : (g.call c op).2.cSrcTree = g.cSrcTree := rfl

@[simp] theorem Globals.call_cTotals {ω α : Type} (g : Globals ω) (c : OsCall)
    (op : ω → α × ω) : (g.call c op).2.cTotals = g.cTotals := rfl

@[simp] theorem Globals.call_fst {ω α : Type} (g : Globals ω) (c : OsCall)
    (op : ω → α × ω) : (g.call c op).1 = (op g.os).1 := rfl

@[simp] theorem Globals.addWarning_calls {ω : Type} (g : Globals ω) :
    g.addWarning.calls = g.calls := rfl

@[simp] theorem Globals.addWarning_cSettings {ω : Type} (g : Globals ω) :
    g.addWarning.cSettings = g.cSettings := rfl

@[simp] theorem Globals.addWarning_cDestTree {ω : Type} (g : Globals ω) :
    g.addWarning.cDestTree = g.cDestTree := rfl

@[simp] theorem Globals.addWarning_cSrcTree {ω : Type} (g : Globals ω) :
    g.addWarning.cSrcTree = g.cSrcTree := rfl

@[simp] theorem Globals.addError_calls {ω : Type} (g : Globals ω) :
    g.addError.calls = g.calls := rfl

@[simp] theorem Globals.addError_cSettings {ω : Type} (g : Globals ω) :
    g.addError.cSettings = g.cSettings := rfl

@[simp] theorem Globals.addError_cDestTree {ω : Type} (g : Globals ω) :
    g.addError.cDestTree = g.cDestTree := rfl

@[simp] theorem Globals.addError_cSrcTree {ω : Type} (g : Globals ω) :
    g.addError.cSrcTree = g.cSrcTree := rfl

/-- The calls one invocation of `EnumDelTagged` makes. -/
theorem EnumDelTagged_calls {ω : Type} (sys : Win32 ω) (g : Globals ω) (p : List Char)
    (e : CDirEntry) (b : Bool) :
    (EnumDelTagged sys g p e b).2.calls = g.calls ++
      (if tcsicmpEq p g.cSettings.szDest = true ∨ e.untagged = false then []
       else if b = true then [OsCall.trmdir p]
       else if (sys.tunlink p g.os).1 ≠ 0 then
         [OsCall.tunlink p, OsCall.SetFileAttributes p (e.dwAttrib &&& protectionMaskOff),
           OsCall.tunlink p]
       else [OsCall.tunlink p]) := by
  unfold EnumDelTagged CDirEntry.untagged
  simp only []
  split_ifs <;> simp_all

theorem EnumDelTagged_fst {ω : Type} (sys : Win32 ω) (g : Globals ω) (p : List Char)
    (e : CDirEntry) (b : Bool) : (EnumDelTagged sys g p e b).1 = true := by
  unfold EnumDelTagged
  simp only []
  split_ifs <;> rfl

theorem EnumDelTagged_cSettings {ω : Type} (sys : Win32 ω) (g : Globals ω) (p : List Char)
    (e : CDirEntry) (b : Bool) : (EnumDelTagged sys g p e b).2.cSettings = g.cSettings := by
  unfold EnumDelTagged
  simp only []
  split_ifs <;> simp

theorem EnumDelTagged_cDestTree {ω : Type} (sys : Win32 ω) (g : Globals ω) (p : List Char)
    (e : CDirEntry) (b : Bool) : (EnumDelTagged sys g p e b).2.cDestTree = g.cDestTree := by
  unfold EnumDelTagged
  simp only []
  split_ifs <;> simp

/-! ### Planner: the clean pass -/

theorem tcsicmpEq_false_of_length_ne (a b : List Char) (h : a.length ≠ b.length) :
    tcsicmpEq a b = false := by
  unfold tcsicmpEq
  simp only [decide_eq_false_iff_not]
  intro heq
  have := congrArg List.length heq
  simp at this
  exact h this

theorem length_lt_subPath (p n : List Char) (hn : n ≠ []) : p.length < (subPath p n).length := by
  have := List.length_pos.mpr hn
  unfold subPath
  split
  · simp only [List.length_append, List.length_singleton]
    omega
  · simp only [List.length_append]
    omega

theorem length_le_subPath (p n : List Char) : p.length ≤ (subPath p n).length := by
  unfold subPath
  split
  · simp only [List.length_append, List.length_singleton]
    omega
  · simp

mutual
theorem postorder_path_longer (d : CDir) (path : List Char) (hne : d.namesNonEmpty = true)
    (v : Visit) (hv : v ∈ d.postorder path) : path.length < v.1.length := by
  cases d with
  | mk t fs ds e =>
    simp only [CDir.namesNonEmpty, Bool.and_eq_true, List.all_eq_true, decide_eq_true_eq] at hne
    simp only [CDir.postorder, List.mem_append, List.mem_map] at hv
    rcases hv with ⟨f, hf, rfl⟩ | hv
    · exact length_lt_subPath path f.sName (hne.1 f hf)
    · exact postorderDirs_path_longer ds path hne.2 v hv
theorem postorderDirs_path_longer (ds : List CDir) (path : List Char)
    (hne : CDir.namesNonEmptyList ds = true) (v : Visit) (hv : v ∈ CDir.postorderDirs ds path) :
    path.length < v.1.length := by
  cases ds with
  | nil => simp [CDir.postorderDirs] at hv
  | cons d rest =>
    simp only [CDir.namesNonEmptyList, Bool.and_eq_true, decide_eq_true_eq] at hne
    simp only [CDir.postorderDirs, List.mem_append, List.mem_cons] at hv
    rcases hv with hv | rfl | hv
    · have h1 := postorder_path_longer d _ hne.1.2 v hv
      have h2 := length_le_subPath path d.cThis.sName
      omega
    · exact length_lt_subPath path d.cThis.sName hne.1.1
    · exact postorderDirs_path_longer rest path hne.2 v hv
end

/-- The deletion calls of one invocation of `EnumDelTagged`. -/
theorem EnumDelTagged_step {ω : Type} (sys : Win32 ω) (g : Globals ω) (p : List Char)
    (e : CDirEntry) (b : Bool) :
    ∃ L : List OsCall, (EnumDelTagged sys g p e b).2.calls = g.calls ++ L ∧
      (∀ q, OsCall.tunlink q ∈ L ↔ (p = q ∧ b = false ∧ e.untagged = true ∧
        tcsicmpEq q g.cSettings.szDest = false)) ∧
      (∀ q, OsCall.trmdir q ∈ L ↔ (p = q ∧ b = true ∧ e.untagged = true ∧
        tcsicmpEq q g.cSettings.szDest = false)) := by
  refine ⟨_, EnumDelTagged_calls sys g p e b, ?_, ?_⟩
  · intro q
    split_ifs with h1 h2 h3
    · constructor
      · intro h; cases h
      · rintro ⟨rfl, _, h3, h4⟩
        rcases h1 with h1 | h1
        · rw [h1] at h4; cases h4
        · rw [h1] at h3; cases h3
    · constructor
      · intro h; simp at h
      · rintro ⟨_, h4, _⟩
        rw [h2] at h4; cases h4
    · have h1' : tcsicmpEq p g.cSettings.szDest = false ∧ e.untagged = true := by
        simpa using h1
      have h2' : b = false := by simpa using h2
      constructor
      · intro h
        have : q = p := by simpa using h
        subst this
        exact ⟨rfl, h2', h1'.2, h1'.1⟩
      · rintro ⟨rfl, _⟩
        simp
    · have h1' : tcsicmpEq p g.cSettings.szDest = false ∧ e.untagged = true := by
        simpa using h1
      have h2' : b = false := by simpa using h2
      constructor
      · intro h
        have : q = p := by simpa using h
        subst this
        exact ⟨rfl, h2', h1'.2, h1'.1⟩
      · rintro ⟨rfl, _⟩
        simp
  · intro q
    split_ifs with h1 h2 h3
    · constructor
      · intro h; cases h
      · rintro ⟨rfl, _, h3, h4⟩
        rcases h1 with h1 | h1
        · rw [h1] at h4; cases h4
        · rw [h1] at h3; cases h3
    · have h1' : tcsicmpEq p g.cSettings.szDest = false ∧ e.untagged = true := by
        simpa using h1
      constructor
      · intro h
        have : q = p := by simpa using h
        subst this
        exact ⟨rfl, h2, h1'.2, h1'.1⟩
      · rintro ⟨rfl, _⟩
        simp
    · constructor
      · intro h; simp at h
      · rintro ⟨_, h4, _⟩
        exact absurd h4 h2
    · constructor
      · intro h; simp at h
      · rintro ⟨_, h4, _⟩
        exact absurd h4 h2

/-- The deletion calls of a run of `EnumDelTagged` over a sequence of visits. -/
theorem runVisits_EnumDelTagged {ω : Type} (sys : Win32 ω) (vs : List Visit) :
    ∀ g : Globals ω,
      (runVisits (EnumDelTagged sys) g vs).cSettings = g.cSettings ∧
      (runVisits (EnumDelTagged sys) g vs).cDestTree = g.cDestTree ∧
      ∃ L : List OsCall, (runVisits (EnumDelTagged sys) g vs).calls = g.calls ++ L ∧
        (∀ q, OsCall.tunlink q ∈ L ↔ ∃ v ∈ vs, v.1 = q ∧ v.2.2 = false ∧
          v.2.1.untagged = true ∧ tcsicmpEq q g.cSettings.szDest = false) ∧
        (∀ q, OsCall.trmdir q ∈ L ↔ ∃ v ∈ vs, v.1 = q ∧ v.2.2 = true ∧
          v.2.1.untagged = true ∧ tcsicmpEq q g.cSettings.szDest = false) := by
  induction vs with
  | nil =>
    intro g
    refine ⟨rfl, rfl, [], by simp [runVisits_nil], ?_, ?_⟩
    · intro q
      constructor
      · intro h; cases h
      · rintro ⟨v, hv, _⟩; cases hv
    · intro q
      constructor
      · intro h; cases h
      · rintro ⟨v, hv, _⟩; cases hv
  | cons v rest ih =>
    intro g
    rw [runVisits_cons]
    obtain ⟨hS, hD, L2, hL2, ht, hr⟩ := ih (EnumDelTagged sys g v.1 v.2.1 v.2.2).2
    have hS1 := EnumDelTagged_cSettings sys g v.1 v.2.1 v.2.2
    have hD1 := EnumDelTagged_cDestTree sys g v.1 v.2.1 v.2.2
    obtain ⟨L1, hL1, ht1, hr1⟩ := EnumDelTagged_step sys g v.1 v.2.1 v.2.2
    refine ⟨hS.trans hS1, hD.trans hD1, L1 ++ L2, ?_, ?_, ?_⟩
    · rw [hL2, hL1, List.append_assoc]
    · intro q
      rw [List.mem_append, ht q, ht1 q, hS1]
      simp only [List.mem_cons, exists_eq_or_imp]
    · intro q
      rw [List.mem_append, hr q, hr1 q, hS1]
      simp only [List.mem_cons, exists_eq_or_imp]

/-- C7: the clean pass (`EnumFilesReverse` with `EnumDelTagged` from the destination
root) returns true; `EnumDelTagged` returns true (continue) in every state, for every
entry and whatever the operating system answers; the pass calls `_tunlink` on a path
exactly when a visited file entry with that path lacks the tag, and `_trmdir` exactly
when a visited directory entry with that path lacks the tag, a path equal to the
destination root (case ignored) excepted; it never requests a deletion of the root path;
and in a tree whose names are non-empty no visited path equals the root path, so there
the deletions are exactly the untagged entries. -/
theorem clean_pass_deletes_exactly_untagged {ω : Type} (sys : Win32 ω) (g : Globals ω)
    (hroot : g.cSettings.szDest ≠ []) :
    (main.clean sys g).1 = true ∧
    (∀ (h : Globals ω) p e b, (EnumDelTagged sys h p e b).1 = true) ∧
    (∃ L : List OsCall, (main.clean sys g).2.calls = g.calls ++ L ∧
      (∀ q, OsCall.tunlink q ∈ L ↔ ∃ v ∈ g.cDestTree.postorder g.cSettings.szDest,
        v.1 = q ∧ v.2.2 = false ∧ v.2.1.untagged = true ∧
          tcsicmpEq q g.cSettings.szDest = false) ∧
      (∀ q, OsCall.trmdir q ∈ L ↔ ∃ v ∈ g.cDestTree.postorder g.cSettings.szDest,
        v.1 = q ∧ v.2.2 = true ∧ v.2.1.untagged = true ∧
          tcsicmpEq q g.cSettings.szDest = false) ∧
      (∀ q, OsCall.tunlink q ∈ L ∨ OsCall.trmdir q ∈ L →
        tcsicmpEq q g.cSettings.szDest = false)) ∧
    (g.cDestTree.namesNonEmpty = true → ∀ v ∈ g.cDestTree.postorder g.cSettings.szDest,
      tcsicmpEq v.1 g.cSettings.szDest = false) := by
  have hfold : main.clean sys g =
      (true, runVisits (EnumDelTagged sys) g (g.cDestTree.postorder g.cSettings.szDest)) :=
    EnumFilesReverse_eq_runVisits (EnumDelTagged sys) (EnumDelTagged_fst sys) g.cDestTree
      g.cSettings.szDest g hroot
  obtain ⟨_, _, L, hL, ht, hr⟩ :=
    runVisits_EnumDelTagged sys (g.cDestTree.postorder g.cSettings.szDest) g
  refine ⟨by rw [hfold], EnumDelTagged_fst sys, ⟨L, by rw [hfold]; exact hL, ht, hr, ?_⟩, ?_⟩
  · intro q hq
    rcases hq with hq | hq
    · obtain ⟨_, _, _, _, _, h⟩ := (ht q).mp hq
      exact h
    · obtain ⟨_, _, _, _, _, h⟩ := (hr q).mp hq
      exact h
  · intro hne v hv
    apply tcsicmpEq_false_of_length_ne
    have := postorder_path_longer g.cDestTree g.cSettings.szDest hne v hv
    omega

/-- C7, witness: the theorem at a destination `D:\dst` that holds a tagged `a.txt`, an
untagged `old.bak` and a tagged `sub` with a tagged `c.txt`; the one deletion requested
is that of `old.bak`. -/
theorem clean_pass_deletes_exactly_untagged_witness :
    cleanGlobals.cSettings.szDest ≠ [] ∧
    (main.clean (stubSys 0) cleanGlobals).1 = true ∧
    (main.clean (stubSys 0) cleanGlobals).2.calls = [OsCall.tunlink "D:\\dst\\old.bak".toList] :=
  ⟨by decide, (clean_pass_deletes_exactly_untagged (stubSys 0) cleanGlobals (by decide)).1,
    by decide⟩

/-! ### Planner: the tagging pass -/

theorem updateAt_getElem? {α : Type} (f : α → α) :
    ∀ (l : List α) (i j : Nat),
      (updateAt f l i)[j]? = if j = i then l[j]?.map f else l[j]? := by
  intro l
  induction l with
  | nil => intro i j; simp [updateAt]
  | cons a l ih =>
    intro i j
    cases i with
    | zero =>
      cases j with
      | zero => simp [updateAt]
      | succ j => simp [updateAt]
    | succ i =>
      cases j with
      | zero => simp [updateAt]
      | succ j =>
        simp only [updateAt, List.getElem?_cons_succ, ih i j]
        simp

theorem updateAt_map {α β : Type} (f : α → α) (m : α → β) (hm : ∀ a, m (f a) = m a) :
    ∀ (l : List α) (i : Nat), (updateAt f l i).map m = l.map m := by
  intro l
  induction l with
  | nil => intro i; rfl
  | cons a l ih =>
    intro i
    cases i with
    | zero => simp [updateAt, hm]
    | succ i => simp [updateAt, ih i]

theorem eraseUserList_eq_map (ds : List CDir) : CDir.eraseUserList ds = ds.map CDir.eraseUser := by
  induction ds with
  | nil => rfl
  | cons d rest ih => simp [CDir.eraseUserList, ih]

theorem CDir.eta (d : CDir) : CDir.mk d.cThis d.cFiles d.cDirs d.sError = d := by
  cases d
  rfl

/-- A write through an entry pointer that touches only `dwUser` leaves everything else
of the tree as it is. -/
theorem eraseUser_modifyAt (f : CDirEntry → CDirEntry)
    (hf : ∀ e, (f e).eraseUser = e.eraseUser) :
    ∀ (r : EntryRef) (D : CDir), (D.modifyAt f r).eraseUser = D.eraseUser := by
  intro r
  induction r with
  | file i =>
    intro D
    cases D with
    | mk t fs ds e =>
      simp only [CDir.modifyAt, CDir.eraseUser, updateAt_map f CDirEntry.eraseUser hf]
  | dir i =>
    intro D
    cases D with
    | mk t fs ds e =>
      simp only [CDir.modifyAt, CDir.eraseUser, eraseUserList_eq_map]
      congr 1
      apply updateAt_map
      intro d
      cases d with
      | mk t1 fs1 ds1 e1 => simp [CDir.eraseUser, CDir.cThis, CDir.cFiles, CDir.cDirs, CDir.sError, hf]
  | sub i r ih =>
    intro D
    cases D with
    | mk t fs ds e =>
      simp only [CDir.modifyAt, CDir.eraseUser, eraseUserList_eq_map]
      congr 1
      exact updateAt_map _ _ ih ds i

theorem modifyAt_cThis (f : CDirEntry → CDirEntry) (r : EntryRef) (D : CDir) :
    (D.modifyAt f r).cThis = D.cThis := by
  cases r <;> cases D <;> rfl

theorem entryAt_mk_cThis (t t1 : CDirEntry) (fs : List CDirEntry) (ds : List CDir)
    (e e1 : List Char) (r : EntryRef) :
    (CDir.mk t fs ds e).entryAt r = (CDir.mk t1 fs ds e1).entryAt r := by
  cases r <;> rfl

/-- Reading through an entry pointer after a write through an entry pointer. -/
theorem entryAt_modifyAt (f : CDirEntry → CDirEntry) :
    ∀ (r : EntryRef) (D : CDir) (r1 : EntryRef),
      (D.modifyAt f r).entryAt r1 = if r1 = r then (D.entryAt r1).map f else D.entryAt r1 := by
  intro r
  induction r with
  | file i =>
    intro D r1
    cases D with
    | mk t fs ds e =>
      cases r1 with
      | file j => simp [CDir.modifyAt, CDir.entryAt, updateAt_getElem?]
      | dir j => simp [CDir.modifyAt, CDir.entryAt]
      | sub j r2 => simp [CDir.modifyAt, CDir.entryAt]
  | dir i =>
    intro D r1
    cases D with
    | mk t fs ds e =>
      cases r1 with
      | file j => simp [CDir.modifyAt, CDir.entryAt]
      | dir j =>
        simp only [CDir.modifyAt, CDir.entryAt, updateAt_getElem?, EntryRef.dir.injEq]
        by_cases hj : j = i
        · simp only [hj, if_true]
          cases ds[i]? <;> simp [CDir.cThis]
        · simp only [hj, if_false]
      | sub j r2 =>
        simp only [CDir.modifyAt, CDir.entryAt, updateAt_getElem?]
        simp only [reduceCtorEq, if_false]
        by_cases hj : j = i
        · simp only [hj, if_true]
          cases hd : ds[i]? with
          | none => simp
          | some d =>
            simp only [Option.map_some']
            conv_rhs => rw [← CDir.eta d]
            exact entryAt_mk_cThis _ _ _ _ _ _ _
        · simp only [hj, if_false]
  | sub i r ih =>
    intro D r1
    cases D with
    | mk t fs ds e =>
      cases r1 with
      | file j => simp [CDir.modifyAt, CDir.entryAt]
      | dir j =>
        simp only [CDir.modifyAt, CDir.entryAt, updateAt_getElem?]
        simp only [reduceCtorEq, if_false]
        by_cases hj : j = i
        · simp only [hj, if_true]
          cases ds[i]? <;> simp [modifyAt_cThis]
        · simp only [hj, if_false]
      | sub j r2 =>
        simp only [CDir.modifyAt, CDir.entryAt, updateAt_getElem?, EntryRef.sub.injEq]
        by_cases hj : j = i
        · subst hj
          simp only [if_true, true_and]
          cases hd : ds[j]? with
          | none => simp
          | some d =>
            simp only [Option.map_some']
            exact ih d r2
        · simp [hj]

theorem findFile_map_eraseUser (p : List Char) :
    ∀ (fs : List CDirEntry) (i : Nat),
      FileExists.findFile p (fs.map CDirEntry.eraseUser) i = FileExists.findFile p fs i := by
  intro fs
  induction fs with
  | nil => intro i; rfl
  | cons f rest ih =>
    intro i
    simp only [List.map_cons, FileExists.findFile, ih]
    rfl

theorem eraseUser_cThis_sName (d : CDir) : d.eraseUser.cThis.sName = d.cThis.sName := by
  cases d
  rfl

theorem findDir_eraseUserList (p : List Char) :
    ∀ (ds : List CDir) (i : Nat),
      FileExists.findDir p (CDir.eraseUserList ds) i = FileExists.findDir p ds i := by
  intro ds
  induction ds with
  | nil => intro i; rfl
  | cons d rest ih =>
    intro i
    simp only [CDir.eraseUserList, FileExists.findDir, ih, eraseUser_cThis_sName]

mutual
theorem FileExists_eraseUser (D : CDir) (p : List Char) :
    D.eraseUser.FileExists p = D.FileExists p := by
  cases D with
  | mk t fs ds e =>
    simp only [CDir.eraseUser, CDir.FileExists, findFile_map_eraseUser, findDir_eraseUserList]
    split
    · rfl
    · exact FileExists_sub_eraseUser ds _ _ 0
theorem FileExists_sub_eraseUser (ds : List CDir) (base rest : List Char) (i : Nat) :
    FileExists.sub base rest (CDir.eraseUserList ds) i = FileExists.sub base rest ds i := by
  cases ds with
  | nil => rfl
  | cons d tl =>
    simp only [CDir.eraseUserList, FileExists.sub, eraseUser_cThis_sName]
    rw [FileExists_eraseUser d rest, FileExists_sub_eraseUser tl base rest (i + 1)]
end

/-- `FileExists` looks at names only: trees that differ in tag words give the same
answers. -/
theorem FileExists_congr (A B : CDir) (h : A.eraseUser = B.eraseUser) (p : List Char) :
    A.FileExists p = B.FileExists p := by
  rw [← FileExists_eraseUser A, ← FileExists_eraseUser B, h]

theorem tag_eraseUser (e : CDirEntry) : e.tag.eraseUser = e.eraseUser := rfl

theorem tag_tag (e : CDirEntry) : e.tag.tag = e.tag := by
  simp only [CDirEntry.tag, Nat.or_assoc, Nat.or_self]

theorem tag_untagged (e : CDirEntry) : e.tag.untagged = false := by
  simp only [CDirEntry.untagged, CDirEntry.tag, USERFLAG_EXISTSINSOURCE, Nat.and_one_is_mod,
    decide_eq_false_iff_not]
  have : (e.dwUser ||| 1) % 2 = 1 := Nat.or_mod_two_eq_one.mpr (Or.inr rfl)
  omega

theorem eraseUser_tagStep (src : List Char) (D : CDir) (v : Visit) :
    (tagStep src D v).eraseUser = D.eraseUser := by
  unfold tagStep
  split
  · exact eraseUser_modifyAt _ tag_eraseUser _ _
  · rfl

theorem entryAt_tagStep (src : List Char) (D : CDir) (v : Visit) (r : EntryRef) :
    (tagStep src D v).entryAt r =
      if D.FileExists (relPath src v.1) = some r then (D.entryAt r).map CDirEntry.tag
      else D.entryAt r := by
  unfold tagStep
  cases h : D.FileExists (relPath src v.1) with
  | none => simp
  | some r0 =>
    simp only [entryAt_modifyAt, Option.some.injEq]
    by_cases hr : r = r0
    · simp [hr]
    · have hr' : ¬ r0 = r := fun h => hr h.symm
      simp [hr, hr']

/-- The destination tree after the tagging steps for a sequence of source visits. -/
theorem foldl_tagStep (src : List Char) (D0 : CDir) (vs : List Visit) :
    ∀ D : CDir, D.eraseUser = D0.eraseUser →
      (vs.foldl (tagStep src) D).eraseUser = D0.eraseUser ∧
      ∀ r, (vs.foldl (tagStep src) D).entryAt r =
        (D.entryAt r).map (fun e =>
          if ∃ v ∈ vs, D0.FileExists (relPath src v.1) = some r then e.tag else e) := by
  induction vs with
  | nil =>
    intro D hD
    refine ⟨hD, ?_⟩
    intro r
    simp
  | cons v rest ih =>
    intro D hD
    have h1 : (tagStep src D v).eraseUser = D0.eraseUser := (eraseUser_tagStep src D v).trans hD
    obtain ⟨hE, hA⟩ := ih (tagStep src D v) h1
    refine ⟨hE, ?_⟩
    intro r
    rw [List.foldl_cons, hA r, entryAt_tagStep, FileExists_congr D D0 hD]
    by_cases hv : D0.FileExists (relPath src v.1) = some r
    · simp only [hv, if_true, List.mem_cons, exists_eq_or_imp, true_or]
      cases D.entryAt r with
      | none => rfl
      | some e =>
        simp only [Option.map_some', Option.some.injEq]
        split
        · exact tag_tag e
        · rfl
    · simp only [hv, if_false, List.mem_cons, exists_eq_or_imp, false_or]

theorem EnumCheckDest_eq {ω : Type} (g : Globals ω) (v : Visit) :
    EnumCheckDest g v.1 v.2.1 v.2.2 =
      (true, { g with cDestTree := tagStep g.cSettings.szSource g.cDestTree v }) := by
  unfold EnumCheckDest tagStep
  split <;> rfl

theorem runVisits_EnumCheckDest {ω : Type} (vs : List Visit) :
    ∀ g : Globals ω, runVisits EnumCheckDest g vs =
      { g with cDestTree := vs.foldl (tagStep g.cSettings.szSource) g.cDestTree } := by
  induction vs with
  | nil => intro g; rfl
  | cons v rest ih =>
    intro g
    rw [runVisits_cons, EnumCheckDest_eq, ih]
    rfl

/-- The tagging pass as a whole. -/
theorem main_tag_eq {ω : Type} (g : Globals ω) (hsrc : g.cSettings.szSource ≠ [])
    (hnames : g.cSrcTree.fileNamesNonEmpty = true) :
    main.tag g = (true, runVisits EnumCheckDest g (g.cSrcTree.preorder g.cSettings.szSource)) := by
  unfold main.tag
  exact EnumFiles_eq_runVisits EnumCheckDest
    (fun c p e b => by unfold EnumCheckDest; split <;> rfl)
    g.cSrcTree g.cSettings.szSource g hnames hsrc

theorem allEntriesList_getElem? (P : CDirEntry → Bool) :
    ∀ (ds : List CDir) (i : Nat) (d : CDir), CDir.allEntriesList P ds = true → ds[i]? = some d →
      P d.cThis = true ∧ CDir.allEntries P d = true := by
  intro ds
  induction ds with
  | nil => intro i d _ h; simp at h
  | cons a rest ih =>
    intro i d hall h
    simp only [CDir.allEntriesList, Bool.and_eq_true] at hall
    cases i with
    | zero =>
      simp only [List.getElem?_cons_zero, Option.some.injEq] at h
      subst h
      exact hall.1
    | succ i =>
      simp only [List.getElem?_cons_succ] at h
      exact ih i d hall.2 h

theorem allEntries_entryAt (P : CDirEntry → Bool) :
    ∀ (r : EntryRef) (D : CDir) (e : CDirEntry), D.allEntries P = true → D.entryAt r = some e →
      P e = true := by
  intro r
  induction r with
  | file i =>
    intro D e hall h
    cases D with
    | mk t fs ds er =>
      simp only [CDir.allEntries, Bool.and_eq_true, List.all_eq_true] at hall
      simp only [CDir.entryAt] at h
      exact hall.1 e (List.getElem?_mem h)
  | dir i =>
    intro D e hall h
    cases D with
    | mk t fs ds er =>
      simp only [CDir.allEntries, Bool.and_eq_true] at hall
      simp only [CDir.entryAt, Option.map_eq_some'] at h
      obtain ⟨d, hd, rfl⟩ := h
      exact (allEntriesList_getElem? P ds i d hall.2 hd).1
  | sub i r ih =>
    intro D e hall h
    cases D with
    | mk t fs ds er =>
      simp only [CDir.allEntries, Bool.and_eq_true] at hall
      simp only [CDir.entryAt] at h
      cases hd : ds[i]? with
      | none => simp [hd] at h
      | some d =>
        simp only [hd] at h
        exact ih d e (allEntriesList_getElem? P ds i d hall.2 hd).2 h

theorem foldl_tagStep_cThis (src : List Char) (vs : List Visit) :
    ∀ D : CDir, (vs.foldl (tagStep src) D).cThis = D.cThis := by
  induction vs with
  | nil => intro D; rfl
  | cons v rest ih =>
    intro D
    rw [List.foldl_cons, ih]
    unfold tagStep
    split
    · exact modifyAt_cThis _ _ _
    · rfl

/-- C9: from a destination tree without tags, a source tree with non-empty file names and
a non-empty source root, the tagging pass (`EnumFiles` over the source tree with
`EnumCheckDest`) returns true, and afterwards every entry position of the destination
tree holds the same entry as before except for `dwUser`; its tag bit is set exactly when
`FileExists` on the starting destination tree returns that position for the relative path
of some visited source entry, in which case the entry is the old one with the bit
or-ed in, and otherwise it is the old entry; positions without an entry stay so, the
destination tree with tag words erased is unchanged (names, lists, all other fields), and
so are the root entry, the source tree, the settings, the totals and the record of calls. -/
theorem tag_pass_marks_exactly_found {ω : Type} (g : Globals ω)
    (hsrc : g.cSettings.szSource ≠ []) (hnames : g.cSrcTree.fileNamesNonEmpty = true)
    (hclear : g.cDestTree.allEntries CDirEntry.untagged = true) :
    (main.tag g).1 = true ∧
    (∀ r e, g.cDestTree.entryAt r = some e →
      ∃ e1, (main.tag g).2.cDestTree.entryAt r = some e1 ∧ e1.eraseUser = e.eraseUser ∧
        (e1.untagged = false ↔ ∃ v ∈ g.cSrcTree.preorder g.cSettings.szSource,
          g.cDestTree.FileExists (relPath g.cSettings.szSource v.1) = some r) ∧
        ((∃ v ∈ g.cSrcTree.preorder g.cSettings.szSource,
          g.cDestTree.FileExists (relPath g.cSettings.szSource v.1) = some r) → e1 = e.tag) ∧
        ((¬ ∃ v ∈ g.cSrcTree.preorder g.cSettings.szSource,
          g.cDestTree.FileExists (relPath g.cSettings.szSource v.1) = some r) → e1 = e)) ∧
    (∀ r, g.cDestTree.entryAt r = none → (main.tag g).2.cDestTree.entryAt r = none) ∧
    (main.tag g).2.cDestTree.eraseUser = g.cDestTree.eraseUser ∧
    (main.tag g).2.cDestTree.cThis = g.cDestTree.cThis ∧
    (main.tag g).2.cSrcTree = g.cSrcTree ∧
    (main.tag g).2.cSettings = g.cSettings ∧
    (main.tag g).2.cTotals = g.cTotals ∧
    (main.tag g).2.calls = g.calls := by
  rw [main_tag_eq g hsrc hnames, runVisits_EnumCheckDest]
  obtain ⟨hE, hA⟩ := foldl_tagStep g.cSettings.szSource g.cDestTree
    (g.cSrcTree.preorder g.cSettings.szSource) g.cDestTree rfl
  refine ⟨rfl, ?_, ?_, hE, foldl_tagStep_cThis _ _ _, rfl, rfl, rfl, rfl⟩
  · intro r e hr
    have hun : e.untagged = true := allEntries_entryAt _ r _ e hclear hr
    simp only [hA r, hr, Option.map_some', Option.some.injEq, exists_eq_left']
    by_cases hf : ∃ v ∈ g.cSrcTree.preorder g.cSettings.szSource,
        g.cDestTree.FileExists (relPath g.cSettings.szSource v.1) = some r
    · simp only [hf, if_true, tag_eraseUser, tag_untagged, true_and, forall_true_left,
        not_true_eq_false, false_implies, and_true]
    · simp only [hf, if_false, true_and, false_implies, not_false_eq_true, forall_true_left,
        and_true, iff_false]
      simp [hun]
  · intro r hr
    simp only [hA r, hr, Option.map_none']

/-- C9, witness: the theorem at the sample source tree under `C:\` and a destination with
`A.TXT`, `old.bak` and `sub\c.txt`; after the pass `A.TXT`, `sub` and `sub\c.txt` carry the
tag and `old.bak` does not. -/
theorem tag_pass_marks_exactly_found_witness :
    tagGlobals.cSettings.szSource ≠ [] ∧ tagGlobals.cSrcTree.fileNamesNonEmpty = true ∧
    tagGlobals.cDestTree.allEntries CDirEntry.untagged = true ∧
    (main.tag tagGlobals).1 = true ∧
    ((main.tag tagGlobals).2.cDestTree.postorder "D:\\dst".toList).map
        (fun v => (v.1, v.2.1.untagged)) =
      [("D:\\dst\\A.TXT".toList, false), ("D:\\dst\\old.bak".toList, true),
       ("D:\\dst\\sub\\c.txt".toList, false), ("D:\\dst\\sub".toList, false)] :=
  ⟨by decide, by decide, by decide,
    (tag_pass_marks_exactly_found tagGlobals (by decide) (by decide) (by decide)).1, by decide⟩

/-! ### Planner: looking up the entries of a well-formed tree -/

theorem subPath_eq_slashed (p n : List Char) : subPath p n = slashed p ++ n := rfl

theorem relPath_slashed (p q : List Char) : relPath p (slashed p ++ q) = q := by
  unfold relPath slashed
  by_cases h : p.getLast? = some '\\'
  · simp [h]
  · simp only [h, if_false, ne_eq, not_false_eq_true, if_true, List.append_assoc]
    rw [List.drop_append_eq_append_drop]
    simp

theorem slashed_subPath (p n : List Char) (hn : n ≠ []) (hb : ¬ '\\' ∈ n) :
    slashed (subPath p n) = subPath p n ++ ['\\'] := by
  have hlast : (subPath p n).getLast? ≠ some '\\' := by
    rw [subPath_eq_slashed, List.getLast?_append_of_ne_nil _ hn]
    intro h
    have := List.mem_of_getLast?_eq_some h
    exact hb this
  unfold slashed
  rw [if_pos hlast]

theorem tcsicmpEq_self (a : List Char) : tcsicmpEq a a = true := by
  simp [tcsicmpEq]

theorem tcsicmpEq_false_of_ne (a b : List Char) (h : a.map tolower ≠ b.map tolower) :
    tcsicmpEq a b = false := by
  simp [tcsicmpEq, h]

theorem findFile_of_nodup (p : List Char) :
    ∀ (fs : List CDirEntry) (i k : Nat) (f : CDirEntry),
      (fs.map (fun f => f.sName.map tolower)).Nodup → fs[i]? = some f → f.sName = p →
      FileExists.findFile p fs k = some (k + i) := by
  intro fs
  induction fs with
  | nil => intro i k f _ h; simp at h
  | cons a rest ih =>
    intro i k f hnd h hp
    simp only [List.map_cons, List.nodup_cons] at hnd
    cases i with
    | zero =>
      simp only [List.getElem?_cons_zero, Option.some.injEq] at h
      subst h
      subst hp
      simp [FileExists.findFile, tcsicmpEq_self]
    | succ i =>
      simp only [List.getElem?_cons_succ] at h
      have hmem : f.sName.map tolower ∈ rest.map (fun f => f.sName.map tolower) :=
        List.mem_map.mpr ⟨f, List.getElem?_mem h, rfl⟩
      have hne : p.map tolower ≠ a.sName.map tolower := by
        intro heq
        rw [← hp] at heq
        rw [heq] at hmem
        exact hnd.1 hmem
      simp only [FileExists.findFile, tcsicmpEq_false_of_ne _ _ hne, Bool.false_eq_true,
        if_false]
      rw [ih i (k + 1) f hnd.2 h hp]
      congr 1
      omega

theorem findFile_none (p : List Char) :
    ∀ (fs : List CDirEntry) (k : Nat),
      (∀ f ∈ fs, p.map tolower ≠ f.sName.map tolower) → FileExists.findFile p fs k = none := by
  intro fs
  induction fs with
  | nil => intro k _; rfl
  | cons a rest ih =>
    intro k h
    simp only [FileExists.findFile, tcsicmpEq_false_of_ne _ _ (h a (List.mem_cons_self _ _)),
      Bool.false_eq_true, if_false]
    exact ih (k + 1) (fun f hf => h f (List.mem_cons_of_mem _ hf))

theorem findDir_skip (p : List Char) :
    ∀ (pre l : List CDir) (k : Nat),
      (∀ a ∈ pre, p.map tolower ≠ a.cThis.sName.map tolower) →
      FileExists.findDir p (pre ++ l) k = FileExists.findDir p l (k + pre.length) := by
  intro pre
  induction pre with
  | nil => intro l k _; rfl
  | cons a rest ih =>
    intro l k h
    simp only [List.cons_append, FileExists.findDir,
      tcsicmpEq_false_of_ne _ _ (h a (List.mem_cons_self _ _)), Bool.false_eq_true, if_false,
      List.append_eq]
    rw [ih l (k + 1) (fun b hb => h b (List.mem_cons_of_mem _ hb))]
    congr 1
    simp only [List.length_cons]
    omega

theorem FileExists_sub_skip (base rest : List Char) :
    ∀ (pre l : List CDir) (k : Nat),
      (∀ a ∈ pre, a.cThis.sName.map tolower ≠ base.map tolower) →
      FileExists.sub base rest (pre ++ l) k = FileExists.sub base rest l (k + pre.length) := by
  intro pre
  induction pre with
  | nil => intro l k _; rfl
  | cons a tl ih =>
    intro l k h
    simp only [List.cons_append, FileExists.sub,
      tcsicmpEq_false_of_ne _ _ (h a (List.mem_cons_self _ _)), Bool.false_eq_true, if_false,
      List.append_eq]
    rw [ih l (k + 1) (fun b hb => h b (List.mem_cons_of_mem _ hb))]
    congr 1
    simp only [List.length_cons]
    omega

theorem takeWhile_ne_backslash (n q : List Char) (hb : ¬ '\\' ∈ n) :
    (n ++ '\\' :: q).takeWhile (fun c => decide (c ≠ '\\')) = n ∧
    ((n ++ '\\' :: q).dropWhile (fun c => decide (c ≠ '\\'))).tail = q := by
  induction n with
  | nil => simp
  | cons c rest ih =>
    have hc : c ≠ '\\' := fun h => hb (by simp [h])
    have hrest : ¬ '\\' ∈ rest := fun h => hb (List.mem_cons_of_mem _ h)
    obtain ⟨h1, h2⟩ := ih hrest
    simp only [List.cons_append, List.takeWhile_cons, List.dropWhile_cons, hc, ne_eq,
      not_false_eq_true, decide_True, if_true]
    exact ⟨by rw [h1], h2⟩

theorem wellFormed_node (t : CDirEntry) (fs : List CDirEntry) (ds : List CDir) (e : List Char)
    (h : (CDir.mk t fs ds e).wellFormed = true) :
    (∀ n ∈ nodeNames fs ds, n ≠ [] ∧ ¬ '\\' ∈ n) ∧
    ((nodeNames fs ds).map (fun n => n.map tolower)).Nodup ∧
    CDir.wellFormedList ds = true := by
  simp only [CDir.wellFormed, Bool.and_eq_true, List.all_eq_true, decide_eq_true_eq] at h
  exact ⟨h.1.1, h.1.2, h.2⟩

theorem nodeNames_facts (fs : List CDirEntry) (pre rest : List CDir) (d : CDir)
    (hnd : ((nodeNames fs (pre ++ d :: rest)).map (fun n => n.map tolower)).Nodup) :
    (∀ f ∈ fs, d.cThis.sName.map tolower ≠ f.sName.map tolower) ∧
    (∀ a ∈ pre, d.cThis.sName.map tolower ≠ a.cThis.sName.map tolower) := by
  simp only [nodeNames, List.map_append, List.map_cons, List.map_map] at hnd
  rw [← List.append_assoc] at hnd
  have h1 := (List.nodup_append.mp hnd).2.2
  constructor
  · intro f hf heq
    refine h1 (a := d.cThis.sName.map tolower) (List.mem_append_left _ ?_)
      (List.mem_cons_self _ _)
    rw [heq]
    exact List.mem_map.mpr ⟨f, hf, rfl⟩
  · intro a ha heq
    refine h1 (a := d.cThis.sName.map tolower) (List.mem_append_right _ ?_)
      (List.mem_cons_self _ _)
    rw [heq]
    exact List.mem_map.mpr ⟨a, ha, rfl⟩

mutual
/-- In a well-formed tree every visited entry is found by `FileExists` under its own
relative path, at its own position. -/
theorem self_lookup (D : CDir) (hwf : D.wellFormed = true) (path : List Char) (v : Visit)
    (hv : v ∈ D.postorder path) :
    ∃ q r, v.1 = slashed path ++ q ∧ D.FileExists q = some r ∧ D.entryAt r = some v.2.1 := by
  cases D with
  | mk t fs ds e =>
    obtain ⟨hnames, hnd, hwfl⟩ := wellFormed_node t fs ds e hwf
    simp only [CDir.postorder, List.mem_append, List.mem_map] at hv
    rcases hv with ⟨f, hf, rfl⟩ | hv
    · obtain ⟨i, hi⟩ := List.mem_iff_getElem?.mp hf
      have hfn := hnames f.sName (by
        simp only [nodeNames, List.mem_append, List.mem_map]
        exact Or.inl ⟨f, hf, rfl⟩)
      have hnd1 : (fs.map (fun f => f.sName.map tolower)).Nodup := by
        simp only [nodeNames, List.map_append, List.map_map] at hnd
        exact (List.nodup_append.mp hnd).1
      refine ⟨f.sName, .file i, rfl, ?_, ?_⟩
      · simp only [CDir.FileExists, hfn.2, not_false_eq_true, if_true]
        rw [findFile_of_nodup f.sName fs i 0 f hnd1 hi rfl]
        simp
      · simpa [CDir.entryAt] using hi
    · exact self_lookup_dirs t fs e [] ds hnames hnd hwfl path v hv
theorem self_lookup_dirs (t : CDirEntry) (fs : List CDirEntry) (e : List Char)
    (pre ds : List CDir)
    (hnames : ∀ n ∈ nodeNames fs (pre ++ ds), n ≠ [] ∧ ¬ '\\' ∈ n)
    (hnd : ((nodeNames fs (pre ++ ds)).map (fun n => n.map tolower)).Nodup)
    (hwfl : CDir.wellFormedList ds = true) (path : List Char) (v : Visit)
    (hv : v ∈ CDir.postorderDirs ds path) :
    ∃ q r, v.1 = slashed path ++ q ∧ (CDir.mk t fs (pre ++ ds) e).FileExists q = some r ∧
      (CDir.mk t fs (pre ++ ds) e).entryAt r = some v.2.1 := by
  cases ds with
  | nil => simp [CDir.postorderDirs] at hv
  | cons d rest =>
    simp only [CDir.wellFormedList, Bool.and_eq_true] at hwfl
    have hdn := hnames d.cThis.sName (by
      unfold nodeNames
      rw [List.map_append, List.map_cons]
      exact List.mem_append_right _ (List.mem_append_right _ (List.mem_cons_self _ _)))
    obtain ⟨hfs, hpre⟩ := nodeNames_facts fs pre rest d hnd
    have hget : (pre ++ d :: rest)[pre.length]? = some d := by
      rw [List.getElem?_append_right (Nat.le_refl _)]
      simp
    simp only [CDir.postorderDirs, List.mem_append, List.mem_cons] at hv
    rcases hv with hv | rfl | hv
    · -- an entry below the subdirectory
      obtain ⟨q1, r1, hq1, hF, hA⟩ := self_lookup d hwfl.1 (subPath path d.cThis.sName) v hv
      refine ⟨d.cThis.sName ++ '\\' :: q1, .sub pre.length r1, ?_, ?_, ?_⟩
      · rw [hq1, slashed_subPath path _ hdn.1 hdn.2, subPath_eq_slashed]
        simp
      · have hmem : '\\' ∈ d.cThis.sName ++ '\\' :: q1 := by simp
        obtain ⟨htw, hdw⟩ := takeWhile_ne_backslash d.cThis.sName q1 hdn.2
        simp only [CDir.FileExists, hmem, not_true_eq_false, if_false, htw, hdw]
        rw [FileExists_sub_skip _ _ pre (d :: rest) 0 (fun a ha h => hpre a ha h.symm)]
        simp only [FileExists.sub, tcsicmpEq_self, if_true, hF, Nat.zero_add]
      · simp only [CDir.entryAt, hget, hA]
    · -- the subdirectory itself
      refine ⟨d.cThis.sName, .dir pre.length, rfl, ?_, ?_⟩
      · simp only [CDir.FileExists, hdn.2, not_false_eq_true, if_true]
        rw [findFile_none _ fs 0 hfs, findDir_skip _ pre (d :: rest) 0 hpre]
        simp [FileExists.findDir, tcsicmpEq_self]
      · simp only [CDir.entryAt, hget, Option.map_some']
    · -- an entry of a later subdirectory
      have hassoc : pre ++ d :: rest = (pre ++ [d]) ++ rest := by simp
      rw [hassoc] at hnames hnd ⊢
      exact self_lookup_dirs t fs e (pre ++ [d]) rest hnames hnd hwfl.2 path v hv
end

theorem nodeNames_eraseUser (fs : List CDirEntry) (ds : List CDir) :
    nodeNames (fs.map CDirEntry.eraseUser) (CDir.eraseUserList ds) = nodeNames fs ds := by
  unfold nodeNames
  congr 1
  · rw [List.map_map]
    rfl
  · rw [eraseUserList_eq_map, List.map_map]
    apply List.map_congr_left
    intro d _
    exact eraseUser_cThis_sName d

mutual
theorem wellFormed_eraseUser (D : CDir) : D.eraseUser.wellFormed = D.wellFormed := by
  cases D with
  | mk t fs ds e =>
    simp only [CDir.eraseUser, CDir.wellFormed, nodeNames_eraseUser]
    rw [wellFormedList_eraseUser ds]
theorem wellFormedList_eraseUser (ds : List CDir) :
    CDir.wellFormedList (CDir.eraseUserList ds) = CDir.wellFormedList ds := by
  cases ds with
  | nil => rfl
  | cons d rest =>
    simp only [CDir.eraseUserList, CDir.wellFormedList]
    rw [wellFormed_eraseUser d, wellFormedList_eraseUser rest]
end

theorem wellFormed_congr (A B : CDir) (h : A.eraseUser = B.eraseUser) :
    A.wellFormed = B.wellFormed := by
  rw [← wellFormed_eraseUser A, ← wellFormed_eraseUser B, h]

mutual
theorem postorder_eraseUser (D : CDir) (p : List Char) :
    (D.eraseUser.postorder p).map (fun v => v.1) = (D.postorder p).map (fun v => v.1) := by
  cases D with
  | mk t fs ds e =>
    simp only [CDir.eraseUser, CDir.postorder, List.map_append, List.map_map]
    rw [postorderDirs_eraseUser ds p]
    rfl
theorem postorderDirs_eraseUser (ds : List CDir) (p : List Char) :
    (CDir.postorderDirs (CDir.eraseUserList ds) p).map (fun v => v.1) =
      (CDir.postorderDirs ds p).map (fun v => v.1) := by
  cases ds with
  | nil => rfl
  | cons d rest =>
    simp only [CDir.eraseUserList, CDir.postorderDirs, List.map_append, List.map_cons,
      eraseUser_cThis_sName]
    rw [postorder_eraseUser d, postorderDirs_eraseUser rest p]
end

theorem postorder_paths_congr (A B : CDir) (h : A.eraseUser = B.eraseUser) (p : List Char) :
    (A.postorder p).map (fun v => v.1) = (B.postorder p).map (fun v => v.1) := by
  rw [← postorder_eraseUser A, ← postorder_eraseUser B, h]

mutual
theorem mem_postorder_iff (D : CDir) (p : List Char) (v : Visit) :
    v ∈ D.postorder p ↔ v ∈ D.preorder p := by
  cases D with
  | mk t fs ds e =>
    simp only [CDir.postorder, CDir.preorder, List.mem_append]
    rw [mem_postorderDirs_iff ds p v]
theorem mem_postorderDirs_iff (ds : List CDir) (p : List Char) (v : Visit) :
    v ∈ CDir.postorderDirs ds p ↔ v ∈ CDir.preorderDirs ds p := by
  cases ds with
  | nil => rfl
  | cons d rest =>
    simp only [CDir.postorderDirs, CDir.preorderDirs, List.mem_append, List.mem_cons]
    rw [mem_postorder_iff d _ v, mem_postorderDirs_iff rest p v]
    tauto
end

/-- After the tagging steps for the visits of a source tree, a visited entry of a
well-formed destination tree whose relative path is the relative path of one of those
visits carries the tag. -/
theorem tagged_of_rel_mem (src dst : List Char) (D : CDir) (hwf : D.wellFormed = true)
    (vs : List Visit) (v : Visit) (hv : v ∈ (vs.foldl (tagStep src) D).postorder dst)
    (hrel : relPath dst v.1 ∈ vs.map (fun u => relPath src u.1)) :
    v.2.1.untagged = false := by
  obtain ⟨hE, hA⟩ := foldl_tagStep src D vs D rfl
  have hwf1 : (vs.foldl (tagStep src) D).wellFormed = true := by
    rw [wellFormed_congr _ _ hE]
    exact hwf
  obtain ⟨q, r, hq, hF, hAt⟩ := self_lookup _ hwf1 dst v hv
  have hrelq : relPath dst v.1 = q := by rw [hq, relPath_slashed]
  rw [FileExists_congr _ _ hE] at hF
  rw [hrelq] at hrel
  obtain ⟨u, hu, huq⟩ := List.mem_map.mp hrel
  have hfound : ∃ u ∈ vs, D.FileExists (relPath src u.1) = some r := ⟨u, hu, by rw [huq]; exact hF⟩
  rw [hA r] at hAt
  cases hD : D.entryAt r with
  | none => simp [hD] at hAt
  | some e0 =>
    simp only [hD, Option.map_some', Option.some.injEq, hfound, if_true] at hAt
    rw [← hAt]
    exact tag_untagged e0

theorem EnumDelTagged_of_tagged {ω : Type} (sys : Win32 ω) (g : Globals ω) (p : List Char)
    (e : CDirEntry) (b : Bool) (h : e.untagged = false) :
    EnumDelTagged sys g p e b = (true, g) := by
  have h0 : ¬ e.dwUser &&& USERFLAG_EXISTSINSOURCE = 0 := by
    simpa [CDirEntry.untagged] using h
  unfold EnumDelTagged
  simp only [h0, if_false]
  split <;> rfl

theorem runVisits_EnumDelTagged_of_tagged {ω : Type} (sys : Win32 ω) (vs : List Visit)
    (h : ∀ v ∈ vs, v.2.1.untagged = false) :
    ∀ g : Globals ω, runVisits (EnumDelTagged sys) g vs = g := by
  induction vs with
  | nil => intro g; rfl
  | cons v rest ih =>
    intro g
    rw [runVisits_cons, EnumDelTagged_of_tagged sys g v.1 v.2.1 v.2.2
      (h v (List.mem_cons_self _ _))]
    exact ih (fun u hu => h u (List.mem_cons_of_mem _ hu)) g

theorem main_tag_cDestTree {ω : Type} (g : Globals ω) (hsrc : g.cSettings.szSource ≠ [])
    (hnames : g.cSrcTree.fileNamesNonEmpty = true) :
    (main.tag g).2.cDestTree =
      (g.cSrcTree.preorder g.cSettings.szSource).foldl (tagStep g.cSettings.szSource)
        g.cDestTree := by
  rw [main_tag_eq g hsrc hnames, runVisits_EnumCheckDest]

/-- C8: when the relative paths of the destination tree are exactly those of the source
tree (destination well-formed: names non-empty, without backslash, unique per directory
up to case; source file names non-empty; both roots non-empty, the source root with or
without a final backslash), every entry the clean pass visits carries the tag after the
tagging pass, and the clean pass, run in any state that holds that destination tree and
the same settings, returns true and changes nothing: no call is made and all totals,
the destination-files-deleted and destination-dirs-deleted counts among them, stay as
they are. -/
theorem same_paths_clean_deletes_nothing {ω : Type} (sys : Win32 ω) (g : Globals ω)
    (hsrc : g.cSettings.szSource ≠ []) (hdst : g.cSettings.szDest ≠ [])
    (hnames : g.cSrcTree.fileNamesNonEmpty = true) (hwf : g.cDestTree.wellFormed = true)
    (hsame : ∀ q, q ∈ g.cDestTree.relPaths g.cSettings.szDest ↔
      q ∈ g.cSrcTree.relPaths g.cSettings.szSource) :
    (∀ v ∈ (main.tag g).2.cDestTree.postorder g.cSettings.szDest, v.2.1.untagged = false) ∧
    (∀ h : Globals ω, h.cDestTree = (main.tag g).2.cDestTree → h.cSettings = g.cSettings →
      main.clean sys h = (true, h)) ∧
    (main.clean sys (main.tag g).2).2.calls = g.calls ∧
    (main.clean sys (main.tag g).2).2.cTotals.iDestFilesDeleted = g.cTotals.iDestFilesDeleted ∧
    (main.clean sys (main.tag g).2).2.cTotals.iDestDirsDeleted = g.cTotals.iDestDirsDeleted := by
  have hD := main_tag_cDestTree g hsrc hnames
  have hE := (foldl_tagStep g.cSettings.szSource g.cDestTree
    (g.cSrcTree.preorder g.cSettings.szSource) g.cDestTree rfl).1
  have htag : ∀ v ∈ (main.tag g).2.cDestTree.postorder g.cSettings.szDest,
      v.2.1.untagged = false := by
    intro v hv
    rw [hD] at hv
    refine tagged_of_rel_mem _ _ _ hwf _ v hv ?_
    have hpath : v.1 ∈ (g.cDestTree.postorder g.cSettings.szDest).map (fun v => v.1) := by
      rw [← postorder_paths_congr _ _ hE]
      exact List.mem_map.mpr ⟨v, hv, rfl⟩
    obtain ⟨w, hw, hwv⟩ := List.mem_map.mp hpath
    have hw1 : w ∈ g.cDestTree.preorder g.cSettings.szDest := (mem_postorder_iff _ _ _).mp hw
    have hq : relPath g.cSettings.szDest v.1 ∈ g.cDestTree.relPaths g.cSettings.szDest :=
      List.mem_map.mpr ⟨w, hw1, by rw [← hwv]⟩
    exact (hsame _).mp hq
  have hclean : ∀ h : Globals ω, h.cDestTree = (main.tag g).2.cDestTree →
      h.cSettings = g.cSettings → main.clean sys h = (true, h) := by
    intro h hT hS
    unfold main.clean
    rw [EnumFilesReverse_eq_runVisits (EnumDelTagged sys) (EnumDelTagged_fst sys) _ _ _
      (by rw [hS]; exact hdst), hT, hS,
      runVisits_EnumDelTagged_of_tagged sys _ htag]
  have hS1 : (main.tag g).2.cSettings = g.cSettings := by
    rw [main_tag_eq g hsrc hnames, runVisits_EnumCheckDest]
  have hC1 : (main.tag g).2.calls = g.calls := by
    rw [main_tag_eq g hsrc hnames, runVisits_EnumCheckDest]
  have hT1 : (main.tag g).2.cTotals = g.cTotals := by
    rw [main_tag_eq g hsrc hnames, runVisits_EnumCheckDest]
  refine ⟨htag, hclean, ?_, ?_, ?_⟩
  · rw [hclean _ rfl hS1, hC1]
  · rw [hclean _ rfl hS1, hT1]
  · rw [hclean _ rfl hS1, hT1]

/-- C8, witness: the theorem at the sample tree mirrored from `C:\` to `D:\dst`. -/
theorem same_paths_clean_deletes_nothing_witness :
    mirrorGlobals.cSettings.szSource ≠ [] ∧ mirrorGlobals.cSettings.szDest ≠ [] ∧
    mirrorGlobals.cSrcTree.fileNamesNonEmpty = true ∧
    mirrorGlobals.cDestTree.wellFormed = true ∧
    mirrorGlobals.cDestTree.relPaths mirrorGlobals.cSettings.szDest =
      mirrorGlobals.cSrcTree.relPaths mirrorGlobals.cSettings.szSource ∧
    (main.clean (stubSys 0) (main.tag mirrorGlobals).2).2.calls = [] ∧
    (main.clean (stubSys 0) (main.tag mirrorGlobals).2).2.cTotals.iDestFilesDeleted = 0 ∧
    (main.clean (stubSys 0) (main.tag mirrorGlobals).2).2.cTotals.iDestDirsDeleted = 0 :=
  ⟨by decide, by decide, by decide, by decide, by decide,
    (same_paths_clean_deletes_nothing (stubSys 0) mirrorGlobals (by decide) (by decide)
      (by decide) (by decide)
      (fun q => by
        rw [show mirrorGlobals.cDestTree.relPaths mirrorGlobals.cSettings.szDest =
          mirrorGlobals.cSrcTree.relPaths mirrorGlobals.cSettings.szSource from by decide])).2.2⟩

/-! ### Planner: what the stages between tagging and cleaning leave alone -/

theorem EnumFiles_files_preserves {σ : Type} (pEnum : EnumFn σ) (P : σ → Prop)
    (hP : ∀ c p e b, P c → P (pEnum c p e b).2) (path : List Char) :
    ∀ (fs : List CDirEntry) (ctx : σ), P ctx → P (EnumFiles.files pEnum path fs ctx).2 := by
  intro fs
  induction fs with
  | nil => intro ctx h; exact h
  | cons f rest ih =>
    intro ctx h
    simp only [EnumFiles.files]
    split
    · exact ih ctx h
    · have h1 := hP ctx (subPath path f.sName) f false h
      split
      · rename_i c1 heq
        rw [heq] at h1
        exact h1
      · rename_i c1 heq
        rw [heq] at h1
        exact ih c1 h1

mutual
theorem EnumFiles_preserves {σ : Type} (pEnum : EnumFn σ) (P : σ → Prop)
    (hP : ∀ c p e b, P c → P (pEnum c p e b).2) (d : CDir) (path : List Char) (ctx : σ)
    (h : P ctx) : P (d.EnumFiles pEnum path ctx).2 := by
  cases d with
  | mk t fs ds e =>
    simp only [CDir.EnumFiles]
    split
    · exact h
    · have h1 := EnumFiles_files_preserves pEnum P hP path fs ctx h
      split
      · rename_i c1 heq
        rw [heq] at h1
        exact h1
      · rename_i c1 heq
        rw [heq] at h1
        exact EnumFiles_dirs_preserves pEnum P hP ds path c1 h1
theorem EnumFiles_dirs_preserves {σ : Type} (pEnum : EnumFn σ) (P : σ → Prop)
    (hP : ∀ c p e b, P c → P (pEnum c p e b).2) (ds : List CDir) (path : List Char) (ctx : σ)
    (h : P ctx) : P (EnumFiles.dirs pEnum path ds ctx).2 := by
  cases ds with
  | nil => exact h
  | cons d rest =>
    simp only [EnumFiles.dirs]
    have h1 := hP ctx (subPath path d.cThis.sName) d.cThis true h
    split
    · rename_i c1 heq
      rw [heq] at h1
      exact h1
    · rename_i c1 heq
      rw [heq] at h1
      have h2 := EnumFiles_preserves pEnum P hP d (subPath path d.cThis.sName) c1 h1
      split
      · rename_i c2 heq2
        rw [heq2] at h2
        exact h2
      · rename_i c2 heq2
        rw [heq2] at h2
        exact EnumFiles_dirs_preserves pEnum P hP rest path c2 h2
end

theorem PruneFiles_files_state {σ : Type} (pQuery : EnumFn σ)
    (hQ : ∀ c p e b, (pQuery c p e b).2 = c) (path : List Char) :
    ∀ (fs : List CDirEntry) (ctx : σ), (PruneFiles.files pQuery path fs ctx).2 = ctx := by
  intro fs
  induction fs with
  | nil => intro ctx; rfl
  | cons f rest ih =>
    intro ctx
    simp only [PruneFiles.files]
    have h1 := hQ ctx (subPath path f.sName) f false
    split
    · rename_i c1 heq
      rw [heq] at h1
      simp only at h1
      subst h1
      exact ih _
    · rename_i c1 heq
      rw [heq] at h1
      simp only at h1
      subst h1
      exact ih _

theorem PruneFiles_flags_state {σ : Type} (pQuery : EnumFn σ)
    (hQ : ∀ c p e b, (pQuery c p e b).2 = c) (path : List Char) :
    ∀ (ds : List CDir) (ctx : σ), (PruneFiles.flags pQuery path ds ctx).2 = ctx := by
  intro ds
  induction ds with
  | nil => intro ctx; rfl
  | cons d rest ih =>
    intro ctx
    simp only [PruneFiles.flags]
    rw [ih, hQ]

mutual
theorem PruneFiles_state {σ : Type} (pQuery : EnumFn σ)
    (hQ : ∀ c p e b, (pQuery c p e b).2 = c) (d : CDir) (path : List Char) (ctx : σ) :
    (d.PruneFiles pQuery path ctx).2.1 = ctx := by
  cases d with
  | mk t fs ds e =>
    simp only [CDir.PruneFiles]
    split
    · rfl
    · have h1 := PruneFiles_subdirs_state pQuery hQ ds path
        (PruneFiles.flags pQuery path ds (PruneFiles.files pQuery path fs ctx).2).1
        (PruneFiles.flags pQuery path ds (PruneFiles.files pQuery path fs ctx).2).2
      have h1 := h1.trans ((PruneFiles_flags_state pQuery hQ path ds _).trans
        (PruneFiles_files_state pQuery hQ path fs ctx))
      split
      · rename_i c3 ds1 heq
        rw [heq] at h1
        exact h1
      · rename_i err c3 ds1 heq
        rw [heq] at h1
        exact h1
theorem PruneFiles_subdirs_state {σ : Type} (pQuery : EnumFn σ)
    (hQ : ∀ c p e b, (pQuery c p e b).2 = c) (ds : List CDir) (path : List Char)
    (flags : List Bool) (ctx : σ) :
    (PruneFiles.subdirs pQuery path ds flags ctx).2.1 = ctx := by
  cases ds with
  | nil => rfl
  | cons d rest =>
    cases flags with
    | nil =>
      simp only [PruneFiles.subdirs]
      exact PruneFiles_subdirs_state pQuery hQ rest path [] ctx
    | cons b fl =>
      cases b with
      | false =>
        simp only [PruneFiles.subdirs]
        exact PruneFiles_subdirs_state pQuery hQ rest path fl ctx
      | true =>
        simp only [PruneFiles.subdirs]
        have h1 := PruneFiles_state pQuery hQ d (subPath path d.cThis.sName) ctx
        split
        · rename_i c1 d1 heq
          rw [heq] at h1
          exact h1
        · rename_i c1 d1 heq
          rw [heq] at h1
          simp only at h1
          subst h1
          exact PruneFiles_subdirs_state pQuery hQ rest path fl _
end

theorem QuerySource_state {ω : Type} (sys : Win32 ω) (g : Globals ω) (p : List Char)
    (e : CDirEntry) (b : Bool) : (QuerySource sys g p e b).2 = g := by
  unfold QuerySource
  simp only []
  split_ifs <;> rfl

theorem main_prune_fields {ω : Type} (sys : Win32 ω) (g : Globals ω) :
    (main.prune sys g).2.cDestTree = g.cDestTree ∧
    (main.prune sys g).2.cSettings = g.cSettings := by
  unfold main.prune
  have h := PruneFiles_state (QuerySource sys) (QuerySource_state sys) g.cSrcTree
    g.cSettings.szSource g
  rcases hres : g.cSrcTree.PruneFiles (QuerySource sys) g.cSettings.szSource g with ⟨b, g1, t⟩
  rw [hres] at h
  simp only at h
  subst h
  exact ⟨rfl, rfl⟩

@[simp] theorem frame_call {ω α : Type} (g : Globals ω) (c : OsCall) (op : ω → α × ω) :
    (g.call c op).2.frame = g.frame := rfl

@[simp] theorem frame_addError {ω : Type} (g : Globals ω) : g.addError.frame = g.frame := rfl

@[simp] theorem frame_addWarning {ω : Type} (g : Globals ω) : g.addWarning.frame = g.frame := rfl

@[simp] theorem frame_mk {ω : Type} (s : CSettings) (t : CTotals) (a d : CDir) (o : ω)
    (c : List OsCall) : (Globals.mk s t a d o c).frame = (d, s) := rfl

theorem frame_def {ω : Type} (g : Globals ω) : (g.cDestTree, g.cSettings) = g.frame := rfl

theorem EnumCopy_move_frame {ω : Type} (sys : Win32 ω) (g : Globals ω) (p : List Char)
    (e : CDirEntry) : (EnumCopy.move sys g p e).frame = g.frame := by
  unfold EnumCopy.move
  simp only [apply_ite Globals.frame, apply_ite Globals.cDestTree, apply_ite Globals.cSettings,
    frame_mk, frame_call, frame_addWarning, Globals.call_cDestTree, Globals.call_cSettings,
    Globals.addWarning_cDestTree, Globals.addWarning_cSettings, ite_self, frame_def]

theorem EnumCopy_copied_frame {ω : Type} (sys : Win32 ω) (g : Globals ω) (p q : List Char)
    (n : Nat) : (EnumCopy.copied sys g p q n).2.frame = g.frame := by
  unfold EnumCopy.copied
  simp only [apply_ite Prod.snd, apply_ite Globals.frame, apply_ite Globals.cDestTree,
    apply_ite Globals.cSettings,
    frame_mk, frame_call, frame_addWarning, frame_addError, Globals.call_cDestTree,
    Globals.call_cSettings, Globals.addWarning_cDestTree, Globals.addWarning_cSettings,
    Globals.addError_cDestTree, Globals.addError_cSettings, ite_self, frame_def]

theorem EnumCopy_dir_frame {ω : Type} (sys : Win32 ω) (g : Globals ω) (p q : List Char)
    (x : Option CDirEntry) : (EnumCopy.dir sys g p q x).2.frame = g.frame := by
  unfold EnumCopy.dir
  cases x <;>
  simp only [apply_ite Prod.snd, apply_ite Globals.frame, apply_ite Globals.cDestTree,
    apply_ite Globals.cSettings,
    frame_mk, frame_call, frame_addWarning, frame_addError, Globals.call_cDestTree,
    Globals.call_cSettings, Globals.addWarning_cDestTree, Globals.addWarning_cSettings,
    Globals.addError_cDestTree, Globals.addError_cSettings, ite_self, frame_def]

theorem EnumCopy_unprotect_frame {ω : Type} (sys : Win32 ω) (g : Globals ω) (q : List Char)
    (e : CDirEntry) (x : Option CDirEntry) : (EnumCopy.unprotect sys g q e x).frame = g.frame := by
  unfold EnumCopy.unprotect
  simp only [apply_ite Globals.frame, frame_call, frame_addWarning, ite_self]

theorem EnumCopy_file_frame {ω : Type} (sys : Win32 ω) (g : Globals ω) (p q : List Char)
    (e : CDirEntry) (x : Option CDirEntry) :
    (EnumCopy.file sys g p q e x).2.frame = g.frame := by
  unfold EnumCopy.file
  simp only []
  split
  · rfl
  · simp only [apply_ite Prod.snd, apply_ite Globals.frame, frame_call, frame_addError,
      EnumCopy_move_frame, EnumCopy_copied_frame, EnumCopy_unprotect_frame, ite_self]

theorem EnumCopy_frame {ω : Type} (sys : Win32 ω) (g : Globals ω) (p : List Char)
    (e : CDirEntry) (b : Bool) : (EnumCopy sys g p e b).2.frame = g.frame := by
  unfold EnumCopy
  simp only [apply_ite Prod.snd, apply_ite Globals.frame, frame_addError,
    EnumCopy_dir_frame, EnumCopy_file_frame, ite_self]

theorem EnumDelDir_frame {ω : Type} (sys : Win32 ω) (g : Globals ω) (p : List Char)
    (e : CDirEntry) (b : Bool) : (EnumDelDir sys g p e b).2.frame = g.frame := by
  unfold EnumDelDir
  simp only [apply_ite Prod.snd, apply_ite Globals.frame, apply_ite Globals.cDestTree,
    apply_ite Globals.cSettings,
    frame_mk, frame_call, frame_addWarning, Globals.call_cDestTree,
    Globals.call_cSettings, Globals.addWarning_cDestTree, Globals.addWarning_cSettings,
    ite_self, frame_def]

theorem EnumFiles_frame {ω : Type} (pEnum : EnumFn (Globals ω))
    (hP : ∀ c p e b, (pEnum c p e b).2.frame = c.frame) (d : CDir) (path : List Char)
    (g : Globals ω) : (d.EnumFiles pEnum path g).2.frame = g.frame :=
  EnumFiles_preserves pEnum (fun h => h.frame = g.frame)
    (fun c p e b hc => (hP c p e b).trans hc) d path g rfl

theorem main_prune_frame {ω : Type} (sys : Win32 ω) (g : Globals ω) :
    (main.prune sys g).2.frame = g.frame := by
  have h := main_prune_fields sys g
  unfold Globals.frame
  rw [h.1, h.2]

theorem main_report_frame {ω : Type} (sys : Win32 ω) (g : Globals ω) :
    (main.report sys g).2.frame = g.frame := by
  unfold main.report
  have hw : (if g.cSettings.bWait = true then g.call .gettch sys.gettch
      else ('y', g)).2.frame = g.frame := by
    split <;> rfl
  generalize (if g.cSettings.bWait = true then g.call .gettch sys.gettch else ('y', g)) = w
    at hw ⊢
  have hl : (if g.cSettings.bList = true
      then w.2.cSrcTree.EnumFiles EnumDisplay g.cSettings.szSource w.2
      else (true, w.2)).2.frame = g.frame := by
    split
    · rw [EnumFiles_frame EnumDisplay (fun _ _ _ _ => rfl), hw]
    · exact hw
  generalize (if g.cSettings.bList = true
      then w.2.cSrcTree.EnumFiles EnumDisplay g.cSettings.szSource w.2
      else (true, w.2)) = l at hl ⊢
  simp only [apply_ite Prod.snd, apply_ite Globals.frame,
    EnumFiles_frame EnumDisplay (fun _ _ _ _ => rfl), hw, hl, ite_self]

theorem frame_with_cTotals {ω : Type} (g : Globals ω) (t : CTotals) :
    ({ g with cTotals := t } : Globals ω).frame = g.frame := rfl

theorem main_copy_frame {ω : Type} (sys : Win32 ω) (g : Globals ω) :
    (main.copy sys g).2.frame = g.frame := by
  unfold main.copy
  simp only []
  have hd : (g.call (.DirExists g.cSettings.szDest) (sys.DirExists g.cSettings.szDest)).2.frame
      = g.frame := rfl
  generalize g.call (.DirExists g.cSettings.szDest) (sys.DirExists g.cSettings.szDest) = d
    at hd ⊢
  have hm : (if d.1 = false
      then d.2.call (.MakeDir g.cSettings.szDest) (sys.MakeDir g.cSettings.szDest)
      else (true, d.2)).2.frame = g.frame := by
    split
    · exact hd
    · exact hd
  generalize (if d.1 = false
      then d.2.call (.MakeDir g.cSettings.szDest) (sys.MakeDir g.cSettings.szDest)
      else (true, d.2)) = m at hm ⊢
  have hg1 : (if d.1 = false
      then { m.2 with cTotals := { m.2.cTotals with iDirsCreated := m.2.cTotals.iDirsCreated + 1 } }
      else { m.2 with cTotals :=
        { m.2.cTotals with iDirsAlreadyExist := m.2.cTotals.iDirsAlreadyExist + 1 } }).frame
      = g.frame := by
    split
    · exact hm
    · exact hm
  generalize (if d.1 = false
      then { m.2 with cTotals := { m.2.cTotals with iDirsCreated := m.2.cTotals.iDirsCreated + 1 } }
      else ({ m.2 with cTotals :=
        { m.2.cTotals with iDirsAlreadyExist := m.2.cTotals.iDirsAlreadyExist + 1 } } :
          Globals ω)) = g1 at hg1 ⊢
  have hg2 : ({ g1 with cTotals :=
      { g1.cTotals with iDirsCopied := g1.cTotals.iDirsCopied + 1 } } : Globals ω).frame
      = g.frame := hg1
  generalize ({ g1 with cTotals :=
      { g1.cTotals with iDirsCopied := g1.cTotals.iDirsCopied + 1 } } : Globals ω) = g2
    at hg2 ⊢
  have hc := (EnumFiles_frame (EnumCopy sys) (EnumCopy_frame sys) g1.cSrcTree
    g.cSettings.szSource g2).trans hg2
  generalize g1.cSrcTree.EnumFiles (EnumCopy sys) g.cSettings.szSource g2 = c at hc ⊢
  have hdd := (EnumFiles_frame (EnumDelDir sys) (EnumDelDir_frame sys) c.2.cSrcTree
    g.cSettings.szSource c.2).trans hc
  generalize c.2.cSrcTree.EnumFiles (EnumDelDir sys) g.cSettings.szSource c.2 = dd at hdd ⊢
  split_ifs
  · exact hm
  · exact hc
  · exact hdd
  · exact hdd
  · exact hdd
  · exact hc

theorem main_tag_frame {ω : Type} (g : Globals ω) (hsrc : g.cSettings.szSource ≠ [])
    (hnames : g.cSrcTree.fileNamesNonEmpty = true) :
    (main.tag g).2.frame =
      ((g.cSrcTree.preorder g.cSettings.szSource).foldl (tagStep g.cSettings.szSource)
        g.cDestTree, g.cSettings) := by
  rw [main_tag_eq g hsrc hnames, runVisits_EnumCheckDest]
  rfl

theorem main_beforeClean_frame {ω : Type} (sys : Win32 ω) (g : Globals ω)
    (hsrc : g.cSettings.szSource ≠ []) (hnames : g.cSrcTree.fileNamesNonEmpty = true) :
    (main.beforeClean sys g).cDestTree =
      (g.cSrcTree.preorder g.cSettings.szSource).foldl (tagStep g.cSettings.szSource)
        g.cDestTree ∧
    (main.beforeClean sys g).cSettings = g.cSettings := by
  have h : (main.beforeClean sys g).frame = _ :=
    (main_copy_frame sys _).trans ((main_report_frame sys _).trans
      ((main_prune_frame sys _).trans (main_tag_frame g hsrc hnames)))
  exact ⟨congrArg Prod.fst h, congrArg Prod.snd h⟩

/-- C6: in a run of `main` from the tagging pass on, with a well-formed destination
tree, non-empty roots and non-empty source file names, and for every filter configuration
and every behaviour of the operating system: the state in which the clean pass runs holds
the destination tree as the tagging pass left it, tagged from the scanned (unfiltered)
source tree; every destination entry the clean pass visits whose relative path is a
relative path of the scanned source tree carries the tag; the clean pass requests no
deletion of a path whose relative path is one of the scanned source tree; and when no
stage fails, list mode is off and clean mode is on, `main` runs the clean pass in exactly
that state. -/
theorem tags_from_unfiltered_source_survive_clean {ω : Type} (sys : Win32 ω) (g : Globals ω)
    (hsrc : g.cSettings.szSource ≠ []) (hdst : g.cSettings.szDest ≠ [])
    (hnames : g.cSrcTree.fileNamesNonEmpty = true) (hwf : g.cDestTree.wellFormed = true) :
    (main.beforeClean sys g).cDestTree = (main.tag g).2.cDestTree ∧
    (∀ v ∈ (main.beforeClean sys g).cDestTree.postorder g.cSettings.szDest,
      relPath g.cSettings.szDest v.1 ∈ g.cSrcTree.relPaths g.cSettings.szSource →
        v.2.1.untagged = false) ∧
    (∃ L : List OsCall,
      (main.clean sys (main.beforeClean sys g)).2.calls = (main.beforeClean sys g).calls ++ L ∧
      ∀ q, OsCall.tunlink q ∈ L ∨ OsCall.trmdir q ∈ L →
        ¬ relPath g.cSettings.szDest q ∈ g.cSrcTree.relPaths g.cSettings.szSource) ∧
    ((main.tag g).1 = true → (main.prune sys (main.tag g).2).1 = true →
      (main.report sys (main.prune sys (main.tag g).2).2).1 = true →
      g.cSettings.bList = false →
      (main.copy sys (main.report sys (main.prune sys (main.tag g).2).2).2).1 = true →
      g.cSettings.bClean = true →
      mainRun sys g =
        if (main.clean sys (main.beforeClean sys g)).1 = false
        then (EXIT_FAILURE, (main.clean sys (main.beforeClean sys g)).2)
        else (if (main.clean sys (main.beforeClean sys g)).2.cTotals.iNumErrors > 0
          then EXIT_FAILURE else EXIT_SUCCESS, (main.clean sys (main.beforeClean sys g)).2)) := by
  obtain ⟨hT, hS⟩ := main_beforeClean_frame sys g hsrc hnames
  have htagged : ∀ v ∈ (main.beforeClean sys g).cDestTree.postorder g.cSettings.szDest,
      relPath g.cSettings.szDest v.1 ∈ g.cSrcTree.relPaths g.cSettings.szSource →
        v.2.1.untagged = false := by
    intro v hv hrel
    rw [hT] at hv
    exact tagged_of_rel_mem _ _ _ hwf _ v hv hrel
  refine ⟨?_, htagged, ?_, ?_⟩
  · rw [hT, main_tag_cDestTree g hsrc hnames]
  · have hfold : main.clean sys (main.beforeClean sys g) =
        (true, runVisits (EnumDelTagged sys) (main.beforeClean sys g)
          ((main.beforeClean sys g).cDestTree.postorder
            (main.beforeClean sys g).cSettings.szDest)) :=
      EnumFilesReverse_eq_runVisits (EnumDelTagged sys) (EnumDelTagged_fst sys) _ _ _
        (by rw [hS]; exact hdst)
    obtain ⟨_, _, L, hL, ht, hr⟩ := runVisits_EnumDelTagged sys
      ((main.beforeClean sys g).cDestTree.postorder (main.beforeClean sys g).cSettings.szDest)
      (main.beforeClean sys g)
    refine ⟨L, by rw [hfold]; exact hL, ?_⟩
    intro q hq hrel
    rw [hS] at ht hr
    rcases hq with hq | hq
    · obtain ⟨v, hv, hvq, _, hun, _⟩ := (ht q).mp hq
      subst hvq
      rw [htagged v hv hrel] at hun
      cases hun
    · obtain ⟨v, hv, hvq, _, hun, _⟩ := (hr q).mp hq
      subst hvq
      rw [htagged v hv hrel] at hun
      cases hun
  · intro h1 h2 h3 h4 h5 h6
    have e1 : main.tag g = (true, (main.tag g).2) := Prod.ext h1 rfl
    have e2 : main.prune sys (main.tag g).2 = (true, (main.prune sys (main.tag g).2).2) :=
      Prod.ext h2 rfl
    have e3 : main.report sys (main.prune sys (main.tag g).2).2 =
        (true, (main.report sys (main.prune sys (main.tag g).2).2).2) := Prod.ext h3 rfl
    have e5 : main.copy sys (main.report sys (main.prune sys (main.tag g).2).2).2 =
        (true, main.beforeClean sys g) := Prod.ext h5 rfl
    have hS3 : (main.report sys (main.prune sys (main.tag g).2).2).2.cSettings = g.cSettings :=
      congrArg Prod.snd ((main_report_frame sys _).trans
        ((main_prune_frame sys _).trans (main_tag_frame g hsrc hnames)))
    unfold mainRun
    rw [e1]
    simp only []
    rw [e2]
    simp only []
    rw [e3]
    simp only [hS3, h4, if_true]
    rw [e5]
    simp only [hS, h6, if_true]
    rcases hres : main.clean sys (main.beforeClean sys g) with ⟨b, g5⟩
    cases b <;> simp

/-- C6, witness: the theorem at a run whose filter excludes the `.log` files: the
pruned source tree no longer lists `b.log`, the destination tree that reaches the clean
pass is the one the tagging pass produced, and in it `b.log` carries the tag while
`old.bak`, which the source never had, does not. -/
theorem tags_from_unfiltered_source_survive_clean_witness :
    filterGlobals.cSettings.szSource ≠ [] ∧ filterGlobals.cSettings.szDest ≠ [] ∧
    filterGlobals.cSrcTree.fileNamesNonEmpty = true ∧
    filterGlobals.cDestTree.wellFormed = true ∧
    (main.beforeClean (stubSys 0) filterGlobals).cDestTree =
      (main.tag filterGlobals).2.cDestTree ∧
    (main.prune (stubSys 0) (main.tag filterGlobals).2).2.cSrcTree.relPaths "C:\\src".toList =
      ["a.txt".toList, "sub".toList, "sub\\c.txt".toList] ∧
    ((main.tag filterGlobals).2.cDestTree.postorder "D:\\dst".toList).map
        (fun v => (relPath "D:\\dst".toList v.1, v.2.1.untagged)) =
      [("b.log".toList, false), ("old.bak".toList, true)] :=
  ⟨by decide, by decide, by decide, by decide,
    (tags_from_unfiltered_source_survive_clean (stubSys 0) filterGlobals (by decide)
      (by decide) (by decide) (by decide)).1,
    by decide, by decide⟩

/-! ### Filter: `QuerySource` -/

theorem calendarDate_le (y m d Y M D : Int) :
    calendarDate y m d ≤ calendarDate Y M D ↔
      y < Y ∨ (y = Y ∧ (m < M ∨ (m = M ∧ d ≤ D))) := by
  unfold calendarDate
  rw [Prod.Lex.le_iff]
  simp only [Prod.Lex.le_iff]

/-- What `QuerySource` answers, condition by condition. -/
theorem QuerySource_iff {ω : Type} (sys : Win32 ω) (g : Globals ω) (pszPath : List Char)
    (pEntry : CDirEntry) (bIsDir : Bool) :
    ((QuerySource sys g pszPath pEntry bIsDir).1 = true ↔
      includeOk g.cSettings pszPath ∧ excludeOk g.cSettings pszPath ∧
      wildOk g.cSettings pszPath ∧
      (olderOk g.cSettings (lastWriteDate sys pEntry) ∧
        newerOk g.cSettings (lastWriteDate sys pEntry)) ∧
      hiddenOk g.cSettings pEntry) := by
  have hinc : ¬ (g.cSettings.cIncludes.length > 0 ∧
      (g.cSettings.cIncludes.any (fun inc => SubstringMatch inc pszPath)) = false) ↔
      includeOk g.cSettings pszPath := by
    unfold includeOk
    cases h : g.cSettings.cIncludes with
    | nil => simp
    | cons a l =>
      rw [← h]
      simp only [List.length_cons, gt_iff_lt, Nat.zero_lt_succ, true_and, h,
        Bool.not_eq_false, List.any_eq_true, false_or, reduceCtorEq]
  have hexc : ¬ (g.cSettings.cExcludes.length > 0 ∧
      g.cSettings.cExcludes.any (fun exc => SubstringMatch exc pszPath) = true) ↔
      excludeOk g.cSettings pszPath := by
    unfold excludeOk
    cases h : g.cSettings.cExcludes with
    | nil => simp
    | cons a l =>
      simp only [List.length_cons, gt_iff_lt, Nat.zero_lt_succ, true_and, List.any_eq_true,
        not_exists, not_and, Bool.not_eq_true]
  have hwild : ¬ (g.cSettings.cWilds.length > 0 ∧
      (g.cSettings.cWilds.any (fun w => WildcardMatch w pszPath)) = false) ↔
      wildOk g.cSettings pszPath := by
    unfold wildOk
    cases h : g.cSettings.cWilds with
    | nil => simp
    | cons a l =>
      simp only [List.length_cons, gt_iff_lt, Nat.zero_lt_succ, true_and,
        Bool.not_eq_false, List.any_eq_true, false_or, reduceCtorEq]
  have hhid : ¬ (g.cSettings.bHidden = false ∧
      (pEntry.dwAttrib &&& FILE_ATTRIBUTE_HIDDEN ≠ 0 ∨
        pEntry.dwAttrib &&& FILE_ATTRIBUTE_SYSTEM ≠ 0)) ↔ hiddenOk g.cSettings pEntry := by
    unfold hiddenOk
    cases g.cSettings.bHidden <;> simp
  rw [← hinc, ← hexc, ← hwild, ← hhid]
  unfold QuerySource olderOk newerOk lastWriteDate
  simp only [calendarDate_le]
  split_ifs with h1 h2 h3 h4 h5
  · simp [h1]
  · simp [h1, h2]
  · simp [h1, h2, h3]
  · simp only [Bool.false_eq_true, false_iff]
    intro hh
    obtain ⟨-, -, -, ⟨ho, hn⟩, -⟩ := hh
    simp only [decide_eq_true_eq] at h4
    rcases h4.2 with hc | hc
    · have := ho hc.1
      omega
    · have := hn hc.1
      omega
  · simp [h1, h2, h3, h5]
  · simp only [true_iff]
    refine ⟨h1, h2, h3, ⟨?_, ?_⟩, h5⟩
    · intro ho
      simp only [decide_eq_true_eq, not_and, not_or] at h4
      have := (h4 (Or.inl ho)).1
      omega
    · intro hn
      simp only [decide_eq_true_eq, not_and, not_or] at h4
      have := (h4 (Or.inr hn)).2
      omega

theorem QuerySource_any_kind {ω : Type} (sys : Win32 ω) (g : Globals ω) (pszPath : List Char)
    (pEntry : CDirEntry) (b1 b2 : Bool) :
    QuerySource sys g pszPath pEntry b1 = QuerySource sys g pszPath pEntry b2 := rfl

/-- C17: when the other conditions of the filter hold, `QuerySource` keeps an entry
exactly when its last-write date (year, month, day) is lexicographically at most the
older-than date, if one is configured, and at least the newer-than date, if one is
configured; so an entry dated exactly on a bound passes that bound, and with both bounds
configured both must hold. -/
theorem QuerySource_date_bounds {ω : Type} (sys : Win32 ω) (g : Globals ω)
    (pszPath : List Char) (pEntry : CDirEntry) (bIsDir : Bool)
    (hinc : includeOk g.cSettings pszPath) (hexc : excludeOk g.cSettings pszPath)
    (hwild : wildOk g.cSettings pszPath) (hhid : hiddenOk g.cSettings pEntry) :
    ((QuerySource sys g pszPath pEntry bIsDir).1 = true ↔
      (g.cSettings.iOlderYear ≠ -1 → lastWriteDate sys pEntry ≤
        calendarDate g.cSettings.iOlderYear g.cSettings.iOlderMonth g.cSettings.iOlderDay) ∧
      (g.cSettings.iNewerYear ≠ -1 →
        calendarDate g.cSettings.iNewerYear g.cSettings.iNewerMonth g.cSettings.iNewerDay ≤
          lastWriteDate sys pEntry)) ∧
    (lastWriteDate sys pEntry =
        calendarDate g.cSettings.iOlderYear g.cSettings.iOlderMonth g.cSettings.iOlderDay →
      g.cSettings.iNewerYear = -1 → (QuerySource sys g pszPath pEntry bIsDir).1 = true) ∧
    (lastWriteDate sys pEntry =
        calendarDate g.cSettings.iNewerYear g.cSettings.iNewerMonth g.cSettings.iNewerDay →
      g.cSettings.iOlderYear = -1 → (QuerySource sys g pszPath pEntry bIsDir).1 = true) := by
  have h := QuerySource_iff sys g pszPath pEntry bIsDir
  refine ⟨?_, ?_, ?_⟩
  · rw [h]
    unfold olderOk newerOk
    constructor
    · intro hh
      exact hh.2.2.2.1
    · intro hh
      exact ⟨hinc, hexc, hwild, hh, hhid⟩
  · intro hd hn
    rw [h]
    refine ⟨hinc, hexc, hwild, ⟨?_, ?_⟩, hhid⟩
    · intro _
      rw [hd]
    · intro hc
      exact absurd hn hc
  · intro hd ho
    rw [h]
    refine ⟨hinc, hexc, hwild, ⟨?_, ?_⟩, hhid⟩
    · intro hc
      exact absurd ho hc
    · intro _
      rw [hd]

/-- C17, witness: with the older-than date 1601-01-01 and the newer-than date 1600-12-31
an entry written on 1601-01-01 is kept: it is dated exactly on the first bound and after
the second. -/
theorem QuerySource_date_bounds_witness :
    includeOk dateGlobals.cSettings "C:\\src\\a.txt".toList ∧
    excludeOk dateGlobals.cSettings "C:\\src\\a.txt".toList ∧
    wildOk dateGlobals.cSettings "C:\\src\\a.txt".toList ∧
    hiddenOk dateGlobals.cSettings (fileEntry "a.txt" 100) ∧
    lastWriteDate clockSys (fileEntry "a.txt" 100) = calendarDate 1601 1 1 ∧
    (QuerySource clockSys dateGlobals "C:\\src\\a.txt".toList (fileEntry "a.txt" 100)
      false).1 = true :=
  ⟨Or.inl rfl, by simp [excludeOk, dateGlobals], Or.inl rfl, Or.inr ⟨by decide, by decide⟩,
    by decide,
    ((QuerySource_date_bounds clockSys dateGlobals "C:\\src\\a.txt".toList
      (fileEntry "a.txt" 100) false (Or.inl rfl) (by simp [excludeOk, dateGlobals])
      (Or.inl rfl) (Or.inr ⟨by decide, by decide⟩)).1).mpr
      ⟨fun _ => (calendarDate_le _ _ _ _ _ _).mpr (by decide),
        fun _ => (calendarDate_le _ _ _ _ _ _).mpr (by decide)⟩⟩

/-! ### Planner: update mode and move mode -/

/-- C18: in update mode, for a source file whose relative path `FileExists` finds in the
destination tree as an entry without the directory attribute, of equal size and with a
last-write time that `FileTimeCompare` (tolerant) reports as equal, `EnumCopy` returns
true and changes nothing but two totals: files-already-exist goes up by 1 and
bytes-already-exist by the size of the destination entry. No call is made, so nothing is
copied and no attribute of the destination is touched. -/
theorem EnumCopy_update_skips_same_file {ω : Type} (sys : Win32 ω) (g : Globals ω)
    (pszPath : List Char) (pEntry : CDirEntry) (r : EntryRef) (e : CDirEntry)
    (hup : g.cSettings.bUpdate = true)
    (hpre : tcsnicmpNe g.cSettings.szSource pszPath g.cSettings.szSource.length = false)
    (hfound : g.cDestTree.FileExists (relPath g.cSettings.szSource pszPath) = some r)
    (hentry : g.cDestTree.entryAt r = some e)
    (hfile : e.dwAttrib &&& FILE_ATTRIBUTE_DIRECTORY = 0)
    (hsize : pEntry.dBytes = e.dBytes)
    (htime : FileTimeCompare sys.FileTimeToSystemTime pEntry.ftLastWrite e.ftLastWrite
      false = 0) :
    EnumCopy sys g pszPath pEntry false =
      (true, { g with cTotals :=
        { g.cTotals with
          iFilesAlreadyExist := g.cTotals.iFilesAlreadyExist + 1
          dBytesAlreadyExist := g.cTotals.dBytesAlreadyExist + e.dBytes } }) := by
  unfold EnumCopy
  simp only [hpre, hfound, hentry, hfile, Bool.false_eq_true, if_false, Bool.false_and,
    Bool.not_false, Bool.true_and, ne_eq, not_true_eq_false, decide_False, Bool.or_false]
  unfold EnumCopy.file EnumCopy.sameFile
  simp only [hup, hsize, htime, and_self, if_true]

/-- C18, witness: `a.txt` of 100 bytes against `A.TXT` of 100 bytes written two seconds
later; the file is counted as already existing and no call is made. -/
theorem EnumCopy_update_skips_same_file_witness :
    updateGlobals.cSettings.bUpdate = true ∧
    updateGlobals.cDestTree.FileExists
      (relPath updateGlobals.cSettings.szSource "C:\\src\\a.txt".toList) =
        some (EntryRef.file 0) ∧
    FileTimeCompare clockSys.FileTimeToSystemTime 125911584010000000 125911584030000000
      false = 0 ∧
    EnumCopy clockSys updateGlobals "C:\\src\\a.txt".toList
        (datedEntry "a.txt" 100 125911584010000000) false =
      (true, { updateGlobals with cTotals :=
        { updateGlobals.cTotals with
          iFilesAlreadyExist := updateGlobals.cTotals.iFilesAlreadyExist + 1
          dBytesAlreadyExist := updateGlobals.cTotals.dBytesAlreadyExist +
            (datedEntry "A.TXT" 100 125911584030000000).dBytes } }) :=
  ⟨by decide, by decide, by decide,
    EnumCopy_update_skips_same_file clockSys updateGlobals "C:\\src\\a.txt".toList
      (datedEntry "a.txt" 100 125911584010000000) (EntryRef.file 0)
      (datedEntry "A.TXT" 100 125911584030000000)
      (by decide) (by decide) (by decide) (by decide) (by decide) (by decide) (by decide)⟩

/-- C20, the code at the failing input: in move mode, with the source directory `a`
holding the directory `b`, `main` attempts `_trmdir` on `a` before it attempts it on
`a\b`: the source directories are enumerated with `EnumFiles`, top-down. -/
theorem main_copy_move_removes_parent_first :
    (main.copy (stubSys 0) nestedMoveGlobals).1 = true ∧
    (main.copy (stubSys 0) nestedMoveGlobals).2.calls.filter OsCall.isTrmdir =
      [.trmdir "C:\\src\\a".toList, .trmdir "C:\\src\\a\\b".toList,
        .trmdir "C:\\src".toList] ∧
    (nestedMoveGlobals.cSrcTree.EnumFiles (EnumDelDir (stubSys 0)) "C:\\src".toList
      nestedMoveGlobals).2.calls =
      [.trmdir "C:\\src\\a".toList, .trmdir "C:\\src\\a\\b".toList] := by
  refine ⟨by decide!, by decide!, by decide⟩

/-! ### Timestamps -/

/-- C19, the code at the failing input: the timestamps 00:59:59 and 01:00:01 of one day
(1601-01-01, and likewise 2020-12-25) are two seconds apart and straddle an hour boundary;
in tolerant mode `FileTimeCompare` returns -1 for them (1 with the arguments exchanged),
not 0. -/
theorem FileTimeCompare_differs_across_hour :
    3601 * ticksPerSecond - 3599 * ticksPerSecond ≤ 3 * ticksPerSecond ∧
    fileTimeToSystemTime (3599 * ticksPerSecond) = ⟨1601, 1, 1, 0, 59, 59, 0⟩ ∧
    fileTimeToSystemTime (3601 * ticksPerSecond) = ⟨1601, 1, 1, 1, 0, 1, 0⟩ ∧
    FileTimeCompare fileTimeToSystemTime (3599 * ticksPerSecond) (3601 * ticksPerSecond)
      false = -1 ∧
    fileTimeToSystemTime (13253331599 * ticksPerSecond) = ⟨2020, 12, 25, 0, 59, 59, 0⟩ ∧
    fileTimeToSystemTime (13253331601 * ticksPerSecond) = ⟨2020, 12, 25, 1, 0, 1, 0⟩ ∧
    FileTimeCompare fileTimeToSystemTime (13253331599 * ticksPerSecond)
      (13253331601 * ticksPerSecond) false = -1 ∧
    FileTimeCompare fileTimeToSystemTime (13253331601 * ticksPerSecond)
      (13253331599 * ticksPerSecond) false = 1 := by
  decide

/-- In tolerant mode `FileTimeCompare` returns 0 when the two converted times agree in
year, month, day and hour and their readings `minute * 60 + second` differ by 3 at most. -/
theorem FileTimeCompare_tolerant_zero (conv : Nat → SYSTEMTIME) (t1 t2 : Nat)
    (hy : (conv t1).wYear = (conv t2).wYear) (hm : (conv t1).wMonth = (conv t2).wMonth)
    (hd : (conv t1).wDay = (conv t2).wDay) (hh : (conv t1).wHour = (conv t2).wHour)
    (h12 : (conv t1).wMinute * 60 + (conv t1).wSecond ≤
      (conv t2).wMinute * 60 + (conv t2).wSecond + 3)
    (h21 : (conv t2).wMinute * 60 + (conv t2).wSecond ≤
      (conv t1).wMinute * 60 + (conv t1).wSecond + 3) :
    FileTimeCompare conv t1 t2 false = 0 := by
  unfold FileTimeCompare
  simp only [hy, hm, hd, hh, gt_iff_lt, lt_self_iff_false, if_false, Bool.false_eq_true]
  rw [if_neg (by omega), if_neg (by omega)]

/-- Where the band of 3 seconds does work: in tolerant mode `FileTimeCompare` returns 0
for every pair of timestamps that lie in the same clock hour and are at most 3 seconds
apart, pairs that straddle a minute boundary included. -/
theorem FileTimeCompare_zero_within_hour (t1 t2 : Nat)
    (hhour : t1 / (3600 * ticksPerSecond) = t2 / (3600 * ticksPerSecond))
    (h12 : t1 ≤ t2 + 3 * ticksPerSecond) (h21 : t2 ≤ t1 + 3 * ticksPerSecond) :
    FileTimeCompare fileTimeToSystemTime t1 t2 false = 0 := by
  unfold ticksPerSecond at hhour h12 h21
  have hs : t1 / 10000000 / 3600 = t2 / 10000000 / 3600 := by
    rw [Nat.div_div_eq_div_mul, Nat.div_div_eq_div_mul]
    simpa [Nat.mul_comm] using hhour
  have hdays : t1 / 10000000 / 86400 = t2 / 10000000 / 86400 := by omega
  apply FileTimeCompare_tolerant_zero
  · simp only [fileTimeToSystemTime, hdays]
  · simp only [fileTimeToSystemTime, hdays]
  · simp only [fileTimeToSystemTime, hdays]
  · simp only [fileTimeToSystemTime, hs]
  · simp only [fileTimeToSystemTime]
    omega
  · simp only [fileTimeToSystemTime]
    omega

/-- The band within one hour at 00:00:59 and 00:01:01 of 1601-01-01, a pair that
straddles a minute boundary. -/
theorem FileTimeCompare_zero_within_hour_witness :
    59 * ticksPerSecond / (3600 * ticksPerSecond) =
      61 * ticksPerSecond / (3600 * ticksPerSecond) ∧
    59 * ticksPerSecond ≤ 61 * ticksPerSecond + 3 * ticksPerSecond ∧
    61 * ticksPerSecond ≤ 59 * ticksPerSecond + 3 * ticksPerSecond ∧
    (fileTimeToSystemTime (59 * ticksPerSecond)).wMinute = 0 ∧
    (fileTimeToSystemTime (61 * ticksPerSecond)).wMinute = 1 ∧
    FileTimeCompare fileTimeToSystemTime (59 * ticksPerSecond) (61 * ticksPerSecond)
      false = 0 :=
  ⟨by decide, by decide, by decide, by decide, by decide,
    FileTimeCompare_zero_within_hour (59 * ticksPerSecond) (61 * ticksPerSecond)
      (by decide) (by decide) (by decide)⟩

/-! ### Directory tree: enumeration that stops -/

theorem visitUntil_append {σ : Type} (pEnum : EnumFn σ) (a b : List Visit) :
    ∀ ctx : σ, visitUntil pEnum (a ++ b) ctx =
      if (visitUntil pEnum a ctx).1 = true then visitUntil pEnum b (visitUntil pEnum a ctx).2
      else visitUntil pEnum a ctx := by
  induction a with
  | nil => intro ctx; simp [visitUntil]
  | cons v vs ih =>
    intro ctx
    simp only [List.cons_append, visitUntil]
    rcases hres : pEnum ctx v.1 v.2.1 v.2.2 with ⟨b1, c1⟩
    cases b1 with
    | false => simp
    | true => simpa using ih c1

theorem visitUntil_false {σ : Type} (pEnum : EnumFn σ) (vs : List Visit) (ctx : σ)
    (h : (visitUntil pEnum vs ctx).1 = false) :
    visitUntil pEnum vs ctx = (false, (visitUntil pEnum vs ctx).2) := by
  rw [← h]

theorem EnumFiles_files_until {σ : Type} (pEnum : EnumFn σ) (path : List Char) :
    ∀ (fs : List CDirEntry) (ctx : σ),
      EnumFiles.files pEnum path fs ctx =
        visitUntil pEnum ((fs.filter (fun f => decide (¬ f.sName.length < 1))).map
          (fun f => (subPath path f.sName, f, false))) ctx := by
  intro fs
  induction fs with
  | nil => intro ctx; rfl
  | cons f rest ih =>
    intro ctx
    by_cases hlen : f.sName.length < 1
    · simp only [EnumFiles.files, hlen, if_true, List.filter_cons, not_true_eq_false,
        decide_False, Bool.false_eq_true, if_false]
      exact ih ctx
    · simp only [EnumFiles.files, hlen, if_false, List.filter_cons, not_false_eq_true,
        decide_True, if_true, List.map_cons, visitUntil]
      rcases hres : pEnum ctx (subPath path f.sName) f false with ⟨b1, c1⟩
      cases b1 with
      | false => rfl
      | true => exact ih c1

theorem EnumFilesReverse_files_until {σ : Type} (pEnum : EnumFn σ) (path : List Char) :
    ∀ (fs : List CDirEntry) (ctx : σ),
      EnumFilesReverse.files pEnum path fs ctx =
        visitUntil pEnum (fs.map (fun f => (subPath path f.sName, f, false))) ctx := by
  intro fs
  induction fs with
  | nil => intro ctx; rfl
  | cons f rest ih =>
    intro ctx
    simp only [EnumFilesReverse.files, List.map_cons, visitUntil]
    rcases hres : pEnum ctx (subPath path f.sName) f false with ⟨b1, c1⟩
    cases b1 with
    | false => rfl
    | true => exact ih c1

mutual
theorem EnumFiles_eq_visitUntil {σ : Type} (pEnum : EnumFn σ) (d : CDir) (path : List Char)
    (ctx : σ) (hp : path ≠ []) :
    d.EnumFiles pEnum path ctx = visitUntil pEnum (d.forwardSeq path) ctx := by
  cases d with
  | mk t fs ds e =>
    rw [CDir.EnumFiles, if_neg hp, CDir.forwardSeq, visitUntil_append, EnumFiles_files_until]
    split
    · rename_i c1 heq
      rw [heq]
      simp
    · rename_i c1 heq
      rw [heq]
      simp only [if_true]
      exact EnumFiles_dirs_eq_visitUntil pEnum ds path c1 hp
theorem EnumFiles_dirs_eq_visitUntil {σ : Type} (pEnum : EnumFn σ) (ds : List CDir)
    (path : List Char) (ctx : σ) (hp : path ≠ []) :
    EnumFiles.dirs pEnum path ds ctx = visitUntil pEnum (CDir.forwardSeqDirs ds path) ctx := by
  cases ds with
  | nil => rfl
  | cons d rest =>
    rw [EnumFiles.dirs, CDir.forwardSeqDirs, visitUntil]
    split
    · rename_i c1 heq
      simp only [heq]
    · rename_i c1 heq
      simp only [heq]
      rw [visitUntil_append,
        EnumFiles_eq_visitUntil pEnum d (subPath path d.cThis.sName) c1 (subPath_ne_nil _ _ hp)]
      split
      · rename_i c2 heq2
        rw [heq2]
        simp
      · rename_i c2 heq2
        rw [heq2]
        simp only [if_true]
        exact EnumFiles_dirs_eq_visitUntil pEnum rest path c2 hp
end

mutual
theorem EnumFilesReverse_eq_visitUntil {σ : Type} (pEnum : EnumFn σ) (d : CDir)
    (path : List Char) (ctx : σ) (hp : path ≠ []) :
    d.EnumFilesReverse pEnum path ctx = visitUntil pEnum (d.postorder path) ctx := by
  cases d with
  | mk t fs ds e =>
    rw [CDir.EnumFilesReverse, if_neg hp, CDir.postorder, visitUntil_append,
      EnumFilesReverse_files_until]
    split
    · rename_i c1 heq
      rw [heq]
      simp
    · rename_i c1 heq
      rw [heq]
      simp only [if_true]
      exact EnumFilesReverse_dirs_eq_visitUntil pEnum ds path c1 hp
theorem EnumFilesReverse_dirs_eq_visitUntil {σ : Type} (pEnum : EnumFn σ) (ds : List CDir)
    (path : List Char) (ctx : σ) (hp : path ≠ []) :
    EnumFilesReverse.dirs pEnum path ds ctx =
      visitUntil pEnum (CDir.postorderDirs ds path) ctx := by
  cases ds with
  | nil => rfl
  | cons d rest =>
    rw [EnumFilesReverse.dirs, CDir.postorderDirs, visitUntil_append,
      EnumFilesReverse_eq_visitUntil pEnum d (subPath path d.cThis.sName) ctx
        (subPath_ne_nil _ _ hp)]
    split
    · rename_i c2 heq2
      rw [heq2]
      simp
    · rename_i c2 heq2
      rw [heq2]
      simp only [if_true, visitUntil]
      split
      · rename_i c1 heq
        rfl
      · rename_i c1 heq
        exact EnumFilesReverse_dirs_eq_visitUntil pEnum rest path c1 hp
end

theorem visitUntil_recordVisit (vs : List Visit) :
    ∀ log : List Visit, visitUntil recordVisit vs log = (true, log ++ vs) := by
  induction vs with
  | nil => intro log; simp [visitUntil]
  | cons v rest ih =>
    intro log
    simp only [visitUntil, recordVisit]
    rw [ih]
    simp

theorem visitUntil_traced {σ : Type} (pEnum : EnumFn σ) (vs : List Visit) :
    ∀ (ctx : σ) (log : List (Visit × Bool)),
      visitUntil (traced pEnum) vs (ctx, log) =
        ((visitUntil pEnum vs ctx).1,
          ((visitUntil pEnum vs ctx).2, log ++ visitTrace pEnum vs ctx)) := by
  induction vs with
  | nil => intro ctx log; simp [visitUntil, visitTrace]
  | cons v rest ih =>
    intro ctx log
    simp only [visitUntil, visitTrace, traced]
    rcases hres : pEnum ctx v.1 v.2.1 v.2.2 with ⟨b1, c1⟩
    cases b1 with
    | false => rfl
    | true =>
      simp only
      rw [ih]
      simp

theorem visitTrace_stops {σ : Type} (pEnum : EnumFn σ) (vs : List Visit) :
    ∀ ctx : σ, StopsAtFirstFalse vs (visitUntil pEnum vs ctx).1 (visitTrace pEnum vs ctx) := by
  induction vs with
  | nil =>
    intro ctx
    refine ⟨by simp [visitTrace], ?_, by simp [visitUntil, visitTrace], by simp [visitTrace]⟩
    intro A x B h
    simp [visitTrace] at h
  | cons v rest ih =>
    intro ctx
    obtain ⟨h1, h2, h3, h4⟩ := ih (pEnum ctx v.1 v.2.1 v.2.2).2
    simp only [visitUntil, visitTrace]
    rcases hres : pEnum ctx v.1 v.2.1 v.2.2 with ⟨b1, c1⟩
    rw [hres] at h1 h2 h3 h4
    simp only at h1 h2 h3 h4
    cases b1 with
    | false =>
      refine ⟨?_, ?_, by simp, by simp⟩
      · simp only [List.map_cons, List.map_nil]
        exact ⟨rest, rfl⟩
      · intro A x B h _
        cases A with
        | nil =>
          simp only [List.nil_append, List.cons.injEq] at h
          exact h.2.symm
        | cons a A1 =>
          simp only [List.cons_append, List.cons.injEq] at h
          have := congrArg List.length h.2
          simp only [List.length_nil, List.length_append, List.length_cons] at this
          omega
    | true =>
      simp only
      refine ⟨?_, ?_, ?_, ?_⟩
      · simp only [List.map_cons]
        obtain ⟨t, ht⟩ := h1
        refine ⟨t, ?_⟩
        show v :: (List.map Prod.fst (visitTrace pEnum rest c1) ++ t) = v :: rest
        rw [ht]
      · intro A x B h hx
        cases A with
        | nil =>
          simp only [List.nil_append, List.cons.injEq] at h
          rw [← h.1] at hx
          cases hx
        | cons a A1 =>
          simp only [List.cons_append, List.cons.injEq] at h
          exact h2 A1 x B h.2 hx
      · rw [h3]
        simp
      · intro hr
        simp only [List.map_cons]
        rw [h4 hr]

/-- C12: for every tree, non-empty root path and visitor with any state, in `EnumFiles`
and in `EnumFilesReverse`: recording the calls does not change the result and the state;
the entries the visitor is called on are a prefix of the full enumeration sequence (the
calls made when the visitor always continues); a call that returned false is the last
call made, at any level; the top-level call returns false exactly when some call returned
false, and when it returns true every entry of the full sequence was called. -/
theorem enumeration_stops_at_first_false {σ : Type} (pEnum : EnumFn σ) (d : CDir)
    (pszDirPath : List Char) (ctx : σ) (hpath : pszDirPath ≠ []) :
    (d.EnumFiles pEnum pszDirPath ctx =
        ((d.EnumFiles (traced pEnum) pszDirPath (ctx, [])).1,
          (d.EnumFiles (traced pEnum) pszDirPath (ctx, [])).2.1) ∧
      StopsAtFirstFalse (d.EnumFiles recordVisit pszDirPath []).2
        (d.EnumFiles pEnum pszDirPath ctx).1
        (d.EnumFiles (traced pEnum) pszDirPath (ctx, [])).2.2) ∧
    (d.EnumFilesReverse pEnum pszDirPath ctx =
        ((d.EnumFilesReverse (traced pEnum) pszDirPath (ctx, [])).1,
          (d.EnumFilesReverse (traced pEnum) pszDirPath (ctx, [])).2.1) ∧
      StopsAtFirstFalse (d.EnumFilesReverse recordVisit pszDirPath []).2
        (d.EnumFilesReverse pEnum pszDirPath ctx).1
        (d.EnumFilesReverse (traced pEnum) pszDirPath (ctx, [])).2.2) := by
  simp only [EnumFiles_eq_visitUntil _ d pszDirPath _ hpath,
    EnumFilesReverse_eq_visitUntil _ d pszDirPath _ hpath, visitUntil_traced,
    visitUntil_recordVisit, List.nil_append]
  exact ⟨⟨trivial, visitTrace_stops pEnum _ ctx⟩, ⟨trivial, visitTrace_stops pEnum _ ctx⟩⟩

/-- C12, witness: a visitor that returns false on its third call, on the sample tree
under `C:\src`: `EnumFiles` calls it on `a.txt`, `b.log` and `sub` and returns false,
`sub\c.txt` is not visited; `EnumFilesReverse` stops on `sub\c.txt`. -/
theorem enumeration_stops_at_first_false_witness :
    "C:\\src".toList ≠ [] ∧
    StopsAtFirstFalse (sampleTree.EnumFiles recordVisit "C:\\src".toList []).2
      (sampleTree.EnumFiles (stopAfter 2) "C:\\src".toList 0).1
      (sampleTree.EnumFiles (traced (stopAfter 2)) "C:\\src".toList (0, [])).2.2 ∧
    (sampleTree.EnumFiles (stopAfter 2) "C:\\src".toList 0).1 = false ∧
    (sampleTree.EnumFiles (traced (stopAfter 2)) "C:\\src".toList (0, [])).2.2.map
        (fun x => (x.1.1, x.2)) =
      [("C:\\src\\a.txt".toList, true), ("C:\\src\\b.log".toList, true),
        ("C:\\src\\sub".toList, false)] ∧
    (sampleTree.EnumFilesReverse (traced (stopAfter 2)) "C:\\src".toList (0, [])).2.2.map
        (fun x => (x.1.1, x.2)) =
      [("C:\\src\\a.txt".toList, true), ("C:\\src\\b.log".toList, true),
        ("C:\\src\\sub\\c.txt".toList, false)] :=
  ⟨by decide,
    (enumeration_stops_at_first_false (stopAfter 2) sampleTree "C:\\src".toList 0
      (by decide)).1.2,
    by decide, by decide, by decide⟩

/-! ### Directory tree: bottom-up order -/

mutual
theorem postorder_perm_preorder (d : CDir) (p : List Char) :
    (d.postorder p).Perm (d.preorder p) := by
  cases d with
  | mk t fs ds e =>
    simp only [CDir.postorder, CDir.preorder]
    exact List.Perm.append_left _ (postorderDirs_perm_preorderDirs ds p)
theorem postorderDirs_perm_preorderDirs (ds : List CDir) (p : List Char) :
    (CDir.postorderDirs ds p).Perm (CDir.preorderDirs ds p) := by
  cases ds with
  | nil => exact List.Perm.refl _
  | cons d rest =>
    simp only [CDir.postorderDirs, CDir.preorderDirs]
    refine List.perm_middle.trans (List.Perm.cons _ ?_)
    exact List.Perm.append (postorder_perm_preorder d _) (postorderDirs_perm_preorderDirs rest p)
end

mutual
theorem postorder_block (d : CDir) (p : List Char) (q : List Char) (n : CDir)
    (h : (q, n) ∈ d.dirNodes p) :
    ∃ A B, d.postorder p = A ++ (n.postorder q ++ (q, n.cThis, true) :: B) := by
  cases d with
  | mk t fs ds e =>
    simp only [CDir.dirNodes] at h
    obtain ⟨A, B, hAB⟩ := postorderDirs_block ds p q n h
    refine ⟨fs.map (fun f => (subPath p f.sName, f, false)) ++ A, B, ?_⟩
    simp only [CDir.postorder, hAB, List.append_assoc]
theorem postorderDirs_block (ds : List CDir) (p : List Char) (q : List Char) (n : CDir)
    (h : (q, n) ∈ CDir.dirNodesList ds p) :
    ∃ A B, CDir.postorderDirs ds p = A ++ (n.postorder q ++ (q, n.cThis, true) :: B) := by
  cases ds with
  | nil => simp [CDir.dirNodesList] at h
  | cons d rest =>
    simp only [CDir.dirNodesList, List.mem_cons, List.mem_append] at h
    rcases h with h | h | h
    · simp only [Prod.mk.injEq] at h
      obtain ⟨rfl, rfl⟩ := h
      exact ⟨[], CDir.postorderDirs rest p, by simp [CDir.postorderDirs]⟩
    · obtain ⟨A, B, hAB⟩ := postorder_block d _ q n h
      refine ⟨A, B ++ (subPath p d.cThis.sName, d.cThis, true) :: CDir.postorderDirs rest p, ?_⟩
      simp only [CDir.postorderDirs, hAB, List.append_assoc, List.cons_append]
    · obtain ⟨A, B, hAB⟩ := postorderDirs_block rest p q n h
      refine ⟨d.postorder (subPath p d.cThis.sName) ++
        (subPath p d.cThis.sName, d.cThis, true) :: A, B, ?_⟩
      simp only [CDir.postorderDirs, hAB, List.append_assoc, List.cons_append]
end

theorem postorder_files_first (n : CDir) (q : List Char) :
    ∃ D, n.postorder q = n.cFiles.map (fun f => (subPath q f.sName, f, false)) ++ D ∧
      D.Perm (CDir.preorderDirs n.cDirs q) := by
  cases n with
  | mk t fs ds e =>
    exact ⟨CDir.postorderDirs ds q, rfl, postorderDirs_perm_preorderDirs ds q⟩

/-- C11: for every tree and non-empty root path, the calls `EnumFilesReverse` makes when
the visitor always continues are, for every directory node `n` below the root, of the
form `A ++ C ++ [n's own entry] ++ B`, where the block `C` is a rearrangement of
everything contained in `n` (the files and subdirectories of `n`, transitively, as listed
by `CDir.preorder`): the contents of `n` are visited before the entry of `n`. Within the
block of a node, and at the root in the whole sequence, the files of the node come first
and what follows is a rearrangement of its child directories and their contents. Every
always-continuing visitor is called on this same sequence. -/
theorem EnumFilesReverse_contents_before_directory (d : CDir) (pszDirPath : List Char)
    (hpath : pszDirPath ≠ []) :
    (∀ {σ : Type} (pEnum : EnumFn σ) (ctx : σ), (∀ c p e b, (pEnum c p e b).1 = true) →
      d.EnumFilesReverse pEnum pszDirPath ctx =
        (true, runVisits pEnum ctx (d.EnumFilesReverse recordVisit pszDirPath []).2)) ∧
    (∀ q n, (q, n) ∈ d.dirNodes pszDirPath →
      ∃ A C B, (d.EnumFilesReverse recordVisit pszDirPath []).2 =
          A ++ C ++ (q, n.cThis, true) :: B ∧
        C.Perm (n.preorder q) ∧
        ∃ D, C = n.cFiles.map (fun f => (subPath q f.sName, f, false)) ++ D ∧
          D.Perm (CDir.preorderDirs n.cDirs q)) ∧
    (∃ D, (d.EnumFilesReverse recordVisit pszDirPath []).2 =
        d.cFiles.map (fun f => (subPath pszDirPath f.sName, f, false)) ++ D ∧
      D.Perm (CDir.preorderDirs d.cDirs pszDirPath)) := by
  have hrec : (d.EnumFilesReverse recordVisit pszDirPath []).2 = d.postorder pszDirPath := by
    rw [EnumFilesReverse_eq_runVisits recordVisit (fun _ _ _ _ => rfl) d pszDirPath [] hpath,
      runVisits_recordVisit]
    rfl
  rw [hrec]
  refine ⟨?_, ?_, postorder_files_first d pszDirPath⟩
  · intro σ pEnum ctx hcont
    exact EnumFilesReverse_eq_runVisits pEnum hcont d pszDirPath ctx hpath
  · intro q n hn
    obtain ⟨A, B, hAB⟩ := postorder_block d pszDirPath q n hn
    refine ⟨A, n.postorder q, B, ?_, postorder_perm_preorder n q, postorder_files_first n q⟩
    rw [hAB, List.append_assoc]

/-- C11, witness: the sample tree under `C:\src`: the calls are `a.txt`, `b.log`,
`sub\c.txt`, `sub`, so `c.txt` comes before the directory `sub` that holds it. -/
theorem EnumFilesReverse_contents_before_directory_witness :
    "C:\\src".toList ≠ [] ∧
    (sampleTree.EnumFilesReverse recordVisit "C:\\src".toList []).2.map
        (fun v => (v.1, v.2.2)) =
      [("C:\\src\\a.txt".toList, false), ("C:\\src\\b.log".toList, false),
        ("C:\\src\\sub\\c.txt".toList, false), ("C:\\src\\sub".toList, true)] ∧
    (∃ D, (sampleTree.EnumFilesReverse recordVisit "C:\\src".toList []).2 =
        sampleTree.cFiles.map (fun f => (subPath "C:\\src".toList f.sName, f, false)) ++ D ∧
      D.Perm (CDir.preorderDirs sampleTree.cDirs "C:\\src".toList)) :=
  ⟨by decide, by decide,
    (EnumFilesReverse_contents_before_directory sampleTree "C:\\src".toList
      (by decide)).2.2⟩

/-! ### Directory tree: pruning only removes -/

theorem PruneFiles_files_sublist {σ : Type} (pQuery : EnumFn σ) (path : List Char) :
    ∀ (fs : List CDirEntry) (ctx : σ), (PruneFiles.files pQuery path fs ctx).1.Sublist fs := by
  intro fs
  induction fs with
  | nil => intro ctx; exact List.Sublist.refl _
  | cons f rest ih =>
    intro ctx
    simp only [PruneFiles.files]
    split
    · exact List.Sublist.cons₂ _ (ih _)
    · exact List.Sublist.cons _ (ih _)

theorem prunedFromList_drop (d : CDir) :
    ∀ (l1 l : List CDir), CDir.prunedFromList l1 l = true →
      CDir.prunedFromList l1 (d :: l) = true := by
  intro l1 l h
  cases l1 with
  | nil => simp [CDir.prunedFromList]
  | cons d1 r1 => simp [CDir.prunedFromList, h]

theorem prunedFromList_keep (d1 d : CDir) (l1 l : List CDir)
    (h1 : d1.prunedFrom d = true) (h2 : CDir.prunedFromList l1 l = true) :
    CDir.prunedFromList (d1 :: l1) (d :: l) = true := by
  simp [CDir.prunedFromList, h1, h2]

mutual
theorem PruneFiles_pruned {σ : Type} (pQuery : EnumFn σ) (d : CDir) (path : List Char)
    (ctx : σ) (hp : path ≠ []) :
    (d.PruneFiles pQuery path ctx).1 = true ∧
    (d.PruneFiles pQuery path ctx).2.2.prunedFrom d = true := by
  cases d with
  | mk t fs ds e =>
    have hsub := PruneFiles_subdirs_pruned pQuery ds path
      (PruneFiles.flags pQuery path ds (PruneFiles.files pQuery path fs ctx).2).1
      (PruneFiles.flags pQuery path ds (PruneFiles.files pQuery path fs ctx).2).2 hp
    have hfs := PruneFiles_files_sublist pQuery path fs ctx
    simp only [CDir.PruneFiles, hp, if_false]
    split
    · rename_i c3 ds1 heq
      rw [heq] at hsub
      simp only [CDir.prunedFrom, decide_True, Bool.true_and, Bool.and_eq_true,
        decide_eq_true_eq, true_and]
      exact ⟨hfs, hsub.2⟩
    · rename_i err c3 ds1 heq
      rw [heq] at hsub
      exact absurd hsub.1 (by simp)
theorem PruneFiles_subdirs_pruned {σ : Type} (pQuery : EnumFn σ) (ds : List CDir)
    (path : List Char) (flags : List Bool) (ctx : σ) (hp : path ≠ []) :
    (PruneFiles.subdirs pQuery path ds flags ctx).1 = none ∧
    CDir.prunedFromList (PruneFiles.subdirs pQuery path ds flags ctx).2.2 ds = true := by
  cases ds with
  | nil => exact ⟨rfl, rfl⟩
  | cons d rest =>
    cases flags with
    | nil =>
      simp only [PruneFiles.subdirs]
      have h := PruneFiles_subdirs_pruned pQuery rest path [] ctx hp
      exact ⟨h.1, prunedFromList_drop d _ _ h.2⟩
    | cons b fl =>
      cases b with
      | false =>
        simp only [PruneFiles.subdirs]
        have h := PruneFiles_subdirs_pruned pQuery rest path fl ctx hp
        exact ⟨h.1, prunedFromList_drop d _ _ h.2⟩
      | true =>
        simp only [PruneFiles.subdirs]
        have h1 := PruneFiles_pruned pQuery d (subPath path d.cThis.sName) ctx
          (subPath_ne_nil _ _ hp)
        split
        · rename_i c1 d1 heq
          rw [heq] at h1
          exact absurd h1.1 (by simp)
        · rename_i c1 d1 heq
          rw [heq] at h1
          have h2 := PruneFiles_subdirs_pruned pQuery rest path fl c1 hp
          exact ⟨h2.1, prunedFromList_keep _ _ _ _ h1.2 h2.2⟩
end

theorem prunedFrom_cThis (a b : CDir) (h : a.prunedFrom b = true) : a.cThis = b.cThis := by
  cases a with
  | mk t1 fs1 ds1 e1 =>
    cases b with
    | mk t fs ds e =>
      simp only [CDir.prunedFrom, Bool.and_eq_true, decide_eq_true_eq] at h
      exact h.1.1

mutual
theorem prunedFrom_preorder (b : CDir) (a : CDir) (p : List Char)
    (h : a.prunedFrom b = true) : (a.preorder p).Sublist (b.preorder p) := by
  cases b with
  | mk t fs ds e =>
    cases a with
    | mk t1 fs1 ds1 e1 =>
      simp only [CDir.prunedFrom, Bool.and_eq_true, decide_eq_true_eq] at h
      simp only [CDir.preorder]
      exact List.Sublist.append (List.Sublist.map _ h.1.2)
        (prunedFromList_preorderDirs ds ds1 p h.2)
theorem prunedFromList_preorderDirs (l : List CDir) (l1 : List CDir) (p : List Char)
    (h : CDir.prunedFromList l1 l = true) :
    (CDir.preorderDirs l1 p).Sublist (CDir.preorderDirs l p) := by
  cases l with
  | nil =>
    cases l1 with
    | nil => exact List.Sublist.refl _
    | cons d1 r1 => simp [CDir.prunedFromList] at h
  | cons d r =>
    cases l1 with
    | nil => exact List.nil_sublist _
    | cons d1 r1 =>
      simp only [CDir.prunedFromList, Bool.or_eq_true, Bool.and_eq_true] at h
      rcases h with ⟨h1, h2⟩ | h
      · have hc := prunedFrom_cThis d1 d h1
        simp only [CDir.preorderDirs, hc]
        exact List.Sublist.cons₂ _ (List.Sublist.append (prunedFrom_preorder d d1 _ h1)
          (prunedFromList_preorderDirs r r1 p h2))
      · have h3 := prunedFromList_preorderDirs r (d1 :: r1) p h
        simp only [CDir.preorderDirs] at h3 ⊢
        exact List.Sublist.cons _ (h3.trans (List.sublist_append_right _ _))
end

theorem prunedFromList_names : ∀ (l l1 : List CDir), CDir.prunedFromList l1 l = true →
    (l1.map (fun d => d.cThis.sName)).Sublist (l.map (fun d => d.cThis.sName)) := by
  intro l
  induction l with
  | nil =>
    intro l1 h
    cases l1 with
    | nil => exact List.Sublist.refl _
    | cons d1 r1 => simp [CDir.prunedFromList] at h
  | cons d r ih =>
    intro l1 h
    cases l1 with
    | nil => exact List.nil_sublist _
    | cons d1 r1 =>
      simp only [CDir.prunedFromList, Bool.or_eq_true, Bool.and_eq_true] at h
      rcases h with ⟨h1, h2⟩ | h
      · simp only [List.map_cons, prunedFrom_cThis d1 d h1]
        exact List.Sublist.cons₂ _ (ih r1 h2)
      · exact List.Sublist.cons _ (ih (d1 :: r1) h)

mutual
theorem prunedFrom_namesUnique (b : CDir) (a : CDir) (h : a.prunedFrom b = true)
    (hu : b.namesUnique = true) : a.namesUnique = true := by
  cases b with
  | mk t fs ds e =>
    cases a with
    | mk t1 fs1 ds1 e1 =>
      simp only [CDir.prunedFrom, Bool.and_eq_true, decide_eq_true_eq] at h
      simp only [CDir.namesUnique, Bool.and_eq_true, decide_eq_true_eq] at hu ⊢
      refine ⟨?_, prunedFromList_namesUnique ds ds1 h.2 hu.2⟩
      refine List.Nodup.sublist (List.Sublist.map _ ?_) hu.1
      unfold nodeNames
      exact List.Sublist.append (List.Sublist.map _ h.1.2) (prunedFromList_names ds ds1 h.2)
theorem prunedFromList_namesUnique (l : List CDir) (l1 : List CDir)
    (h : CDir.prunedFromList l1 l = true) (hu : CDir.namesUniqueList l = true) :
    CDir.namesUniqueList l1 = true := by
  cases l with
  | nil =>
    cases l1 with
    | nil => rfl
    | cons d1 r1 => simp [CDir.prunedFromList] at h
  | cons d r =>
    cases l1 with
    | nil => rfl
    | cons d1 r1 =>
      simp only [CDir.prunedFromList, Bool.or_eq_true, Bool.and_eq_true] at h
      simp only [CDir.namesUniqueList, Bool.and_eq_true] at hu ⊢
      rcases h with ⟨h1, h2⟩ | h
      · exact ⟨prunedFrom_namesUnique d d1 h1 hu.1, prunedFromList_namesUnique r r1 h2 hu.2⟩
      · have := prunedFromList_namesUnique r (d1 :: r1) h hu.2
        simpa only [CDir.namesUniqueList, Bool.and_eq_true] using this
end

/-- C13: for every tree, non-empty root path and predicate with any state, `PruneFiles`
returns true and leaves a tree that is the tree before with entries taken out: at every
node the own entry is the same, the file list is a sublist of the list before (same
entries, same order) and the child directories are, in order, child directories of
before, pruned in the same way. Hence the sequence of entries with their paths that
remains is a sublist of the sequence before, and if no directory had two names equal up
to case before, none has after. -/
theorem PruneFiles_only_removes {σ : Type} (pQuery : EnumFn σ) (d : CDir)
    (pszDirPath : List Char) (ctx : σ) (hpath : pszDirPath ≠ []) :
    (d.PruneFiles pQuery pszDirPath ctx).1 = true ∧
    (d.PruneFiles pQuery pszDirPath ctx).2.2.prunedFrom d = true ∧
    ((d.PruneFiles pQuery pszDirPath ctx).2.2.preorder pszDirPath).Sublist
      (d.preorder pszDirPath) ∧
    (d.namesUnique = true → (d.PruneFiles pQuery pszDirPath ctx).2.2.namesUnique = true) := by
  have h := PruneFiles_pruned pQuery d pszDirPath ctx hpath
  exact ⟨h.1, h.2, prunedFrom_preorder d _ pszDirPath h.2,
    prunedFrom_namesUnique d _ h.2⟩

/-- C13, witness: a predicate with a counter that accepts its first call only, on the
sample tree under `C:\src`: `a.txt` stays, `b.log` and `sub` go. -/
theorem PruneFiles_only_removes_witness :
    "C:\\src".toList ≠ [] ∧
    (sampleTree.PruneFiles (stopAfter 1) "C:\\src".toList 0).1 = true ∧
    (sampleTree.PruneFiles (stopAfter 1) "C:\\src".toList 0).2.2.prunedFrom sampleTree = true ∧
    ((sampleTree.PruneFiles (stopAfter 1) "C:\\src".toList 0).2.2.preorder
        "C:\\src".toList).map (fun v => v.1) = ["C:\\src\\a.txt".toList] :=
  ⟨by decide,
    (PruneFiles_only_removes (stopAfter 1) sampleTree "C:\\src".toList 0 (by decide)).1,
    (PruneFiles_only_removes (stopAfter 1) sampleTree "C:\\src".toList 0 (by decide)).2.1,
    by decide⟩

/-! ### Directory tree: pruning with a pure predicate -/

theorem PruneFiles_files_pure (q : List Char → CDirEntry → Bool → Bool) (path : List Char) :
    ∀ (fs : List CDirEntry) (log : List Visit),
      PruneFiles.files (pureQuery q) path fs log =
        (fs.filter (fun f => q (subPath path f.sName) f false),
          log ++ fs.map (fun f => (subPath path f.sName, f, false))) := by
  intro fs
  induction fs with
  | nil => intro log; simp [PruneFiles.files]
  | cons f rest ih =>
    intro log
    simp only [PruneFiles.files, pureQuery]
    cases hq : q (subPath path f.sName) f false with
    | false =>
      simp only [List.filter_cons, hq, Bool.false_eq_true, if_false, List.map_cons]
      rw [ih]
      simp
    | true =>
      simp only [List.filter_cons, hq, if_true, List.map_cons]
      rw [ih]
      simp

theorem PruneFiles_flags_pure (q : List Char → CDirEntry → Bool → Bool) (path : List Char) :
    ∀ (ds : List CDir) (log : List Visit),
      PruneFiles.flags (pureQuery q) path ds log =
        (ds.map (fun d => q (subPath path d.cThis.sName) d.cThis true),
          log ++ ds.map (fun d => (subPath path d.cThis.sName, d.cThis, true))) := by
  intro ds
  induction ds with
  | nil => intro log; simp [PruneFiles.flags]
  | cons d rest ih =>
    intro log
    simp only [PruneFiles.flags]
    rw [ih]
    simp [pureQuery]

mutual
theorem PruneFiles_pure (q : List Char → CDirEntry → Bool → Bool) (d : CDir)
    (path : List Char) (log : List Visit) (hp : path ≠ []) :
    d.PruneFiles (pureQuery q) path log =
      (true, log ++ d.queryOrder q path, d.keep q path) := by
  cases d with
  | mk t fs ds e =>
    simp only [CDir.PruneFiles, hp, if_false, PruneFiles_files_pure, PruneFiles_flags_pure]
    rw [PruneFiles_subdirs_pure q ds path _ hp]
    simp only [CDir.queryOrder, CDir.keep, List.append_assoc]
theorem PruneFiles_subdirs_pure (q : List Char → CDirEntry → Bool → Bool) (ds : List CDir)
    (path : List Char) (log : List Visit) (hp : path ≠ []) :
    PruneFiles.subdirs (pureQuery q) path ds
        (ds.map (fun d => q (subPath path d.cThis.sName) d.cThis true)) log =
      (none, log ++ CDir.queryOrderList q ds path, CDir.keepList q ds path) := by
  cases ds with
  | nil => simp [PruneFiles.subdirs, CDir.queryOrderList, CDir.keepList]
  | cons d rest =>
    cases hq : q (subPath path d.cThis.sName) d.cThis true with
    | false =>
      simp only [List.map_cons, hq, PruneFiles.subdirs, CDir.queryOrderList, CDir.keepList,
        Bool.false_eq_true, if_false, List.nil_append]
      exact PruneFiles_subdirs_pure q rest path log hp
    | true =>
      simp only [List.map_cons, hq, PruneFiles.subdirs, CDir.queryOrderList, CDir.keepList,
        if_true]
      rw [PruneFiles_pure q d _ log (subPath_ne_nil _ _ hp)]
      simp only
      rw [PruneFiles_subdirs_pure q rest path _ hp]
      simp only [List.append_assoc]
end

theorem keep_cThis (q : List Char → CDirEntry → Bool → Bool) (d : CDir) (p : List Char) :
    (d.keep q p).cThis = d.cThis := by
  cases d with
  | mk t fs ds e => rfl

mutual
theorem keep_entries (q : List Char → CDirEntry → Bool → Bool) (d : CDir) (p : List Char) :
    (d.keep q p).entriesWithAncestors p =
      (d.entriesWithAncestors p).filter (fun x => accepts q x.1 && x.2.all (accepts q)) := by
  cases d with
  | mk t fs ds e =>
    simp only [CDir.keep, CDir.entriesWithAncestors, List.filter_append, List.filter_map,
      keepList_entries q ds p]
    congr 2
    apply List.filter_congr
    intro f _
    simp [accepts]
theorem keepList_entries (q : List Char → CDirEntry → Bool → Bool) (ds : List CDir)
    (p : List Char) :
    CDir.entriesWithAncestorsList (CDir.keepList q ds p) p =
      (CDir.entriesWithAncestorsList ds p).filter
        (fun x => accepts q x.1 && x.2.all (accepts q)) := by
  cases ds with
  | nil => rfl
  | cons d rest =>
    cases hq : q (subPath p d.cThis.sName) d.cThis true with
    | false =>
      simp only [CDir.keepList, hq, Bool.false_eq_true, if_false, CDir.entriesWithAncestorsList,
        List.filter_cons, accepts, Bool.false_and, List.filter_append, List.filter_map]
      rw [keepList_entries q rest p]
      have hnil : List.filter ((fun x => accepts q x.1 && x.2.all (accepts q)) ∘
          fun x => (x.1, (subPath p d.cThis.sName, d.cThis, true) :: x.2))
          (d.entriesWithAncestors (subPath p d.cThis.sName)) = [] := by
        rw [List.filter_eq_nil_iff]
        intro x _
        simp [accepts, hq]
      simp only [accepts] at hnil
      simp only [hnil, List.map_nil, List.nil_append, accepts]
    | true =>
      simp only [CDir.keepList, hq, if_true, CDir.entriesWithAncestorsList, keep_cThis,
        List.filter_cons, accepts, List.all_nil, Bool.and_self, List.filter_append,
        List.filter_map]
      rw [keepList_entries q rest p, keep_entries q d (subPath p d.cThis.sName)]
      simp only [accepts, List.cons.injEq, true_and]
      congr 2
      apply List.filter_congr
      intro x _
      simp [accepts, hq]
end

mutual
theorem mem_queryOrder (q : List Char → CDirEntry → Bool → Bool) (d : CDir) (p : List Char)
    (v : Visit) :
    v ∈ d.queryOrder q p ↔
      ∃ x ∈ d.entriesWithAncestors p, x.1 = v ∧ x.2.all (accepts q) = true := by
  cases d with
  | mk t fs ds e =>
    simp only [CDir.queryOrder, CDir.entriesWithAncestors, List.mem_append, List.mem_map]
    rw [mem_queryOrderList q ds p v]
    constructor
    · rintro (⟨f, hf, rfl⟩ | h | ⟨x, hx, h1, h2, h3⟩)
      · exact ⟨_, Or.inl ⟨f, hf, rfl⟩, rfl, rfl⟩
      · obtain ⟨x, hx, h1, h2⟩ := (mem_dirVisits ds p v).mp (List.mem_map.mpr h)
        exact ⟨x, Or.inr hx, h1, by rw [h2]; rfl⟩
      · exact ⟨x, Or.inr hx, h1, h3⟩
    · rintro ⟨x, (⟨f, hf, rfl⟩ | hx), h1, h2⟩
      · exact Or.inl ⟨f, hf, h1⟩
      · by_cases hnil : x.2 = []
        · have := (mem_dirVisits ds p v).mpr ⟨x, hx, h1, hnil⟩
          exact Or.inr (Or.inl (List.mem_map.mp this))
        · exact Or.inr (Or.inr ⟨x, hx, h1, hnil, h2⟩)
theorem mem_dirVisits (ds : List CDir) (p : List Char) (v : Visit) :
    v ∈ ds.map (fun d => (subPath p d.cThis.sName, d.cThis, true)) ↔
      ∃ x ∈ CDir.entriesWithAncestorsList ds p, x.1 = v ∧ x.2 = [] := by
  cases ds with
  | nil => simp [CDir.entriesWithAncestorsList]
  | cons d rest =>
    have ih := mem_dirVisits rest p v
    simp only [List.map_cons, List.mem_cons, CDir.entriesWithAncestorsList, List.mem_append,
      List.mem_map] at ih ⊢
    constructor
    · rintro (rfl | h)
      · exact ⟨_, Or.inl rfl, rfl, rfl⟩
      · obtain ⟨x, hx, h1, h2⟩ := ih.mp h
        exact ⟨x, Or.inr (Or.inr hx), h1, h2⟩
    · rintro ⟨x, (rfl | ⟨y, _, rfl⟩ | hx), h1, h2⟩
      · exact Or.inl h1.symm
      · simp at h2
      · exact Or.inr (ih.mpr ⟨x, hx, h1, h2⟩)
theorem mem_queryOrderList (q : List Char → CDirEntry → Bool → Bool) (ds : List CDir)
    (p : List Char) (v : Visit) :
    v ∈ CDir.queryOrderList q ds p ↔
      ∃ x ∈ CDir.entriesWithAncestorsList ds p,
        x.1 = v ∧ x.2 ≠ [] ∧ x.2.all (accepts q) = true := by
  cases ds with
  | nil => simp [CDir.queryOrderList, CDir.entriesWithAncestorsList]
  | cons d rest =>
    simp only [CDir.queryOrderList, CDir.entriesWithAncestorsList, List.mem_append,
      List.mem_cons, List.mem_map]
    rw [mem_queryOrderList q rest p v]
    constructor
    · rintro (h | ⟨x, hx, h1, h2, h3⟩)
      · split at h
        · rename_i hq
          obtain ⟨y, hy, h1, h2⟩ := (mem_queryOrder q d _ v).mp h
          refine ⟨_, Or.inr (Or.inl ⟨y, hy, rfl⟩), h1, by simp, ?_⟩
          simp only [List.all_cons, accepts, hq, Bool.true_and]
          exact h2
        · simp at h
      · exact ⟨x, Or.inr (Or.inr hx), h1, h2, h3⟩
    · rintro ⟨x, (rfl | ⟨y, hy, rfl⟩ | hx), h1, h2, h3⟩
      · exact absurd rfl h2
      · simp only [List.all_cons, accepts, Bool.and_eq_true] at h3
        left
        rw [if_pos h3.1]
        exact (mem_queryOrder q d _ v).mpr ⟨y, hy, h1, h3.2⟩
      · exact Or.inr ⟨x, hx, h1, h2, h3⟩
end

mutual
theorem queryOrder_ancestor_first (q : List Char → CDirEntry → Bool → Bool) (d : CDir)
    (p : List Char) (x : Visit × List Visit) (hx : x ∈ d.entriesWithAncestors p)
    (hall : x.2.all (accepts q) = true) (a : Visit) (ha : a ∈ x.2) :
    ∃ L1 L2, d.queryOrder q p = L1 ++ a :: L2 ∧ x.1 ∈ L2 := by
  cases d with
  | mk t fs ds e =>
    simp only [CDir.entriesWithAncestors, List.mem_append, List.mem_map] at hx
    rcases hx with ⟨f, _, rfl⟩ | hx
    · simp at ha
    · simp only [CDir.queryOrder]
      rcases queryOrderList_ancestor_first q ds p x hx hall a ha with ⟨h1, h2⟩ | ⟨L1, L2, h1, h2⟩
      · obtain ⟨D1, D2, hD⟩ := List.append_of_mem h1
        refine ⟨fs.map (fun f => (subPath p f.sName, f, false)) ++ D1,
          D2 ++ CDir.queryOrderList q ds p, ?_, List.mem_append_right _ h2⟩
        rw [hD]
        simp only [List.append_assoc, List.cons_append]
      · refine ⟨fs.map (fun f => (subPath p f.sName, f, false)) ++
          (ds.map (fun d => (subPath p d.cThis.sName, d.cThis, true)) ++ L1), L2, ?_, h2⟩
        rw [h1]
        simp only [List.append_assoc]
theorem queryOrderList_ancestor_first (q : List Char → CDirEntry → Bool → Bool)
    (ds : List CDir) (p : List Char) (x : Visit × List Visit)
    (hx : x ∈ CDir.entriesWithAncestorsList ds p)
    (hall : x.2.all (accepts q) = true) (a : Visit) (ha : a ∈ x.2) :
    (a ∈ ds.map (fun d => (subPath p d.cThis.sName, d.cThis, true)) ∧
        x.1 ∈ CDir.queryOrderList q ds p) ∨
      ∃ L1 L2, CDir.queryOrderList q ds p = L1 ++ a :: L2 ∧ x.1 ∈ L2 := by
  cases ds with
  | nil => simp [CDir.entriesWithAncestorsList] at hx
  | cons d rest =>
    simp only [CDir.entriesWithAncestorsList, List.mem_cons, List.mem_append,
      List.mem_map] at hx
    rcases hx with rfl | ⟨y, hy, rfl⟩ | hx
    · simp at ha
    · simp only [List.all_cons, accepts, Bool.and_eq_true] at hall
      simp only [List.mem_cons] at ha
      simp only [CDir.queryOrderList, if_pos hall.1]
      rcases ha with rfl | ha
      · left
        refine ⟨by simp, List.mem_append_left _ ?_⟩
        exact (mem_queryOrder q d _ y.1).mpr ⟨y, hy, rfl, hall.2⟩
      · right
        obtain ⟨L1, L2, h1, h2⟩ :=
          queryOrder_ancestor_first q d (subPath p d.cThis.sName) y hy hall.2 a ha
        refine ⟨L1, L2 ++ CDir.queryOrderList q rest p, ?_, List.mem_append_left _ h2⟩
        rw [h1]
        simp only [List.append_assoc, List.cons_append]
    · rcases queryOrderList_ancestor_first q rest p x hx hall a ha with
        ⟨h1, h2⟩ | ⟨L1, L2, h1, h2⟩
      · left
        exact ⟨by simp only [List.map_cons, List.mem_cons]; exact Or.inr h1,
          by simp only [CDir.queryOrderList]; exact List.mem_append_right _ h2⟩
      · right
        refine ⟨(if q (subPath p d.cThis.sName) d.cThis true
          then CDir.queryOrder q d (subPath p d.cThis.sName) else []) ++ L1, L2, ?_, h2⟩
        simp only [CDir.queryOrderList, h1, List.append_assoc]
end

/-- C14: for a predicate that is a pure function of path, entry and `bIsDir`, every tree
and every non-empty root path, `PruneFiles` returns true and: (1) the entries that
remain, each with its ancestors below the root, are exactly the entries the predicate
accepts and all of whose ancestors below the root it accepts, in their order; (2) the
predicate is called on an entry exactly when it accepts every ancestor of the entry below
the root, so never on an entry beneath a removed directory and never on the root, which
is not among the entries; (3) on each ancestor of a called entry it is called before it
is called on the entry; (4) the calls are made in the order of `CDir.queryOrder`: files,
then child directories, then the inside of each accepted child directory. -/
theorem PruneFiles_pure_predicate (q : List Char → CDirEntry → Bool → Bool) (d : CDir)
    (pszDirPath : List Char) (hpath : pszDirPath ≠ []) :
    (d.PruneFiles (pureQuery q) pszDirPath []).1 = true ∧
    (d.PruneFiles (pureQuery q) pszDirPath []).2.2.entriesWithAncestors pszDirPath =
      (d.entriesWithAncestors pszDirPath).filter
        (fun x => accepts q x.1 && x.2.all (accepts q)) ∧
    (∀ v, v ∈ (d.PruneFiles (pureQuery q) pszDirPath []).2.1 ↔
      ∃ x ∈ d.entriesWithAncestors pszDirPath, x.1 = v ∧ x.2.all (accepts q) = true) ∧
    (∀ x ∈ d.entriesWithAncestors pszDirPath, x.2.all (accepts q) = true → ∀ a ∈ x.2,
      ∃ L1 L2, (d.PruneFiles (pureQuery q) pszDirPath []).2.1 = L1 ++ a :: L2 ∧ x.1 ∈ L2) ∧
    (d.PruneFiles (pureQuery q) pszDirPath []).2.1 = d.queryOrder q pszDirPath := by
  rw [PruneFiles_pure q d pszDirPath [] hpath]
  simp only [List.nil_append]
  exact ⟨trivial, keep_entries q d pszDirPath, mem_queryOrder q d pszDirPath,
    fun x hx hall a ha => queryOrder_ancestor_first q d pszDirPath x hx hall a ha, trivial⟩

/-- C14, witness: the predicate that accepts files only, on the sample tree under
`C:\src`: it is called on `a.txt`, `b.log` and `sub`, not on `sub\c.txt`, which lies
beneath the rejected `sub`; `a.txt` and `b.log` remain. -/
theorem PruneFiles_pure_predicate_witness :
    "C:\\src".toList ≠ [] ∧
    (sampleTree.PruneFiles (pureQuery filesOnly) "C:\\src".toList []).2.1 =
      sampleTree.queryOrder filesOnly "C:\\src".toList ∧
    (sampleTree.PruneFiles (pureQuery filesOnly) "C:\\src".toList []).2.1.map (fun v => v.1) =
      ["C:\\src\\a.txt".toList, "C:\\src\\b.log".toList, "C:\\src\\sub".toList] ∧
    ((sampleTree.PruneFiles (pureQuery filesOnly) "C:\\src".toList []).2.2.preorder
        "C:\\src".toList).map (fun v => v.1) =
      ["C:\\src\\a.txt".toList, "C:\\src\\b.log".toList] :=
  ⟨by decide,
    (PruneFiles_pure_predicate filesOnly sampleTree "C:\\src".toList (by decide)).2.2.2.2,
    by decide, by decide⟩

/-! ### Directory tree: lookup by path -/

theorem tolower_eq_backslash (c : Char) (h : tolower c = '\\') : c = '\\' := by
  unfold tolower Char.toLower at h
  simp only at h
  split at h
  · rename_i hu
    exfalso
    have h1 := hu.1
    have h2 := hu.2
    generalize c.toNat = n at h h1 h2
    interval_cases n <;> revert h <;> decide
  · exact h

theorem mem_backslash_lower (p : List Char) :
    '\\' ∈ p.map tolower ↔ '\\' ∈ p := by
  simp only [List.mem_map]
  constructor
  · rintro ⟨c, hc, h⟩
    rw [tolower_eq_backslash c h] at hc
    exact hc
  · intro h
    exact ⟨'\\', h, by decide⟩

theorem split_lower : ∀ (p p1 : List Char), p.map tolower = p1.map tolower →
    (p.takeWhile (fun c => decide (c ≠ '\\'))).map tolower =
      (p1.takeWhile (fun c => decide (c ≠ '\\'))).map tolower ∧
    ((p.dropWhile (fun c => decide (c ≠ '\\'))).tail).map tolower =
      ((p1.dropWhile (fun c => decide (c ≠ '\\'))).tail).map tolower := by
  intro p
  induction p with
  | nil =>
    intro p1 h
    cases p1 with
    | nil => simp
    | cons c1 r1 => simp at h
  | cons c r ih =>
    intro p1 h
    cases p1 with
    | nil => simp at h
    | cons c1 r1 =>
      simp only [List.map_cons, List.cons.injEq] at h
      by_cases hc : c = '\\'
      · have hc1 : c1 = '\\' := by
          apply tolower_eq_backslash
          rw [← h.1, hc]
          decide
        subst hc
        subst hc1
        simp [List.takeWhile_cons, List.dropWhile_cons, h.2]
      · have hc1 : c1 ≠ '\\' := by
          intro e
          apply hc
          apply tolower_eq_backslash
          rw [h.1, e]
          decide
        obtain ⟨h1, h2⟩ := ih r1 h.2
        simp only [List.takeWhile_cons, List.dropWhile_cons, hc, hc1, ne_eq,
          not_false_eq_true, decide_True, if_true, List.map_cons, h.1, h1, h2, and_self]

theorem tcsicmpEq_congr_left (a a1 b : List Char) (h : a.map tolower = a1.map tolower) :
    tcsicmpEq a b = tcsicmpEq a1 b := by
  simp only [tcsicmpEq, h]

theorem tcsicmpEq_congr_right (a b b1 : List Char) (h : b.map tolower = b1.map tolower) :
    tcsicmpEq a b = tcsicmpEq a b1 := by
  simp only [tcsicmpEq, h]

theorem findFile_congr (p p1 : List Char) (h : p.map tolower = p1.map tolower) :
    ∀ (fs : List CDirEntry) (k : Nat),
      FileExists.findFile p fs k = FileExists.findFile p1 fs k := by
  intro fs
  induction fs with
  | nil => intro k; rfl
  | cons f rest ih =>
    intro k
    simp only [FileExists.findFile, tcsicmpEq_congr_left p p1 _ h, ih]

theorem findDir_congr (p p1 : List Char) (h : p.map tolower = p1.map tolower) :
    ∀ (ds : List CDir) (k : Nat),
      FileExists.findDir p ds k = FileExists.findDir p1 ds k := by
  intro ds
  induction ds with
  | nil => intro k; rfl
  | cons d rest ih =>
    intro k
    simp only [FileExists.findDir, tcsicmpEq_congr_left p p1 _ h, ih]

mutual
theorem FileExists_case (T : CDir) (p p1 : List Char) (h : p.map tolower = p1.map tolower) :
    T.FileExists p = T.FileExists p1 := by
  cases T with
  | mk t fs ds e =>
    have hb : '\\' ∈ p ↔ '\\' ∈ p1 := by
      rw [← mem_backslash_lower p, ← mem_backslash_lower p1, h]
    obtain ⟨h1, h2⟩ := split_lower p p1 h
    by_cases hp : '\\' ∈ p
    · have hp1 := hb.mp hp
      simp only [CDir.FileExists, hp, hp1, not_true_eq_false, if_false]
      exact FileExists_sub_case ds _ _ _ _ 0 h1 h2
    · have hp1 : ¬ '\\' ∈ p1 := fun e => hp (hb.mpr e)
      simp only [CDir.FileExists, hp, hp1, not_false_eq_true, if_true,
        findFile_congr p p1 h, findDir_congr p p1 h]
theorem FileExists_sub_case (ds : List CDir) (b b1 r r1 : List Char) (k : Nat)
    (hb : b.map tolower = b1.map tolower) (hr : r.map tolower = r1.map tolower) :
    FileExists.sub b r ds k = FileExists.sub b1 r1 ds k := by
  cases ds with
  | nil => rfl
  | cons d rest =>
    simp only [FileExists.sub, tcsicmpEq_congr_right _ b b1 hb]
    rw [FileExists_case d r r1 hr, FileExists_sub_case rest b b1 r r1 (k + 1) hb hr]
end

theorem findFile_some (s : List Char) : ∀ (fs : List CDirEntry) (k i : Nat),
    FileExists.findFile s fs k = some i →
      ∃ j f, i = k + j ∧ fs[j]? = some f ∧ tcsicmpEq s f.sName = true := by
  intro fs
  induction fs with
  | nil => intro k i h; simp [FileExists.findFile] at h
  | cons f rest ih =>
    intro k i h
    simp only [FileExists.findFile] at h
    split at h
    · rename_i hm
      simp only [Option.some.injEq] at h
      exact ⟨0, f, by omega, by simp, hm⟩
    · obtain ⟨j, g, h1, h2, h3⟩ := ih (k + 1) i h
      exact ⟨j + 1, g, by omega, by simpa using h2, h3⟩

theorem findFile_of_mem (s : List Char) : ∀ (fs : List CDirEntry) (k : Nat) (f : CDirEntry),
    f ∈ fs → tcsicmpEq s f.sName = true → ∃ i, FileExists.findFile s fs k = some i := by
  intro fs
  induction fs with
  | nil => intro k f hf; simp at hf
  | cons g rest ih =>
    intro k f hf hm
    simp only [FileExists.findFile]
    split
    · exact ⟨k, rfl⟩
    · rename_i hg
      rcases List.mem_cons.mp hf with rfl | hf
      · exact absurd hm hg
      · exact ih (k + 1) f hf hm

theorem findDir_some (s : List Char) : ∀ (ds : List CDir) (k i : Nat),
    FileExists.findDir s ds k = some i →
      ∃ j d, i = k + j ∧ ds[j]? = some d ∧ tcsicmpEq s d.cThis.sName = true := by
  intro ds
  induction ds with
  | nil => intro k i h; simp [FileExists.findDir] at h
  | cons d rest ih =>
    intro k i h
    simp only [FileExists.findDir] at h
    split at h
    · rename_i hm
      simp only [Option.some.injEq] at h
      exact ⟨0, d, by omega, by simp, hm⟩
    · obtain ⟨j, g, h1, h2, h3⟩ := ih (k + 1) i h
      exact ⟨j + 1, g, by omega, by simpa using h2, h3⟩

theorem findDir_of_mem (s : List Char) : ∀ (ds : List CDir) (k : Nat) (d : CDir),
    d ∈ ds → tcsicmpEq s d.cThis.sName = true → ∃ i, FileExists.findDir s ds k = some i := by
  intro ds
  induction ds with
  | nil => intro k d hd; simp at hd
  | cons g rest ih =>
    intro k d hd hm
    simp only [FileExists.findDir]
    split
    · exact ⟨k, rfl⟩
    · rename_i hg
      rcases List.mem_cons.mp hd with rfl | hd
      · exact absurd hm hg
      · exact ih (k + 1) d hd hm

theorem FileExists_sub_some (b r : List Char) : ∀ (ds : List CDir) (k : Nat) (x : EntryRef),
    FileExists.sub b r ds k = some x →
      ∃ j d r1, x = .sub (k + j) r1 ∧ ds[j]? = some d ∧ tcsicmpEq d.cThis.sName b = true ∧
        d.FileExists r = some r1 := by
  intro ds
  induction ds with
  | nil => intro k x h; simp [FileExists.sub] at h
  | cons d rest ih =>
    intro k x h
    simp only [FileExists.sub] at h
    split at h
    · rename_i hm
      split at h
      · rename_i r1 hr1
        simp only [Option.some.injEq] at h
        exact ⟨0, d, r1, by rw [← h]; rfl, by simp, hm, hr1⟩
      · cases h
    · obtain ⟨j, g, r1, h1, h2, h3, h4⟩ := ih (k + 1) x h
      refine ⟨j + 1, g, r1, ?_, by simpa using h2, h3, h4⟩
      rw [h1]
      congr 1
      omega

theorem FileExists_sub_first (b r : List Char) : ∀ (ds : List CDir) (k : Nat) (d : CDir),
    (ds.map (fun d => d.cThis.sName.map tolower)).Nodup → d ∈ ds →
    tcsicmpEq d.cThis.sName b = true →
    ∃ j, FileExists.sub b r ds k = (d.FileExists r).map (EntryRef.sub (k + j)) := by
  intro ds
  induction ds with
  | nil => intro k d _ hd; simp at hd
  | cons g rest ih =>
    intro k d hnd hd hm
    simp only [List.map_cons, List.nodup_cons] at hnd
    rcases List.mem_cons.mp hd with rfl | hd
    · refine ⟨0, ?_⟩
      simp only [FileExists.sub, hm, if_true, Nat.add_zero]
      cases d.FileExists r <;> rfl
    · have hg : tcsicmpEq g.cThis.sName b = false := by
        cases hgm : tcsicmpEq g.cThis.sName b with
        | false => rfl
        | true =>
          exfalso
          apply hnd.1
          simp only [tcsicmpEq, decide_eq_true_eq] at hm hgm
          rw [hgm, ← hm]
          exact List.mem_map.mpr ⟨d, hd, rfl⟩
      obtain ⟨j, hj⟩ := ih (k + 1) d hnd.2 hd hm
      refine ⟨j + 1, ?_⟩
      simp only [FileExists.sub, hg, Bool.false_eq_true, if_false]
      rw [hj]
      have : k + 1 + j = k + (j + 1) := by omega
      rw [this]

theorem FileExists_base_file (t : CDirEntry) (fs : List CDirEntry) (ds : List CDir)
    (e : List Char) (s : List Char) (hs : ¬ '\\' ∈ s) (i : Nat)
    (h : FileExists.findFile s fs 0 = some i) :
    (CDir.mk t fs ds e).FileExists s = some (.file i) := by
  simp only [CDir.FileExists, hs, not_false_eq_true, if_true, h]

theorem FileExists_base_dir (t : CDirEntry) (fs : List CDirEntry) (ds : List CDir)
    (e : List Char) (s : List Char) (hs : ¬ '\\' ∈ s)
    (h : FileExists.findFile s fs 0 = none) :
    (CDir.mk t fs ds e).FileExists s = (FileExists.findDir s ds 0).map EntryRef.dir := by
  simp only [CDir.FileExists, hs, not_false_eq_true, if_true, h]
  cases FileExists.findDir s ds 0 <;> rfl

theorem FileExists_step (t : CDirEntry) (fs : List CDirEntry) (ds : List CDir) (e : List Char)
    (s s2 : List Char) (rest : List (List Char)) (hs : ¬ '\\' ∈ s) :
    (CDir.mk t fs ds e).FileExists (joinPath s (s2 :: rest)) =
      FileExists.sub s (joinPath s2 rest) ds 0 := by
  have hmem : '\\' ∈ joinPath s (s2 :: rest) := by simp [joinPath]
  obtain ⟨h1, h2⟩ := takeWhile_ne_backslash s (joinPath s2 rest) hs
  simp only [CDir.FileExists, hmem, not_true_eq_false, if_false]
  simp only [joinPath, h1, h2]

theorem dirNamesUniqueList_mem : ∀ (ds : List CDir), CDir.dirNamesUniqueList ds = true →
    ∀ d ∈ ds, d.dirNamesUnique = true := by
  intro ds
  induction ds with
  | nil => intro _ d hd; simp at hd
  | cons g rest ih =>
    intro h d hd
    simp only [CDir.dirNamesUniqueList, Bool.and_eq_true] at h
    rcases List.mem_cons.mp hd with rfl | hd
    · exact h.1
    · exact ih h.2 d hd

/-- What `FileExists` returns is an entry that the path resolves to. -/
theorem FileExists_sound : ∀ (rest : List (List Char)) (T : CDir) (s : List Char),
    (∀ x ∈ s :: rest, ¬ '\\' ∈ x) → ∀ r, T.FileExists (joinPath s rest) = some r →
      ∃ e, T.entryAt r = some e ∧ T.resolves s rest (e, r.isDir) := by
  intro rest
  induction rest with
  | nil =>
    intro T s hseg r h
    cases T with
    | mk t fs ds e =>
      have hs := hseg s (List.mem_cons_self _ _)
      simp only [joinPath] at h
      cases hfile : FileExists.findFile s fs 0 with
      | some i =>
        rw [FileExists_base_file t fs ds e s hs i hfile] at h
        simp only [Option.some.injEq] at h
        subst h
        obtain ⟨j, f, h1, h2, h3⟩ := findFile_some s fs 0 i hfile
        have hij : i = j := by omega
        subst hij
        refine ⟨f, by simpa [CDir.entryAt] using h2, ?_⟩
        exact Or.inl ⟨f, List.getElem?_mem h2, h3, rfl⟩
      | none =>
        rw [FileExists_base_dir t fs ds e s hs hfile] at h
        cases hdir : FileExists.findDir s ds 0 with
        | some i =>
          rw [hdir] at h
          simp only [Option.map_some', Option.some.injEq] at h
          subst h
          obtain ⟨j, d, h1, h2, h3⟩ := findDir_some s ds 0 i hdir
          have hij : i = j := by omega
          subst hij
          refine ⟨d.cThis, by simp [CDir.entryAt, h2], ?_⟩
          exact Or.inr ⟨d, List.getElem?_mem h2, h3, rfl⟩
        | none =>
          rw [hdir] at h
          cases h
  | cons s2 rest ih =>
    intro T s hseg r h
    cases T with
    | mk t fs ds e =>
      have hs := hseg s (List.mem_cons_self _ _)
      rw [FileExists_step t fs ds e s s2 rest hs] at h
      obtain ⟨j, d, r1, h1, h2, h3, h4⟩ := FileExists_sub_some _ _ ds 0 r h
      obtain ⟨e1, he1, hres⟩ := ih d s2 (fun x hx => hseg x (List.mem_cons_of_mem _ hx)) r1 h4
      subst h1
      refine ⟨e1, ?_, ?_⟩
      · simp only [Nat.zero_add, CDir.entryAt, h2]
        exact he1
      · exact ⟨d, List.getElem?_mem h2, h3, hres⟩

/-- When the directory names are unique, `FileExists` finds every path that resolves,
and finds a file when the path resolves to a file. -/
theorem FileExists_complete : ∀ (rest : List (List Char)) (T : CDir) (s : List Char),
    (∀ x ∈ s :: rest, ¬ '\\' ∈ x) → T.dirNamesUnique = true →
    ∀ x, T.resolves s rest x →
      ∃ r, T.FileExists (joinPath s rest) = some r ∧ (x.2 = false → r.isDir = false) := by
  intro rest
  induction rest with
  | nil =>
    intro T s hseg _ x hx
    cases T with
    | mk t fs ds e =>
      have hs := hseg s (List.mem_cons_self _ _)
      simp only [joinPath]
      rcases hx with ⟨f, hf, hm, rfl⟩ | ⟨d, hd, hm, rfl⟩
      · obtain ⟨i, hi⟩ := findFile_of_mem s fs 0 f hf hm
        exact ⟨.file i, FileExists_base_file t fs ds e s hs i hi, fun _ => rfl⟩
      · cases hfile : FileExists.findFile s fs 0 with
        | some i => exact ⟨.file i, FileExists_base_file t fs ds e s hs i hfile, fun _ => rfl⟩
        | none =>
          obtain ⟨i, hi⟩ := findDir_of_mem s ds 0 d hd hm
          refine ⟨.dir i, ?_, fun h => by cases h⟩
          rw [FileExists_base_dir t fs ds e s hs hfile, hi]
          rfl
  | cons s2 rest ih =>
    intro T s hseg hu x hx
    cases T with
    | mk t fs ds e =>
      have hs := hseg s (List.mem_cons_self _ _)
      simp only [CDir.dirNamesUnique, Bool.and_eq_true, decide_eq_true_eq] at hu
      obtain ⟨d, hd, hm, hres⟩ := hx
      obtain ⟨r1, hr1, hk⟩ := ih d s2 (fun y hy => hseg y (List.mem_cons_of_mem _ hy))
        (dirNamesUniqueList_mem ds hu.2 d hd) x hres
      obtain ⟨j, hj⟩ := FileExists_sub_first s (joinPath s2 rest) ds 0 d hu.1 hd hm
      rw [FileExists_step t fs ds e s s2 rest hs, hj, hr1]
      exact ⟨.sub (0 + j) r1, rfl, hk⟩

/-- C15: for every tree in which no directory has two child directories with names equal
up to case (the data model: no two child entries of a node share a name), and every
relative path `s1\...\sn` (`n ≥ 1`, no backslash inside
a segment), `FileExists` returns an entry exactly when the path resolves: there are child
directories matching `s1, ..., s(n-1)` up to case and the last has a file or a child
directory named `sn` up to case. The entry returned is such an entry, and it is a file
whenever the path resolves to a file. Changing the letter case of a path never changes
the result (this part holds for every tree and path). -/
theorem FileExists_iff_resolves (T : CDir) (s : List Char) (rest : List (List Char))
    (hseg : ∀ x ∈ s :: rest, ¬ '\\' ∈ x) (hu : T.dirNamesUnique = true) :
    ((∃ r, T.FileExists (joinPath s rest) = some r) ↔ ∃ x, T.resolves s rest x) ∧
    (∀ r, T.FileExists (joinPath s rest) = some r →
      ∃ e, T.entryAt r = some e ∧ T.resolves s rest (e, r.isDir)) ∧
    (∀ r, T.FileExists (joinPath s rest) = some r →
      (∃ e, T.resolves s rest (e, false)) → r.isDir = false) ∧
    (∀ p p1 : List Char, p.map tolower = p1.map tolower →
      T.FileExists p = T.FileExists p1) := by
  refine ⟨⟨?_, ?_⟩, FileExists_sound rest T s hseg, ?_, FileExists_case T⟩
  · rintro ⟨r, hr⟩
    obtain ⟨e, -, he⟩ := FileExists_sound rest T s hseg r hr
    exact ⟨_, he⟩
  · rintro ⟨x, hx⟩
    obtain ⟨r, hr, -⟩ := FileExists_complete rest T s hseg hu x hx
    exact ⟨r, hr⟩
  · rintro r hr ⟨e, he⟩
    obtain ⟨r1, hr1, hk⟩ := FileExists_complete rest T s hseg hu (e, false) he
    rw [hr] at hr1
    simp only [Option.some.injEq] at hr1
    rw [hr1]
    exact hk rfl

/-- C15, witness: the sample tree and the path `SUB\C.TXT`, which finds the file `c.txt`
in the directory `sub`. -/
theorem FileExists_iff_resolves_witness :
    (∀ x ∈ "SUB".toList :: ["C.TXT".toList], ¬ '\\' ∈ x) ∧
    sampleTree.dirNamesUnique = true ∧
    sampleTree.FileExists (joinPath "SUB".toList ["C.TXT".toList]) =
      some (.sub 0 (.file 0)) ∧
    (∃ x, sampleTree.resolves "SUB".toList ["C.TXT".toList] x) :=
  ⟨by decide, by decide, by decide,
    (FileExists_iff_resolves sampleTree "SUB".toList ["C.TXT".toList] (by decide)
      (by decide)).1.mp ⟨.sub 0 (.file 0), by decide⟩⟩

/-! ### Matchers at concrete inputs -/

/-- C25: the five examples of the specification, evaluated on the code. -/
theorem WildcardMatch_examples :
    WildcardMatch "*.txt".toList "report.txt".toList = true ∧
    WildcardMatch "*.txt".toList "report.doc".toList = false ∧
    WildcardMatch "[a-c]at".toList "bat".toList = true ∧
    WildcardMatch "[a-c]at".toList "dat".toList = false ∧
    WildcardMatch "a/b".toList ['a', '\\', 'b'] = true := by
  refine ⟨?_, ?_, ?_, ?_, ?_⟩ <;>
  simp [WildcardMatch, check_rexp_unfold, check_rexp.body, check_rexp.starSkip,
    check_rexp.starJump, check_rexp.lastMatch, group_cons, group_nil, cur, stepIf, tolower,
    NUL]

/-- C26, the code at the failing input: the empty needle occurs in every text, but
`SubstringMatch` returns false for it, on the text `abc` and on the empty text. -/
theorem SubstringMatch_empty_needle :
    ([] : List Char) <:+: "abc".toList ∧
    SubstringMatch [] "abc".toList = false ∧
    SubstringMatch [] [] = false := by
  refine ⟨by simp, by decide, by decide⟩

/-- C27, the code at the failing input: the pattern `?` matches the empty text, and the
pattern `a?` matches the text `a`, where no character is left for the `?`. -/
theorem WildcardMatch_question_matches_nothing :
    WildcardMatch "?".toList [] = true ∧
    WildcardMatch "a?".toList "a".toList = true := by
  refine ⟨?_, ?_⟩ <;>
  simp [WildcardMatch, check_rexp_unfold, check_rexp.body, check_rexp.starSkip,
    check_rexp.starJump, check_rexp.lastMatch, group_cons, group_nil, cur, stepIf, tolower,
    NUL]

/-- C28, the code at the failing input: the pattern `*\b.txt` matches the path `a\b.txt`,
but with the backslash of the pattern replaced by a slash, the pattern `*/b.txt` does not
match it; the same with `[\]` and `[/]` on the text `\`. -/
theorem WildcardMatch_slash_after_star :
    WildcardMatch ('*' :: '\\' :: "b.txt".toList) ('a' :: '\\' :: "b.txt".toList) = true ∧
    WildcardMatch "*/b.txt".toList ('a' :: '\\' :: "b.txt".toList) = false ∧
    WildcardMatch ['[', '\\', ']'] ['\\'] = true ∧
    WildcardMatch ['[', '/', ']'] ['\\'] = false := by
  refine ⟨?_, ?_, ?_, ?_⟩ <;>
  simp [WildcardMatch, check_rexp_unfold, check_rexp.body, check_rexp.starSkip,
    check_rexp.starJump, check_rexp.lastMatch, group_cons, group_nil, cur, stepIf, tolower,
    NUL]

/-- C30, counterexample: the patterns `?*` and `??` hold two adjacent wildcard tokens,
yet `check_rexp` returns 1 (matched) on the texts `a` and `ab`. -/
theorem check_rexp_accepts_question_pairs :
    check_rexp "a".toList "?*".toList = 1 ∧
    WildcardMatch "?*".toList "a".toList = true ∧
    check_rexp "ab".toList "??".toList = 1 ∧
    WildcardMatch "??".toList "ab".toList = true := by
  refine ⟨?_, ?_, ?_, ?_⟩ <;>
  simp [WildcardMatch, check_rexp_unfold, check_rexp.body, check_rexp.starSkip,
    check_rexp.starJump, check_rexp.lastMatch, group_cons, group_nil, cur, stepIf, tolower,
    NUL]

/-! ### Type conflicts in the copy step -/

/-- C22: when the relative path of an entry is found in the destination tree as an entry
of the opposite type (a source directory against an entry without the directory
attribute, or a source file against an entry with it), `EnumCopy` returns false and
changes nothing but the error total, which goes up by 1: no call is made, and the
continue-after-error setting is not consulted. -/
theorem EnumCopy_type_conflict {ω : Type} (sys : Win32 ω) (g : Globals ω)
    (pszPath : List Char) (pEntry : CDirEntry) (bIsDir : Bool) (r : EntryRef) (e : CDirEntry)
    (hpre : tcsnicmpNe g.cSettings.szSource pszPath g.cSettings.szSource.length = false)
    (hfound : g.cDestTree.FileExists (relPath g.cSettings.szSource pszPath) = some r)
    (hentry : g.cDestTree.entryAt r = some e)
    (hopp : (bIsDir = true ∧ e.dwAttrib &&& FILE_ATTRIBUTE_DIRECTORY = 0) ∨
      (bIsDir = false ∧ e.dwAttrib &&& FILE_ATTRIBUTE_DIRECTORY ≠ 0)) :
    EnumCopy sys g pszPath pEntry bIsDir = (false, g.addError) ∧
    g.addError.cTotals.iNumErrors = g.cTotals.iNumErrors + 1 ∧
    g.addError.calls = g.calls ∧
    g.addError = { g with cTotals := { g.cTotals with iNumErrors := g.cTotals.iNumErrors + 1 } } := by
  refine ⟨?_, rfl, rfl, rfl⟩
  unfold EnumCopy
  rcases hopp with ⟨hb, ha⟩ | ⟨hb, ha⟩
  · subst hb
    simp [hpre, hfound, hentry, ha]
  · subst hb
    simp [hpre, hfound, hentry, ha]

/-- C22, witness: a source directory named `a.txt` against the destination file `A.TXT`;
the error total goes from 0 to 1 and no call is made. -/
theorem EnumCopy_type_conflict_witness :
    tcsnicmpNe updateGlobals.cSettings.szSource "C:\\src\\a.txt".toList
      updateGlobals.cSettings.szSource.length = false ∧
    updateGlobals.cDestTree.FileExists
      (relPath updateGlobals.cSettings.szSource "C:\\src\\a.txt".toList) =
        some (EntryRef.file 0) ∧
    (EnumCopy (stubSys 0) updateGlobals "C:\\src\\a.txt".toList (dirEntry "a.txt") true =
        (false, updateGlobals.addError) ∧
      updateGlobals.addError.cTotals.iNumErrors = updateGlobals.cTotals.iNumErrors + 1 ∧
      updateGlobals.addError.calls = updateGlobals.calls ∧
      updateGlobals.addError = { updateGlobals with cTotals :=
        { updateGlobals.cTotals with iNumErrors := updateGlobals.cTotals.iNumErrors + 1 } }) :=
  ⟨by decide, by decide,
    EnumCopy_type_conflict (stubSys 0) updateGlobals "C:\\src\\a.txt".toList
      (dirEntry "a.txt") true (EntryRef.file 0) (datedEntry "A.TXT" 100 125911584030000000)
      (by decide) (by decide) (by decide) (Or.inl ⟨rfl, by decide⟩)⟩

/-! ### Copy and compare on whole files -/

/-- Appending the chunk read at `pos` to the first `pos` bytes gives the bytes up to the
new file pointer. -/
theorem take_append_chunk (data : List Nat) (pos k : Nat) :
    data.take pos ++ (data.drop pos).take k =
      data.take (pos + ((data.drop pos).take k).length) := by
  rw [List.take_add]
  congr 1
  rw [List.take_eq_take]
  simp

/-- When the chunk loop of `RawCopyFileWin32` ends with status 0, the destination holds
the first `dFileLength` bytes of the source and that count is reported. -/
theorem RawCopy_loop_zero {σ : Type} (pFunc : ProgressFn σ) (L : Nat) (wr rd : Nat → Bool)
    (data : List Nat) :
    ∀ (n pos : Nat) (ctx : σ), data.length - pos = n →
      (RawCopyFileWin32.loop pFunc L wr ⟨data, pos, rd⟩ (data.take pos) pos ctx).status = 0 →
      (RawCopyFileWin32.loop pFunc L wr ⟨data, pos, rd⟩ (data.take pos) pos ctx).dest =
          some (data.take L) ∧
        (RawCopyFileWin32.loop pFunc L wr ⟨data, pos, rd⟩ (data.take pos) pos ctx).pdCopied =
          some L := by
  intro n
  induction n using Nat.strong_induction_on with
  | _ n ih =>
    intro pos ctx hn
    rw [RawCopyFileWin32.loop]
    by_cases hr : rd pos = true
    · by_cases hlt : pos < data.length
      · have hpos : 0 < ((data.drop pos).take chunkSize).length := by
          simp [List.length_take, chunkSize]; omega
        simp only [ReadFile, hr, if_true, hpos, and_self, dite_true]
        by_cases hw : wr (data.take pos).length = false
        · rw [if_pos hw]; simp
        · rw [if_neg hw]
          rcases hp : callProgress pFunc ctx (pos + ((data.drop pos).take chunkSize).length) L
            with ⟨b, ctx1⟩
          cases b
          · simp
          · simp only []
            rw [take_append_chunk]
            apply ih (data.length - (pos + ((data.drop pos).take chunkSize).length)) _ _ _ rfl
            omega
      · have hpos : ¬ 0 < ((data.drop pos).take chunkSize).length := by
          simp [List.length_take]; omega
        simp only [ReadFile, hr, if_true, hpos, and_false, dite_false]
        rcases hp : callProgress pFunc ctx pos L with ⟨b, ctx1⟩
        cases b
        · simp
        · by_cases hL : pos = L
          · subst hL; simp
          · simp [hL]
    · simp only [ReadFile, hr, if_false, Bool.false_eq_true, false_and, dite_false]
      rcases hp : callProgress pFunc ctx pos L with ⟨b, ctx1⟩
      cases b
      · simp
      · by_cases hL : pos = L
        · subst hL; simp
        · simp [hL]

/-- When every read and write succeeds and the callback always continues, the chunk
loop of `RawCopyFileWin32` ends with status 0. -/
theorem RawCopy_loop_ok {σ : Type} (pFunc : ProgressFn σ) (wr rd : Nat → Bool)
    (data : List Nat) (hrd : ∀ n, rd n = true) (hwr : ∀ n, wr n = true)
    (hcont : ∀ c x y, (callProgress pFunc c x y).1 = true) :
    ∀ (n pos : Nat) (out : List Nat) (ctx : σ), data.length - pos = n → pos ≤ data.length →
      (RawCopyFileWin32.loop pFunc data.length wr ⟨data, pos, rd⟩ out pos ctx).status = 0 := by
  intro n
  induction n using Nat.strong_induction_on with
  | _ n ih =>
    intro pos out ctx hn hle
    rw [RawCopyFileWin32.loop]
    by_cases hlt : pos < data.length
    · have hpos : 0 < ((data.drop pos).take chunkSize).length := by
        simp [List.length_take, chunkSize]; omega
      have hle2 : ((data.drop pos).take chunkSize).length ≤ data.length - pos := by
        simp [List.length_take]
      simp only [ReadFile, hrd, if_true, hpos, and_self, dite_true]
      rw [if_neg (by simp [hwr])]
      have hc := hcont ctx (pos + ((data.drop pos).take chunkSize).length) data.length
      rcases hp : callProgress pFunc ctx (pos + ((data.drop pos).take chunkSize).length)
        data.length with ⟨b, ctx1⟩
      rw [hp] at hc
      simp only at hc
      subst hc
      simp only []
      apply ih (data.length - (pos + ((data.drop pos).take chunkSize).length)) _ _ _ _ rfl
      · omega
      · omega
    · have hpos : ¬ 0 < ((data.drop pos).take chunkSize).length := by
        simp [List.length_take]; omega
      simp only [ReadFile, hrd, if_true, hpos, and_false, dite_false]
      have hc := hcont ctx pos data.length
      rcases hp : callProgress pFunc ctx pos data.length with ⟨b, ctx1⟩
      rw [hp] at hc
      simp only at hc
      subst hc
      have : pos = data.length := by omega
      simp [this]

/-- The two size words of a length below 2^64 whose low word is not `0xFFFFFFFF` add up
to the length. -/
theorem GetFileSize_total (h : FileHandle) (hlen : h.data.length < 2 ^ 64) :
    (GetFileSize h).1 + (GetFileSize h).2 * 65536 * 65536 = h.data.length := by
  simp only [GetFileSize]
  omega

/-- A call of `RawCopyFileWin32` that returns 0 on a source shorter than 2^64 bytes
leaves the source content at the destination and reports its length. -/
theorem RawCopy_zero {σ : Type} (src : DiskFile) (dst : DestSlot) (lp : Bool)
    (pFunc : ProgressFn σ) (ctx : σ) (hlen : src.data.length < 2 ^ 64)
    (hok : (RawCopyFileWin32 (some src) dst lp pFunc ctx).status = 0) :
    (RawCopyFileWin32 (some src) dst lp pFunc ctx).dest = some src.data ∧
      (RawCopyFileWin32 (some src) dst lp pFunc ctx).pdCopied = some src.data.length ∧
      (GetFileSize src.openRead).1 ≠ 0xFFFFFFFF := by
  have htot := GetFileSize_total src.openRead hlen
  simp only [RawCopyFileWin32] at hok ⊢
  by_cases hsz : (GetFileSize src.openRead).1 = 0xFFFFFFFF
  · rw [if_pos hsz] at hok
    simp at hok
  · rw [if_neg hsz] at hok ⊢
    by_cases hcr : dst.canCreate = false
    · rw [if_pos hcr] at hok
      simp at hok
    · rw [if_neg hcr] at hok ⊢
      rw [htot] at hok ⊢
      rcases hp : callProgress pFunc ctx 0 (src.openRead.data.length) with ⟨b, ctx1⟩
      rw [hp] at hok
      cases b
      · simp at hok
      · simp only [] at hok ⊢
        have h := RawCopy_loop_zero pFunc src.data.length dst.writeOk src.readOk src.data
          src.data.length 0 ctx1 rfl hok
        rw [List.take_length] at h
        exact ⟨h.1, h.2, hsz⟩

/-- A call of `RawCopyFileWin32` in which both files open, every read and write succeeds
and the callback always continues returns 0, when the source is shorter than 2^32 - 1
bytes. -/
theorem RawCopy_ok {σ : Type} (src : DiskFile) (dst : DestSlot) (lp : Bool)
    (pFunc : ProgressFn σ) (ctx : σ) (hlen : src.data.length < 2 ^ 32 - 1)
    (hrd : ∀ n, src.readOk n = true) (hcr : dst.canCreate = true)
    (hwr : ∀ n, dst.writeOk n = true)
    (hcont : ∀ c x y, (callProgress pFunc c x y).1 = true) :
    (RawCopyFileWin32 (some src) dst lp pFunc ctx).status = 0 := by
  have htot := GetFileSize_total src.openRead (by simp only [DiskFile.openRead]; omega)
  have hsz : (GetFileSize src.openRead).1 ≠ 0xFFFFFFFF := by
    simp only [GetFileSize, DiskFile.openRead]; omega
  simp only [RawCopyFileWin32]
  rw [if_neg hsz, if_neg (by simp [hcr]), htot]
  have hc := hcont ctx 0 src.openRead.data.length
  rcases hp : callProgress pFunc ctx 0 (src.openRead.data.length) with ⟨b, ctx1⟩
  rw [hp] at hc
  simp only at hc
  subst hc
  exact RawCopy_loop_ok pFunc dst.writeOk src.readOk src.data hrd hwr hcont
    src.data.length 0 [] ctx1 rfl (Nat.zero_le _)

/-- When every read succeeds and the callback always continues, the chunk loop of
`CompareFileWin32` on two handles over the same content returns true. -/
theorem Compare_loop_same {σ : Type} (pFunc : ProgressFn σ) (rd1 rd2 : Nat → Bool)
    (data : List Nat) (hrd1 : ∀ n, rd1 n = true) (hrd2 : ∀ n, rd2 n = true)
    (hcont : ∀ c x y, (callProgress pFunc c x y).1 = true) :
    ∀ (n pos : Nat) (ctx : σ), data.length - pos = n → pos ≤ data.length →
      (CompareFileWin32.loop pFunc data.length ⟨data, pos, rd1⟩ ⟨data, pos, rd2⟩ pos ctx).1 =
        true := by
  intro n
  induction n using Nat.strong_induction_on with
  | _ n ih =>
    intro pos ctx hn hle
    rw [CompareFileWin32.loop]
    by_cases hlt : pos < data.length
    · have hpos : 0 < ((data.drop pos).take chunkSize).length := by
        simp [List.length_take, chunkSize]; omega
      have hle2 : ((data.drop pos).take chunkSize).length ≤ data.length - pos := by
        simp [List.length_take]
      simp only [ReadFile, hrd1, hrd2, if_true, hpos, and_self, dite_true]
      rw [if_neg (by simp), if_neg (by simp)]
      have hc := hcont ctx (pos + ((data.drop pos).take chunkSize).length) data.length
      rcases hp : callProgress pFunc ctx (pos + ((data.drop pos).take chunkSize).length)
        data.length with ⟨b, ctx1⟩
      rw [hp] at hc
      simp only at hc
      subst hc
      simp only []
      apply ih (data.length - (pos + ((data.drop pos).take chunkSize).length)) _ _ _ rfl
      · omega
      · omega
    · have hpos : ¬ 0 < ((data.drop pos).take chunkSize).length := by
        simp [List.length_take]; omega
      simp only [ReadFile, hrd1, if_true, hpos, and_false, dite_false]
      have hc := hcont ctx pos data.length
      rcases hp : callProgress pFunc ctx pos data.length with ⟨b, ctx1⟩
      rw [hp] at hc
      simp only at hc
      subst hc
      have : pos = data.length := by omega
      simp [this]

/-- The chunk loop of `CompareFileWin32` returns false when the second file is the first
one without its last byte, whatever the callback answers. -/
theorem Compare_loop_truncated {σ : Type} (pFunc : ProgressFn σ) (L : Nat)
    (rd1 rd2 : Nat → Bool) (data : List Nat) (hrd1 : ∀ n, rd1 n = true) :
    ∀ (n pos total : Nat) (ctx : σ), data.length - pos = n → pos < data.length →
      (CompareFileWin32.loop pFunc L ⟨data, pos, rd1⟩ ⟨data.dropLast, pos, rd2⟩ total ctx).1 =
        false := by
  intro n
  induction n using Nat.strong_induction_on with
  | _ n ih =>
    intro pos total ctx hn hlt
    rw [CompareFileWin32.loop]
    have hpos : 0 < ((data.drop pos).take chunkSize).length := by
      simp [List.length_take, chunkSize]; omega
    by_cases hr2 : rd2 pos = true
    · simp only [ReadFile, hrd1, hr2, if_true, hpos, and_self, dite_true]
      by_cases hl : ((data.dropLast.drop pos).take chunkSize).length =
          ((data.drop pos).take chunkSize).length
      · rw [if_neg (by simp [hl])]
        split
        · rfl
        · rcases hp : callProgress pFunc ctx (total + ((data.drop pos).take chunkSize).length) L
            with ⟨b, ctx1⟩
          cases b
          · rfl
          · simp only []
            have hl2 := hl
            simp only [List.length_take, List.length_drop, List.length_dropLast, chunkSize]
              at hl2
            have hstep : ((data.drop pos).take chunkSize).length = 65536 := by
              simp only [List.length_take, List.length_drop, chunkSize]; omega
            have hstep2 : ((data.dropLast.drop pos).take chunkSize).length = 65536 := by
              simp only [List.length_take, List.length_drop, List.length_dropLast, chunkSize]
              omega
            rw [hstep, hstep2]
            apply ih (data.length - (pos + 65536)) _ _ _ _ rfl
            · omega
            · omega
      · rw [if_pos (Or.inr hl)]
    · simp only [ReadFile, hrd1, hr2, if_true, hpos, and_self, dite_true, if_false,
        Bool.false_eq_true]
      rw [if_pos (Or.inl trivial)]

/-- `CompareFileWin32` on two readable files with the same content, shorter than 2^64
bytes and with a low size word other than `0xFFFFFFFF`, returns true when the callback
always continues. -/
theorem Compare_same {σ : Type} (data : List Nat) (lp : Bool) (pFunc : ProgressFn σ)
    (ctx : σ) (hlen : data.length < 2 ^ 64)
    (hsz : (GetFileSize (DiskFile.ofData data).openRead).1 ≠ 0xFFFFFFFF)
    (hcont : ∀ c x y, (callProgress pFunc c x y).1 = true) :
    (CompareFileWin32 (some (DiskFile.ofData data)) (some (DiskFile.ofData data)) lp pFunc
      ctx).1 = true := by
  have htot := GetFileSize_total (DiskFile.ofData data).openRead hlen
  simp only [CompareFileWin32]
  rw [if_neg hsz, htot]
  have hc := hcont ctx 0 (DiskFile.ofData data).openRead.data.length
  rcases hp : callProgress pFunc ctx 0 (DiskFile.ofData data).openRead.data.length
    with ⟨b, ctx1⟩
  rw [hp] at hc
  simp only at hc
  subst hc
  exact Compare_loop_same pFunc (fun _ => true) (fun _ => true) data (fun _ => rfl)
    (fun _ => rfl) hcont data.length 0 ctx1 rfl (Nat.zero_le _)

/-- `CompareFileWin32` on a non-empty readable file and the same content without its last
byte returns false. -/
theorem Compare_truncated {σ : Type} (data : List Nat) (lp : Bool) (pFunc : ProgressFn σ)
    (ctx : σ) (hne : data ≠ []) :
    (CompareFileWin32 (some (DiskFile.ofData data)) (some (DiskFile.ofData data.dropLast)) lp
      pFunc ctx).1 = false := by
  simp only [CompareFileWin32]
  split
  · rfl
  · rcases hp : callProgress pFunc ctx 0
      ((GetFileSize (DiskFile.ofData data).openRead).1 +
        (GetFileSize (DiskFile.ofData data).openRead).2 * 65536 * 65536) with ⟨b, ctx1⟩
    cases b
    · rfl
    · exact Compare_loop_truncated pFunc _ (fun _ => true) (fun _ => true) data (fun _ => rfl)
        data.length 0 0 ctx1 rfl (List.length_pos.mpr hne)

/-- C23: for every source content shorter than 2^32 - 1 bytes (the empty one, one
shorter than a chunk and an exact multiple of 65536 bytes included), when both files open,
every read and every write succeeds and the progress callback always continues,
`RawCopyFileWin32` returns 0, stores the source length through `pdCopied` and leaves
exactly the source content at the destination. The source is opened for reading only:
the embedding passes it as a value that no step changes. -/
theorem RawCopyFileWin32_copies_source {σ : Type} (src : DiskFile) (dst : DestSlot)
    (bLowPriority : Bool) (pFunc : ProgressFn σ) (ctx : σ)
    (hlen : src.data.length < 2 ^ 32 - 1)
    (hrd : ∀ n, src.readOk n = true) (hcr : dst.canCreate = true)
    (hwr : ∀ n, dst.writeOk n = true)
    (hcont : ∀ c x y, (callProgress pFunc c x y).1 = true) :
    (RawCopyFileWin32 (some src) dst bLowPriority pFunc ctx).status = 0 ∧
      (RawCopyFileWin32 (some src) dst bLowPriority pFunc ctx).pdCopied =
        some src.data.length ∧
      (RawCopyFileWin32 (some src) dst bLowPriority pFunc ctx).dest = some src.data := by
  have hok := RawCopy_ok src dst bLowPriority pFunc ctx hlen hrd hcr hwr hcont
  have hz := RawCopy_zero src dst bLowPriority pFunc ctx (by omega) hok
  exact ⟨hok, hz.2.1, hz.1⟩

/-- C23, witness: a source of three bytes copied over an existing file of one byte,
without a callback. -/
theorem RawCopyFileWin32_copies_source_witness :
    (DiskFile.ofData [104, 105, 10]).data.length < 2 ^ 32 - 1 ∧
    ((RawCopyFileWin32 (some (DiskFile.ofData [104, 105, 10])) ⟨some [0], true, fun _ => true⟩
        false (none : ProgressFn Unit) ()).status = 0 ∧
      (RawCopyFileWin32 (some (DiskFile.ofData [104, 105, 10])) ⟨some [0], true, fun _ => true⟩
        false (none : ProgressFn Unit) ()).pdCopied =
          some (DiskFile.ofData [104, 105, 10]).data.length ∧
      (RawCopyFileWin32 (some (DiskFile.ofData [104, 105, 10])) ⟨some [0], true, fun _ => true⟩
        false (none : ProgressFn Unit) ()).dest = some (DiskFile.ofData [104, 105, 10]).data) :=
  ⟨by decide,
    RawCopyFileWin32_copies_source (DiskFile.ofData [104, 105, 10])
      ⟨some [0], true, fun _ => true⟩ false none () (by decide) (fun _ => rfl) rfl
      (fun _ => rfl) (fun _ _ _ => rfl)⟩

/-- C24: for every non-empty source content (shorter than 2^64 bytes, as every file
size is), after a call of `RawCopyFileWin32` that returned 0 a file stands at the
destination, `CompareFileWin32` of the source content with it returns true, and
`CompareFileWin32` of the source content with it less its last byte returns false, when
the progress callback of the comparison always continues. -/
theorem Copy_then_Compare_round_trip {σ τ : Type} (src : DiskFile) (dst : DestSlot)
    (bLowCopy : Bool) (pCopy : ProgressFn σ) (ctx : σ)
    (bLowCompare : Bool) (pCompare : ProgressFn τ) (ctx2 : τ)
    (hne : src.data ≠ []) (hlen : src.data.length < 2 ^ 64)
    (hok : (RawCopyFileWin32 (some src) dst bLowCopy pCopy ctx).status = 0)
    (hcont : ∀ c x y, (callProgress pCompare c x y).1 = true) :
    ∃ b, (RawCopyFileWin32 (some src) dst bLowCopy pCopy ctx).dest = some b ∧
      (CompareFileWin32 (some (DiskFile.ofData src.data)) (some (DiskFile.ofData b))
        bLowCompare pCompare ctx2).1 = true ∧
      (CompareFileWin32 (some (DiskFile.ofData src.data)) (some (DiskFile.ofData b.dropLast))
        bLowCompare pCompare ctx2).1 = false := by
  have hz := RawCopy_zero src dst bLowCopy pCopy ctx hlen hok
  exact ⟨src.data, hz.1,
    Compare_same src.data bLowCompare pCompare ctx2 hlen hz.2.2 hcont,
    Compare_truncated src.data bLowCompare pCompare ctx2 hne⟩

/-- C24, witness: a source of three bytes copied over an existing file of one byte and
compared, without callbacks. -/
theorem Copy_then_Compare_round_trip_witness :
    (RawCopyFileWin32 (some (DiskFile.ofData [104, 105, 10])) ⟨some [0], true, fun _ => true⟩
        false (none : ProgressFn Unit) ()).status = 0 ∧
    ∃ b, (RawCopyFileWin32 (some (DiskFile.ofData [104, 105, 10]))
        ⟨some [0], true, fun _ => true⟩ false (none : ProgressFn Unit) ()).dest = some b ∧
      (CompareFileWin32 (some (DiskFile.ofData (DiskFile.ofData [104, 105, 10]).data))
        (some (DiskFile.ofData b)) false (none : ProgressFn Unit) ()).1 = true ∧
      (CompareFileWin32 (some (DiskFile.ofData (DiskFile.ofData [104, 105, 10]).data))
        (some (DiskFile.ofData b.dropLast)) false (none : ProgressFn Unit) ()).1 = false :=
  ⟨by simp [RawCopyFileWin32, RawCopyFileWin32.loop, ReadFile, GetFileSize, callProgress,
      DiskFile.openRead, DiskFile.ofData, chunkSize],
    Copy_then_Compare_round_trip (DiskFile.ofData [104, 105, 10])
      ⟨some [0], true, fun _ => true⟩ false none () false none ()
      (by decide) (by decide)
      (by simp [RawCopyFileWin32, RawCopyFileWin32.loop, ReadFile, GetFileSize, callProgress,
        DiskFile.openRead, DiskFile.ofData, chunkSize])
      (fun _ _ _ => rfl)⟩

/-! ### Path matcher: letter case -/

/-- A bracket loop that stops on a closing bracket does the same when more pattern
follows. -/
theorem group_append (ch : Char) (suf : List Char) :
    ∀ (n : Nat) (rexp : List Char) (tmp b : Bool) (rest : List Char), rexp.length ≤ n →
      check_rexp.group ch rexp tmp = (b, ']' :: rest) →
      check_rexp.group ch (rexp ++ suf) tmp = (b, ']' :: rest ++ suf) := by
  intro n
  induction n using Nat.strong_induction_on with
  | _ n ih =>
    intro rexp tmp b rest hlen hg
    cases rexp with
    | nil =>
      rw [group_nil] at hg
      cases hg
    | cons c r =>
      simp only [List.length_cons] at hlen
      rw [group_cons] at hg
      rw [List.cons_append, group_cons]
      by_cases hc : c ≠ ']' ∧ c ≠ NUL
      · rw [if_pos hc] at hg ⊢
        cases r with
        | nil =>
          exfalso
          simp only [cur_nil, List.drop_nil] at hg
          rw [if_neg (by decide)] at hg
          split at hg <;> rw [group_nil] at hg <;> cases hg
        | cons d r1 =>
          simp only [List.cons_append, cur_cons] at hg ⊢
          by_cases hd : d = '-'
          · rw [if_pos hd] at hg ⊢
            cases r1 with
            | nil =>
              exfalso
              simp only [List.drop_succ_cons, List.drop_nil] at hg
              rw [group_nil] at hg
              cases hg
            | cons hi r2 =>
              simp only [List.drop_succ_cons, List.drop_zero, List.cons_append, cur_cons]
                at hg ⊢
              exact ih (n - 1) (by omega) r2 _ b rest
                (by simp only [List.length_cons] at hlen; omega) hg
          · rw [if_neg hd] at hg ⊢
            split at hg
            · rename_i hm
              rw [if_pos hm]
              exact ih (n - 1) (by omega) (d :: r1) _ b rest (by omega) hg
            · rename_i hm
              rw [if_neg hm]
              exact ih (n - 1) (by omega) (d :: r1) _ b rest (by omega) hg
      · rw [if_neg hc] at hg ⊢
        cases hg
        rfl


theorem check_rexp_star_wild_aux (post : List Char) (w : Char) (hw : w = '*' ∨ w = '?') :
    ∀ (n : Nat) (pre : List Char) (ts : List Tok), pre.length ≤ n → NUL ∉ pre →
      tokenize pre = some ts → noStarGroup ts = true →
      ∀ str : List Char, check_rexp str (pre ++ '*' :: w :: post) ≠ 1 := by
  intro n
  induction n using Nat.strong_induction_on with
  | _ n ih =>
    intro pre ts hlen hnul htok hsg str
    cases pre with
    | nil =>
      rw [check_rexp_unfold]
      simp only [List.nil_append, check_rexp.body, cur_cons, List.tail_cons]
      rw [if_pos (Or.inr (by decide))]
      rw [if_neg (by decide), if_neg (by decide), if_pos trivial, if_pos hw]
      decide
    | cons c r =>
      have hc0 : c ≠ NUL := fun h => hnul (h ▸ List.mem_cons_self _ _)
      have hnul1 : NUL ∉ r := fun h => hnul (List.mem_cons_of_mem _ h)
      simp only [List.length_cons] at hlen
      rw [tokenize_cons] at htok
      rw [check_rexp_unfold]
      simp only [List.cons_append, check_rexp.body, cur_cons, List.tail_cons]
      rw [if_pos (Or.inr hc0)]
      by_cases hcb : c = '['
      · rw [if_pos hcb] at htok ⊢
        obtain ⟨items, rest, ts1, hg, h1, h2, h3, h4, -⟩ :=
          group_tokenize (cur str) r.length r [] false ts (le_refl _) hnul1 htok
        have hga := group_append (cur str) ('*' :: w :: post) r.length r false _ rest
          (le_refl _) hg
        rw [hga]
        simp only [List.cons_append, cur_cons, ne_eq, not_true_eq_false, if_false,
          List.tail_cons]
        split_ifs
        · decide
        · rw [h2] at hsg
          exact ih (n - 1) (by omega) rest ts1 (by omega) h4 h1
            (by simpa [noStarGroup] using hsg) _
      · rw [if_neg hcb] at htok ⊢
        by_cases hq : c = '?'
        · rw [if_pos hq] at htok ⊢
          rcases Option.map_eq_some'.mp htok with ⟨ts1, h1, h2⟩
          rw [← h2] at hsg
          exact ih (n - 1) (by omega) r ts1 (by omega) hnul1 h1
            (by simpa [noStarGroup] using hsg) _
        · rw [if_neg hq] at htok ⊢
          by_cases hs : c = '*'
          · rw [if_pos hs] at htok ⊢
            rcases Option.map_eq_some'.mp htok with ⟨ts1, h1, h2⟩
            rw [← h2] at hsg
            cases r with
            | nil =>
              simp only [List.nil_append, cur_cons]
              rw [if_pos (Or.inl trivial)]
              decide
            | cons d r2 =>
              have hd0 : d ≠ NUL := fun h => hnul1 (h ▸ List.mem_cons_self _ _)
              have hnul2 : NUL ∉ r2 := fun h => hnul1 (List.mem_cons_of_mem _ h)
              simp only [List.cons_append, cur_cons]
              by_cases hd : d = '*' ∨ d = '?'
              · rw [if_pos hd]
                decide
              · rw [if_neg hd, if_neg hd0]
                split_ifs
                · decide
                · rw [stepIf_cons _ _ hd0]
                  rw [tokenize_cons] at h1
                  have hd1 : d ≠ '?' := fun h => hd (Or.inr h)
                  have hd2 : d ≠ '*' := fun h => hd (Or.inl h)
                  by_cases hdb : d = '['
                  · exfalso
                    rw [if_pos hdb] at h1
                    obtain ⟨items, ts2, h3⟩ := tokenizeGroup_ne_nil r2 hnul2 ts1 h1
                    rw [h3] at hsg
                    simp [noStarGroup] at hsg
                  · rw [if_neg hdb, if_neg hd1, if_neg hd2] at h1
                    simp only [List.length_cons] at hlen
                    split_ifs at h1
                    · rcases Option.map_eq_some'.mp h1 with ⟨ts2, h3, h4⟩
                      rw [← h4] at hsg
                      exact ih (n - 1) (by omega) r2 ts2 (by omega) hnul2 h3
                        (by simpa [noStarGroup] using hsg) _
                    · rcases Option.map_eq_some'.mp h1 with ⟨ts2, h3, h4⟩
                      rw [← h4] at hsg
                      exact ih (n - 1) (by omega) r2 ts2 (by omega) hnul2 h3
                        (by simpa [noStarGroup] using hsg) _
          · rw [if_neg hs] at htok ⊢
            have hr : ∃ ts1, tokenize r = some ts1 ∧ noStarGroup ts1 = true := by
              split_ifs at htok
              · rcases Option.map_eq_some'.mp htok with ⟨ts1, h1, h2⟩
                rw [← h2] at hsg
                exact ⟨ts1, h1, by simpa [noStarGroup] using hsg⟩
              · rcases Option.map_eq_some'.mp htok with ⟨ts1, h1, h2⟩
                rw [← h2] at hsg
                exact ⟨ts1, h1, by simpa [noStarGroup] using hsg⟩
            obtain ⟨ts1, h1, hsg1⟩ := hr
            split_ifs
            · decide
            · rw [stepIf_cons _ _ hc0]
              exact ih (n - 1) (by omega) r ts1 (by omega) hnul1 h1 hsg1 _
            · decide
            · rw [stepIf_cons _ _ hc0]
              exact ih (n - 1) (by omega) r ts1 (by omega) hnul1 h1 hsg1 _

/-- C30, amended: when a `*` of the pattern is directly followed by `*` or by `?`, and the
part of the pattern before that `*` is a sequence of complete tokens (so the `*` stands
outside a bracket) in which no `*` is directly followed by a bracket group, `check_rexp`
does not return 1 (matched) on any text, so `WildcardMatch` is false. -/
theorem check_rexp_rejects_star_then_wildcard (pre post : List Char) (w : Char)
    (str : List Char) (ts : List Tok) (hnul : NUL ∉ pre) (htok : tokenize pre = some ts)
    (hsg : noStarGroup ts = true) (hw : w = '*' ∨ w = '?') :
    check_rexp str (pre ++ '*' :: w :: post) ≠ 1 ∧
    WildcardMatch (pre ++ '*' :: w :: post) str = false := by
  have h := check_rexp_star_wild_aux post w hw pre.length pre ts (le_refl _) hnul htok hsg str
  exact ⟨h, by simp [WildcardMatch, h]⟩

/-- C30, witness: the amended statement at the pattern `[a-c]?*?.txt` and the text
`bxy.txt`. -/
theorem check_rexp_rejects_star_then_wildcard_witness :
    NUL ∉ "[a-c]?".toList ∧
    tokenize "[a-c]?".toList = some [Tok.group [GroupItem.range 'a' 'c'], Tok.any] ∧
    noStarGroup [Tok.group [GroupItem.range 'a' 'c'], Tok.any] = true ∧
    check_rexp "bxy.txt".toList ("[a-c]?".toList ++ '*' :: '?' :: ".txt".toList) ≠ 1 ∧
    WildcardMatch ("[a-c]?".toList ++ '*' :: '?' :: ".txt".toList) "bxy.txt".toList = false :=
  ⟨by decide, by decide, by decide,
    check_rexp_rejects_star_then_wildcard "[a-c]?".toList ".txt".toList '?' "bxy.txt".toList
      [Tok.group [GroupItem.range 'a' 'c'], Tok.any] (by decide) (by decide) (by decide)
      (by decide)⟩

/-! ### Destination paths of the copy step -/

theorem intercalate_single (a : List Char) : List.intercalate ['\\'] [a] = a := by
  simp [List.intercalate, List.intersperse]

theorem intercalate_cons_cons (a b : List Char) (l : List (List Char)) :
    List.intercalate ['\\'] (a :: b :: l) = a ++ '\\' :: List.intercalate ['\\'] (b :: l) := by
  simp [List.intercalate, List.intersperse]

theorem tcsnicmpNe_slashed (p q : List Char) : tcsnicmpNe p (slashed p ++ q) p.length = false := by
  unfold tcsnicmpNe slashed
  split <;> simp

/-- `EnumCopy` on a path that passes the prefix check: the two type tests on what
`FileExists` finds for the relative path, then the directory branch or the file branch,
called with the destination root, a backslash unless the root ends with one, and the
relative path. -/
theorem EnumCopy_of_prefix {ω : Type} (sys : Win32 ω) (g : Globals ω) (pszPath : List Char)
    (pEntry : CDirEntry) (bIsDir : Bool) (pszRelPath : List Char)
    (hpre : tcsnicmpNe g.cSettings.szSource pszPath g.cSettings.szSource.length = false)
    (hrel : relPath g.cSettings.szSource pszPath = pszRelPath) :
    EnumCopy sys g pszPath pEntry bIsDir =
      if (match (match g.cDestTree.FileExists pszRelPath with
                | some r => g.cDestTree.entryAt r
                | none => none) with
          | some e =>
            (bIsDir && decide (e.dwAttrib &&& FILE_ATTRIBUTE_DIRECTORY = 0)) ||
            (!bIsDir && decide (e.dwAttrib &&& FILE_ATTRIBUTE_DIRECTORY ≠ 0))
          | none => false) = true
      then (false, g.addError)
      else if bIsDir = true then
        EnumCopy.dir sys g pszPath (slashed g.cSettings.szDest ++ pszRelPath)
          (match g.cDestTree.FileExists pszRelPath with
            | some r => g.cDestTree.entryAt r
            | none => none)
      else
        EnumCopy.file sys g pszPath (slashed g.cSettings.szDest ++ pszRelPath) pEntry
          (match g.cDestTree.FileExists pszRelPath with
            | some r => g.cDestTree.entryAt r
            | none => none) := by
  subst hrel
  unfold EnumCopy
  simp only [hpre, Bool.false_eq_true, if_false]
  rfl

mutual
theorem entries_path (d : CDir) (hwf : d.wellFormed = true) (p : List Char)
    (x : Visit × List Visit) (hx : x ∈ d.entriesWithAncestors p) :
    x.1.1 = slashed p ++ List.intercalate ['\\'] (relSegments x) ∧
      ∀ s ∈ relSegments x, ¬ '\\' ∈ s := by
  cases d with
  | mk t fs ds e =>
    obtain ⟨hnames, -, hwfl⟩ := wellFormed_node t fs ds e hwf
    simp only [CDir.entriesWithAncestors, List.mem_append, List.mem_map] at hx
    rcases hx with ⟨f, hf, rfl⟩ | hx
    · have hfn := hnames f.sName (by
        simp only [nodeNames, List.mem_append, List.mem_map]
        exact Or.inl ⟨f, hf, rfl⟩)
      refine ⟨?_, ?_⟩
      · simp only [relSegments, List.map_nil, List.nil_append, intercalate_single]
        rfl
      · intro s hs
        simp only [relSegments, List.map_nil, List.nil_append, List.mem_singleton] at hs
        rw [hs]
        exact hfn.2
    · exact entriesList_path ds hwfl
        (fun a ha => hnames a.cThis.sName (by
          simp only [nodeNames, List.mem_append, List.mem_map]
          exact Or.inr ⟨a, ha, rfl⟩)) p x hx
theorem entriesList_path (ds : List CDir) (hwfl : CDir.wellFormedList ds = true)
    (hnames : ∀ a ∈ ds, a.cThis.sName ≠ [] ∧ ¬ '\\' ∈ a.cThis.sName) (p : List Char)
    (x : Visit × List Visit) (hx : x ∈ CDir.entriesWithAncestorsList ds p) :
    x.1.1 = slashed p ++ List.intercalate ['\\'] (relSegments x) ∧
      ∀ s ∈ relSegments x, ¬ '\\' ∈ s := by
  cases ds with
  | nil => simp [CDir.entriesWithAncestorsList] at hx
  | cons d rest =>
    simp only [CDir.wellFormedList, Bool.and_eq_true] at hwfl
    have hdn := hnames d (List.mem_cons_self _ _)
    simp only [CDir.entriesWithAncestorsList, List.mem_cons, List.mem_append,
      List.mem_map] at hx
    rcases hx with rfl | ⟨y, hy, rfl⟩ | hx
    · refine ⟨?_, ?_⟩
      · simp only [relSegments, List.map_nil, List.nil_append, intercalate_single]
        rfl
      · intro s hs
        simp only [relSegments, List.map_nil, List.nil_append, List.mem_singleton] at hs
        rw [hs]
        exact hdn.2
    · obtain ⟨h1, h2⟩ := entries_path d hwfl.1 (subPath p d.cThis.sName) y hy
      refine ⟨?_, ?_⟩
      · have hseg : relSegments (y.1, (subPath p d.cThis.sName, d.cThis, true) :: y.2) =
            d.cThis.sName :: relSegments y := rfl
        show y.1.1 = slashed p ++ List.intercalate ['\\']
          (relSegments (y.1, (subPath p d.cThis.sName, d.cThis, true) :: y.2))
        rw [hseg, h1, slashed_subPath p _ hdn.1 hdn.2, subPath_eq_slashed]
        cases hrs : relSegments y with
        | nil => simp [relSegments] at hrs
        | cons b l =>
          rw [intercalate_cons_cons]
          simp only [List.append_assoc, List.singleton_append]
      · intro s hs
        have hseg : relSegments (y.1, (subPath p d.cThis.sName, d.cThis, true) :: y.2) =
            d.cThis.sName :: relSegments y := rfl
        rw [hseg, List.mem_cons] at hs
        rcases hs with rfl | hs
        · exact hdn.2
        · exact h2 s hs
    · exact entriesList_path rest hwfl.2
        (fun a ha => hnames a (List.mem_cons_of_mem _ ha)) p x hx
end


/-- Segments without a backslash can be read back from their join: two non-empty lists
of such segments with the same join are equal. -/
theorem intercalate_inj : ∀ (l1 l2 : List (List Char)), l1 ≠ [] → l2 ≠ [] →
    (∀ s ∈ l1, ¬ '\\' ∈ s) → (∀ s ∈ l2, ¬ '\\' ∈ s) →
    List.intercalate ['\\'] l1 = List.intercalate ['\\'] l2 → l1 = l2 := by
  intro l1
  induction l1 with
  | nil => intro l2 h; exact absurd rfl h
  | cons a t ih =>
    intro l2 _ h2 hb1 hb2 heq
    cases l2 with
    | nil => exact absurd rfl h2
    | cons b t2 =>
      have ha := hb1 a (List.mem_cons_self _ _)
      have hb := hb2 b (List.mem_cons_self _ _)
      cases t with
      | nil =>
        cases t2 with
        | nil =>
          rw [intercalate_single, intercalate_single] at heq
          rw [heq]
        | cons c2 r2 =>
          exfalso
          rw [intercalate_single, intercalate_cons_cons] at heq
          apply ha
          rw [heq]
          simp
      | cons c r =>
        cases t2 with
        | nil =>
          exfalso
          rw [intercalate_single, intercalate_cons_cons] at heq
          apply hb
          rw [← heq]
          simp
        | cons c2 r2 =>
          rw [intercalate_cons_cons, intercalate_cons_cons] at heq
          obtain ⟨h1, h3⟩ := takeWhile_ne_backslash a (List.intercalate ['\\'] (c :: r)) ha
          obtain ⟨h4, h5⟩ := takeWhile_ne_backslash b (List.intercalate ['\\'] (c2 :: r2)) hb
          rw [heq] at h1 h3
          have hab : a = b := h1.symm.trans h4
          have htl : List.intercalate ['\\'] (c :: r) = List.intercalate ['\\'] (c2 :: r2) :=
            h3.symm.trans h5
          have := ih (c2 :: r2) (by simp) (by simp)
            (fun s hs => hb1 s (List.mem_cons_of_mem _ hs))
            (fun s hs => hb2 s (List.mem_cons_of_mem _ hs)) htl
          rw [hab, this]

theorem relSegments_ne_nil (x : Visit × List Visit) : relSegments x ≠ [] := by
  simp [relSegments]

theorem entriesList_head (ds : List CDir) (p : List Char) (x : Visit × List Visit)
    (hx : x ∈ CDir.entriesWithAncestorsList ds p) :
    ∃ d ∈ ds, ∃ tl, relSegments x = d.cThis.sName :: tl := by
  induction ds with
  | nil => simp [CDir.entriesWithAncestorsList] at hx
  | cons d rest ih =>
    simp only [CDir.entriesWithAncestorsList, List.mem_cons, List.mem_append,
      List.mem_map] at hx
    rcases hx with rfl | ⟨y, _, rfl⟩ | hx
    · exact ⟨d, List.mem_cons_self _ _, [], rfl⟩
    · exact ⟨d, List.mem_cons_self _ _, relSegments y, rfl⟩
    · obtain ⟨d1, hd1, tl, h⟩ := ih hx
      exact ⟨d1, List.mem_cons_of_mem _ hd1, tl, h⟩

mutual
theorem entries_segments_nodup (d : CDir) (hwf : d.wellFormed = true) (p : List Char) :
    ((d.entriesWithAncestors p).map relSegments).Nodup := by
  cases d with
  | mk t fs ds e =>
    obtain ⟨-, hnd, hwfl⟩ := wellFormed_node t fs ds e hwf
    have hnd1 : (nodeNames fs ds).Nodup := List.Nodup.of_map _ hnd
    simp only [nodeNames] at hnd1
    obtain ⟨hf, hd, hdis⟩ := List.nodup_append.mp hnd1
    simp only [CDir.entriesWithAncestors, List.map_append, List.map_map]
    refine List.nodup_append.mpr ⟨?_, entriesList_segments_nodup ds hwfl hd p, ?_⟩
    · have : (fs.map (relSegments ∘ fun f => ((subPath p f.sName, f, false), []))) =
          (fs.map (fun f => f.sName)).map (fun n => [n]) := by
        simp only [List.map_map]
        rfl
      rw [this]
      exact hf.map (fun a b h => by simpa using h)
    · intro s hs1 hs2
      simp only [List.mem_map, Function.comp] at hs1
      obtain ⟨f, hf1, rfl⟩ := hs1
      obtain ⟨x, hx, hxs⟩ := List.mem_map.mp hs2
      obtain ⟨d1, hd1, tl, h⟩ := entriesList_head ds p x hx
      rw [h] at hxs
      have hname : f.sName = d1.cThis.sName := by
        simp only [relSegments, List.map_nil, List.nil_append] at hxs
        exact (List.cons.inj hxs.symm).1
      exact hdis (List.mem_map.mpr ⟨f, hf1, rfl⟩) (List.mem_map.mpr ⟨d1, hd1, hname.symm⟩)
theorem entriesList_segments_nodup (ds : List CDir) (hwfl : CDir.wellFormedList ds = true)
    (hnd : (ds.map (fun d => d.cThis.sName)).Nodup) (p : List Char) :
    ((CDir.entriesWithAncestorsList ds p).map relSegments).Nodup := by
  cases ds with
  | nil => simp [CDir.entriesWithAncestorsList]
  | cons d rest =>
    simp only [CDir.wellFormedList, Bool.and_eq_true] at hwfl
    simp only [List.map_cons, List.nodup_cons, List.mem_map, not_exists, not_and] at hnd
    have hblock : ((d.entriesWithAncestors (subPath p d.cThis.sName)).map
        (fun x => (x.1, (subPath p d.cThis.sName, d.cThis, true) :: x.2))).map relSegments =
        ((d.entriesWithAncestors (subPath p d.cThis.sName)).map relSegments).map
          (List.cons d.cThis.sName) := by
      simp only [List.map_map]
      rfl
    simp only [CDir.entriesWithAncestorsList, List.map_cons, List.map_append, hblock]
    have hrest : ∀ s ∈ (CDir.entriesWithAncestorsList rest p).map relSegments,
        ∃ d1 ∈ rest, ∃ tl, s = d1.cThis.sName :: tl := by
      intro s hs
      obtain ⟨x, hx, rfl⟩ := List.mem_map.mp hs
      exact entriesList_head rest p x hx
    refine List.nodup_cons.mpr ⟨?_, List.nodup_append.mpr ⟨?_, ?_, ?_⟩⟩
    · intro hmem
      rcases List.mem_append.mp hmem with h | h
      · obtain ⟨s, hs, heq⟩ := List.mem_map.mp h
        obtain ⟨y, _, rfl⟩ := List.mem_map.mp hs
        exact relSegments_ne_nil y (List.cons.inj heq).2
      · obtain ⟨d1, hd1, tl, heq⟩ := hrest _ h
        have h1 : d.cThis.sName = d1.cThis.sName := by
          have := (List.cons.inj heq).1
          simpa [relSegments] using this
        exact hnd.1 d1 hd1 h1.symm
    · exact (entries_segments_nodup d hwfl.1 _).map (fun a b h => (List.cons.inj h).2)
    · exact entriesList_segments_nodup rest hwfl.2 hnd.2 p
    · intro s hs1 hs2
      obtain ⟨s1, _, rfl⟩ := List.mem_map.mp hs1
      obtain ⟨d1, hd1, tl, heq⟩ := hrest _ hs2
      exact hnd.1 d1 hd1 (List.cons.inj heq).1.symm
end


mutual
theorem forwardSeq_entries (d : CDir) (p : List Char) (v : Visit) (hv : v ∈ d.forwardSeq p) :
    ∃ x ∈ d.entriesWithAncestors p, x.1 = v := by
  cases d with
  | mk t fs ds e =>
    simp only [CDir.forwardSeq, List.mem_append, List.mem_map, List.mem_filter] at hv
    simp only [CDir.entriesWithAncestors, List.mem_append, List.mem_map]
    rcases hv with ⟨f, ⟨hf, _⟩, rfl⟩ | hv
    · exact ⟨_, Or.inl ⟨f, hf, rfl⟩, rfl⟩
    · obtain ⟨x, hx, h⟩ := forwardSeqDirs_entries ds p v hv
      exact ⟨x, Or.inr hx, h⟩
theorem forwardSeqDirs_entries (ds : List CDir) (p : List Char) (v : Visit)
    (hv : v ∈ CDir.forwardSeqDirs ds p) :
    ∃ x ∈ CDir.entriesWithAncestorsList ds p, x.1 = v := by
  cases ds with
  | nil => simp [CDir.forwardSeqDirs] at hv
  | cons d rest =>
    simp only [CDir.forwardSeqDirs, List.mem_cons, List.mem_append] at hv
    simp only [CDir.entriesWithAncestorsList, List.mem_cons, List.mem_append, List.mem_map]
    rcases hv with rfl | hv | hv
    · exact ⟨_, Or.inl rfl, rfl⟩
    · obtain ⟨y, hy, h⟩ := forwardSeq_entries d _ v hv
      exact ⟨_, Or.inr (Or.inl ⟨y, hy, rfl⟩), h⟩
    · obtain ⟨x, hx, h⟩ := forwardSeqDirs_entries rest p v hv
      exact ⟨x, Or.inr (Or.inr hx), h⟩
end

/-- C21: for a source tree as a scan gives it (names non-empty, without backslash,
unique in their directory), whether or not the source root ends with a backslash: every
entry `EnumFiles` goes through from the source root is an entry of the tree, and for
every entry of the tree, called with its path, `EnumCopy` passes its prefix check
(`_tcsnicmp` gives 0), takes as relative path the names of the ancestors of the entry and
its own name joined by single backslashes, and is, after the two type tests on what
`FileExists` finds for that relative path, its directory branch or its file branch run
with the destination path made of the destination root, one backslash unless the root
ends with one, and that relative path; no two entries get the same destination path. The
`MAXPATH` limit of the path buffers is not modelled. -/
theorem EnumCopy_destination_paths {ω : Type} (sys : Win32 ω) (g : Globals ω) (src : CDir)
    (hwf : src.wellFormed = true) :
    (∀ v ∈ src.forwardSeq g.cSettings.szSource,
      ∃ x ∈ src.entriesWithAncestors g.cSettings.szSource, x.1 = v) ∧
    (∀ x ∈ src.entriesWithAncestors g.cSettings.szSource,
      tcsnicmpNe g.cSettings.szSource x.1.1 g.cSettings.szSource.length = false ∧
      relPath g.cSettings.szSource x.1.1 =
        List.intercalate ['\\'] (x.2.map (fun a => a.2.1.sName) ++ [x.1.2.1.sName]) ∧
      EnumCopy sys g x.1.1 x.1.2.1 x.1.2.2 =
        if (match (match g.cDestTree.FileExists (List.intercalate ['\\'] (relSegments x)) with
                  | some r => g.cDestTree.entryAt r
                  | none => none) with
            | some e =>
              (x.1.2.2 && decide (e.dwAttrib &&& FILE_ATTRIBUTE_DIRECTORY = 0)) ||
              (!x.1.2.2 && decide (e.dwAttrib &&& FILE_ATTRIBUTE_DIRECTORY ≠ 0))
            | none => false) = true
        then (false, g.addError)
        else if x.1.2.2 = true then
          EnumCopy.dir sys g x.1.1
            (slashed g.cSettings.szDest ++ List.intercalate ['\\'] (relSegments x))
            (match g.cDestTree.FileExists (List.intercalate ['\\'] (relSegments x)) with
              | some r => g.cDestTree.entryAt r
              | none => none)
        else
          EnumCopy.file sys g x.1.1
            (slashed g.cSettings.szDest ++ List.intercalate ['\\'] (relSegments x)) x.1.2.1
            (match g.cDestTree.FileExists (List.intercalate ['\\'] (relSegments x)) with
              | some r => g.cDestTree.entryAt r
              | none => none)) ∧
    ((src.entriesWithAncestors g.cSettings.szSource).map
      (fun x => slashed g.cSettings.szDest ++ List.intercalate ['\\'] (relSegments x))).Nodup := by
  refine ⟨forwardSeq_entries src _, ?_, ?_⟩
  · intro x hx
    obtain ⟨h1, -⟩ := entries_path src hwf _ x hx
    have hpre : tcsnicmpNe g.cSettings.szSource x.1.1 g.cSettings.szSource.length = false := by
      rw [h1]
      exact tcsnicmpNe_slashed _ _
    have hrel : relPath g.cSettings.szSource x.1.1 =
        List.intercalate ['\\'] (relSegments x) := by
      rw [h1, relPath_slashed]
    exact ⟨hpre, hrel, EnumCopy_of_prefix sys g x.1.1 x.1.2.1 x.1.2.2 _ hpre hrel⟩
  · have hmap : (src.entriesWithAncestors g.cSettings.szSource).map
        (fun x => slashed g.cSettings.szDest ++ List.intercalate ['\\'] (relSegments x)) =
        ((src.entriesWithAncestors g.cSettings.szSource).map relSegments).map
          (fun l => slashed g.cSettings.szDest ++ List.intercalate ['\\'] l) := by
      rw [List.map_map]
      rfl
    rw [hmap]
    apply List.Nodup.map_on _ (entries_segments_nodup src hwf _)
    intro l1 hl1 l2 hl2 heq
    obtain ⟨x1, hx1, rfl⟩ := List.mem_map.mp hl1
    obtain ⟨x2, hx2, rfl⟩ := List.mem_map.mp hl2
    exact intercalate_inj _ _ (relSegments_ne_nil x1) (relSegments_ne_nil x2)
      (entries_path src hwf _ x1 hx1).2 (entries_path src hwf _ x2 hx2).2
      (List.append_cancel_left heq)

/-- C21, witness: the tree with `a.txt`, `b.log` and `sub\c.txt` scanned from the source
root `C:\`, which ends with a backslash, and copied to `D:\dst`, which does not, with an
empty destination: for `sub\c.txt` the call of `EnumCopy` is the file branch with the
destination path `D:\dst\sub\c.txt`, and the copy is requested from `C:\sub\c.txt` to
that path. -/
theorem EnumCopy_destination_paths_witness :
    sampleTree.wellFormed = true ∧
    (sampleTree.entriesWithAncestors copyGlobals.cSettings.szSource).map
        (fun x => slashed copyGlobals.cSettings.szDest ++
          List.intercalate ['\\'] (relSegments x)) =
      ["D:\\dst\\a.txt".toList, "D:\\dst\\b.log".toList, "D:\\dst\\sub".toList,
        "D:\\dst\\sub\\c.txt".toList] ∧
    EnumCopy (stubSys 0) copyGlobals "C:\\sub\\c.txt".toList (fileEntry "c.txt" 30) false =
      EnumCopy.file (stubSys 0) copyGlobals "C:\\sub\\c.txt".toList
        "D:\\dst\\sub\\c.txt".toList (fileEntry "c.txt" 30) none ∧
    OsCall.RawCopyFileWin32 "C:\\sub\\c.txt".toList "D:\\dst\\sub\\c.txt".toList ∈
      (EnumCopy (stubSys 0) copyGlobals "C:\\sub\\c.txt".toList (fileEntry "c.txt" 30)
        false).2.calls :=
  ⟨by decide, by decide,
    ((EnumCopy_destination_paths (stubSys 0) copyGlobals sampleTree (by decide)).2.1
      (("C:\\sub\\c.txt".toList, fileEntry "c.txt" 30, false),
        [("C:\\sub".toList, dirEntry "sub", true)]) (by decide)).2.2,
    by decide⟩

/-! ### Substring matcher -/

/-- For a needle that is not empty, `SubstringMatch` is the containment test with case
ignored. -/
theorem SubstringMatch_iff_infix (pszSub : List Char) (hne : pszSub ≠ []) :
    ∀ pszText : List Char,
      SubstringMatch pszSub pszText = true ↔ pszSub.map tolower <:+: pszText.map tolower := by
  intro pszText
  induction pszText with
  | nil =>
    simp only [SubstringMatch, List.map_nil, List.infix_nil, List.map_eq_nil_iff]
    simp [hne]
  | cons c rest ih =>
    rw [SubstringMatch, List.map_cons, List.infix_cons_iff, ← ih]
    by_cases hlen : (c :: rest).length < pszSub.length
    · rw [if_pos hlen]
      constructor
      · intro h
        cases h
      · rintro (h | h)
        · have := h.length_le
          simp only [List.length_map, List.length_cons] at this hlen
          omega
        · have := ((ih.mp h).length_le)
          simp only [List.length_map, List.length_cons] at this hlen
          omega
    · rw [if_neg hlen]
      have hpre : (pszSub.take pszSub.length).map tolower =
          ((c :: rest).take pszSub.length).map tolower ↔
          pszSub.map tolower <+: tolower c :: rest.map tolower := by
        rw [List.take_length, List.prefix_iff_eq_take, List.length_map, ← List.map_cons,
          List.map_take]
      by_cases hm : (pszSub.take pszSub.length).map tolower =
          ((c :: rest).take pszSub.length).map tolower
      · have h1 : tolower c = tolower (cur pszSub) := by
          cases pszSub with
          | nil => exact absurd rfl hne
          | cons a r =>
            simp only [List.take_length, List.map_cons, List.length_cons, List.take_succ_cons,
              List.cons.injEq] at hm
            rw [cur_cons]
            exact hm.1.symm
        rw [if_pos ⟨h1, hm⟩]
        simp only [true_iff]
        exact Or.inl (hpre.mp hm)
      · rw [if_neg (fun h => hm h.2)]
        constructor
        · intro h
          exact Or.inr h
        · rintro (h | h)
          · exact absurd (hpre.mpr h) hm
          · exact h

/-! ### Directory tree: both enumerations visit the same entries -/

/-- C37: for every tree in which every file name is non-empty and every root path, the
sequence of (path, entry, isDirectory) triples `EnumFilesReverse` visits is a permutation
of the sequence `EnumFiles` visits, when the visitor always continues: with a non-empty
root path the sequence of `EnumFiles` is the list of the entries below the root, each
once (`CDir.preorder`), whatever always-continuing visitor is called, and the sequence of
`EnumFilesReverse` is a rearrangement of it; with an empty root path neither visits
anything. -/
theorem EnumFilesReverse_perm_EnumFiles (d : CDir) (pszDirPath : List Char)
    (hnames : d.fileNamesNonEmpty = true) :
    ((d.EnumFilesReverse recordVisit pszDirPath []).2).Perm
      (d.EnumFiles recordVisit pszDirPath []).2 ∧
    (pszDirPath ≠ [] →
      (d.EnumFiles recordVisit pszDirPath []).2 = d.preorder pszDirPath ∧
      ∀ {σ : Type} (pEnum : EnumFn σ) (ctx : σ), (∀ c p e b, (pEnum c p e b).1 = true) →
        d.EnumFiles pEnum pszDirPath ctx =
          (true, runVisits pEnum ctx (d.EnumFiles recordVisit pszDirPath []).2) ∧
        d.EnumFilesReverse pEnum pszDirPath ctx =
          (true, runVisits pEnum ctx (d.EnumFilesReverse recordVisit pszDirPath []).2)) := by
  by_cases hp : pszDirPath = []
  · subst hp
    cases d with
    | mk t fs ds e =>
      refine ⟨?_, fun h => absurd rfl h⟩
      simp [CDir.EnumFilesReverse, CDir.EnumFiles]
  · have h1 : (d.EnumFiles recordVisit pszDirPath []).2 = d.preorder pszDirPath := by
      rw [EnumFiles_eq_runVisits recordVisit (fun _ _ _ _ => rfl) d pszDirPath [] hnames hp,
        runVisits_recordVisit]
      rfl
    have h2 : (d.EnumFilesReverse recordVisit pszDirPath []).2 = d.postorder pszDirPath := by
      rw [EnumFilesReverse_eq_runVisits recordVisit (fun _ _ _ _ => rfl) d pszDirPath [] hp,
        runVisits_recordVisit]
      rfl
    rw [h1, h2]
    refine ⟨postorder_perm_preorder d pszDirPath, fun _ => ⟨rfl, ?_⟩⟩
    intro σ pEnum ctx hcont
    exact ⟨EnumFiles_eq_runVisits pEnum hcont d pszDirPath ctx hnames hp,
      EnumFilesReverse_eq_runVisits pEnum hcont d pszDirPath ctx hp⟩

/-- C37, witness: the sample tree under `C:\src`; `EnumFiles` visits `a.txt`, `b.log`,
`sub`, `sub\c.txt` and `EnumFilesReverse` visits `a.txt`, `b.log`, `sub\c.txt`, `sub`. -/
theorem EnumFilesReverse_perm_EnumFiles_witness :
    sampleTree.fileNamesNonEmpty = true ∧
    (sampleTree.EnumFiles recordVisit "C:\\src".toList []).2.map (fun v => v.1) =
      ["C:\\src\\a.txt".toList, "C:\\src\\b.log".toList, "C:\\src\\sub".toList,
        "C:\\src\\sub\\c.txt".toList] ∧
    (sampleTree.EnumFilesReverse recordVisit "C:\\src".toList []).2.map (fun v => v.1) =
      ["C:\\src\\a.txt".toList, "C:\\src\\b.log".toList, "C:\\src\\sub\\c.txt".toList,
        "C:\\src\\sub".toList] ∧
    ((sampleTree.EnumFilesReverse recordVisit "C:\\src".toList []).2).Perm
      (sampleTree.EnumFiles recordVisit "C:\\src".toList []).2 :=
  ⟨by decide, by decide, by decide,
    (EnumFilesReverse_perm_EnumFiles sampleTree "C:\\src".toList (by decide)).1⟩

/-! ### Directory tree: pruning twice -/

mutual
theorem keep_keep (q : List Char → CDirEntry → Bool → Bool) (d : CDir) (p : List Char) :
    (d.keep q p).keep q p = d.keep q p := by
  cases d with
  | mk t fs ds e =>
    simp only [CDir.keep, List.filter_filter, Bool.and_self, keepList_keepList q ds p]
theorem keepList_keepList (q : List Char → CDirEntry → Bool → Bool) (ds : List CDir)
    (p : List Char) :
    CDir.keepList q (CDir.keepList q ds p) p = CDir.keepList q ds p := by
  cases ds with
  | nil => rfl
  | cons d rest =>
    by_cases hq : q (subPath p d.cThis.sName) d.cThis true = true
    · simp only [CDir.keepList, hq, if_true, keep_cThis]
      rw [keep_keep q d _, keepList_keepList q rest p]
    · simp only [CDir.keepList, hq, if_false, Bool.false_eq_true]
      exact keepList_keepList q rest p
end

/-- C38: for a predicate that is a pure function of (path, entry, isDirectory) and a
non-empty root path, `PruneFiles` is idempotent: the first application returns true, and
a second application with the same root path and predicate to the tree it left returns
true and leaves that tree as it is, whatever the predicate recorded in between. -/
theorem PruneFiles_idempotent (q : List Char → CDirEntry → Bool → Bool) (d : CDir)
    (pszDirPath : List Char) (log log2 : List Visit) (hpath : pszDirPath ≠ []) :
    (d.PruneFiles (pureQuery q) pszDirPath log).1 = true ∧
    ((d.PruneFiles (pureQuery q) pszDirPath log).2.2.PruneFiles (pureQuery q) pszDirPath
      log2).1 = true ∧
    ((d.PruneFiles (pureQuery q) pszDirPath log).2.2.PruneFiles (pureQuery q) pszDirPath
      log2).2.2 = (d.PruneFiles (pureQuery q) pszDirPath log).2.2 := by
  rw [PruneFiles_pure q d pszDirPath log hpath]
  simp only [true_and]
  rw [PruneFiles_pure q (d.keep q pszDirPath) pszDirPath log2 hpath]
  exact ⟨rfl, keep_keep q d pszDirPath⟩

/-- C38, witness: the predicate that accepts files only, on the sample tree under
`C:\src`: the first pruning leaves `a.txt` and `b.log`, the second leaves the same. -/
theorem PruneFiles_idempotent_witness :
    "C:\\src".toList ≠ [] ∧
    ((sampleTree.PruneFiles (pureQuery filesOnly) "C:\\src".toList []).2.2.preorder
      "C:\\src".toList).map (fun v => v.1) =
      ["C:\\src\\a.txt".toList, "C:\\src\\b.log".toList] ∧
    ((sampleTree.PruneFiles (pureQuery filesOnly) "C:\\src".toList []).1 = true ∧
      ((sampleTree.PruneFiles (pureQuery filesOnly) "C:\\src".toList []).2.2.PruneFiles
        (pureQuery filesOnly) "C:\\src".toList []).1 = true ∧
      ((sampleTree.PruneFiles (pureQuery filesOnly) "C:\\src".toList []).2.2.PruneFiles
        (pureQuery filesOnly) "C:\\src".toList []).2.2 =
        (sampleTree.PruneFiles (pureQuery filesOnly) "C:\\src".toList []).2.2) :=
  ⟨by decide, by decide,
    PruneFiles_idempotent filesOnly sampleTree "C:\\src".toList [] [] (by decide)⟩

/-! ### Path matcher: unterminated brackets -/

/-- C31, the code at the failing input: the pattern `*[` holds a `[` with no `]` after
it, yet `check_rexp` returns 1 (matched) on the text `a[`, so `WildcardMatch` is true;
without the `*` the same bracket gives -1. -/
theorem check_rexp_accepts_open_bracket_after_star :
    check_rexp "a[".toList "*[".toList = 1 ∧
    WildcardMatch "*[".toList "a[".toList = true ∧
    check_rexp "a[".toList "a[".toList = -1 := by
  refine ⟨?_, ?_, ?_⟩ <;>
  simp [WildcardMatch, check_rexp_unfold, check_rexp.body, check_rexp.starSkip,
    check_rexp.starJump, check_rexp.lastMatch, group_cons, group_nil, cur, stepIf, tolower,
    NUL]

theorem groupRun_beyond (ch : Char) (s : List Char) :
    ∀ (fuel k : Nat) (tmp : Bool),
      check_rexp.groupRun (cString s (fun _ => 'x')) ch fuel (s.length + 1 + k) tmp = none := by
  intro fuel
  induction fuel with
  | zero => intro k tmp; rfl
  | succ n ih =>
    intro k tmp
    have hx : ∀ j, cString s (fun _ => 'x') (s.length + 1 + j) = 'x' := by
      intro j
      unfold cString
      rw [dif_neg (by omega), if_neg (by omega)]
    rw [check_rexp.groupRun, check_rexp.groupStep, hx k]
    rw [if_pos (by decide)]
    have h1 : s.length + 1 + k + 1 = s.length + 1 + (k + 1) := by omega
    rw [h1, hx (k + 1), if_neg (by decide)]
    split_ifs
    · exact ih (k + 1) true
    · exact ih (k + 1) tmp

/-- C36, the code at the failing input: for the pattern `[a-` (an array of four
characters, the terminating NUL at index 3) the bracket loop entered at index 1 takes the
NUL as the upper end of a range and steps to index 4, outside the array; what the loop
test reads there is whatever the memory holds behind the pattern. When that memory holds
neither `]` nor NUL the loop never ends. -/
theorem check_rexp_bracket_scan_leaves_pattern (beyond : Nat → Char) (ch : Char) :
    cString "[a-".toList beyond 0 = '[' ∧
    cString "[a-".toList beyond 3 = NUL ∧
    (∃ tmp, check_rexp.groupStep (cString "[a-".toList beyond) ch 1 false = some (4, tmp)) ∧
    cString "[a-".toList beyond 4 = beyond 0 ∧
    ∀ fuel, check_rexp.groupRun (cString "[a-".toList (fun _ => 'x')) ch (fuel + 1) 1 false =
      none := by
  refine ⟨rfl, rfl, ?_, rfl, ?_⟩
  · have h1 : cString "[a-".toList beyond 1 = 'a' := rfl
    have h2 : cString "[a-".toList beyond 2 = '-' := rfl
    simp only [check_rexp.groupStep, h1, h2]
    rw [if_pos (by decide), if_pos trivial]
    exact ⟨_, rfl⟩
  · intro fuel
    have h1 : cString "[a-".toList (fun _ => 'x') 1 = 'a' := rfl
    have h2 : cString "[a-".toList (fun _ => 'x') 2 = '-' := rfl
    rw [check_rexp.groupRun]
    simp only [check_rexp.groupStep, h1, h2]
    rw [if_pos (by decide), if_pos trivial]
    exact groupRun_beyond ch "[a-".toList fuel 0 _


theorem group_length_le (ch : Char) :
    ∀ (n : Nat) (rexp : List Char) (tmp : Bool), rexp.length ≤ n →
      (check_rexp.group ch rexp tmp).2.length ≤ rexp.length := by
  intro n
  induction n using Nat.strong_induction_on with
  | _ n ih =>
    intro rexp tmp hlen
    cases rexp with
    | nil => simp [group_nil]
    | cons c r =>
      simp only [List.length_cons] at hlen
      rw [group_cons]
      by_cases hc : c ≠ ']' ∧ c ≠ NUL
      · rw [if_pos hc]
        by_cases hd : cur r = '-'
        · rw [if_pos hd]
          have := ih (n - 1) (by omega) (r.drop 2)
            (if tolower ch ≥ tolower c ∧ tolower ch ≤ tolower (cur (r.drop 1)) then true
              else tmp)
            (by simp only [List.length_drop]; omega)
          simp only [List.length_drop, List.length_cons] at this ⊢
          omega
        · rw [if_neg hd]
          by_cases hm : tolower c = tolower ch
          · rw [if_pos hm]
            have := ih (n - 1) (by omega) r true (by omega)
            simp only [List.length_cons]
            omega
          · rw [if_neg hm]
            have := ih (n - 1) (by omega) r tmp (by omega)
            simp only [List.length_cons]
            omega
      · rw [if_neg hc]

theorem stepIf_length_le (l : List Char) : (stepIf l).length ≤ l.length := by
  unfold stepIf
  split <;> simp

theorem stepIf_length_lt (l : List Char) (h : cur l ≠ NUL) : (stepIf l).length < l.length := by
  cases l with
  | nil => exact absurd rfl h
  | cons c r =>
    rw [cur_cons] at h
    rw [stepIf_cons c r h]
    simp

theorem cur_ne_NUL_length (l : List Char) (h : cur l ≠ NUL) : 0 < l.length := by
  cases l with
  | nil => exact absurd rfl h
  | cons c r => simp

/-- In the embedding, where the pattern is the list of its characters, every pass through
the body of the main loop of `check_rexp` that does not return moves the pattern position
forward by at least one character. -/
theorem body_advances (str rexp s1 r1 : List Char) (hloop : cur str ≠ NUL ∨ cur rexp ≠ NUL)
    (h : check_rexp.body str rexp = LoopStep.next s1 r1) :
    r1.length < rexp.length := by
  simp only [check_rexp.body] at h
  by_cases hb : cur rexp = '['
  · rw [if_pos hb] at h
    have hpos := cur_ne_NUL_length rexp (by rw [hb]; decide)
    have hg := group_length_le (cur str) rexp.tail.length rexp.tail false (le_refl _)
    by_cases h1 : cur (check_rexp.group (cur str) rexp.tail false).2 ≠ ']'
    · rw [if_pos h1] at h
      cases h
    · rw [if_neg h1] at h
      by_cases h2 : (check_rexp.group (cur str) rexp.tail false).1 = false
      · rw [if_pos h2] at h
        cases h
      · rw [if_neg h2] at h
        cases h
        have h3 : 0 < (check_rexp.group (cur str) rexp.tail false).2.length :=
          cur_ne_NUL_length _ (by
            have : cur (check_rexp.group (cur str) rexp.tail false).2 = ']' := by
              by_contra hc
              exact h1 hc
            rw [this]
            decide)
        simp only [List.length_tail] at hg ⊢
        omega
  · rw [if_neg hb] at h
    by_cases hq : cur rexp = '?'
    · rw [if_pos hq] at h
      have hpos := cur_ne_NUL_length rexp (by rw [hq]; decide)
      cases h
      simp only [List.length_tail]
      omega
    · rw [if_neg hq] at h
      by_cases hs : cur rexp = '*'
      · rw [if_pos hs] at h
        have hpos := cur_ne_NUL_length rexp (by rw [hs]; decide)
        have hle := stepIf_length_le rexp.tail
        simp only [List.length_tail] at hle
        by_cases h1 : cur rexp.tail = '*' ∨ cur rexp.tail = '?'
        · rw [if_pos h1] at h
          cases h
        · rw [if_neg h1] at h
          by_cases h2 : cur rexp.tail = NUL
          · rw [if_pos h2] at h
            cases h
          · rw [if_neg h2] at h
            split_ifs at h
            cases h
            omega
      · rw [if_neg hs] at h
        by_cases hsl : cur rexp = '/' ∨ cur rexp = '\\'
        · rw [if_pos hsl] at h
          split_ifs at h
          cases h
          exact stepIf_length_lt rexp (by rcases hsl with h | h <;> rw [h] <;> decide)
        · rw [if_neg hsl] at h
          by_cases h7 : tolower (cur str) ≠ tolower (cur rexp)
          · rw [if_pos h7] at h
            cases h
          · rw [if_neg h7] at h
            cases h
            apply stepIf_length_lt
            intro hr
            rcases hloop with hl | hl
            · apply h7
              rw [hr]
              intro heq
              exact hl (tolower_eq_NUL _ (by rw [heq, tolower_NUL]))
            · exact hl hr

/-! ### Thousands separators -/

theorem comma_single (a : List Char) : List.intercalate [','] [a] = a := by
  simp [List.intercalate, List.intersperse]

theorem comma_cons_cons (a b : List Char) (l : List (List Char)) :
    List.intercalate [','] (a :: b :: l) = a ++ ',' :: List.intercalate [','] (b :: l) := by
  simp [List.intercalate, List.intersperse]

theorem comma_concat (g : List Char) : ∀ (g0 : List Char) (gs : List (List Char)),
    List.intercalate [','] (g0 :: (gs ++ [g])) = List.intercalate [','] (g0 :: gs) ++ ',' :: g := by
  intro g0 gs
  induction gs generalizing g0 with
  | nil => simp [comma_cons_cons, comma_single]
  | cons a l ih =>
    rw [List.cons_append, comma_cons_cons, comma_cons_cons, ih a]
    simp

theorem tcsrchr_not_mem (c : Char) : ∀ s : List Char, c ∉ s → tcsrchr s c = none := by
  intro s
  induction s with
  | nil => intro _; rfl
  | cons d rest ih =>
    intro h
    simp only [List.mem_cons, not_or] at h
    simp only [tcsrchr, ih h.2]
    rw [if_neg (fun e => h.1 e.symm)]

theorem tcsrchr_append_dot (a fd : List Char) (c : Char) (ha : c ∉ a) (hf : c ∉ fd) :
    tcsrchr (a ++ c :: fd) c = some a.length := by
  induction a with
  | nil =>
    simp only [List.nil_append, tcsrchr, tcsrchr_not_mem c fd hf, if_true, List.length_nil]
  | cons d rest ih =>
    simp only [List.mem_cons, not_or] at ha
    rw [List.cons_append, tcsrchr, ih ha.2]
    rfl

/-- The loop of `FormatThousands` entered on the last character of `pre`, with the
`iSkip` characters of `grp` passed since the last comma: commas go into `pre ++ grp`
only, in front of every third character counted from the right. -/
theorem FormatThousands_loop_groups :
    ∀ (n : Nat) (pre grp rest : List Char), pre.length = n + 1 → grp.length < 3 →
      ∃ g0 gs,
        FormatThousands.loop n grp.length (pre ++ grp ++ rest) =
          List.intercalate [','] (g0 :: gs) ++ rest ∧
        (g0 :: gs).flatten = pre ++ grp ∧ 1 ≤ g0.length ∧ g0.length ≤ 3 ∧
        ∀ g ∈ gs, g.length = 3 := by
  intro n
  induction n with
  | zero =>
    intro pre grp rest hpre hgrp
    refine ⟨pre ++ grp, [], ?_, by simp, ?_, ?_, by simp⟩
    · simp [FormatThousands.loop, comma_single]
    · simp only [List.length_append]; omega
    · simp only [List.length_append]; omega
  | succ n ih =>
    intro pre grp rest hpre hgrp
    rcases List.eq_nil_or_concat pre with h | ⟨pre1, c, h⟩
    · rw [h] at hpre; simp at hpre
    · subst h
      have hpre1 : pre1.length = n + 1 := by
        simp only [List.concat_eq_append, List.length_append, List.length_singleton] at hpre
        omega
      rw [FormatThousands.loop]
      by_cases hk : grp.length + 1 = 3
      · rw [if_pos hk]
        have htake : (pre1.concat c ++ grp ++ rest).take (n + 1) = pre1 := by
          simp only [List.concat_eq_append, List.append_assoc]
          rw [← hpre1, List.take_left]
        have hdrop : (pre1.concat c ++ grp ++ rest).drop (n + 1) = c :: (grp ++ rest) := by
          simp only [List.concat_eq_append, List.append_assoc]
          rw [← hpre1, List.drop_left]
          rfl
        rw [htake, hdrop]
        obtain ⟨g0, gs, h1, h2, h3, h4, h5⟩ :=
          ih pre1 [] (',' :: c :: (grp ++ rest)) hpre1 (by simp)
        simp only [List.append_nil, List.length_nil] at h1 h2
        refine ⟨g0, gs ++ [c :: grp], ?_, ?_, h3, h4, ?_⟩
        · rw [h1, comma_concat]
          simp
        · have hcat : g0 :: (gs ++ [c :: grp]) = (g0 :: gs) ++ [c :: grp] := rfl
          rw [hcat, List.flatten_append, h2]
          simp
        · intro g hg
          rcases List.mem_append.mp hg with hg | hg
          · exact h5 g hg
          · simp only [List.mem_singleton] at hg
            rw [hg, List.length_cons]
            omega
      · rw [if_neg hk]
        obtain ⟨g0, gs, h1, h2, h3, h4, h5⟩ :=
          ih pre1 (c :: grp) rest hpre1 (by simp only [List.length_cons]; omega)
        refine ⟨g0, gs, ?_, ?_, h3, h4, h5⟩
        · rw [← h1]
          simp
        · rw [h2]
          simp

theorem digit_ne_dot (c : Char) (h : c.isDigit = true) : c ≠ '.' := by
  intro e
  rw [e] at h
  exact absurd h (by decide)

theorem digit_ne_comma (c : Char) (h : c.isDigit = true) : c ≠ ',' := by
  intro e
  rw [e] at h
  exact absurd h (by decide)

theorem filter_comma_intercalate : ∀ (g0 : List Char) (gs : List (List Char)),
    (List.intercalate [','] (g0 :: gs)).filter (fun c => decide (c ≠ ',')) =
      ((g0 :: gs).flatten).filter (fun c => decide (c ≠ ',')) := by
  intro g0 gs
  induction gs generalizing g0 with
  | nil => simp [comma_single]
  | cons a l ih =>
    rw [comma_cons_cons, List.filter_append, List.filter_cons, ih a]
    simp

/-- C39: for every non-empty string of decimal digits, optionally followed by `.` and a
fractional part of digits, `FormatThousands` leaves the integer part cut into groups
joined by commas, followed by the fractional part as it was: the groups put together give
the integer part, the leftmost group has one to three digits and every other group has
exactly three; removing the commas gives back the input. -/
theorem FormatThousands_groups (intPart frac : List Char) (hne : intPart ≠ [])
    (hint : ∀ c ∈ intPart, c.isDigit = true)
    (hfrac : frac = [] ∨ ∃ fd, frac = '.' :: fd ∧ ∀ c ∈ fd, c.isDigit = true) :
    (∃ g0 gs,
      FormatThousands (intPart ++ frac) = List.intercalate [','] (g0 :: gs) ++ frac ∧
      (g0 :: gs).flatten = intPart ∧ 1 ≤ g0.length ∧ g0.length ≤ 3 ∧
      ∀ g ∈ gs, g.length = 3) ∧
    (FormatThousands (intPart ++ frac)).filter (fun c => decide (c ≠ ',')) =
      intPart ++ frac := by
  have hlen : intPart.length = (intPart.length - 1) + 1 := by
    have := List.length_pos.mpr hne
    omega
  have hdot : '.' ∉ intPart := fun h => digit_ne_dot _ (hint _ h) rfl
  obtain ⟨g0, gs, h1, h2, h3, h4, h5⟩ :=
    FormatThousands_loop_groups (intPart.length - 1) intPart [] frac hlen (by simp)
  simp only [List.append_nil, List.length_nil] at h1 h2
  have hrun : FormatThousands (intPart ++ frac) = List.intercalate [','] (g0 :: gs) ++ frac := by
    rcases hfrac with hf | ⟨fd, hf, hfd⟩
    · subst hf
      have hnone : tcsrchr (intPart ++ []) '.' = none :=
        tcsrchr_not_mem '.' _ (by simpa using hdot)
      simp only [FormatThousands, hnone]
      simp only [List.append_nil] at h1 ⊢
      exact h1
    · subst hf
      have hsome : tcsrchr (intPart ++ '.' :: fd) '.' = some intPart.length :=
        tcsrchr_append_dot intPart fd '.' hdot (fun h => digit_ne_dot _ (hfd _ h) rfl)
      simp only [FormatThousands, hsome]
      exact h1
  refine ⟨⟨g0, gs, hrun, h2, h3, h4, h5⟩, ?_⟩
  rw [hrun, List.filter_append, filter_comma_intercalate, h2]
  have hf1 : intPart.filter (fun c => decide (c ≠ ',')) = intPart := by
    apply List.filter_eq_self.mpr
    intro c hc
    simpa using digit_ne_comma c (hint c hc)
  have hf2 : frac.filter (fun c => decide (c ≠ ',')) = frac := by
    apply List.filter_eq_self.mpr
    intro c hc
    rcases hfrac with hf | ⟨fd, hf, hfd⟩
    · subst hf
      cases hc
    · subst hf
      rcases List.mem_cons.mp hc with rfl | hc
      · decide
      · simpa using digit_ne_comma c (hfd c hc)
  rw [hf1, hf2]

/-- C39, witness: `1234567` becomes `1,234,567`, `123` stays `123`, and `1234.5678`
becomes `1,234.5678`. -/
theorem FormatThousands_groups_witness :
    FormatThousands "1234567".toList = "1,234,567".toList ∧
    FormatThousands "123".toList = "123".toList ∧
    FormatThousands "1234.5678".toList = "1,234.5678".toList ∧
    "1234".toList ≠ [] ∧
    ((∃ g0 gs,
      FormatThousands ("1234".toList ++ ".5678".toList) =
        List.intercalate [','] (g0 :: gs) ++ ".5678".toList ∧
      (g0 :: gs).flatten = "1234".toList ∧ 1 ≤ g0.length ∧ g0.length ≤ 3 ∧
      ∀ g ∈ gs, g.length = 3) ∧
    (FormatThousands ("1234".toList ++ ".5678".toList)).filter (fun c => decide (c ≠ ',')) =
      "1234".toList ++ ".5678".toList) :=
  ⟨by decide, by decide, by decide, by decide,
    FormatThousands_groups "1234".toList ".5678".toList (by decide) (by decide)
      (Or.inr ⟨"5678".toList, rfl, by decide⟩)⟩

/-! ### Command line -/

/-- C34, the code at the failing input: on the arguments `/NEW=12/25/2020` and
`/OLD=12/25/2020` the option value is `12/25/2020`, yet `ParseArgument` returns 0 and
leaves the settings as they were: the two slashes are looked for at `szArg[2]` and
`szArg[5]`, which are the `E` of the option name and the first digit of the month. -/
theorem ParseArgument_rejects_dates (fuel : Nat) (S : CSettings) :
    OptionValue "/NEW=12/25/2020".toList = some "12/25/2020".toList ∧
    "/NEW=12/25/2020".toList.getD 2 NUL = 'E' ∧
    "/NEW=12/25/2020".toList.getD 5 NUL = '1' ∧
    ParseArgument fuel "/NEW=12/25/2020".toList S = .ret 0 S ∧
    ParseArgument fuel "/OLD=12/25/2020".toList S = .ret 0 S := by
  refine ⟨by decide, by decide, by decide, ?_, ?_⟩
  · have hv : OptionValue "/NEW=12/25/2020".toList = some "12/25/2020".toList := by decide
    simp only [ParseArgument]
    rw [if_neg (by decide), if_pos (by decide)]
    iterate 19 rw [if_neg (by decide)]
    rw [if_pos (by decide), hv]
    simp only []
    rw [if_pos (by decide)]
  · have hv : OptionValue "/OLD=12/25/2020".toList = some "12/25/2020".toList := by decide
    simp only [ParseArgument]
    rw [if_neg (by decide), if_pos (by decide)]
    iterate 20 rw [if_neg (by decide)]
    rw [if_pos (by decide), hv]
    simp only []
    rw [if_pos (by decide)]

theorem OptionNameIs_second (szArg szName : List Char) (a b : Char) (rest : List Char)
    (hname : szName = a :: b :: rest)
    (hsw : cur szArg = '/' ∨ cur szArg = '-')
    (h : OptionNameIs szArg szName = true) :
    tolower (szArg.getD 2 NUL) = tolower b := by
  subst hname
  cases szArg with
  | nil => simp [OptionNameIs] at h
  | cons c0 t =>
    rw [cur_cons] at hsw
    simp only [OptionNameIs, cur_cons] at h
    rw [if_neg (by simp), if_pos (by tauto)] at h
    simp only [List.tail_cons] at h
    cases t with
    | nil => simp [OptionNameIs.cmp] at h
    | cons c1 t1 =>
      cases t1 with
      | nil =>
        simp only [OptionNameIs.cmp] at h
        by_cases h1 : tolower a ≠ tolower c1
        · rw [if_pos h1] at h
          cases h
        · rw [if_neg h1] at h
          cases h
      | cons c2 t2 =>
        simp only [OptionNameIs.cmp] at h
        by_cases h1 : tolower a ≠ tolower c1
        · rw [if_pos h1] at h
          cases h
        · rw [if_neg h1] at h
          by_cases h2 : tolower b ≠ tolower c2
          · rw [if_pos h2] at h
            cases h
          · simp only [List.getD_cons_succ, List.getD_cons_zero]
            simp only [ne_eq, not_not] at h2
            exact h2.symm

/-- The date test of the `NEW` and `OLD` branches fails for every argument that reaches
them: an argument that starts with a switch character and has the option name `NEW` or
`OLD` holds the second letter of the name at `szArg[2]`, not a slash. -/
theorem date_test_always_fails (szArg : List Char) (hsw : cur szArg = '/' ∨ cur szArg = '-')
    (h : OptionNameIs szArg "NEW".toList = true ∨ OptionNameIs szArg "OLD".toList = true) :
    szArg.getD 2 NUL ≠ '/' := by
  intro heq
  rcases h with h | h
  · have := OptionNameIs_second szArg "NEW".toList 'N' 'E' ['W'] rfl hsw h
    rw [heq] at this
    exact absurd this (by decide)
  · have := OptionNameIs_second szArg "OLD".toList 'O' 'L' ['D'] rfl hsw h
    rw [heq] at this
    exact absurd this (by decide)

/-- No argument sets a date: whenever `ParseArgument` returns, the newer-than and the
older-than date of the settings are what they were before the call. -/
theorem ParseArgument_keeps_dates (fuel : Nat) (szArg : List Char) (S S1 : CSettings) (v : Int)
    (h : ParseArgument fuel szArg S = .ret v S1) :
    S1.iNewerYear = S.iNewerYear ∧ S1.iNewerMonth = S.iNewerMonth ∧
    S1.iNewerDay = S.iNewerDay ∧ S1.iOlderYear = S.iOlderYear ∧
    S1.iOlderMonth = S.iOlderMonth ∧ S1.iOlderDay = S.iOlderDay := by
  unfold ParseArgument at h
  by_cases h0 : tcsicmpEq szArg "?".toList ∨ tcsicmpEq szArg "-?".toList ∨
      tcsicmpEq szArg "/?".toList ∨ tcsicmpEq szArg "help".toList
  · rw [if_pos h0] at h
    cases h; exact ⟨rfl, rfl, rfl, rfl, rfl, rfl⟩
  rw [if_neg h0] at h
  by_cases hsw : cur szArg = '/' ∨ cur szArg = '-'
  swap
  · rw [if_neg hsw] at h
    split_ifs at h
    all_goals (cases h; exact ⟨rfl, rfl, rfl, rfl, rfl, rfl⟩)
  rw [if_pos hsw] at h
  by_cases hVERBOSE : OptionNameIs szArg "VERBOSE".toList ∨ OptionNameIs szArg "V".toList
  · rw [if_pos hVERBOSE] at h
    cases h; exact ⟨rfl, rfl, rfl, rfl, rfl, rfl⟩
  rw [if_neg hVERBOSE] at h
  by_cases hVERIFY : OptionNameIs szArg "VERIFY".toList
  · rw [if_pos hVERIFY] at h
    cases h; exact ⟨rfl, rfl, rfl, rfl, rfl, rfl⟩
  rw [if_neg hVERIFY] at h
  by_cases hDEBUG : OptionNameIs szArg "DEBUG".toList
  · rw [if_pos hDEBUG] at h
    cases h; exact ⟨rfl, rfl, rfl, rfl, rfl, rfl⟩
  rw [if_neg hDEBUG] at h
  by_cases hNOCOPY : OptionNameIs szArg "NOCOPY".toList
  · rw [if_pos hNOCOPY] at h
    cases h; exact ⟨rfl, rfl, rfl, rfl, rfl, rfl⟩
  rw [if_neg hNOCOPY] at h
  by_cases hUPDATE : OptionNameIs szArg "UPDATE".toList ∨ OptionNameIs szArg "U".toList
  · rw [if_pos hUPDATE] at h
    cases h; exact ⟨rfl, rfl, rfl, rfl, rfl, rfl⟩
  rw [if_neg hUPDATE] at h
  by_cases hCONTINUE : OptionNameIs szArg "CONTINUE".toList ∨ OptionNameIs szArg "C".toList
  · rw [if_pos hCONTINUE] at h
    cases h; exact ⟨rfl, rfl, rfl, rfl, rfl, rfl⟩
  rw [if_neg hCONTINUE] at h
  by_cases hQUIET : OptionNameIs szArg "QUIET".toList ∨ OptionNameIs szArg "Q".toList
  · rw [if_pos hQUIET] at h
    cases h; exact ⟨rfl, rfl, rfl, rfl, rfl, rfl⟩
  rw [if_neg hQUIET] at h
  by_cases hSHOWPATH : OptionNameIs szArg "SHOWPATH".toList ∨ OptionNameIs szArg "S".toList
  · rw [if_pos hSHOWPATH] at h
    cases h; exact ⟨rfl, rfl, rfl, rfl, rfl, rfl⟩
  rw [if_neg hSHOWPATH] at h
  by_cases hLIST : OptionNameIs szArg "LIST".toList ∨ OptionNameIs szArg "L".toList
  · rw [if_pos hLIST] at h
    cases h; exact ⟨rfl, rfl, rfl, rfl, rfl, rfl⟩
  rw [if_neg hLIST] at h
  by_cases hHIDDEN : OptionNameIs szArg "HIDDEN".toList ∨ OptionNameIs szArg "H".toList
  · rw [if_pos hHIDDEN] at h
    cases h; exact ⟨rfl, rfl, rfl, rfl, rfl, rfl⟩
  rw [if_neg hHIDDEN] at h
  by_cases hOVERWRITE : OptionNameIs szArg "OVERWRITE".toList ∨ OptionNameIs szArg "O".toList
  · rw [if_pos hOVERWRITE] at h
    cases h; exact ⟨rfl, rfl, rfl, rfl, rfl, rfl⟩
  rw [if_neg hOVERWRITE] at h
  by_cases hMOVE : OptionNameIs szArg "MOVE".toList ∨ OptionNameIs szArg "M".toList
  · rw [if_pos hMOVE] at h
    cases h; exact ⟨rfl, rfl, rfl, rfl, rfl, rfl⟩
  rw [if_neg hMOVE] at h
  by_cases hCLEAN : OptionNameIs szArg "CLEAN".toList
  · rw [if_pos hCLEAN] at h
    cases h; exact ⟨rfl, rfl, rfl, rfl, rfl, rfl⟩
  rw [if_neg hCLEAN] at h
  by_cases hWAIT : OptionNameIs szArg "WAIT".toList
  · rw [if_pos hWAIT] at h
    cases h; exact ⟨rfl, rfl, rfl, rfl, rfl, rfl⟩
  rw [if_neg hWAIT] at h
  by_cases hLOG : OptionNameIs szArg "LOG".toList
  · rw [if_pos hLOG] at h
    cases hv : OptionValue szArg with
    | none => rw [hv] at h; cases h
    | some w => rw [hv] at h; cases h; exact ⟨rfl, rfl, rfl, rfl, rfl, rfl⟩
  rw [if_neg hLOG] at h
  by_cases hROOT : OptionNameIs szArg "ROOT".toList ∨ OptionNameIs szArg "R".toList
  · rw [if_pos hROOT] at h
    cases h; exact ⟨rfl, rfl, rfl, rfl, rfl, rfl⟩
  rw [if_neg hROOT] at h
  by_cases hPRIORITYLOW : OptionNameIs szArg "PRIORITYLOW".toList ∨ OptionNameIs szArg "P".toList
  · rw [if_pos hPRIORITYLOW] at h
    cases h; exact ⟨rfl, rfl, rfl, rfl, rfl, rfl⟩
  rw [if_neg hPRIORITYLOW] at h
  by_cases hINCLUDE : OptionNameIs szArg "INCLUDE".toList
  · rw [if_pos hINCLUDE] at h
    cases hv : OptionValue szArg with
    | none => rw [hv] at h; cases h
    | some w =>
      rw [hv] at h
      simp only [] at h
      cases hs : ParseArgument.strings fuel w S.cIncludes with
      | none => rw [hs] at h; cases h
      | some c => rw [hs] at h; cases h; exact ⟨rfl, rfl, rfl, rfl, rfl, rfl⟩
  rw [if_neg hINCLUDE] at h
  by_cases hEXCLUDE : OptionNameIs szArg "EXCLUDE".toList
  · rw [if_pos hEXCLUDE] at h
    cases hv : OptionValue szArg with
    | none => rw [hv] at h; cases h
    | some w =>
      rw [hv] at h
      simp only [] at h
      cases hs : ParseArgument.strings fuel w S.cExcludes with
      | none => rw [hs] at h; cases h
      | some c => rw [hs] at h; cases h; exact ⟨rfl, rfl, rfl, rfl, rfl, rfl⟩
  rw [if_neg hEXCLUDE] at h
  by_cases hNEW : OptionNameIs szArg "NEW".toList
  · rw [if_pos hNEW] at h
    cases hv : OptionValue szArg with
    | none => rw [hv] at h; cases h
    | some w =>
      rw [hv] at h
      simp only [] at h
      rw [if_pos (Or.inr (Or.inl (date_test_always_fails szArg hsw (Or.inl hNEW))))] at h
      cases h; exact ⟨rfl, rfl, rfl, rfl, rfl, rfl⟩
  rw [if_neg hNEW] at h
  by_cases hOLD : OptionNameIs szArg "OLD".toList
  · rw [if_pos hOLD] at h
    cases hv : OptionValue szArg with
    | none => rw [hv] at h; cases h
    | some w =>
      rw [hv] at h
      simp only [] at h
      rw [if_pos (Or.inr (Or.inl (date_test_always_fails szArg hsw (Or.inr hOLD))))] at h
      cases h; exact ⟨rfl, rfl, rfl, rfl, rfl, rfl⟩
  rw [if_neg hOLD] at h
  cases h; exact ⟨rfl, rfl, rfl, rfl, rfl, rfl⟩

theorem addString_at_quote (rest : List Char) (c : List (List Char)) :
    ParseArgument.addString ('"' :: rest) c = ('"' :: rest, c ++ [[]]) := by
  simp [ParseArgument.addString, cur, Trim]

theorem strings_at_quote (rest : List Char) :
    ∀ (fuel : Nat) (c : List (List Char)),
      ParseArgument.strings fuel ('"' :: rest) c = none := by
  intro fuel
  induction fuel with
  | zero => intro c; rfl
  | succ n ih =>
    intro c
    rw [ParseArgument.strings, cur_cons, if_neg (by decide), addString_at_quote]
    exact ih _

theorem addString_iterate_at_quote (rest : List Char) (c : List (List Char)) :
    ∀ n : Nat, Nat.iterate (fun x => ParseArgument.addString x.1 x.2) n ('"' :: rest, c) =
      ('"' :: rest, c ++ List.replicate n []) := by
  intro n
  induction n generalizing c with
  | zero => simp
  | succ n ih =>
    rw [Function.iterate_succ_apply]
    simp only [addString_at_quote]
    rw [ih]
    simp [List.replicate_succ]

/-- C40, the code at the failing input: on the argument `/INCLUDE=a,"b"` the option value
is `a,"b`; the first pass of the loop appends `a` and leaves `p` on the double quote; from
then on a pass appends an empty string and leaves `p` where it is, so after any number of
further passes the loop has not ended and the list has grown by as many empty strings:
`ParseArgument` does not return, whatever the fuel. The same on `/EXCLUDE=a,"b"`. -/
theorem ParseArgument_include_never_returns (fuel : Nat) (S : CSettings) :
    OptionValue "/INCLUDE=a,\"b\"".toList = some "a,\"b".toList ∧
    ParseArgument.addString "a,\"b".toList S.cIncludes =
      ("\"b".toList, S.cIncludes ++ ["a".toList]) ∧
    (∀ n : Nat, Nat.iterate (fun x => ParseArgument.addString x.1 x.2) n
        ("\"b".toList, S.cIncludes ++ ["a".toList]) =
      ("\"b".toList, S.cIncludes ++ ["a".toList] ++ List.replicate n [])) ∧
    ParseArgument fuel "/INCLUDE=a,\"b\"".toList S = .running ∧
    ParseArgument fuel "/EXCLUDE=a,\"b\"".toList S = .running := by
  have hfirst : ∀ c : List (List Char),
      ParseArgument.addString "a,\"b".toList c = ("\"b".toList, c ++ ["a".toList]) := by
    intro c
    simp [ParseArgument.addString, cur, Trim]
  have hloop : ∀ c : List (List Char), ParseArgument.strings fuel "a,\"b".toList c = none := by
    intro c
    cases fuel with
    | zero => rfl
    | succ n =>
      rw [ParseArgument.strings, if_neg (by decide), hfirst]
      exact strings_at_quote _ n _
  refine ⟨by decide, hfirst _, addString_iterate_at_quote _ _, ?_, ?_⟩
  · have hv : OptionValue "/INCLUDE=a,\"b\"".toList = some "a,\"b".toList := by decide
    simp only [ParseArgument]
    rw [if_neg (by decide), if_pos (by decide)]
    iterate 17 rw [if_neg (by decide)]
    rw [if_pos (by decide), hv]
    simp only [hloop]
  · have hv : OptionValue "/EXCLUDE=a,\"b\"".toList = some "a,\"b".toList := by decide
    simp only [ParseArgument]
    rw [if_neg (by decide), if_pos (by decide)]
    iterate 18 rw [if_neg (by decide)]
    rw [if_pos (by decide), hv]
    simp only [hloop]

/-- Without a double quote at the start of a string the loop ends: on `/INCLUDE=a, b,c`
`ParseArgument` returns 1 with `a`, `b` and `c` appended. -/
theorem ParseArgument_include_plain :
    ParseArgument 10 "/INCLUDE=a, b,c".toList {} =
      .ret 1 { cIncludes := ["a".toList, "b".toList, "c".toList] } := by
  decide

/-! ### Directory tree: the scan -/

theorem filter_isFile_cons (m : WIN32_FIND_DATA × FindDir)
    (rest : List (WIN32_FIND_DATA × FindDir)) :
    ((m :: rest).filter (fun m => ScanFiles.isFile m.1)).map (fun m => ScanFiles.cFile m.1) =
      (if ScanFiles.isFile m.1 then [ScanFiles.cFile m.1] else []) ++
        (rest.filter (fun m => ScanFiles.isFile m.1)).map (fun m => ScanFiles.cFile m.1) := by
  by_cases h : ScanFiles.isFile m.1 = true
  · simp [List.filter_cons, h]
  · simp [List.filter_cons, h]

theorem isSubdir_iff (st : WIN32_FIND_DATA) :
    ScanFiles.isSubdir st = true ↔
      st.cFileName.length > 0 ∧ st.dwFileAttributes &&& FILE_ATTRIBUTE_DIRECTORY ≠ 0 ∧
        (tcsicmpEq st.cFileName ".".toList = false ∧
          tcsicmpEq st.cFileName "..".toList = false) := by
  unfold ScanFiles.isSubdir
  generalize tcsicmpEq st.cFileName ".".toList = a
  generalize tcsicmpEq st.cFileName "..".toList = b
  cases a <;> cases b <;> simp

mutual
theorem ScanFiles_node_eq {σ : Type} (pFunc : ScanFn σ) (t : CDirEntry)
    (fs : List CDirEntry) (ds : List CDir) (e : List Char) (path : List Char) (hp : path ≠ [])
    (disk : FindDir) (ctx : σ) :
    ((ScanFiles.node pFunc t fs ds e path disk ctx).1,
        (ScanFiles.node pFunc t fs ds e path disk ctx).2.1) =
      visitUntil (scanVisitor pFunc) ((path, t, true) :: disk.scanSeq path) ctx ∧
    ((ScanFiles.node pFunc t fs ds e path disk ctx).1 = true →
      (ScanFiles.node pFunc t fs ds e path disk ctx).2.2 =
        .mk t (fs ++ disk.fileEntries) (ds ++ (FindDir.tree t e disk).cDirs) e) := by
  cases disk with
  | mk found =>
    simp only [ScanFiles.node, if_neg hp, visitUntil, scanVisitor, FindDir.scanSeq,
      FindDir.fileEntries, FindDir.tree, CDir.cDirs]
    rcases hc : callScan pFunc ctx path with ⟨b, ctx1⟩
    cases b with
    | false => simp
    | true =>
      simp only []
      exact ScanFiles_found_eq pFunc t fs ds e path hp found ctx1
theorem ScanFiles_found_eq {σ : Type} (pFunc : ScanFn σ) (t : CDirEntry)
    (fs : List CDirEntry) (ds : List CDir) (e : List Char) (path : List Char) (hp : path ≠ [])
    (found : List (WIN32_FIND_DATA × FindDir)) (ctx : σ) :
    ((ScanFiles.found pFunc t fs ds e path found ctx).1,
        (ScanFiles.found pFunc t fs ds e path found ctx).2.1) =
      visitUntil (scanVisitor pFunc) (FindDir.scanSeqFound path found) ctx ∧
    ((ScanFiles.found pFunc t fs ds e path found ctx).1 = true →
      (ScanFiles.found pFunc t fs ds e path found ctx).2.2 =
        .mk t (fs ++ (found.filter (fun m => ScanFiles.isFile m.1)).map
          (fun m => ScanFiles.cFile m.1)) (ds ++ FindDir.subtrees found) e) := by
  cases found with
  | nil => simp [ScanFiles.found, FindDir.scanSeqFound, visitUntil, FindDir.subtrees]
  | cons m rest =>
    obtain ⟨st, sub⟩ := m
    rw [filter_isFile_cons]
    by_cases hname : st.cFileName.length > 0
    · by_cases hdir : st.dwFileAttributes &&& FILE_ATTRIBUTE_DIRECTORY ≠ 0
      · by_cases hdot : tcsicmpEq st.cFileName ".".toList = false ∧
            tcsicmpEq st.cFileName "..".toList = false
        · have hsub : ScanFiles.isSubdir st = true :=
            (isSubdir_iff st).mpr ⟨hname, hdir, hdot⟩
          have hfile : ScanFiles.isFile st = false := by
            simp [ScanFiles.isFile, hdir]
          have hnode := ScanFiles_node_eq pFunc (ScanFiles.cFile st) [] [] []
            (subPath path st.cFileName) (subPath_ne_nil _ _ hp) sub ctx
          simp only [ScanFiles.found, if_pos hname, if_pos hdir, if_pos hdot,
            FindDir.scanSeqFound, hsub, if_true, hfile, Bool.false_eq_true, if_false,
            List.nil_append, FindDir.subtrees]
          rw [← List.cons_append, visitUntil_append, ← hnode.1]
          rcases hr : ScanFiles.node pFunc (ScanFiles.cFile st) [] [] []
            (subPath path st.cFileName) sub ctx with ⟨b, ctx1, d1⟩
          rw [hr] at hnode
          cases b with
          | false => simp
          | true =>
            have hd1 := hnode.2 rfl
            simp only [List.nil_append] at hd1
            have hd1t : d1 = FindDir.tree (ScanFiles.cFile st) [] sub := by
              rw [hd1]
              cases sub with
              | mk f2 => simp [FindDir.tree, FindDir.fileEntries, CDir.cDirs]
            simp only [if_true]
            have hrest := ScanFiles_found_eq pFunc t fs (ds ++ [d1]) e path hp rest ctx1
            refine ⟨hrest.1, fun h => ?_⟩
            rw [hrest.2 h, hd1t]
            simp
        · have hsub : ScanFiles.isSubdir st = false := by
            rw [Bool.eq_false_iff]
            intro h
            exact hdot ((isSubdir_iff st).mp h).2.2
          have hfile : ScanFiles.isFile st = false := by
            simp [ScanFiles.isFile, hdir]
          simp only [ScanFiles.found, if_pos hname, if_pos hdir, if_neg hdot,
            FindDir.scanSeqFound, hsub, hfile, Bool.false_eq_true, if_false,
            List.nil_append, FindDir.subtrees]
          exact ScanFiles_found_eq pFunc t fs ds e path hp rest ctx
      · have hsub : ScanFiles.isSubdir st = false := by
          rw [Bool.eq_false_iff]
          intro h
          exact hdir ((isSubdir_iff st).mp h).2.1
        have hfile : ScanFiles.isFile st = true := by
          simp only [ne_eq, not_not] at hdir
          simp [ScanFiles.isFile, hname, hdir]
        simp only [ScanFiles.found, if_pos hname, if_neg hdir, FindDir.scanSeqFound, hsub,
          hfile, Bool.false_eq_true, if_false, if_true, FindDir.subtrees]
        have hrest := ScanFiles_found_eq pFunc t (fs ++ [ScanFiles.cFile st]) ds e path hp
          rest ctx
        refine ⟨hrest.1, fun h => ?_⟩
        rw [hrest.2 h]
        simp
    · have hsub : ScanFiles.isSubdir st = false := by
        rw [Bool.eq_false_iff]
        intro h
        exact hname ((isSubdir_iff st).mp h).1
      have hfile : ScanFiles.isFile st = false := by
        simp [ScanFiles.isFile, hname]
      simp only [ScanFiles.found, if_neg hname, FindDir.scanSeqFound, hsub, hfile,
        Bool.false_eq_true, if_false, List.nil_append, FindDir.subtrees]
      exact ScanFiles_found_eq pFunc t fs ds e path hp rest ctx
end


theorem visitUntil_cont {σ : Type} (pEnum : EnumFn σ)
    (hcont : ∀ c p e b, (pEnum c p e b).1 = true) (vs : List Visit) :
    ∀ ctx : σ, (visitUntil pEnum vs ctx).1 = true := by
  induction vs with
  | nil => intro ctx; rfl
  | cons v rest ih =>
    intro ctx
    simp only [visitUntil]
    have h := hcont ctx v.1 v.2.1 v.2.2
    rcases hr : pEnum ctx v.1 v.2.1 v.2.2 with ⟨b, c1⟩
    rw [hr] at h
    simp only at h
    subst h
    exact ih c1

theorem tree_cThis (t : CDirEntry) (e : List Char) (disk : FindDir) :
    (FindDir.tree t e disk).cThis = t := by
  cases disk with
  | mk found => rfl

mutual
theorem scanSeq_dirNodes (t : CDirEntry) (e : List Char) (disk : FindDir) (p : List Char) :
    disk.scanSeq p =
      ((FindDir.tree t e disk).dirNodes p).map (fun x => (x.1, x.2.cThis, true)) := by
  cases disk with
  | mk found =>
    simp only [FindDir.scanSeq, FindDir.tree, CDir.dirNodes]
    exact scanSeqFound_dirNodes found p
theorem scanSeqFound_dirNodes (found : List (WIN32_FIND_DATA × FindDir)) (p : List Char) :
    FindDir.scanSeqFound p found =
      (CDir.dirNodesList (FindDir.subtrees found) p).map (fun x => (x.1, x.2.cThis, true)) := by
  cases found with
  | nil => rfl
  | cons m rest =>
    obtain ⟨st, sub⟩ := m
    by_cases hsub : ScanFiles.isSubdir st = true
    · simp only [FindDir.scanSeqFound, FindDir.subtrees, hsub, if_true, CDir.dirNodesList,
        List.map_cons, List.map_append, tree_cThis]
      rw [scanSeq_dirNodes (ScanFiles.cFile st) [] sub, scanSeqFound_dirNodes rest p]
      rfl
    · simp only [FindDir.scanSeqFound, FindDir.subtrees, hsub, if_false, Bool.false_eq_true]
      exact scanSeqFound_dirNodes rest p
end

theorem visitUntil_recordScan (vs : List Visit) :
    ∀ log : List (List Char),
      visitUntil (scanVisitor recordScan) vs log = (true, log ++ vs.map (fun v => v.1)) := by
  induction vs with
  | nil => intro log; simp [visitUntil]
  | cons v rest ih =>
    intro log
    have hstep : scanVisitor recordScan log v.1 v.2.1 v.2.2 = (true, log ++ [v.1]) := rfl
    rw [visitUntil, hstep]
    simp only []
    rw [ih]
    simp

/-- C33: for every directory on disk, every non-empty root path and every callback, with
`ScanFiles` called on a node without entries: the callback is called on the root path
first and then on the directories below it in the order of the scan, each once (they are
the child directories of the tree, at every depth, parents first), up to and including
the first call that returns false, and the result is false exactly when a call returned
false; when the result is true the node is the tree of the disk: its file list holds the
matches of the listing that are not directories, in listing order, its child list the
directories of the listing other than `.` and `..`, in listing order, each scanned in the
same way; a callback that always continues, or none, gives true. -/
theorem ScanFiles_builds_tree {σ : Type} (pFunc : ScanFn σ) (cThis : CDirEntry)
    (sError : List Char) (pszDirPath : List Char) (disk : FindDir) (ctx : σ)
    (hpath : pszDirPath ≠ []) :
    ((CDir.ScanFiles pFunc (.mk cThis [] [] sError) pszDirPath disk ctx).1,
        (CDir.ScanFiles pFunc (.mk cThis [] [] sError) pszDirPath disk ctx).2.1) =
      visitUntil (scanVisitor pFunc) ((pszDirPath, cThis, true) :: disk.scanSeq pszDirPath)
        ctx ∧
    StopsAtFirstFalse ((pszDirPath, cThis, true) :: disk.scanSeq pszDirPath)
      (CDir.ScanFiles pFunc (.mk cThis [] [] sError) pszDirPath disk ctx).1
      (visitTrace (scanVisitor pFunc) ((pszDirPath, cThis, true) :: disk.scanSeq pszDirPath)
        ctx) ∧
    disk.scanSeq pszDirPath =
      ((FindDir.tree cThis sError disk).dirNodes pszDirPath).map
        (fun x => (x.1, x.2.cThis, true)) ∧
    ((CDir.ScanFiles pFunc (.mk cThis [] [] sError) pszDirPath disk ctx).1 = true →
      (CDir.ScanFiles pFunc (.mk cThis [] [] sError) pszDirPath disk ctx).2.2 =
        FindDir.tree cThis sError disk) ∧
    ((∀ c p, (callScan pFunc c p).1 = true) →
      (CDir.ScanFiles pFunc (.mk cThis [] [] sError) pszDirPath disk ctx).1 = true) ∧
    (CDir.ScanFiles recordScan (.mk cThis [] [] sError) pszDirPath disk []).2.1 =
      pszDirPath :: (disk.scanSeq pszDirPath).map (fun v => v.1) := by
  have hnode := ScanFiles_node_eq pFunc cThis [] [] sError pszDirPath hpath disk ctx
  have hrec := ScanFiles_node_eq recordScan cThis [] [] sError pszDirPath hpath disk []
  have hflag : (CDir.ScanFiles pFunc (.mk cThis [] [] sError) pszDirPath disk ctx).1 =
      (visitUntil (scanVisitor pFunc) ((pszDirPath, cThis, true) :: disk.scanSeq pszDirPath)
        ctx).1 := congrArg Prod.fst hnode.1
  refine ⟨hnode.1, ?_, scanSeq_dirNodes cThis sError disk pszDirPath, ?_, ?_, ?_⟩
  · rw [hflag]
    exact visitTrace_stops _ _ ctx
  · intro h
    have := hnode.2 h
    simp only [List.nil_append] at this
    show (ScanFiles.node pFunc cThis [] [] sError pszDirPath disk ctx).2.2 = _
    rw [this]
    cases disk with
    | mk found => simp [FindDir.tree, FindDir.fileEntries, CDir.cDirs]
  · intro hcont
    rw [hflag]
    exact visitUntil_cont _ (fun c p _ _ => hcont c p) _ ctx
  · have h2 := congrArg Prod.snd hrec.1
    simp only at h2
    show (ScanFiles.node recordScan cThis [] [] sError pszDirPath disk []).2.1 = _
    rw [h2, visitUntil_recordScan]
    simp


/-! ### Directory tree: error messages -/

mutual
theorem EnumFiles_node_spec {σ : Type} (pEnum : EnumFn σ) (d : CDir) (path : List Char)
    (ctx : σ) (hp : path ≠ []) :
    EnumFiles.node pEnum d path ctx =
      ((d.EnumFiles pEnum path ctx).1, (d.EnumFiles pEnum path ctx).2, d) := by
  cases d with
  | mk t fs ds e =>
    simp only [EnumFiles.node, CDir.EnumFiles, if_neg hp]
    rcases hf : EnumFiles.files pEnum path fs ctx with ⟨b, ctx1⟩
    cases b with
    | false => rfl
    | true =>
      simp only []
      rw [EnumFiles_nodeDirs_spec pEnum ds path ctx1 hp]
theorem EnumFiles_nodeDirs_spec {σ : Type} (pEnum : EnumFn σ) (ds : List CDir)
    (path : List Char) (ctx : σ) (hp : path ≠ []) :
    EnumFiles.nodeDirs pEnum path ds ctx =
      ((EnumFiles.dirs pEnum path ds ctx).1, (EnumFiles.dirs pEnum path ds ctx).2, ds) := by
  cases ds with
  | nil => rfl
  | cons d rest =>
    simp only [EnumFiles.nodeDirs, EnumFiles.dirs]
    rcases hv : pEnum ctx (subPath path d.cThis.sName) d.cThis true with ⟨b, ctx1⟩
    cases b with
    | false => rfl
    | true =>
      simp only []
      rw [EnumFiles_node_spec pEnum d _ ctx1 (subPath_ne_nil _ _ hp)]
      rcases hd : d.EnumFiles pEnum (subPath path d.cThis.sName) ctx1 with ⟨b2, ctx2⟩
      cases b2 with
      | false => rfl
      | true =>
        simp only []
        rw [EnumFiles_nodeDirs_spec pEnum rest path ctx2 hp]
end

mutual
theorem EnumFilesReverse_node_spec {σ : Type} (pEnum : EnumFn σ) (d : CDir)
    (path : List Char) (ctx : σ) (hp : path ≠ []) :
    EnumFilesReverse.node pEnum d path ctx =
      ((d.EnumFilesReverse pEnum path ctx).1, (d.EnumFilesReverse pEnum path ctx).2, d) := by
  cases d with
  | mk t fs ds e =>
    simp only [EnumFilesReverse.node, CDir.EnumFilesReverse, if_neg hp]
    rcases hf : EnumFilesReverse.files pEnum path fs ctx with ⟨b, ctx1⟩
    cases b with
    | false => rfl
    | true =>
      simp only []
      rw [EnumFilesReverse_nodeDirs_spec pEnum ds path ctx1 hp]
theorem EnumFilesReverse_nodeDirs_spec {σ : Type} (pEnum : EnumFn σ) (ds : List CDir)
    (path : List Char) (ctx : σ) (hp : path ≠ []) :
    EnumFilesReverse.nodeDirs pEnum path ds ctx =
      ((EnumFilesReverse.dirs pEnum path ds ctx).1, (EnumFilesReverse.dirs pEnum path ds ctx).2,
        ds) := by
  cases ds with
  | nil => rfl
  | cons d rest =>
    simp only [EnumFilesReverse.nodeDirs, EnumFilesReverse.dirs]
    rw [EnumFilesReverse_node_spec pEnum d _ ctx (subPath_ne_nil _ _ hp)]
    rcases hd : d.EnumFilesReverse pEnum (subPath path d.cThis.sName) ctx with ⟨b, ctx1⟩
    cases b with
    | false => rfl
    | true =>
      simp only []
      rcases hv : pEnum ctx1 (subPath path d.cThis.sName) d.cThis true with ⟨b2, ctx2⟩
      cases b2 with
      | false => rfl
      | true =>
        simp only []
        rw [EnumFilesReverse_nodeDirs_spec pEnum rest path ctx2 hp]
end


/-- C33, witness: the sample disk scanned from `C:\src`: the callback is called on
`C:\src` and on `C:\src\sub`, the tree holds `a.txt`, `b.log` and `sub` with `c.txt`; a
callback that stops on its second call makes the scan return false after these two
calls. -/
theorem ScanFiles_builds_tree_witness :
    "C:\\src".toList ≠ [] ∧
    (CDir.ScanFiles recordScan (rootDir [] []) "C:\\src".toList sampleDisk []).1 = true ∧
    (CDir.ScanFiles recordScan (rootDir [] []) "C:\\src".toList sampleDisk []).2.1 =
      ["C:\\src".toList, "C:\\src\\sub".toList] ∧
    ((CDir.ScanFiles recordScan (rootDir [] []) "C:\\src".toList sampleDisk []).2.2.preorder
        "C:\\src".toList).map (fun v => (v.1, v.2.1.dBytes, v.2.2)) =
      [("C:\\src\\a.txt".toList, 10, false), ("C:\\src\\b.log".toList, 20, false),
        ("C:\\src\\sub".toList, 0, true), ("C:\\src\\sub\\c.txt".toList, 30, false)] ∧
    (CDir.ScanFiles (scanStopAfter 1) (rootDir [] []) "C:\\src".toList sampleDisk 0).1 = false ∧
    (CDir.ScanFiles (scanStopAfter 1) (rootDir [] []) "C:\\src".toList sampleDisk 0).2.1 = 2 ∧
    (CDir.ScanFiles recordScan (.mk ⟨[], 0, 0, 0, 0, 0, 0⟩ [] [] []) "C:\\src".toList
        sampleDisk []).2.1 =
      "C:\\src".toList :: (sampleDisk.scanSeq "C:\\src".toList).map (fun v => v.1) :=
  ⟨by decide, by decide, by decide, by decide, by decide, by decide,
    (ScanFiles_builds_tree recordScan ⟨[], 0, 0, 0, 0, 0, 0⟩ [] "C:\\src".toList sampleDisk []
      (by decide)).2.2.2.2.2⟩

/-- When the scan callback returns false, `ScanFiles` returns false and leaves the error
message of the node as it was: on the sample disk, with a callback that stops at once,
the message is still empty. -/
theorem ScanFiles_abort_keeps_sError :
    (CDir.ScanFiles (scanStopAfter 0) (rootDir [] []) "C:\\src".toList sampleDisk 0).1 = false ∧
    (CDir.ScanFiles (scanStopAfter 0) (rootDir [] []) "C:\\src".toList sampleDisk 0).2.2.sError =
      [] := by
  decide

/-- C32, counterexample: `EnumFiles` and `EnumFilesReverse` on the sample tree under
`C:\src`, with a visitor that returns false on its first call, return false, and the
error message of the node is empty afterwards. -/
theorem EnumFiles_false_without_message :
    (EnumFiles.node stopAtOnce sampleTree "C:\\src".toList ()).1 = false ∧
    (EnumFiles.node stopAtOnce sampleTree "C:\\src".toList ()).2.2.sError = [] ∧
    (EnumFilesReverse.node stopAtOnce sampleTree "C:\\src".toList ()).1 = false ∧
    (EnumFilesReverse.node stopAtOnce sampleTree "C:\\src".toList ()).2.2.sError = [] ∧
    (sampleTree.EnumFiles stopAtOnce "C:\\src".toList ()).1 = false := by
  decide

/-- C32, amended: with an empty root path `ScanFiles`, `PruneFiles`, `EnumFiles` and
`EnumFilesReverse` return false and leave the message `Bad Parameter`, which is not
empty, on the node; `PruneFiles` returns false in no other case, so whenever it returns
false the node holds a non-empty message; `EnumFiles` and `EnumFilesReverse` with a
non-empty root path leave the node, its error message included, as it was, whether they
return true or false (false when the visitor returned false). -/
theorem failure_messages {σ : Type} (pEnum : EnumFn σ) (pFunc : ScanFn σ) (d : CDir)
    (disk : FindDir) (ctx : σ) :
    "Bad Parameter".toList ≠ [] ∧
    ((CDir.ScanFiles pFunc d [] disk ctx).1 = false ∧
      (CDir.ScanFiles pFunc d [] disk ctx).2.2.sError = "Bad Parameter".toList) ∧
    ((d.PruneFiles pEnum [] ctx).1 = false ∧
      (d.PruneFiles pEnum [] ctx).2.2.sError = "Bad Parameter".toList) ∧
    ((EnumFiles.node pEnum d [] ctx).1 = false ∧
      (EnumFiles.node pEnum d [] ctx).2.2.sError = "Bad Parameter".toList) ∧
    ((EnumFilesReverse.node pEnum d [] ctx).1 = false ∧
      (EnumFilesReverse.node pEnum d [] ctx).2.2.sError = "Bad Parameter".toList) ∧
    (∀ pszDirPath, (d.PruneFiles pEnum pszDirPath ctx).1 = false →
      (d.PruneFiles pEnum pszDirPath ctx).2.2.sError ≠ []) ∧
    (∀ pszDirPath, pszDirPath ≠ [] →
      EnumFiles.node pEnum d pszDirPath ctx =
        ((d.EnumFiles pEnum pszDirPath ctx).1, (d.EnumFiles pEnum pszDirPath ctx).2, d) ∧
      EnumFilesReverse.node pEnum d pszDirPath ctx =
        ((d.EnumFilesReverse pEnum pszDirPath ctx).1,
          (d.EnumFilesReverse pEnum pszDirPath ctx).2, d)) := by
  have hbad : "Bad Parameter".toList ≠ [] := by decide
  refine ⟨hbad, ?_, ?_, ?_, ?_, ?_, ?_⟩
  · cases disk with
    | mk found => exact ⟨rfl, rfl⟩
  · cases d with
    | mk t fs ds e => exact ⟨rfl, rfl⟩
  · cases d with
    | mk t fs ds e => exact ⟨rfl, rfl⟩
  · cases d with
    | mk t fs ds e => exact ⟨rfl, rfl⟩
  · intro path hfalse
    by_cases hp : path = []
    · subst hp
      cases d with
      | mk t fs ds e => exact hbad
    · have := (PruneFiles_pruned pEnum d path ctx hp).1
      rw [hfalse] at this
      cases this
  · intro path hp
    exact ⟨EnumFiles_node_spec pEnum d path ctx hp,
      EnumFilesReverse_node_spec pEnum d path ctx hp⟩

/-- C32, witness: the amended statement at the sample tree, the sample disk and a visitor
that stops at once: under `C:\src` the enumerations return false and leave the tree as it
was. -/
theorem failure_messages_witness :
    "C:\\src".toList ≠ [] ∧
    (EnumFiles.node stopAtOnce sampleTree "C:\\src".toList () =
        ((sampleTree.EnumFiles stopAtOnce "C:\\src".toList ()).1,
          (sampleTree.EnumFiles stopAtOnce "C:\\src".toList ()).2, sampleTree) ∧
      EnumFilesReverse.node stopAtOnce sampleTree "C:\\src".toList () =
        ((sampleTree.EnumFilesReverse stopAtOnce "C:\\src".toList ()).1,
          (sampleTree.EnumFilesReverse stopAtOnce "C:\\src".toList ()).2, sampleTree)) :=
  ⟨by decide,
    (failure_messages stopAtOnce none sampleTree sampleDisk ()).2.2.2.2.2.2 "C:\\src".toList
      (by decide)⟩

/-! ### Planner: the tags of the directories above a tagged entry -/

theorem joinPath_eq_intercalate : ∀ (rest : List (List Char)) (s : List Char),
    joinPath s rest = List.intercalate ['\\'] (s :: rest) := by
  intro rest
  induction rest with
  | nil => intro s; rw [intercalate_single]; rfl
  | cons s2 rest ih =>
    intro s
    rw [intercalate_cons_cons, ← ih s2]
    rfl

theorem getElem?_split {α : Type} : ∀ (l : List α) (j : Nat) (d : α), l[j]? = some d →
    ∃ pre post, l = pre ++ d :: post ∧ pre.length = j := by
  intro l
  induction l with
  | nil => intro j d h; simp at h
  | cons a rest ih =>
    intro j d h
    cases j with
    | zero =>
      simp only [List.getElem?_cons_zero, Option.some.injEq] at h
      exact ⟨[], rest, by rw [h]; rfl, rfl⟩
    | succ j =>
      simp only [List.getElem?_cons_succ] at h
      obtain ⟨pre, post, h1, h2⟩ := ih j d h
      exact ⟨a :: pre, post, by rw [h1]; rfl, by simp [h2]⟩

theorem namesUnique_node (t : CDirEntry) (fs : List CDirEntry) (ds : List CDir) (e : List Char)
    (h : (CDir.mk t fs ds e).namesUnique = true) :
    ((nodeNames fs ds).map (fun n => n.map tolower)).Nodup ∧
      CDir.namesUniqueList ds = true := by
  simp only [CDir.namesUnique, Bool.and_eq_true, decide_eq_true_eq] at h
  exact h

theorem namesUniqueList_mem : ∀ (ds : List CDir), CDir.namesUniqueList ds = true →
    ∀ d ∈ ds, d.namesUnique = true := by
  intro ds
  induction ds with
  | nil => intro _ d hd; simp at hd
  | cons g rest ih =>
    intro h d hd
    simp only [CDir.namesUniqueList, Bool.and_eq_true] at h
    rcases List.mem_cons.mp hd with rfl | hd
    · exact h.1
    · exact ih h.2 d hd

/-- In a tree with unique names, the directories passed on the way to what `FileExists`
returns for a path are what it returns for the proper prefixes of the path. -/
theorem FileExists_ancestors : ∀ (rest : List (List Char)) (T : CDir) (s : List Char),
    (∀ x ∈ s :: rest, ¬ '\\' ∈ x) → T.namesUnique = true →
    ∀ r, T.FileExists (joinPath s rest) = some r →
      ∀ a ∈ r.ancestors, ∃ k, k < rest.length ∧
        T.FileExists (joinPath s (rest.take k)) = some a := by
  intro rest
  induction rest with
  | nil =>
    intro T s hseg _ r h a ha
    cases T with
    | mk t fs ds e =>
      have hs := hseg s (List.mem_cons_self _ _)
      simp only [joinPath] at h
      cases hfile : FileExists.findFile s fs 0 with
      | some i =>
        rw [FileExists_base_file t fs ds e s hs i hfile] at h
        simp only [Option.some.injEq] at h
        subst h
        simp [EntryRef.ancestors] at ha
      | none =>
        rw [FileExists_base_dir t fs ds e s hs hfile] at h
        cases hdir : FileExists.findDir s ds 0 with
        | none => rw [hdir] at h; simp at h
        | some j =>
          rw [hdir] at h
          simp only [Option.map_some', Option.some.injEq] at h
          subst h
          simp [EntryRef.ancestors] at ha
  | cons s2 rest ih =>
    intro T s hseg hu r h a ha
    cases T with
    | mk t fs ds e =>
      have hs := hseg s (List.mem_cons_self _ _)
      obtain ⟨hnd, hul⟩ := namesUnique_node t fs ds e hu
      rw [FileExists_step t fs ds e s s2 rest hs] at h
      obtain ⟨j, d, r1, hr, hj, hm, hF⟩ := FileExists_sub_some s (joinPath s2 rest) ds 0 r h
      obtain ⟨pre, post, hds, hlen⟩ := getElem?_split ds j d hj
      subst hds
      obtain ⟨hfs, hpre⟩ := nodeNames_facts fs pre post d hnd
      have hlow : d.cThis.sName.map tolower = s.map tolower := by
        simpa [tcsicmpEq] using hm
      have hm2 : tcsicmpEq s d.cThis.sName = true := by simp [tcsicmpEq, hlow]
      rw [hr] at ha
      simp only [EntryRef.ancestors, List.mem_cons, List.mem_map] at ha
      rcases ha with rfl | ⟨a1, ha1, rfl⟩
      · refine ⟨0, by simp, ?_⟩
        simp only [List.take_zero, joinPath]
        rw [FileExists_base_dir t fs _ e s hs
            (findFile_none s fs 0 (fun f hf => by rw [← hlow]; exact hfs f hf)),
          findDir_skip s pre (d :: post) 0 (fun b hb => by rw [← hlow]; exact hpre b hb)]
        simp [FileExists.findDir, hm2, hlen]
      · have hseg2 : ∀ x ∈ s2 :: rest, ¬ '\\' ∈ x :=
          fun x hx => hseg x (List.mem_cons_of_mem _ hx)
        have hdu : d.namesUnique = true := namesUniqueList_mem _ hul d (by simp)
        obtain ⟨k, hk, hFk⟩ := ih d s2 hseg2 hdu r1 hF a1 ha1
        refine ⟨k + 1, by simp only [List.length_cons]; omega, ?_⟩
        rw [List.take_succ_cons, FileExists_step t fs _ e s s2 (rest.take k) hs,
          FileExists_sub_skip s _ pre (d :: post) 0
            (fun b hb hh => hpre b hb (hlow.trans hh.symm))]
        simp [FileExists.sub, hm, hFk, hlen]

mutual
theorem plain_fileNamesNonEmpty (d : CDir) (h : d.allEntries CDirEntry.plainName = true) :
    d.fileNamesNonEmpty = true := by
  cases d with
  | mk t fs ds e =>
    simp only [CDir.allEntries, Bool.and_eq_true, List.all_eq_true] at h
    simp only [CDir.fileNamesNonEmpty, Bool.and_eq_true, List.all_eq_true, decide_eq_true_eq]
    refine ⟨fun f hf => ?_, plain_fileNamesNonEmptyList ds h.2⟩
    have := h.1 f hf
    simp only [CDirEntry.plainName, Bool.and_eq_true, decide_eq_true_eq] at this
    exact this.1
theorem plain_fileNamesNonEmptyList (ds : List CDir)
    (h : CDir.allEntriesList CDirEntry.plainName ds = true) :
    CDir.fileNamesNonEmptyList ds = true := by
  cases ds with
  | nil => rfl
  | cons d rest =>
    simp only [CDir.allEntriesList, Bool.and_eq_true] at h
    simp only [CDir.fileNamesNonEmptyList, Bool.and_eq_true]
    exact ⟨plain_fileNamesNonEmpty d h.1.2, plain_fileNamesNonEmptyList rest h.2⟩
end

mutual
theorem entries_path_plain (d : CDir) (hp : d.allEntries CDirEntry.plainName = true)
    (p : List Char) (x : Visit × List Visit) (hx : x ∈ d.entriesWithAncestors p) :
    x.1.1 = slashed p ++ List.intercalate ['\\'] (relSegments x) ∧
      ∀ s ∈ relSegments x, ¬ '\\' ∈ s := by
  cases d with
  | mk t fs ds e =>
    simp only [CDir.allEntries, Bool.and_eq_true, List.all_eq_true] at hp
    simp only [CDir.entriesWithAncestors, List.mem_append, List.mem_map] at hx
    rcases hx with ⟨f, hf, rfl⟩ | hx
    · have hfn := hp.1 f hf
      simp only [CDirEntry.plainName, Bool.and_eq_true, decide_eq_true_eq] at hfn
      refine ⟨?_, ?_⟩
      · simp only [relSegments, List.map_nil, List.nil_append, intercalate_single]
        rfl
      · intro s hs
        simp only [relSegments, List.map_nil, List.nil_append, List.mem_singleton] at hs
        rw [hs]
        exact hfn.2
    · exact entriesList_path_plain ds hp.2 p x hx
theorem entriesList_path_plain (ds : List CDir)
    (hp : CDir.allEntriesList CDirEntry.plainName ds = true) (p : List Char)
    (x : Visit × List Visit) (hx : x ∈ CDir.entriesWithAncestorsList ds p) :
    x.1.1 = slashed p ++ List.intercalate ['\\'] (relSegments x) ∧
      ∀ s ∈ relSegments x, ¬ '\\' ∈ s := by
  cases ds with
  | nil => simp [CDir.entriesWithAncestorsList] at hx
  | cons d rest =>
    simp only [CDir.allEntriesList, Bool.and_eq_true] at hp
    have hdn := hp.1.1
    simp only [CDirEntry.plainName, Bool.and_eq_true, decide_eq_true_eq] at hdn
    simp only [CDir.entriesWithAncestorsList, List.mem_cons, List.mem_append,
      List.mem_map] at hx
    rcases hx with rfl | ⟨y, hy, rfl⟩ | hx
    · refine ⟨?_, ?_⟩
      · simp only [relSegments, List.map_nil, List.nil_append, intercalate_single]
        rfl
      · intro s hs
        simp only [relSegments, List.map_nil, List.nil_append, List.mem_singleton] at hs
        rw [hs]
        exact hdn.2
    · obtain ⟨h1, h2⟩ := entries_path_plain d hp.1.2 (subPath p d.cThis.sName) y hy
      refine ⟨?_, ?_⟩
      · have hseg : relSegments (y.1, (subPath p d.cThis.sName, d.cThis, true) :: y.2) =
            d.cThis.sName :: relSegments y := rfl
        show y.1.1 = slashed p ++ List.intercalate ['\\']
          (relSegments (y.1, (subPath p d.cThis.sName, d.cThis, true) :: y.2))
        rw [hseg, h1, slashed_subPath p _ hdn.1 hdn.2, subPath_eq_slashed]
        cases hrs : relSegments y with
        | nil => simp [relSegments] at hrs
        | cons b l =>
          rw [intercalate_cons_cons]
          simp only [List.append_assoc, List.singleton_append]
      · intro s hs
        have hseg : relSegments (y.1, (subPath p d.cThis.sName, d.cThis, true) :: y.2) =
            d.cThis.sName :: relSegments y := rfl
        rw [hseg, List.mem_cons] at hs
        rcases hs with rfl | hs
        · exact hdn.2
        · exact h2 s hs
    · exact entriesList_path_plain rest hp.2 p x hx
end

mutual
theorem preorder_entries (d : CDir) (p : List Char) (v : Visit) (hv : v ∈ d.preorder p) :
    ∃ x ∈ d.entriesWithAncestors p, x.1 = v := by
  cases d with
  | mk t fs ds e =>
    simp only [CDir.preorder, List.mem_append, List.mem_map] at hv
    simp only [CDir.entriesWithAncestors, List.mem_append, List.mem_map]
    rcases hv with ⟨f, hf, rfl⟩ | hv
    · exact ⟨_, Or.inl ⟨f, hf, rfl⟩, rfl⟩
    · obtain ⟨x, hx, h⟩ := preorderDirs_entries ds p v hv
      exact ⟨x, Or.inr hx, h⟩
theorem preorderDirs_entries (ds : List CDir) (p : List Char) (v : Visit)
    (hv : v ∈ CDir.preorderDirs ds p) :
    ∃ x ∈ CDir.entriesWithAncestorsList ds p, x.1 = v := by
  cases ds with
  | nil => simp [CDir.preorderDirs] at hv
  | cons d rest =>
    simp only [CDir.preorderDirs, List.mem_cons, List.mem_append] at hv
    simp only [CDir.entriesWithAncestorsList, List.mem_cons, List.mem_append, List.mem_map]
    rcases hv with rfl | hv | hv
    · exact ⟨_, Or.inl rfl, rfl⟩
    · obtain ⟨y, hy, h⟩ := preorder_entries d _ v hv
      exact ⟨_, Or.inr (Or.inl ⟨y, hy, rfl⟩), h⟩
    · obtain ⟨x, hx, h⟩ := preorderDirs_entries rest p v hv
      exact ⟨x, Or.inr (Or.inr hx), h⟩
end

mutual
theorem entries_preorder (d : CDir) (p : List Char) (x : Visit × List Visit)
    (hx : x ∈ d.entriesWithAncestors p) : x.1 ∈ d.preorder p := by
  cases d with
  | mk t fs ds e =>
    simp only [CDir.entriesWithAncestors, List.mem_append, List.mem_map] at hx
    simp only [CDir.preorder, List.mem_append, List.mem_map]
    rcases hx with ⟨f, hf, rfl⟩ | hx
    · exact Or.inl ⟨f, hf, rfl⟩
    · exact Or.inr (entriesList_preorder ds p x hx)
theorem entriesList_preorder (ds : List CDir) (p : List Char) (x : Visit × List Visit)
    (hx : x ∈ CDir.entriesWithAncestorsList ds p) : x.1 ∈ CDir.preorderDirs ds p := by
  cases ds with
  | nil => simp [CDir.entriesWithAncestorsList] at hx
  | cons d rest =>
    simp only [CDir.entriesWithAncestorsList, List.mem_cons, List.mem_append,
      List.mem_map] at hx
    simp only [CDir.preorderDirs, List.mem_cons, List.mem_append]
    rcases hx with rfl | ⟨y, hy, rfl⟩ | hx
    · exact Or.inl rfl
    · exact Or.inr (Or.inl (entries_preorder d _ y hy))
    · exact Or.inr (Or.inr (entriesList_preorder rest p x hx))
end

mutual
/-- Every directory above an entry is an entry of the tree itself, reached by the names
that lead to it. -/
theorem entries_prefix (d : CDir) (p : List Char) (x : Visit × List Visit)
    (hx : x ∈ d.entriesWithAncestors p) (k : Nat) (hk : k < x.2.length) :
    ∃ y ∈ d.entriesWithAncestors p, relSegments y = (relSegments x).take (k + 1) := by
  cases d with
  | mk t fs ds e =>
    simp only [CDir.entriesWithAncestors, List.mem_append, List.mem_map] at hx
    rcases hx with ⟨f, hf, rfl⟩ | hx
    · simp at hk
    · obtain ⟨y, hy, h⟩ := entriesList_prefix ds p x hx k hk
      refine ⟨y, ?_, h⟩
      simp only [CDir.entriesWithAncestors, List.mem_append]
      exact Or.inr hy
theorem entriesList_prefix (ds : List CDir) (p : List Char) (x : Visit × List Visit)
    (hx : x ∈ CDir.entriesWithAncestorsList ds p) (k : Nat) (hk : k < x.2.length) :
    ∃ y ∈ CDir.entriesWithAncestorsList ds p,
      relSegments y = (relSegments x).take (k + 1) := by
  cases ds with
  | nil => simp [CDir.entriesWithAncestorsList] at hx
  | cons d rest =>
    simp only [CDir.entriesWithAncestorsList, List.mem_cons, List.mem_append,
      List.mem_map] at hx
    rcases hx with rfl | ⟨y, hy, rfl⟩ | hx
    · simp at hk
    · have hseg : relSegments (y.1, (subPath p d.cThis.sName, d.cThis, true) :: y.2) =
          d.cThis.sName :: relSegments y := rfl
      cases k with
      | zero =>
        refine ⟨((subPath p d.cThis.sName, d.cThis, true), []), ?_, ?_⟩
        · simp only [CDir.entriesWithAncestorsList, List.mem_cons, true_or]
        · rw [hseg]
          rfl
      | succ k =>
        have hk1 : k < y.2.length := by
          simp only [List.length_cons] at hk
          omega
        obtain ⟨z, hz, hzs⟩ := entries_prefix d (subPath p d.cThis.sName) y hy k hk1
        refine ⟨(z.1, (subPath p d.cThis.sName, d.cThis, true) :: z.2), ?_, ?_⟩
        · simp only [CDir.entriesWithAncestorsList, List.mem_cons, List.mem_append,
            List.mem_map]
          exact Or.inr (Or.inl ⟨z, hz, rfl⟩)
        · have hseg2 : relSegments (z.1, (subPath p d.cThis.sName, d.cThis, true) :: z.2) =
              d.cThis.sName :: relSegments z := rfl
          rw [hseg, hseg2, hzs, List.take_succ_cons]
    · obtain ⟨y, hy, h⟩ := entriesList_prefix rest p x hx k hk
      refine ⟨y, ?_, h⟩
      simp only [CDir.entriesWithAncestorsList, List.mem_cons, List.mem_append]
      exact Or.inr (Or.inr hy)
end

/-- When the lookup of a source entry ends inside destination directories, each of these
is what the lookup of another source entry returns: of the source directory of the same
depth above the entry. -/
theorem lookup_ancestors (src : List Char) (S D : CDir)
    (hplain : S.allEntries CDirEntry.plainName = true) (hu : D.namesUnique = true)
    (v : Visit) (hv : v ∈ S.preorder src) (r : EntryRef)
    (hF : D.FileExists (relPath src v.1) = some r) (a : EntryRef) (ha : a ∈ r.ancestors) :
    (∃ u ∈ S.preorder src, D.FileExists (relPath src u.1) = some a) ∧
      ∃ ea, D.entryAt a = some ea := by
  obtain ⟨x, hx, rfl⟩ := preorder_entries S src v hv
  obtain ⟨hpath, hseg⟩ := entries_path_plain S hplain src x hx
  rw [hpath, relPath_slashed] at hF
  have hlen : (relSegments x).length = x.2.length + 1 := by simp [relSegments]
  cases hrs : relSegments x with
  | nil => exact absurd hrs (relSegments_ne_nil x)
  | cons s rest =>
    rw [hrs] at hF hseg hlen
    rw [← joinPath_eq_intercalate] at hF
    obtain ⟨k, hk, hFk⟩ := FileExists_ancestors rest D s hseg hu r hF a ha
    have hk2 : k < x.2.length := by
      simp only [List.length_cons] at hlen
      omega
    obtain ⟨y, hy, hys⟩ := entries_prefix S src x hx k hk2
    rw [hrs, List.take_succ_cons] at hys
    obtain ⟨hypath, -⟩ := entries_path_plain S hplain src y hy
    have hsegk : ∀ z ∈ s :: rest.take k, ¬ '\\' ∈ z := by
      intro z hz
      rcases List.mem_cons.mp hz with rfl | hz
      · exact hseg _ (List.mem_cons_self _ _)
      · exact hseg z (List.mem_cons_of_mem _ (List.mem_of_mem_take hz))
    refine ⟨⟨y.1, entries_preorder S src y hy, ?_⟩, ?_⟩
    · rw [hypath, relPath_slashed, hys, ← joinPath_eq_intercalate]
      exact hFk
    · obtain ⟨ea, hea, -⟩ := FileExists_sound (rest.take k) D s hsegk a hFk
      exact ⟨ea, hea⟩

/-- C35: after the tagging pass the tagged destination entries are ancestor-closed. The
source tree has names as a scan gives them (non-empty, no backslash), the destination
tree has in every directory names that are unique up to case across files and
subdirectories together, and no destination entry is tagged before the pass. Then, when
the entry at a place of the destination tree carries the exists-in-source tag after the
pass, every directory this place lies in (below the root) has an entry that carries the
tag too, and `EnumDelTagged`, called for such a directory at any path and in any state,
returns true and leaves the state as it is: it makes no call and so removes nothing. -/
theorem tagged_entries_ancestor_closed {ω : Type} (sys : Win32 ω) (g : Globals ω)
    (hsrc : g.cSettings.szSource ≠ [])
    (hplain : g.cSrcTree.allEntries CDirEntry.plainName = true)
    (hu : g.cDestTree.namesUnique = true)
    (hclear : g.cDestTree.allEntries CDirEntry.untagged = true) :
    (main.tag g).1 = true ∧
    ∀ r e, (main.tag g).2.cDestTree.entryAt r = some e → e.untagged = false →
      ∀ a ∈ r.ancestors, ∃ ea, (main.tag g).2.cDestTree.entryAt a = some ea ∧
        ea.untagged = false ∧
        ∀ (h : Globals ω) (p : List Char), EnumDelTagged sys h p ea true = (true, h) := by
  rw [main_tag_eq g hsrc (plain_fileNamesNonEmpty _ hplain), runVisits_EnumCheckDest]
  obtain ⟨-, hA⟩ := foldl_tagStep g.cSettings.szSource g.cDestTree
    (g.cSrcTree.preorder g.cSettings.szSource) g.cDestTree rfl
  refine ⟨rfl, ?_⟩
  intro r e hr htag a ha
  have hr2 := hr
  change (List.foldl (tagStep g.cSettings.szSource) g.cDestTree
    (g.cSrcTree.preorder g.cSettings.szSource)).entryAt r = some e at hr2
  rw [hA r] at hr2
  cases h0 : g.cDestTree.entryAt r with
  | none => rw [h0] at hr2; simp at hr2
  | some e0 =>
    rw [h0] at hr2
    simp only [Option.map_some', Option.some.injEq] at hr2
    have hun : e0.untagged = true := allEntries_entryAt _ r _ e0 hclear h0
    by_cases hf : ∃ v ∈ g.cSrcTree.preorder g.cSettings.szSource,
        g.cDestTree.FileExists (relPath g.cSettings.szSource v.1) = some r
    · obtain ⟨v, hv, hF⟩ := hf
      obtain ⟨hfa, ea0, hea0⟩ := lookup_ancestors g.cSettings.szSource g.cSrcTree g.cDestTree
        hplain hu v hv r hF a ha
      refine ⟨ea0.tag, ?_, tag_untagged ea0,
        fun h p => EnumDelTagged_of_tagged sys h p ea0.tag true (tag_untagged ea0)⟩
      show (List.foldl (tagStep g.cSettings.szSource) g.cDestTree
        (g.cSrcTree.preorder g.cSettings.szSource)).entryAt a = some ea0.tag
      rw [hA a, hea0]
      simp only [Option.map_some', Option.some.injEq]
      rw [if_pos hfa]
    · rw [if_neg hf] at hr2
      rw [← hr2, hun] at htag
      exact absurd htag (by decide)


/-- C35, witness: the theorem at the sample source tree under `C:\` and a destination
with `A.TXT`, `old.bak` and `sub\c.txt`: after the pass `sub\c.txt` carries the tag, the
directories it lies in are `sub` alone, and the entry of `sub` carries the tag. -/
theorem tagged_entries_ancestor_closed_witness :
    tagGlobals.cSettings.szSource ≠ [] ∧
    tagGlobals.cSrcTree.allEntries CDirEntry.plainName = true ∧
    tagGlobals.cDestTree.namesUnique = true ∧
    tagGlobals.cDestTree.allEntries CDirEntry.untagged = true ∧
    (main.tag tagGlobals).2.cDestTree.entryAt (.sub 0 (.file 0)) =
      some (fileEntry "c.txt" 30).tag ∧
    (EntryRef.sub 0 (.file 0)).ancestors = [.dir 0] ∧
    ∃ ea, (main.tag tagGlobals).2.cDestTree.entryAt (.dir 0) = some ea ∧
      ea.untagged = false ∧
      ∀ (h : Globals Unit) (p : List Char),
        EnumDelTagged (stubSys 0) h p ea true = (true, h) :=
  ⟨by decide, by decide, by decide, by decide, by decide, by decide,
    (tagged_entries_ancestor_closed (stubSys 0) tagGlobals (by decide) (by decide) (by decide)
      (by decide)).2 (.sub 0 (.file 0)) (fileEntry "c.txt" 30).tag (by decide) (by decide)
      (.dir 0) (by decide)⟩

/-! ### Filter: the substring conditions as containment -/

/-- `QuerySource` with no empty string in the include list and in the exclude list keeps
an entry exactly when the five conditions hold, with containment for the first two: the
include list is empty or the path contains an include substring, the path contains no
exclude substring, the wildcard list is empty or some wildcard matches the path, the
last-write date is within every configured bound, and hidden and system entries are
copied or the entry has neither attribute. -/
theorem QuerySource_iff_contains {ω : Type} (sys : Win32 ω) (g : Globals ω)
    (pszPath : List Char) (pEntry : CDirEntry) (bIsDir : Bool)
    (hinc : ∀ inc ∈ g.cSettings.cIncludes, inc ≠ [])
    (hexc : ∀ exc ∈ g.cSettings.cExcludes, exc ≠ []) :
    ((QuerySource sys g pszPath pEntry bIsDir).1 = true ↔
      (g.cSettings.cIncludes = [] ∨
        ∃ inc ∈ g.cSettings.cIncludes, containsIgnoringCase inc pszPath) ∧
      (∀ exc ∈ g.cSettings.cExcludes, ¬ containsIgnoringCase exc pszPath) ∧
      wildOk g.cSettings pszPath ∧
      (olderOk g.cSettings (lastWriteDate sys pEntry) ∧
        newerOk g.cSettings (lastWriteDate sys pEntry)) ∧
      hiddenOk g.cSettings pEntry) := by
  rw [QuerySource_iff]
  have h1 : includeOk g.cSettings pszPath ↔
      (g.cSettings.cIncludes = [] ∨
        ∃ inc ∈ g.cSettings.cIncludes, containsIgnoringCase inc pszPath) := by
    unfold includeOk containsIgnoringCase
    constructor
    · rintro (h | ⟨inc, hi, hm⟩)
      · exact Or.inl h
      · exact Or.inr ⟨inc, hi, ( SubstringMatch_iff_infix inc (hinc inc hi) pszPath).mp hm⟩
    · rintro (h | ⟨inc, hi, hm⟩)
      · exact Or.inl h
      · exact Or.inr ⟨inc, hi, ( SubstringMatch_iff_infix inc (hinc inc hi) pszPath).mpr hm⟩
  have h2 : excludeOk g.cSettings pszPath ↔
      (∀ exc ∈ g.cSettings.cExcludes, ¬ containsIgnoringCase exc pszPath) := by
    unfold excludeOk containsIgnoringCase
    constructor
    · intro h exc he hm
      have := ( SubstringMatch_iff_infix exc (hexc exc he) pszPath).mpr hm
      rw [h exc he] at this
      cases this
    · intro h exc he
      cases hs : SubstringMatch exc pszPath with
      | false => rfl
      | true => exact absurd (( SubstringMatch_iff_infix exc (hexc exc he) pszPath).mp hs) (h exc he)
  rw [h1, h2]

/-- C16, the code at the failing input. The argument `/INCLUDE=,` leaves an include list
that holds the empty string. Every path contains the empty string, so for the file
`C:\src\a.txt` (no exclude string, no wildcard, no date bound, neither hidden nor system)
all five conditions hold, yet `QuerySource` removes the entry. Likewise `/EXCLUDE=,`
leaves an exclude list that holds the empty string, which the path contains, yet
`QuerySource` keeps the entry. -/
theorem QuerySource_empty_substring :
    ParseArgument 10 "/INCLUDE=,".toList {} = .ret 1 { cIncludes := [[]] } ∧
    emptyIncludeGlobals.cSettings.cIncludes = [[]] ∧
    containsIgnoringCase [] "C:\\src\\a.txt".toList ∧
    emptyIncludeGlobals.cSettings.cExcludes = [] ∧
    wildOk emptyIncludeGlobals.cSettings "C:\\src\\a.txt".toList ∧
    olderOk emptyIncludeGlobals.cSettings (lastWriteDate clockSys (fileEntry "a.txt" 10)) ∧
    newerOk emptyIncludeGlobals.cSettings (lastWriteDate clockSys (fileEntry "a.txt" 10)) ∧
    hiddenOk emptyIncludeGlobals.cSettings (fileEntry "a.txt" 10) ∧
    (QuerySource clockSys emptyIncludeGlobals "C:\\src\\a.txt".toList (fileEntry "a.txt" 10)
      false).1 = false ∧
    ParseArgument 10 "/EXCLUDE=,".toList {} = .ret 1 { cExcludes := [[]] } ∧
    emptyExcludeGlobals.cSettings.cExcludes = [[]] ∧
    (QuerySource clockSys emptyExcludeGlobals "C:\\src\\a.txt".toList (fileEntry "a.txt" 10)
      false).1 = true := by
  refine ⟨by decide, rfl, ?_, rfl, Or.inl rfl, ?_, ?_, Or.inr ⟨by decide, by decide⟩,
    by decide, by decide, rfl, by decide⟩
  · unfold containsIgnoringCase
    simp
  · intro h
    exact absurd rfl h
  · intro h
    exact absurd rfl h

end Bcpy
